import Mathlib

/-!
# Dependency manager of the catalog (`src/catalog/dependency_manager.cpp`)

A shallow embedding of the dependency-tracking core: the name codec
(`MangleName` / `UnmangleName`), the edge stores (`DependencyCatalogSet`), and the
operations `AddObject`, `DropObject`, `AlterObject`, `AddOwnership` and `Scan`; and of
the two date-format helpers of the CSV sniffer, `StartsWithNumericDate` and
`GenerateDateFormat` (`src/execution/operator/csv_scanner/sniffer/type_detection.cpp`).

Conventions of the embedding.

* A C++ `string` is a list of characters (`Str`); the NUL byte is `Char.ofNat 0`.
* One transaction is modelled: the versioned stores are association lists, a dropped
  record is removed from its list, and scans run in list order.
* A `throw` of a function that only reads the state is the `Except.error` result; an
  operation on the state has an `Outcome`, which keeps the state at the point of the
  throw.  The dereference of an unset `optional_ptr` (a missing dependency set, a lookup
  without entry or collection) and the entry of a schema index that is not valid are an
  `InternalException`.
* `UnmangleName` and `AddOwnership` are given twice: with their `D_ASSERT`s checked, a
  failed assertion being thrown as an `InternalException` (a build with assertions),
  and, as `UnmangleName.release` and `AddOwnership.release`, with the `D_ASSERT`s compiled
  out (the release build); the two agree where the assertions hold.  The other
  assertions restate caller invariants and are not modelled.
* The drops nest through the collections of the catalog (`DropObject` drops a dependent
  through its collection, which calls `DropObject` for it); the nesting is bounded by a
  fuel argument, and a result is stated for every fuel above a bound.
* Declarations that the sources use but do not define are fields of `Decls`.
-/

namespace DuckDB

/-- A C++ `string`: a sequence of characters. -/
abbrev Str := List Char

/-- The NUL byte, `'\0'`. -/
def NUL : Char := Char.ofNat 0

/-- The catalog types named in the sources (`CatalogType::...`). -/
inductive CatalogType where
  | INVALID
  | TABLE_ENTRY
  | SCHEMA_ENTRY
  | VIEW_ENTRY
  | INDEX_ENTRY
  | PREPARED_STATEMENT
  | SEQUENCE_ENTRY
  | TYPE_ENTRY
  | MACRO_ENTRY
  | TABLE_MACRO_ENTRY
  | DATABASE_ENTRY
  | DEPENDENCY_ENTRY
  | DEPENDENCY_SET
  deriving DecidableEq, Repr

/-- The kinds of dependency edge (`DependencyType::DEPENDENCY_...`). -/
inductive DependencyType where
  | DEPENDENCY_REGULAR
  | DEPENDENCY_AUTOMATIC
  | DEPENDENCY_OWNS
  | DEPENDENCY_OWNED_BY
  deriving DecidableEq, Repr

/-- The texts of the `DependencyException`s of the dependency manager. -/
inductive Message where
  | CROSS_CATALOG
  | CANNOT_DROP
  | CANNOT_ALTER
  | ALREADY_OWNED_BY
  | ALREADY_DEPENDS_ON
  | ALREADY_OWNS
  deriving DecidableEq, Repr

/-- The exceptions thrown by the dependency manager.  `OUT_OF_FUEL` is not an outcome
of the program: it marks that the recursion bound of the model was reached. -/
inductive Error where
  | DependencyException (msg : Message)
  | InternalException
  | OUT_OF_FUEL
  deriving DecidableEq, Repr

deriving instance DecidableEq for Except

/-- Declarations used by the sources and defined elsewhere: the two conversions between
a catalog type and its tag string, and the default `type` argument of
`DependencySetCatalogEntry::AddDependency`. -/
structure Decls where
  CatalogTypeToString : CatalogType → Str
  CatalogTypeFromString : Str → CatalogType
  defaultDependencyType : DependencyType

/-- Modelled from the spec: `StringUtil::Split` is not among the sources; a key is cut
into its `sep`-separated parts, an empty part included. -/
def Split : Str → Char → List Str
  | [], _ => [[]]
  | c :: cs, sep =>
    if c = sep then [] :: Split cs sep
    else
      match Split cs sep with
      | [] => [[c]]
      | p :: ps => (c :: p) :: ps

/-- `DependencyManager::MangleName(CatalogType, const string &, const string &)`. -/
def MangleName (D : Decls) (type : CatalogType) (schema name : Str) : Str :=
  D.CatalogTypeToString type ++ [NUL] ++ schema ++ [NUL] ++ name

/-- `DependencyManager::UnmangleName`, with its `D_ASSERT` on the number of parts checked:
a failed assertion is thrown as an `InternalException`.  The out-parameters are the
result triple. -/
def UnmangleName (D : Decls) (mangled : Str) : Except Error (CatalogType × Str × Str) :=
  match Split mangled NUL with
  | [p0, p1, p2] => .ok (D.CatalogTypeFromString p0, p1, p2)
  | _ => .error .InternalException

/-- `DependencyManager::UnmangleName` as the release build compiles it: the `D_ASSERT` on
the number of parts is compiled out, and the first three parts are taken.  An index past
the end of `parts` is the `InternalException` of the checked index of `vector`, whose
header is not among the sources. -/
def UnmangleName.release (D : Decls) (mangled : Str) : Except Error (CatalogType × Str × Str) :=
  match Split mangled NUL with
  | p0 :: p1 :: p2 :: _ => .ok (D.CatalogTypeFromString p0, p1, p2)
  | _ => .error .InternalException

/-- A tag table in the style of `CatalogTypeToString`, used to run the model on
concrete inputs. -/
def tagOf : CatalogType → Str
  | .INVALID => "Invalid".toList
  | .TABLE_ENTRY => "Table".toList
  | .SCHEMA_ENTRY => "Schema".toList
  | .VIEW_ENTRY => "View".toList
  | .INDEX_ENTRY => "Index".toList
  | .PREPARED_STATEMENT => "Prepared Statement".toList
  | .SEQUENCE_ENTRY => "Sequence".toList
  | .TYPE_ENTRY => "Type".toList
  | .MACRO_ENTRY => "Macro Function".toList
  | .TABLE_MACRO_ENTRY => "Table Macro Function".toList
  | .DATABASE_ENTRY => "Database".toList
  | .DEPENDENCY_ENTRY => "Dependency".toList
  | .DEPENDENCY_SET => "Dependency Set".toList

/-- The inverse of `tagOf`; an unknown tag is `INVALID`. -/
def ofTag (s : Str) : CatalogType :=
  if s = tagOf .TABLE_ENTRY then .TABLE_ENTRY
  else if s = tagOf .SCHEMA_ENTRY then .SCHEMA_ENTRY
  else if s = tagOf .VIEW_ENTRY then .VIEW_ENTRY
  else if s = tagOf .INDEX_ENTRY then .INDEX_ENTRY
  else if s = tagOf .PREPARED_STATEMENT then .PREPARED_STATEMENT
  else if s = tagOf .SEQUENCE_ENTRY then .SEQUENCE_ENTRY
  else if s = tagOf .TYPE_ENTRY then .TYPE_ENTRY
  else if s = tagOf .MACRO_ENTRY then .MACRO_ENTRY
  else if s = tagOf .TABLE_MACRO_ENTRY then .TABLE_MACRO_ENTRY
  else if s = tagOf .DATABASE_ENTRY then .DATABASE_ENTRY
  else if s = tagOf .DEPENDENCY_ENTRY then .DEPENDENCY_ENTRY
  else if s = tagOf .DEPENDENCY_SET then .DEPENDENCY_SET
  else .INVALID

/-- The declarations used for concrete runs. -/
def stdDecls : Decls :=
  { CatalogTypeToString := tagOf
    CatalogTypeFromString := ofTag
    defaultDependencyType := .DEPENDENCY_REGULAR }

/-! ## Data model -/

/-- A catalog entry (`CatalogEntry`), as far as the dependency manager reads it: `oid`
stands for the address of the object, `schema` for `ParentSchema().name`, `catalog` for
the identity of `ParentCatalog()`, and `hasSet` tells whether the `set` back-pointer is
non-null. -/
structure CatalogEntry where
  oid : Nat
  type : CatalogType
  schema : Str
  name : Str
  internal : Bool
  catalog : Nat
  hasSet : Bool
  deriving DecidableEq, Repr

/-- An edge record (`DependencyCatalogEntry`): `name` is its key in the shared store,
`fromName` the mangled name of the node that owns it (`FromMangledName()`), the three
`entry...` fields the identity of the target, `dependencyType` is `Type()`. -/
structure DependencyCatalogEntry where
  name : Str
  fromName : Str
  entryType : CatalogType
  entrySchema : Str
  entryName : Str
  dependencyType : DependencyType
  deriving DecidableEq, Repr

/-- A graph node (`DependencySetCatalogEntry`), identified by its mangled name. -/
structure DependencySetCatalogEntry where
  mangledName : Str
  deriving DecidableEq, Repr

/-- A `CatalogEntry &` of any of the three dynamic classes the manager casts to. -/
inductive Entry where
  | object (e : CatalogEntry)
  | dependency (d : DependencyCatalogEntry)
  | dependencySet (s : DependencySetCatalogEntry)
  deriving DecidableEq, Repr

/-- An element of a `dependency_set_t`: an entry with a dependency type. -/
structure Dependency where
  entry : CatalogEntry
  dependencyType : DependencyType
  deriving DecidableEq, Repr

/-- One name of a collection of the catalog: the entry stored at the index the name is
mapped to, and whether that entry is deleted for the transaction. -/
structure Slot where
  entry : CatalogEntry
  deleted : Bool
  deriving DecidableEq, Repr

/-- The objects of the catalog: the schemas (`catalog.schemas`) and the names of all
the collections inside the schemas; a slot belongs to the collection given by the
schema and the type of its entry. -/
structure Catalog where
  schemas : List Slot
  sets : List Slot
  deriving DecidableEq, Repr

/-- The `CatalogSet` behind the edge views: the records that are not deleted. -/
abbrev CatalogSet := List DependencyCatalogEntry

/-- The state: the catalog, the three sets of the dependency manager (`connections` and
the two stores behind the `Dependents()` and `Dependencies()` views), and the log of the
names handed to a collection for dropping. -/
structure World where
  catalog : Catalog
  connections : List DependencySetCatalogEntry
  dependents : CatalogSet
  dependencies : CatalogSet
  dropped : List (Str × CatalogType × Str)
  deriving DecidableEq, Repr

/-- The result of `LookupEntry`: `set` names the collection by schema and type. -/
structure LookupResult where
  set : Option (Str × CatalogType)
  mapping_value : Option Slot
  entry : Option CatalogEntry
  deriving DecidableEq, Repr

/-! ## The versioned store (external collaborator) -/

/-- Modelled from the spec: `CatalogSet::CreateEntry` is not among the sources; it
fails, returning `false` and leaving the set as it is, when a record with the key
exists. -/
def CatalogSet.CreateEntry (set : CatalogSet) (name : Str) (value : DependencyCatalogEntry) :
    Bool × CatalogSet :=
  if set.any (fun r => r.name = name) then (false, set) else (true, set ++ [value])

/-- Modelled from the spec: `CatalogSet::GetEntry` is not among the sources; the record
stored under the key, if any. -/
def CatalogSet.GetEntry (set : CatalogSet) (name : Str) : Option DependencyCatalogEntry :=
  set.find? (fun r => r.name = name)

/-- Modelled from the spec: `CatalogSet::DropEntry` on an edge store is not among the
sources; the record stored under the key is removed. -/
def CatalogSet.DropEntry (set : CatalogSet) (name : Str) : Bool × CatalogSet :=
  (set.any (fun r => r.name = name), set.filter (fun r => r.name ≠ name))

/-- Modelled from the spec: `CatalogSet::ScanWithPrefix` is not among the sources; the
records whose key starts with the given text. -/
def CatalogSet.ScanWithPrefix (set : CatalogSet) (start : Str) : List DependencyCatalogEntry :=
  set.filter (fun r => start.isPrefixOf r.name)

/-- `StringUtil::CIEquals` is not among the sources; by its name, the comparison that
ignores the case of ASCII letters. -/
def CIEquals (a b : Str) : Bool :=
  a.map Char.toLower = b.map Char.toLower

/-- Modelled from the spec: the constructor `MangledDependencyName(from, to)` is not
among the sources; the composite key is the owner's mangled name, a NUL byte, and the
mangled name of the target. -/
def MangledDependencyName (fromName name : Str) : Str :=
  fromName ++ [NUL] ++ name

/-! ## `DependencyCatalogSet` (`src/catalog/proxy_catalog_set.cpp`) -/

/-- A view of one node over a shared store: the node's mangled name. -/
structure DependencyCatalogSet where
  mangled_name : Str
  deriving DecidableEq, Repr

/-- `DependencyCatalogSet::ApplyPrefix`. -/
def DependencyCatalogSet.ApplyPrefix (v : DependencyCatalogSet) (name : Str) : Str :=
  MangledDependencyName v.mangled_name name

/-- `DependencyCatalogSet::CreateEntry`: `SetFrom` stamps the record with the node's
mangled name and with its key. -/
def DependencyCatalogSet.CreateEntry (v : DependencyCatalogSet) (set : CatalogSet) (name : Str)
    (value : DependencyCatalogEntry) : Bool × CatalogSet :=
  let new_name := v.ApplyPrefix name
  let dependency := { value with fromName := v.mangled_name, name := new_name }
  set.CreateEntry new_name dependency

/-- `DependencyCatalogSet::GetEntry`. -/
def DependencyCatalogSet.GetEntry (v : DependencyCatalogSet) (set : CatalogSet) (name : Str) :
    Option DependencyCatalogEntry :=
  set.GetEntry (v.ApplyPrefix name)

/-- `DependencyCatalogSet::Scan`: the records passed to the callback, in scan order. -/
def DependencyCatalogSet.Scan (v : DependencyCatalogSet) (set : CatalogSet) :
    List DependencyCatalogEntry :=
  (set.ScanWithPrefix v.mangled_name).filter (fun dep => CIEquals dep.fromName v.mangled_name)

/-- `DependencyCatalogSet::DropEntry`. -/
def DependencyCatalogSet.DropEntry (v : DependencyCatalogSet) (set : CatalogSet) (name : Str) :
    Bool × CatalogSet :=
  set.DropEntry (v.ApplyPrefix name)

/-! ## The catalog (external collaborator) -/

/-- The outcome of an operation on the state: it returns, or it throws; the state at
the point of the throw is kept. -/
inductive Outcome where
  | returned (w : World)
  | threw (e : Error) (w : World)
  deriving DecidableEq, Repr

/-- Modelled from the spec: `CatalogSet::GetMapping(transaction, name, get_latest)` is
not among the sources; the slot of the name in the collection of a schema and a type. -/
def Catalog.GetMapping (c : Catalog) (schema : Str) (type : CatalogType) (name : Str) :
    Option Slot :=
  c.sets.find? (fun s => s.entry.schema = schema ∧ s.entry.type = type ∧ s.entry.name = name)

/-- Modelled from the spec: `CatalogSet::GetEntryInternal(transaction, index)` is not
among the sources; the entry at the index, absent when it is deleted. -/
def Slot.GetEntryInternal (m : Slot) : Option CatalogEntry :=
  if m.deleted then none else some m.entry

/-- Modelled from the spec: the lookup `catalog.schemas->GetEntryInternal(transaction,
schema, &index)`; the index is valid when the schema name is mapped, deleted or not. -/
def Catalog.GetSchemaIndex (c : Catalog) (schema : Str) : Option Slot :=
  c.schemas.find? (fun s => s.entry.name = schema)

/-- Modelled from the spec: `dependency.set->GetEntryInternal(transaction, name,
nullptr)`, the lookup of an entry by name in the collection that holds it. -/
def Catalog.GetEntryInternal (c : Catalog) (dependency : CatalogEntry) : Option CatalogEntry :=
  let slot :=
    if dependency.type = .SCHEMA_ENTRY then c.GetSchemaIndex dependency.name
    else c.GetMapping dependency.schema dependency.type dependency.name
  match slot with
  | none => none
  | some m => m.GetEntryInternal

/-- The slots of a collection with the slot of `name` marked deleted (`value` tells the
flag to write). -/
def Catalog.SetDeleted (c : Catalog) (schema : Str) (type : CatalogType) (name : Str)
    (value : Bool) : Catalog :=
  { c with sets := c.sets.map (fun s =>
      if s.entry.schema = schema ∧ s.entry.type = type ∧ s.entry.name = name
      then { s with deleted := value } else s) }

/-- Modelled from the spec: `CatalogSet::DropEntry(transaction, name, cascade)` on a
collection of the catalog is not among the sources.  The name is logged; a name that
is not mapped to a live entry is left alone; otherwise the entry is dropped "through the
same mechanism": it is pending deletion (marked deleted, so that it no longer resolves)
while `DropEntryDependencies` calls the dependency manager for it and its trailing edges
are cleaned up, and the mark is taken back when that call throws. -/
def Catalog.DropEntry (DropEntryDependencies : World → CatalogEntry → Bool → Outcome)
    (w : World) (set : Str × CatalogType) (name : Str) (cascade : Bool) : Outcome :=
  let w0 := { w with dropped := w.dropped ++ [(set.1, set.2, name)] }
  match w0.catalog.GetMapping set.1 set.2 name with
  | none => .returned w0
  | some m =>
    match m.GetEntryInternal with
    | none => .returned w0
    | some entry =>
      let w1 := { w0 with catalog := w0.catalog.SetDeleted set.1 set.2 name true }
      match DropEntryDependencies w1 entry cascade with
      | .returned w2 => .returned w2
      | .threw e w2 =>
        .threw e { w2 with catalog := w2.catalog.SetDeleted set.1 set.2 name false }

/-! ## `DependencyManager` (`src/catalog/dependency_manager.cpp`) -/

/-- `GetSchema`. -/
def GetSchema (entry : CatalogEntry) : Str :=
  if entry.type = .SCHEMA_ENTRY then entry.name else entry.schema

/-- Modelled from the spec: `DependencyCatalogEntry::MangledName()` is not among the
sources; the mangled name of the target identity of the edge. -/
def DependencyCatalogEntry.MangledName (D : Decls) (d : DependencyCatalogEntry) : Str :=
  MangleName D d.entryType d.entrySchema d.entryName

/-- `DependencyManager::MangleName(CatalogEntry &)`. -/
def Entry.MangleName (D : Decls) : Entry → Str
  | .dependency dependency_entry => dependency_entry.MangledName D
  | .dependencySet dependency_set => dependency_set.mangledName
  | .object entry => DuckDB.MangleName D entry.type (GetSchema entry) entry.name

/-- `DependencyManager::GetDependencySet(CatalogTransaction, CatalogEntry &)`. -/
def GetDependencySet (D : Decls) (w : World) (object : Entry) :
    Option DependencySetCatalogEntry :=
  w.connections.find? (fun s => s.mangledName = object.MangleName D)

/-- `DependencyManager::GetOrCreateDependencySet`. -/
def GetOrCreateDependencySet (D : Decls) (w : World) (object : Entry) :
    World × DependencySetCatalogEntry :=
  let name := object.MangleName D
  match w.connections.find? (fun s => s.mangledName = name) with
  | none =>
    let new_connection : DependencySetCatalogEntry := { mangledName := name }
    ({ w with connections := w.connections ++ [new_connection] }, new_connection)
  | some connection => (w, connection)

/-- `DependencyManager::IsSystemEntry`. -/
def IsSystemEntry (entry : CatalogEntry) : Bool :=
  if entry.internal then true
  else
    match entry.type with
    | .DEPENDENCY_ENTRY => true
    | .DEPENDENCY_SET => true
    | .DATABASE_ENTRY => true
    | _ => false

/-- `DependencySetCatalogEntry::Dependents()`: the view over the dependents store. -/
def DependencySetCatalogEntry.Dependents (s : DependencySetCatalogEntry) : DependencyCatalogSet :=
  { mangled_name := s.mangledName }

/-- `DependencySetCatalogEntry::Dependencies()`: the view over the dependencies store. -/
def DependencySetCatalogEntry.Dependencies (s : DependencySetCatalogEntry) :
    DependencyCatalogSet :=
  { mangled_name := s.mangledName }

/-- The record built for an edge that points at `to_add`; its key and owner are filled
in by `DependencyCatalogSet::CreateEntry`. -/
def edgeTo (to_add : CatalogEntry) (type : DependencyType) : DependencyCatalogEntry :=
  { name := [], fromName := [], entryType := to_add.type, entrySchema := GetSchema to_add,
    entryName := to_add.name, dependencyType := type }

/-- Modelled from the spec: `DependencySetCatalogEntry::AddDependent` is not among the
sources; a Dependents-edge pointing at `to_add` is created in the node's view, and a
failed creation (the key exists) is not reported. -/
def DependencySetCatalogEntry.AddDependent (D : Decls) (s : DependencySetCatalogEntry) (w : World)
    (to_add : CatalogEntry) (type : DependencyType) : World :=
  { w with dependents :=
      (s.Dependents.CreateEntry w.dependents ((Entry.object to_add).MangleName D)
        (edgeTo to_add type)).2 }

/-- Modelled from the spec: `DependencySetCatalogEntry::AddDependency` is not among the
sources; a Dependencies-edge pointing at `to_add` is created in the node's view. -/
def DependencySetCatalogEntry.AddDependency (D : Decls) (s : DependencySetCatalogEntry) (w : World)
    (to_add : CatalogEntry) (type : DependencyType) : World :=
  { w with dependencies :=
      (s.Dependencies.CreateEntry w.dependencies ((Entry.object to_add).MangleName D)
        (edgeTo to_add type)).2 }

/-- Modelled from the spec: `AddDependencies(transaction, DependencyList &)`, one
Dependencies-edge of the default type per entry of the list. -/
def DependencySetCatalogEntry.AddDependencies (D : Decls) (s : DependencySetCatalogEntry)
    (w : World) (dependencies : List CatalogEntry) : World :=
  dependencies.foldl (fun acc dep => s.AddDependency D acc dep D.defaultDependencyType) w

/-- Modelled from the spec: `AddDependencies(transaction, dependency_set_t &)`, one
Dependencies-edge per element, of the type the element carries. -/
def DependencySetCatalogEntry.AddDependenciesOf (D : Decls) (s : DependencySetCatalogEntry)
    (w : World) (dependencies : List Dependency) : World :=
  dependencies.foldl (fun acc dep => s.AddDependency D acc dep.entry dep.dependencyType) w

/-- Modelled from the spec: `AddDependents(transaction, dependency_set_t &)`, one
Dependents-edge per element, of the type the element carries. -/
def DependencySetCatalogEntry.AddDependents (D : Decls) (s : DependencySetCatalogEntry)
    (w : World) (dependents : List Dependency) : World :=
  dependents.foldl (fun acc dep => s.AddDependent D acc dep.entry dep.dependencyType) w

/-- Modelled from the spec: `DependencySetCatalogEntry::RemoveDependent` is not among
the sources; the Dependents-edge pointing at `dependent` is dropped from the view. -/
def DependencySetCatalogEntry.RemoveDependent (D : Decls) (s : DependencySetCatalogEntry)
    (w : World) (dependent : Entry) : World :=
  { w with dependents := (s.Dependents.DropEntry w.dependents (dependent.MangleName D)).2 }

/-- Modelled from the spec: `DependencySetCatalogEntry::RemoveDependency` is not among
the sources; the Dependencies-edge pointing at `dependency` is dropped from the view. -/
def DependencySetCatalogEntry.RemoveDependency (D : Decls) (s : DependencySetCatalogEntry)
    (w : World) (dependency : Entry) : World :=
  { w with dependencies := (s.Dependencies.DropEntry w.dependencies (dependency.MangleName D)).2 }

/-- The insertion into a `dependency_set_t`, which holds one element per entry. -/
def Dependency.insert (set : List Dependency) (d : Dependency) : List Dependency :=
  if set.any (fun x => x.entry = d.entry) then set else set ++ [d]

/-- The first loop of `AddObject`: every dependency is in the catalog of the object
and can still be found. -/
def AddObject.check (c : Catalog) (object : CatalogEntry) : List CatalogEntry → Option Error
  | [] => none
  | dependency :: rest =>
    if dependency.catalog ≠ object.catalog then some (.DependencyException .CROSS_CATALOG)
    else if !dependency.hasSet then some .InternalException
    else
      match c.GetEntryInternal dependency with
      | none => some .InternalException
      | some _ => AddObject.check c object rest

/-- `DependencyManager::AddObject`. -/
def AddObject (D : Decls) (w : World) (object : CatalogEntry) (dependencies : List CatalogEntry) :
    Outcome :=
  if IsSystemEntry object then .returned w
  else
    match AddObject.check w.catalog object dependencies with
    | some e => .threw e w
    | none =>
      let dependency_type :=
        if object.type = .INDEX_ENTRY then DependencyType.DEPENDENCY_AUTOMATIC
        else DependencyType.DEPENDENCY_REGULAR
      let w1 := dependencies.foldl (fun acc dependency =>
        let r := GetOrCreateDependencySet D acc (.object dependency)
        r.2.AddDependent D r.1 object dependency_type) w
      let r := GetOrCreateDependencySet D w1 (.object object)
      .returned (r.2.AddDependencies D r.1 dependencies)

/-- `CascadeDrop`. -/
def CascadeDrop (cascade : Bool) (dependency_type : DependencyType) : Bool :=
  if cascade then true
  else if dependency_type = .DEPENDENCY_AUTOMATIC then true
  else if dependency_type = .DEPENDENCY_OWNS then true
  else false

/-- `GetLookupProperties`: the result is `(schema, name, type)`. -/
def GetLookupProperties (D : Decls) : Entry → Except Error (Str × Str × CatalogType)
  | .dependency dependency_entry =>
    .ok (dependency_entry.entrySchema, dependency_entry.entryName, dependency_entry.entryType)
  | .dependencySet dependency_set =>
    match UnmangleName D dependency_set.mangledName with
    | .ok (type, schema, name) => .ok (schema, name, type)
    | .error e => .error e
  | .object _ => .error .InternalException

/-- `DependencyManager::LookupEntry`. -/
def LookupEntry (D : Decls) (c : Catalog) (dependency : Entry) : Except Error LookupResult :=
  match GetLookupProperties D dependency with
  | .error e => .error e
  | .ok (schema, name, type) =>
    match c.GetSchemaIndex schema with
    | none => .error .InternalException
    | some schema_entry =>
      if type = .SCHEMA_ENTRY then
        .ok { set := none, mapping_value := none, entry := some schema_entry.entry }
      else
        match c.GetMapping schema type name with
        | none => .ok { set := some (schema, type), mapping_value := none, entry := none }
        | some mapping_value =>
          .ok { set := some (schema, type), mapping_value := some mapping_value,
                entry := mapping_value.GetEntryInternal }

/-- The first loop of `CleanupDependencies`, over the collected dependencies. -/
def CleanupDependencies.removeDependencies (D : Decls) (connections : DependencySetCatalogEntry) :
    World → List DependencyCatalogEntry → Outcome
  | w, [] => .returned w
  | w, dependency :: rest =>
    match GetDependencySet D w (.dependency dependency) with
    | none => .threw .InternalException w
    | some other_connections =>
      let w1 := other_connections.RemoveDependent D w (.dependencySet connections)
      let w2 := connections.RemoveDependency D w1 (.dependency dependency)
      CleanupDependencies.removeDependencies D connections w2 rest

/-- The second loop of `CleanupDependencies`, over the collected dependents. -/
def CleanupDependencies.removeDependents (D : Decls) (connections : DependencySetCatalogEntry) :
    World → List DependencyCatalogEntry → Outcome
  | w, [] => .returned w
  | w, dependent :: rest =>
    match GetDependencySet D w (.dependency dependent) with
    | none => .threw .InternalException w
    | some other_connections =>
      let w1 := other_connections.RemoveDependency D w (.dependencySet connections)
      let w2 := connections.RemoveDependent D w1 (.dependency dependent)
      CleanupDependencies.removeDependents D connections w2 rest

/-- `DependencyManager::CleanupDependencies`. -/
def CleanupDependencies (D : Decls) (w : World) (object : CatalogEntry) : Outcome :=
  match GetDependencySet D w (.object object) with
  | none => .threw .InternalException w
  | some connections =>
    let dependencies_to_remove := connections.Dependencies.Scan w.dependencies
    let dependents_to_remove := connections.Dependents.Scan w.dependents
    match CleanupDependencies.removeDependencies D connections w dependencies_to_remove with
    | .threw e w1 => .threw e w1
    | .returned w1 => CleanupDependencies.removeDependents D connections w1 dependents_to_remove

/-- The scan of the dependents in `DropObject`: the callback is run on every record in
turn and fills `to_drop`, or throws. -/
def DropObject.scan (D : Decls) (w : World) (cascade : Bool) :
    List DependencyCatalogEntry → List LookupResult → Except Error (List LookupResult)
  | [], to_drop => .ok to_drop
  | other_entry :: rest, to_drop =>
    match GetDependencySet D w (.dependency other_entry) with
    | none => DropObject.scan D w cascade rest to_drop
    | some _ =>
      match LookupEntry D w.catalog (.dependency other_entry) with
      | .error e => .error e
      | .ok lookup =>
        match lookup.entry with
        | none => DropObject.scan D w cascade rest to_drop
        | some _ =>
          if !CascadeDrop cascade other_entry.dependencyType then
            .error (.DependencyException .CANNOT_DROP)
          else DropObject.scan D w cascade rest (to_drop ++ [lookup])

/-- The loop of `DropObject` over `to_drop`; `DropEntry` is the drop of a collection of
the catalog. -/
def DropObject.drop (DropEntry : World → Str × CatalogType → Str → Bool → Outcome)
    (cascade : Bool) : World → List LookupResult → Outcome
  | w, [] => .returned w
  | w, lookup :: rest =>
    match lookup.set, lookup.entry with
    | some set, some entry =>
      match DropEntry w set entry.name cascade with
      | .threw e w1 => .threw e w1
      | .returned w1 => DropObject.drop DropEntry cascade w1 rest
    | _, _ => .threw .InternalException w

/-- The body of `DependencyManager::DropObject`; `DropEntryDependencies` is the way back
into `DropObject` that the collections of the catalog take when they drop an entry. -/
def DropObject.body (D : Decls) (DropEntryDependencies : World → CatalogEntry → Bool → Outcome)
    (w : World) (object : CatalogEntry) (cascade : Bool) : Outcome :=
  if IsSystemEntry object then .returned w
  else
    match GetDependencySet D w (.object object) with
    | none => .returned w
    | some object_connections =>
      match DropObject.scan D w cascade (object_connections.Dependents.Scan w.dependents) [] with
      | .error e => .threw e w
      | .ok to_drop =>
        match DropObject.drop (Catalog.DropEntry DropEntryDependencies) cascade w to_drop with
        | .threw e w1 => .threw e w1
        | .returned w1 => CleanupDependencies D w1 object

/-- `DependencyManager::DropObject`.  The drops nest through the collections of the
catalog; `fuel` bounds the depth of the nesting. -/
def DropObject (D : Decls) : Nat → World → CatalogEntry → Bool → Outcome
  | 0 => DropObject.body D (fun w _ _ => .threw .OUT_OF_FUEL w)
  | fuel + 1 => DropObject.body D (DropObject D fuel)

/-- The scan of the dependents in `AlterObject`: fills `preserved_dependents`, or
throws. -/
def AlterObject.scanDependents (D : Decls) (w : World) :
    List DependencyCatalogEntry → List Dependency → Except Error (List Dependency)
  | [], preserved_dependents => .ok preserved_dependents
  | other_entry :: rest, preserved_dependents =>
    match GetDependencySet D w (.dependency other_entry) with
    | none => AlterObject.scanDependents D w rest preserved_dependents
    | some _ =>
      match LookupEntry D w.catalog (.dependency other_entry) with
      | .error e => .error e
      | .ok lookup =>
        match lookup.entry with
        | none => AlterObject.scanDependents D w rest preserved_dependents
        | some entry =>
          if other_entry.dependencyType = .DEPENDENCY_OWNS then
            AlterObject.scanDependents D w rest
              (Dependency.insert preserved_dependents
                { entry := entry, dependencyType := other_entry.dependencyType })
          else .error (.DependencyException .CANNOT_ALTER)

/-- The scan of the dependencies in `AlterObject`: fills `dependency_list`. -/
def AlterObject.scanDependencies (D : Decls) (w : World) :
    List DependencyCatalogEntry → List Dependency → Except Error (List Dependency)
  | [], dependency_list => .ok dependency_list
  | other_entry :: rest, dependency_list =>
    match LookupEntry D w.catalog (.dependency other_entry) with
    | .error e => .error e
    | .ok lookup =>
      match lookup.entry with
      | none => AlterObject.scanDependencies D w rest dependency_list
      | some entry =>
        AlterObject.scanDependencies D w rest
          (Dependency.insert dependency_list
            { entry := entry, dependencyType := other_entry.dependencyType })

/-- The loop of `AlterObject` that registers the new object as a dependent of every
dependency that is kept. -/
def AlterObject.addDependents (D : Decls) (new_obj : CatalogEntry) :
    World → List Dependency → Outcome
  | w, [] => .returned w
  | w, dep :: rest =>
    match GetDependencySet D w (.object dep.entry) with
    | none => .threw .InternalException w
    | some other_connections =>
      AlterObject.addDependents D new_obj
        (other_connections.AddDependent D w new_obj .DEPENDENCY_REGULAR) rest

/-- The last loop of `AlterObject`, which registers the new object as the owner of
every preserved dependent. -/
def AlterObject.addOwnedBy (D : Decls) (new_obj : CatalogEntry) :
    World → List Dependency → Outcome
  | w, [] => .returned w
  | w, dependency :: rest =>
    match GetDependencySet D w (.object dependency.entry) with
    | none => .threw .InternalException w
    | some dependency_connections =>
      AlterObject.addOwnedBy D new_obj
        (dependency_connections.AddDependent D w new_obj .DEPENDENCY_OWNED_BY) rest

/-- `DependencyManager::AlterObject`. -/
def AlterObject (D : Decls) (w : World) (old_obj new_obj : CatalogEntry) : Outcome :=
  if IsSystemEntry new_obj then .returned w
  else
    match GetDependencySet D w (.object old_obj) with
    | none => .returned w
    | some old_connections =>
      match AlterObject.scanDependents D w (old_connections.Dependents.Scan w.dependents) [] with
      | .error e => .threw e w
      | .ok preserved_dependents =>
        match AlterObject.scanDependencies D w
            (old_connections.Dependencies.Scan w.dependencies) [] with
        | .error e => .threw e w
        | .ok dependency_list =>
          let cleaned :=
            if old_obj.name ≠ new_obj.name then CleanupDependencies D w old_obj
            else .returned w
          match cleaned with
          | .threw e w1 => .threw e w1
          | .returned w1 =>
            match AlterObject.addDependents D new_obj w1 dependency_list with
            | .threw e w2 => .threw e w2
            | .returned w2 =>
              let r := GetOrCreateDependencySet D w2 (.object new_obj)
              let connections := r.2
              let dependency_list2 := preserved_dependents.foldl (fun acc dep =>
                Dependency.insert acc
                  { entry := dep.entry, dependencyType := .DEPENDENCY_REGULAR }) dependency_list
              let w3 := connections.AddDependenciesOf D r.1 dependency_list2
              let w4 := connections.AddDependents D w3 preserved_dependents
              AlterObject.addOwnedBy D new_obj w4 preserved_dependents

/-- The scan of the dependents of `entry` in `AddOwnership`. -/
def AddOwnership.scan (D : Decls) (w : World) (owner : CatalogEntry) :
    List DependencyCatalogEntry → Option Error
  | [] => none
  | dependent_entry :: rest =>
    match LookupEntry D w.catalog (.dependency dependent_entry) with
    | .error e => some e
    | .ok lookup =>
      match lookup.entry with
      | none => AddOwnership.scan D w owner rest
      | some dep =>
        if dep ≠ owner then some (.DependencyException .ALREADY_DEPENDS_ON)
        else if dep = owner ∧ dependent_entry.dependencyType = .DEPENDENCY_OWNS then
          some (.DependencyException .ALREADY_OWNS)
        else AddOwnership.scan D w owner rest

/-- `DependencyManager::AddOwnership`, with its two `D_ASSERT`s on system entries checked:
a failed assertion is thrown as an `InternalException`. -/
def AddOwnership (D : Decls) (w : World) (owner entry : CatalogEntry) : Outcome :=
  if IsSystemEntry entry then .threw .InternalException w
  else if IsSystemEntry owner then .threw .InternalException w
  else
    let r1 := GetOrCreateDependencySet D w (.object owner)
    let owner_connections := r1.2
    if (owner_connections.Dependents.Scan r1.1.dependents).any
        (fun dependent_entry => dependent_entry.dependencyType = .DEPENDENCY_OWNED_BY) then
      .threw (.DependencyException .ALREADY_OWNED_BY) r1.1
    else
      let r2 := GetOrCreateDependencySet D r1.1 (.object entry)
      let entry_connections := r2.2
      match AddOwnership.scan D r2.1 owner (entry_connections.Dependents.Scan r2.1.dependents) with
      | some e => .threw e r2.1
      | none =>
        let w3 := entry_connections.AddDependent D r2.1 owner .DEPENDENCY_OWNED_BY
        let w4 := owner_connections.AddDependency D w3 entry D.defaultDependencyType
        .returned (owner_connections.AddDependent D w4 entry .DEPENDENCY_OWNS)

/-- `DependencyManager::AddOwnership` as the release build compiles it: the two
`D_ASSERT`s on system entries are compiled out. -/
def AddOwnership.release (D : Decls) (w : World) (owner entry : CatalogEntry) : Outcome :=
  let r1 := GetOrCreateDependencySet D w (.object owner)
  let owner_connections := r1.2
  if (owner_connections.Dependents.Scan r1.1.dependents).any
      (fun dependent_entry => dependent_entry.dependencyType = .DEPENDENCY_OWNED_BY) then
    .threw (.DependencyException .ALREADY_OWNED_BY) r1.1
  else
    let r2 := GetOrCreateDependencySet D r1.1 (.object entry)
    let entry_connections := r2.2
    match AddOwnership.scan D r2.1 owner (entry_connections.Dependents.Scan r2.1.dependents) with
    | some e => .threw e r2.1
    | none =>
      let w3 := entry_connections.AddDependent D r2.1 owner .DEPENDENCY_OWNED_BY
      let w4 := owner_connections.AddDependency D w3 entry D.defaultDependencyType
      .returned (owner_connections.AddDependent D w4 entry .DEPENDENCY_OWNS)

/-! ## Conditions on the state used in the statements -/

/-- The world of an outcome: the state it returns or throws with. -/
def Outcome.world : Outcome → World
  | .returned w => w
  | .threw _ w => w

/-- Whether the operation returned. -/
def Outcome.isReturned : Outcome → Bool
  | .returned _ => true
  | .threw _ _ => false

/-- No record of the store has a key that starts with `name`: the node `name` has no
edge in the store. -/
def CatalogSet.Free (set : CatalogSet) (name : Str) : Prop :=
  ∀ r ∈ set, name.isPrefixOf r.name = false

/-- The identity of `e` resolves to `e` itself, live: its schema is found, it is not a
schema, and its name is mapped to the entry `e`, which is not deleted. -/
def Catalog.Live (c : Catalog) (e : CatalogEntry) : Prop :=
  e.type ≠ .SCHEMA_ENTRY ∧ (c.GetSchemaIndex e.schema).isSome = true ∧
    c.GetMapping e.schema e.type e.name = some { entry := e, deleted := false }

/-- The schema of the target of every record of the store can be found. -/
def Catalog.SchemasFound (c : Catalog) (set : CatalogSet) : Prop :=
  ∀ d ∈ set, (c.GetSchemaIndex d.entrySchema).isSome = true

/-- The node of an object: its mangled name. -/
abbrev nodeOf (D : Decls) (e : CatalogEntry) : Str :=
  (Entry.object e).MangleName D

instance (set : CatalogSet) (name : Str) : Decidable (set.Free name) := by
  unfold CatalogSet.Free; infer_instance

instance (c : Catalog) (e : CatalogEntry) : Decidable (c.Live e) := by
  unfold Catalog.Live; infer_instance

instance (c : Catalog) (set : CatalogSet) : Decidable (c.SchemasFound set) := by
  unfold Catalog.SchemasFound; infer_instance

/-- The three parts of the mangled name of the object hold no NUL byte. -/
def WellNamed (D : Decls) (e : CatalogEntry) : Prop :=
  NUL ∉ D.CatalogTypeToString e.type ∧ NUL ∉ GetSchema e ∧ NUL ∉ e.name

instance (D : Decls) (e : CatalogEntry) : Decidable (WellNamed D e) := by
  unfold WellNamed; infer_instance

/-- Every record of the list that resolves to a live entry resolves to an entry that
has a dependency set. -/
def World.Anchored (D : Decls) (w : World) (L : List DependencyCatalogEntry) : Prop :=
  L.all (fun q =>
    match LookupEntry D w.catalog (.dependency q) with
    | .ok lq =>
      match lq.entry with
      | some e => decide (({ mangledName := nodeOf D e } : DependencySetCatalogEntry) ∈ w.connections)
      | none => true
    | .error _ => true) = true

instance (D : Decls) (w : World) (L : List DependencyCatalogEntry) : Decidable (w.Anchored D L) := by
  unfold World.Anchored; infer_instance

/-- The type of the edges that `AddObject` registers for an object: `AUTOMATIC` for an
index, `REGULAR` otherwise. -/
abbrev edgeTypeOf (object : CatalogEntry) : DependencyType :=
  if object.type = .INDEX_ENTRY then .DEPENDENCY_AUTOMATIC else .DEPENDENCY_REGULAR

/-- The record that the store keeps for the edge from the node of `a` to `b`. -/
abbrev edgeOf (D : Decls) (a b : CatalogEntry) (type : DependencyType) : DependencyCatalogEntry :=
  { edgeTo b type with
    fromName := nodeOf D a, name := MangledDependencyName (nodeOf D a) (nodeOf D b) }

/-! ## The states that the operations reach -/

/-- The store holds a record under the key. -/
def CatalogSet.HasKey (set : CatalogSet) (name : Str) : Prop :=
  ∃ r ∈ set, r.name = name

/-- A record as `DependencyCatalogSet::CreateEntry` stores it between two nodes whose
mangled names have three parts: its key is the composite of its owner and its target. -/
def DependencyCatalogEntry.Std (D : Decls) (r : DependencyCatalogEntry) : Prop :=
  r.name = MangledDependencyName r.fromName (r.MangledName D) ∧
    r.fromName.count NUL = 2 ∧ (r.MangledName D).count NUL = 2

/-- Every Dependencies record, from a node `A` to a target `B`, is matched by a
Dependents record that is stored on `B` and points at `A`. -/
def World.Mirrored (D : Decls) (w : World) : Prop :=
  ∀ r ∈ w.dependencies, ∃ q ∈ w.dependents,
    q.fromName = r.MangledName D ∧ q.MangledName D = r.fromName

/-- Every entry of the catalog is well named. -/
def Catalog.AllWellNamed (D : Decls) (c : Catalog) : Prop :=
  ∀ s ∈ c.schemas ++ c.sets, WellNamed D s.entry

instance (D : Decls) (c : Catalog) : Decidable (c.AllWellNamed D) := by
  unfold Catalog.AllWellNamed; infer_instance

/-- The states reached from an empty registry by calls of the four operations that
return, on well-named objects; the catalog may change between two calls. -/
inductive Reachable (D : Decls) : World → Prop where
  | init (c : Catalog) :
    Reachable D { catalog := c, connections := [], dependents := [], dependencies := [],
                  dropped := [] }
  | setCatalog (w : World) (c : Catalog) :
    Reachable D w → Reachable D { w with catalog := c }
  | addObject (w w1 : World) (object : CatalogEntry) (dependencies : List CatalogEntry) :
    Reachable D w → WellNamed D object → (∀ d ∈ dependencies, WellNamed D d) →
    AddObject D w object dependencies = .returned w1 → Reachable D w1
  | dropObject (w w1 : World) (object : CatalogEntry) (cascade : Bool) (fuel : Nat) :
    Reachable D w → DropObject D fuel w object cascade = .returned w1 → Reachable D w1
  | alterObject (w w1 : World) (old_obj new_obj : CatalogEntry) :
    Reachable D w → w.catalog.AllWellNamed D → WellNamed D new_obj →
    AlterObject D w old_obj new_obj = .returned w1 → Reachable D w1
  | addOwnership (w w1 : World) (owner entry : CatalogEntry) :
    Reachable D w → WellNamed D owner → WellNamed D entry →
    AddOwnership D w owner entry = .returned w1 → Reachable D w1

/-- The invariant of the two edge stores: every record has a standard key, and every
Dependencies record has, in the dependents store, a record under the mirrored key. -/
def World.Consistent (D : Decls) (w : World) : Prop :=
  (∀ r ∈ w.dependents, r.Std D) ∧ (∀ r ∈ w.dependencies, r.Std D) ∧
    ∀ r ∈ w.dependencies,
      CatalogSet.HasKey w.dependents (MangledDependencyName (r.MangledName D) r.fromName)

/-- Every record of the store is under a key that starts with the mangled name of its
owner, as `DependencyCatalogSet::CreateEntry` stores it. -/
def CatalogSet.Keyed (set : CatalogSet) : Prop :=
  ∀ r ∈ set, r.fromName.isPrefixOf r.name = true

instance (set : CatalogSet) : Decidable set.Keyed := by
  unfold CatalogSet.Keyed; infer_instance

/-- The first loop of `DependencyManager::Scan`, over the dependency sets: every set is
resolved to its entry, which is inserted into `entries`; the dereference of a lookup
without entry throws. -/
def DependencyManager.Scan.entries (D : Decls) (c : Catalog) :
    List DependencySetCatalogEntry → List CatalogEntry → Except Error (List CatalogEntry)
  | [], entries => .ok entries
  | set :: rest, entries =>
    match LookupEntry D c (.dependencySet set) with
    | .error e => .error e
    | .ok lookup =>
      match lookup.entry with
      | none => .error .InternalException
      | some entry =>
        DependencyManager.Scan.entries D c rest
          (if entry ∈ entries then entries else entries ++ [entry])

/-- The scan of the dependents of one entry in `DependencyManager::Scan`; `calls` is the
list of the argument triples the callback has been invoked with. -/
def DependencyManager.Scan.dependents (D : Decls) (c : Catalog) (entry : CatalogEntry) :
    List DependencyCatalogEntry → List (CatalogEntry × CatalogEntry × DependencyType) →
      Except Error (List (CatalogEntry × CatalogEntry × DependencyType))
  | [], calls => .ok calls
  | dependent :: rest, calls =>
    match LookupEntry D c (.dependency dependent) with
    | .error e => .error e
    | .ok lookup =>
      match lookup.entry with
      | none => DependencyManager.Scan.dependents D c entry rest calls
      | some dependent_entry =>
        DependencyManager.Scan.dependents D c entry rest
          (calls ++ [(entry, dependent_entry, dependent.dependencyType)])

/-- The second loop of `DependencyManager::Scan`, over `entries`. -/
def DependencyManager.Scan.loop (D : Decls) (w : World) :
    List CatalogEntry → List (CatalogEntry × CatalogEntry × DependencyType) →
      Except Error (List (CatalogEntry × CatalogEntry × DependencyType))
  | [], calls => .ok calls
  | entry :: rest, calls =>
    match GetDependencySet D w (.object entry) with
    | none => .error .InternalException
    | some set =>
      match DependencyManager.Scan.dependents D w.catalog entry
          (set.Dependents.Scan w.dependents) calls with
      | .error e => .error e
      | .ok calls1 => DependencyManager.Scan.loop D w rest calls1

/-- `DependencyManager::Scan`: the result is the list of the invocations of the
callback, in order. -/
def DependencyManager.Scan (D : Decls) (w : World) :
    Except Error (List (CatalogEntry × CatalogEntry × DependencyType)) :=
  match DependencyManager.Scan.entries D w.catalog w.connections [] with
  | .error e => .error e
  | .ok entries => DependencyManager.Scan.loop D w entries []

/-- Every dependency set of the registry resolves to a live entry, and that entry has
its dependency set. -/
def World.NodesResolve (D : Decls) (w : World) : Prop :=
  w.connections.all (fun set =>
    match LookupEntry D w.catalog (.dependencySet set) with
    | .ok l =>
      match l.entry with
      | some e => (GetDependencySet D w (.object e)).isSome
      | none => false
    | .error _ => false) = true

instance (D : Decls) (w : World) : Decidable (w.NodesResolve D) := by
  unfold World.NodesResolve; infer_instance

/-- Every Dependents record that is not of type `OWNS`, stored on a node `B` and pointing
at `A`, is matched by a Dependencies record of `A` under the mirrored key. -/
def World.Paired (D : Decls) (w : World) : Prop :=
  ∀ q ∈ w.dependents, q.dependencyType ≠ .DEPENDENCY_OWNS →
    CatalogSet.HasKey w.dependencies (MangledDependencyName (q.MangledName D) q.fromName)

/-- The ownership edges are paired: the Dependents of the node `X` hold an `OWNS` edge
that points at `Y` exactly when the Dependents of the node `Y` hold an `OWNED_BY` edge
that points at `X`. -/
def World.OwnershipPaired (D : Decls) (w : World) : Prop :=
  ∀ X Y : Str,
    (∃ q ∈ DependencyCatalogSet.Scan { mangled_name := X } w.dependents,
      q.MangledName D = Y ∧ q.dependencyType = .DEPENDENCY_OWNS) ↔
    (∃ p ∈ DependencyCatalogSet.Scan { mangled_name := Y } w.dependents,
      p.MangledName D = X ∧ p.dependencyType = .DEPENDENCY_OWNED_BY)

/-! ## Date formats of the CSV sniffer
(`src/execution/operator/csv_scanner/sniffer/type_detection.cpp`)

A pointer into the characters of a string is the list of the characters from the pointer
to the end of the string; the pointer `end` is the empty list. -/

/-- The two character classes of `StringUtil` that the sniffer uses; they are declared
in a header that is not among the sources. -/
structure StringUtil where
  CharacterIsSpace : Char → Bool
  CharacterIsDigit : Char → Bool

/-- The character classes used for concrete runs: the six ASCII white-space characters
and the ten ASCII digits. -/
def stdStringUtil : StringUtil :=
  { CharacterIsSpace := fun c =>
      c = ' ' || c = '\t' || c = '\n' || c = Char.ofNat 11 || c = Char.ofNat 12 || c = '\r'
    CharacterIsDigit := fun c => decide ('0' ≤ c) && decide (c ≤ '9') }

/-- The difference `q - p` of two pointers into the same string, `p` not behind `q`. -/
def distance (p q : Str) : Nat :=
  p.length - q.length

/-- The C library function `strncmp`, on two C strings given by the characters that
follow the pointers (behind the last one comes the terminating NUL of `c_str()`): at
most `n` characters are compared, and the comparison ends behind a NUL byte.  The result
is zero when no difference was met. -/
def strncmp : Str → Str → Nat → Int
  | _, _, 0 => 0
  | s1, s2, n + 1 =>
    let c1 := s1.headD NUL
    let c2 := s2.headD NUL
    if c1 ≠ c2 then (c1.toNat : Int) - (c2.toNat : Int)
    else if c1 = NUL then 0
    else strncmp s1.tail s2.tail n

/-- `StartsWithNumericDate`: the result is the returned flag and the value of `separator`
after the call. -/
def StartsWithNumericDate (U : StringUtil) (separator value : Str) : Bool × Str :=
  let field1 := value.dropWhile U.CharacterIsSpace
  match field1 with
  | [] => (false, separator)
  | first :: _ =>
    if !U.CharacterIsDigit first then (false, separator)
    else
      let literal1 := field1.dropWhile U.CharacterIsDigit
      if literal1 = [] then (false, separator)
      else
        let field2 := literal1.dropWhile (fun c => !U.CharacterIsDigit c)
        if field2 = [] then (false, separator)
        else
          let literal2 := field2.dropWhile U.CharacterIsDigit
          if literal2 = [] then (false, separator)
          else
            let field3 := literal2.dropWhile (fun c => !U.CharacterIsDigit c)
            if field3 = [] then (false, separator)
            else if distance literal2 field3 ≠ distance literal1 field2 ∨
                strncmp literal1 literal2 (distance literal1 field2) ≠ 0 then (false, separator)
            else
              (true, (literal1.take (distance literal1 field2)).foldl
                (fun separator literal_char =>
                  (if literal_char = '%' then separator ++ [literal_char] else separator)
                    ++ [literal_char]) [])

/-- The conversion of a `const char *` to a `string`: the characters before the first
NUL byte. -/
def ofCString (s : Str) : Str :=
  s.takeWhile (fun c => c ≠ NUL)

/-- `GenerateDateFormat`; `format_template` is the memory behind the pointer. -/
def GenerateDateFormat (separator format_template : Str) : Str :=
  let format_specifier := ofCString format_template
  let amount_of_dashes := format_specifier.count '-'
  if amount_of_dashes = 0 then format_specifier
  else
    format_specifier.foldl (fun result character =>
      if character = '-' then result ++ separator else result ++ [character]) []

/-- The text `template` with every `'-'` replaced by `separator` and every other
character kept, in order: the result that the description of `GenerateDateFormat`
gives. -/
def replaceDashes (separator : Str) : Str → Str
  | [] => []
  | c :: rest => (if c = '-' then separator else [c]) ++ replaceDashes separator rest

/-- The literal `L` with every `'%'` doubled. -/
def doublePercent : Str → Str
  | [] => []
  | c :: rest => (if c = '%' then [c, c] else [c]) ++ doublePercent rest

/-- The shape of a value that starts with a numeric date: behind its leading white space
come digits, the literal `L`, digits, the literal `L2` and a digit, the two literals
being non-empty and without a digit. -/
def NumericDateShape (U : StringUtil) (value L L2 : Str) : Prop :=
  ∃ d1 d2 : Str, ∃ c : Char, ∃ tail : Str,
    value.dropWhile U.CharacterIsSpace = d1 ++ L ++ d2 ++ L2 ++ c :: tail ∧
    d1 ≠ [] ∧ (∀ x ∈ d1, U.CharacterIsDigit x = true) ∧
    L ≠ [] ∧ (∀ x ∈ L, U.CharacterIsDigit x = false) ∧
    d2 ≠ [] ∧ (∀ x ∈ d2, U.CharacterIsDigit x = true) ∧
    L2 ≠ [] ∧ (∀ x ∈ L2, U.CharacterIsDigit x = false) ∧
    U.CharacterIsDigit c = true

/-! ## A small catalog for concrete runs -/

/-- An object of the schema `main` in catalog 1. -/
def sampleEntry (oid : Nat) (type : CatalogType) (name : String) : CatalogEntry :=
  { oid := oid, type := type, schema := "main".toList, name := name.toList, internal := false,
    catalog := 1, hasSet := true }

/-- The schema `main`. -/
def sampleSchema : CatalogEntry :=
  { oid := 0, type := .SCHEMA_ENTRY, schema := [], name := "main".toList, internal := false,
    catalog := 1, hasSet := true }

/-- The table `t`. -/
def sampleTable : CatalogEntry := sampleEntry 1 .TABLE_ENTRY "t"

/-- The view `v`. -/
def sampleView : CatalogEntry := sampleEntry 2 .VIEW_ENTRY "v"

/-- The index `i`. -/
def sampleIndex : CatalogEntry := sampleEntry 3 .INDEX_ENTRY "i"

/-- The sequence `s`. -/
def sampleSequence : CatalogEntry := sampleEntry 4 .SEQUENCE_ENTRY "s"

/-- The catalog that holds the schema `main` with `t`, `v`, `i` and `s`, all live. -/
def sampleCatalog : Catalog :=
  { schemas := [{ entry := sampleSchema, deleted := false }],
    sets := [{ entry := sampleTable, deleted := false }, { entry := sampleView, deleted := false },
             { entry := sampleIndex, deleted := false },
             { entry := sampleSequence, deleted := false }] }

/-- The state with `sampleCatalog` and no dependency registered. -/
def sampleWorld : World :=
  { catalog := sampleCatalog, connections := [], dependents := [], dependencies := [],
    dropped := [] }

/-! ## Name codec -/

theorem Split_no_sep (s : Str) (sep : Char) (h : sep ∉ s) : Split s sep = [s] := by
  induction s with
  | nil => rfl
  | cons c cs ih =>
    have hc : c ≠ sep := fun e => h (by simp [e])
    have hcs : sep ∉ cs := fun m => h (List.mem_cons_of_mem _ m)
    simp [Split, hc, ih hcs]

theorem Split_append_sep (s t : Str) (sep : Char) (h : sep ∉ s) :
    Split (s ++ sep :: t) sep = s :: Split t sep := by
  induction s with
  | nil => simp [Split]
  | cons c cs ih =>
    have hc : c ≠ sep := fun e => h (by simp [e])
    have hcs : sep ∉ cs := fun m => h (List.mem_cons_of_mem _ m)
    simp [Split, hc, ih hcs]

theorem Split_mangled (a b c : Str) (ha : NUL ∉ a) (hb : NUL ∉ b) (hc : NUL ∉ c) :
    Split (a ++ [NUL] ++ b ++ [NUL] ++ c) NUL = [a, b, c] := by
  have e : a ++ [NUL] ++ b ++ [NUL] ++ c = a ++ NUL :: (b ++ NUL :: c) := by simp
  rw [e, Split_append_sep a _ NUL ha, Split_append_sep b _ NUL hb, Split_no_sep c NUL hc]

theorem Split_length (s : Str) (sep : Char) : (Split s sep).length = s.count sep + 1 := by
  induction s with
  | nil => rfl
  | cons c cs ih =>
    unfold Split
    by_cases h : c = sep
    · subst h
      simp [ih]
    · have hc : List.count sep (c :: cs) = List.count sep cs := by
        rw [List.count_cons]
        simp [h]
      rw [if_neg h, hc, ← ih]
      cases hs : Split cs sep with
      | nil => rw [hs] at ih; simp at ih
      | cons p ps => rfl

/-- C1 (as stated, refuted): a schema name that contains a NUL byte is not recovered.
Whatever the tag strings are, the mangled key of `(TABLE_ENTRY, "a\0b", "c")` splits
into more than three parts, so `UnmangleName` does not return the triple. -/
theorem C1_counterexample :
    ¬ ∃ D : Decls, UnmangleName D (MangleName D .TABLE_ENTRY ['a', NUL, 'b'] ['c'])
        = .ok (.TABLE_ENTRY, ['a', NUL, 'b'], ['c']) := by
  rintro ⟨D, h⟩
  have hlen := Split_length (MangleName D .TABLE_ENTRY ['a', NUL, 'b'] ['c']) NUL
  unfold UnmangleName at h
  split at h
  · rename_i p0 p1 p2 heq
    rw [heq] at hlen
    have ha : ¬ 'a' = NUL := by decide
    have hb : ¬ 'b' = NUL := by decide
    have hc : ¬ 'c' = NUL := by decide
    simp [MangleName, List.count_append, List.count_cons, ha, hb, hc] at hlen
  · cases h

/-- C1 (amended): when the tag of `t` is decoded back to `t` and neither the tag, the
schema nor the name contains a NUL byte, `UnmangleName` applied to
`MangleName t schema name` returns exactly `(t, schema, name)`. -/
theorem C1_unmangle_mangle (D : Decls) (t : CatalogType) (schema name : Str)
    (htag : D.CatalogTypeFromString (D.CatalogTypeToString t) = t)
    (hnul : NUL ∉ D.CatalogTypeToString t)
    (hs : NUL ∉ schema) (hn : NUL ∉ name) :
    UnmangleName D (MangleName D t schema name) = .ok (t, schema, name) := by
  unfold UnmangleName MangleName
  rw [Split_mangled _ _ _ hnul hs hn]
  simp [htag]

theorem C1_unmangle_mangle_witness :
    UnmangleName stdDecls (MangleName stdDecls .VIEW_ENTRY "main".toList "v1".toList)
      = .ok (.VIEW_ENTRY, "main".toList, "v1".toList) :=
  C1_unmangle_mangle stdDecls .VIEW_ENTRY "main".toList "v1".toList
    (by decide) (by decide) (by decide) (by decide)

theorem CIEquals_self (a : Str) : CIEquals a a = true := by
  simp [CIEquals]

theorem CIEquals_length {a b : Str} (h : CIEquals a b = true) : a.length = b.length := by
  have h1 : a.map Char.toLower = b.map Char.toLower := by simpa [CIEquals] using h
  simpa using congrArg List.length h1

theorem applied_isPrefixOf (a x : Str) :
    a.isPrefixOf (MangledDependencyName a x) = true := by
  rw [List.isPrefixOf_iff_prefix]
  exact ⟨[NUL] ++ x, by simp [MangledDependencyName]⟩

/-- A prefix of `b ++ x` that is as long as `b` is `b`. -/
theorem eq_of_isPrefixOf_of_length {a b x : Str} (h : a.isPrefixOf (b ++ x) = true)
    (hl : a.length = b.length) : a = b := by
  rw [List.isPrefixOf_iff_prefix] at h
  have hb : b <+: b ++ x := List.prefix_append b x
  have h1 : a <+: b := List.prefix_of_prefix_length_le h hb (le_of_eq hl)
  exact h1.eq_of_length hl

/-! ### The stores -/

theorem Free_key_ne {set : CatalogSet} {name : Str} (h : set.Free name) (x : Str) :
    ∀ r ∈ set, r.name ≠ MangledDependencyName name x := by
  intro r hr e
  have := h r hr
  rw [e, applied_isPrefixOf] at this
  exact Bool.noConfusion this

theorem CreateEntry_new {set : CatalogSet} {k : Str} (v : DependencyCatalogEntry)
    (h : ∀ r ∈ set, r.name ≠ k) : (CatalogSet.CreateEntry set k v).2 = set ++ [v] := by
  unfold CatalogSet.CreateEntry
  have : set.any (fun r => decide (r.name = k)) = false := by
    rw [List.any_eq_false]
    intro r hr
    simpa using h r hr
  simp [this]

/-- The record that `DependencyCatalogSet::CreateEntry` stores for the node `a` and the
target `x`. -/
theorem view_CreateEntry_new (a x : Str) (set : CatalogSet) (v : DependencyCatalogEntry)
    (h : ∀ r ∈ set, r.name ≠ MangledDependencyName a x) :
    (DependencyCatalogSet.CreateEntry { mangled_name := a } set x v).2
      = set ++ [{ v with fromName := a, name := MangledDependencyName a x }] := by
  unfold DependencyCatalogSet.CreateEntry DependencyCatalogSet.ApplyPrefix
  exact CreateEntry_new _ h

theorem Scan_append (v : DependencyCatalogSet) (s t : CatalogSet) :
    v.Scan (s ++ t) = v.Scan s ++ v.Scan t := by
  simp [DependencyCatalogSet.Scan, CatalogSet.ScanWithPrefix]

theorem Scan_of_free (a : Str) (set : CatalogSet) (h : set.Free a) :
    DependencyCatalogSet.Scan { mangled_name := a } set = [] := by
  unfold DependencyCatalogSet.Scan CatalogSet.ScanWithPrefix
  rw [List.filter_filter, List.filter_eq_nil_iff]
  intro r hr
  simp [h r hr]

theorem Scan_own (a x : Str) (v : DependencyCatalogEntry) :
    DependencyCatalogSet.Scan { mangled_name := a }
        [{ v with fromName := a, name := MangledDependencyName a x }]
      = [{ v with fromName := a, name := MangledDependencyName a x }] := by
  simp [DependencyCatalogSet.Scan, CatalogSet.ScanWithPrefix, applied_isPrefixOf, CIEquals_self]

theorem Scan_other (a b x : Str) (v : DependencyCatalogEntry) (hab : b ≠ a) :
    DependencyCatalogSet.Scan { mangled_name := b }
        [{ v with fromName := a, name := MangledDependencyName a x }] = [] := by
  unfold DependencyCatalogSet.Scan CatalogSet.ScanWithPrefix
  rw [List.filter_filter, List.filter_eq_nil_iff]
  intro r hr
  simp only [List.mem_singleton] at hr
  subst hr
  simp only [Bool.and_eq_true, not_and]
  intro hci hp
  apply hab
  have hp' : b.isPrefixOf (a ++ ([NUL] ++ x)) = true := by
    simpa [MangledDependencyName] using hp
  exact eq_of_isPrefixOf_of_length hp' (CIEquals_length hci).symm

/-! ### The dependency sets -/

theorem find_set (l : List DependencySetCatalogEntry) (n : Str) :
    l.find? (fun s => s.mangledName = n)
      = if ({ mangledName := n } : DependencySetCatalogEntry) ∈ l then some { mangledName := n }
        else none := by
  induction l with
  | nil => simp
  | cons s l ih =>
    by_cases h : s.mangledName = n
    · have : s = { mangledName := n } := by cases s; simp_all
      simp [List.find?, h, this]
    · have : ({ mangledName := n } : DependencySetCatalogEntry) ≠ s := by
        intro e; apply h; rw [← e]
      simp [List.find?, h, ih, this]

theorem GetDependencySet_eq (D : Decls) (w : World) (e : Entry) :
    GetDependencySet D w e
      = if ({ mangledName := e.MangleName D } : DependencySetCatalogEntry) ∈ w.connections
        then some { mangledName := e.MangleName D } else none := by
  unfold GetDependencySet
  rw [find_set]

theorem GetDependencySet_of_mem (D : Decls) (w : World) (e : Entry)
    (h : ({ mangledName := e.MangleName D } : DependencySetCatalogEntry) ∈ w.connections) :
    GetDependencySet D w e = some { mangledName := e.MangleName D } := by
  unfold GetDependencySet
  rw [find_set, if_pos h]

theorem GetOrCreate_snd (D : Decls) (w : World) (e : Entry) :
    (GetOrCreateDependencySet D w e).2 = { mangledName := e.MangleName D } := by
  unfold GetOrCreateDependencySet
  simp only [find_set]
  split_ifs <;> rfl

theorem GetOrCreate_mem (D : Decls) (w : World) (e : Entry) :
    ({ mangledName := e.MangleName D } : DependencySetCatalogEntry)
      ∈ (GetOrCreateDependencySet D w e).1.connections := by
  unfold GetOrCreateDependencySet
  simp only [find_set]
  split_ifs with h
  · exact h
  · simp

theorem GetOrCreate_mono (D : Decls) (w : World) (e : Entry) (s : DependencySetCatalogEntry)
    (hs : s ∈ w.connections) : s ∈ (GetOrCreateDependencySet D w e).1.connections := by
  unfold GetOrCreateDependencySet
  simp only [find_set]
  split_ifs with h
  · exact hs
  · simp [hs]

theorem GetOrCreate_of_mem (D : Decls) (w : World) (e : Entry)
    (h : ({ mangledName := e.MangleName D } : DependencySetCatalogEntry) ∈ w.connections) :
    GetOrCreateDependencySet D w e = (w, { mangledName := e.MangleName D }) := by
  unfold GetOrCreateDependencySet
  simp only [find_set, if_pos h]

theorem GetOrCreate_dependents (D : Decls) (w : World) (e : Entry) :
    (GetOrCreateDependencySet D w e).1.dependents = w.dependents := by
  unfold GetOrCreateDependencySet
  simp only [find_set]
  split_ifs <;> rfl

theorem GetOrCreate_dependencies (D : Decls) (w : World) (e : Entry) :
    (GetOrCreateDependencySet D w e).1.dependencies = w.dependencies := by
  unfold GetOrCreateDependencySet
  simp only [find_set]
  split_ifs <;> rfl

theorem GetOrCreate_catalog (D : Decls) (w : World) (e : Entry) :
    (GetOrCreateDependencySet D w e).1.catalog = w.catalog := by
  unfold GetOrCreateDependencySet
  simp only [find_set]
  split_ifs <;> rfl

theorem GetOrCreate_dropped (D : Decls) (w : World) (e : Entry) :
    (GetOrCreateDependencySet D w e).1.dropped = w.dropped := by
  unfold GetOrCreateDependencySet
  simp only [find_set]
  split_ifs <;> rfl

/-! ### Lookups -/

theorem LookupEntry_live (D : Decls) (c : Catalog) (e : CatalogEntry) (d : DependencyCatalogEntry)
    (hl : c.Live e) (ht : d.entryType = e.type) (hs : d.entrySchema = e.schema)
    (hn : d.entryName = e.name) :
    LookupEntry D c (.dependency d)
      = .ok { set := some (e.schema, e.type),
              mapping_value := some { entry := e, deleted := false }, entry := some e } := by
  obtain ⟨h1, h2, h3⟩ := hl
  unfold LookupEntry GetLookupProperties
  simp only [ht, hs, hn]
  cases hsi : c.GetSchemaIndex e.schema with
  | none => simp [hsi] at h2
  | some sl => simp [h1, h3, Slot.GetEntryInternal]

theorem LookupEntry_found (D : Decls) (c : Catalog) (d : DependencyCatalogEntry)
    (h : (c.GetSchemaIndex d.entrySchema).isSome = true) :
    ∃ l, LookupEntry D c (.dependency d) = .ok l := by
  unfold LookupEntry GetLookupProperties
  cases hsi : c.GetSchemaIndex d.entrySchema with
  | none => simp [hsi] at h
  | some sl =>
    simp only [hsi]
    split_ifs
    · exact ⟨_, rfl⟩
    · cases c.GetMapping d.entrySchema d.entryType d.entryName <;> exact ⟨_, rfl⟩

/-! ### The scan of `DropObject` -/

/-- A record whose target has a dependency set and resolves to a live entry, and whose
type does not waive the cascade, makes the scan throw. -/
theorem DropObject_scan_fails (D : Decls) (w : World) (cascade : Bool)
    (L : List DependencyCatalogEntry) (acc : List LookupResult)
    (d : DependencyCatalogEntry) (hd : d ∈ L)
    (hset : GetDependencySet D w (.dependency d) ≠ none)
    (l : LookupResult) (hl : LookupEntry D w.catalog (.dependency d) = .ok l)
    (he : l.entry ≠ none) (hc : CascadeDrop cascade d.dependencyType = false) :
    ∃ e, DropObject.scan D w cascade L acc = .error e := by
  induction L generalizing acc with
  | nil => cases hd
  | cons x rest ih =>
    unfold DropObject.scan
    by_cases hx : x = d
    · subst hx
      cases hs : GetDependencySet D w (.dependency x) with
      | none => exact absurd hs hset
      | some s =>
        simp only [hl]
        cases hle : l.entry with
        | none => exact absurd hle he
        | some e0 => simp [hc]
    · have hd' : d ∈ rest := by
        cases hd with
        | head => exact absurd rfl hx
        | tail _ h => exact h
      cases hs : GetDependencySet D w (.dependency x) with
      | none => exact ih acc hd'
      | some s =>
        simp only
        cases hlx : LookupEntry D w.catalog (.dependency x) with
        | error e => exact ⟨e, rfl⟩
        | ok lx =>
          simp only
          cases hle : lx.entry with
          | none => exact ih acc hd'
          | some e0 =>
            simp only
            split_ifs
            · exact ⟨_, rfl⟩
            · exact ih _ hd'

/-- When moreover every schema can be found, the scan throws the `DependencyException`
of `DropObject`. -/
theorem DropObject_scan_blocked (D : Decls) (w : World) (cascade : Bool)
    (L : List DependencyCatalogEntry) (acc : List LookupResult)
    (hfound : w.catalog.SchemasFound L)
    (d : DependencyCatalogEntry) (hd : d ∈ L)
    (hset : GetDependencySet D w (.dependency d) ≠ none)
    (l : LookupResult) (hl : LookupEntry D w.catalog (.dependency d) = .ok l)
    (he : l.entry ≠ none) (hc : CascadeDrop cascade d.dependencyType = false) :
    DropObject.scan D w cascade L acc = .error (.DependencyException .CANNOT_DROP) := by
  induction L generalizing acc with
  | nil => cases hd
  | cons x rest ih =>
    have hrest : w.catalog.SchemasFound rest := fun r hr => hfound r (List.mem_cons_of_mem _ hr)
    unfold DropObject.scan
    by_cases hx : x = d
    · subst hx
      cases hs : GetDependencySet D w (.dependency x) with
      | none => exact absurd hs hset
      | some s =>
        simp only [hl]
        cases hle : l.entry with
        | none => exact absurd hle he
        | some e0 => simp [hc]
    · have hd' : d ∈ rest := by
        cases hd with
        | head => exact absurd rfl hx
        | tail _ h => exact h
      cases hs : GetDependencySet D w (.dependency x) with
      | none => exact ih acc hrest hd'
      | some s =>
        simp only
        obtain ⟨lx, hlx⟩ := LookupEntry_found D w.catalog x (hfound x (List.mem_cons_self _ _))
        simp only [hlx]
        cases hle : lx.entry with
        | none => exact ih acc hrest hd'
        | some e0 =>
          simp only
          split_ifs
          · rfl
          · exact ih _ hrest hd'

/-! ### The state after `AddObject` with one dependency -/

theorem AddObject_one (D : Decls) (w w1 : World) (A B : CatalogEntry)
    (hB : IsSystemEntry B = false) (hadd : AddObject D w B [A] = .returned w1) :
    w1.catalog = w.catalog ∧ w1.dropped = w.dropped ∧
    w1.dependents = (DependencyCatalogSet.CreateEntry { mangled_name := nodeOf D A }
        w.dependents (nodeOf D B) (edgeTo B (edgeTypeOf B))).2 ∧
    w1.dependencies = (DependencyCatalogSet.CreateEntry { mangled_name := nodeOf D B }
        w.dependencies (nodeOf D A) (edgeTo A D.defaultDependencyType)).2 ∧
    ({ mangledName := nodeOf D A } : DependencySetCatalogEntry) ∈ w1.connections ∧
    ({ mangledName := nodeOf D B } : DependencySetCatalogEntry) ∈ w1.connections := by
  unfold AddObject at hadd
  simp only [hB, Bool.false_eq_true, if_false] at hadd
  cases hck : AddObject.check w.catalog B [A] with
  | some e => simp [hck] at hadd
  | none =>
    simp only [hck, List.foldl_cons, List.foldl_nil, Outcome.returned.injEq] at hadd
    subst hadd
    simp only [DependencySetCatalogEntry.AddDependencies, List.foldl_cons, List.foldl_nil,
      DependencySetCatalogEntry.AddDependency, DependencySetCatalogEntry.AddDependent,
      GetOrCreate_snd, GetOrCreate_catalog, GetOrCreate_dropped, GetOrCreate_dependents,
      GetOrCreate_dependencies, DependencySetCatalogEntry.Dependents,
      DependencySetCatalogEntry.Dependencies]
    refine ⟨trivial, trivial, trivial, trivial, ?_, ?_⟩
    · apply GetOrCreate_mono
      exact GetOrCreate_mem D w (.object A)
    · exact GetOrCreate_mem D _ (.object B)

/-- C2 (as stated, refuted): when `B` is an index the edge is `AUTOMATIC`.  After
`AddObject(i, {t})` for the index `i` on the table `t`, `DropObject(t, cascade = false)`
returns instead of throwing. -/
theorem C2_counterexample :
    (AddObject stdDecls sampleWorld sampleIndex [sampleTable]).isReturned = true ∧
    (DropObject stdDecls 1 (AddObject stdDecls sampleWorld sampleIndex [sampleTable]).world
      sampleTable false).isReturned = true := by
  decide

/-- C2 (amended): after `AddObject(B, {A})` has returned, for two objects that are not
system entries, `B` not an index, with no earlier record under the key of the new edge,
`DropObject(A, cascade = false)` throws the `DependencyException` "Cannot drop entry"
and leaves the state as it was, in every catalog `c` in which `B` is live at the time of
the drop and the schema of every dependents record can be found. -/
theorem C2_drop_blocked (D : Decls) (w w1 : World) (A B : CatalogEntry) (c : Catalog)
    (fuel : Nat)
    (hA : IsSystemEntry A = false) (hB : IsSystemEntry B = false)
    (hidx : B.type ≠ .INDEX_ENTRY)
    (hlive : c.Live B)
    (hfound : c.SchemasFound w.dependents)
    (hnew : ∀ r ∈ w.dependents, r.name ≠ MangledDependencyName (nodeOf D A) (nodeOf D B))
    (hadd : AddObject D w B [A] = .returned w1) :
    DropObject D fuel { w1 with catalog := c } A false
      = .threw (.DependencyException .CANNOT_DROP) { w1 with catalog := c } := by
  obtain ⟨-, -, hdeps, -, hsA, hsB⟩ := AddObject_one D w w1 A B hB hadd
  rw [view_CreateEntry_new _ _ _ _ hnew] at hdeps
  have hty : edgeTypeOf B = .DEPENDENCY_REGULAR := by simp [edgeTypeOf, hidx]
  rw [hty] at hdeps
  have hscan : DropObject.scan D { w1 with catalog := c } false
      (DependencyCatalogSet.Scan { mangled_name := nodeOf D A } w1.dependents) []
        = .error (.DependencyException .CANNOT_DROP) := by
    apply DropObject_scan_blocked D { w1 with catalog := c } false _ [] _
      (edgeOf D A B .DEPENDENCY_REGULAR)
    · rw [hdeps, Scan_append, Scan_own]
      simp
    · rw [GetDependencySet_of_mem D { w1 with catalog := c }
        (.dependency (edgeOf D A B .DEPENDENCY_REGULAR)) hsB]
      simp
    · exact LookupEntry_live D c B _ hlive rfl (by simp [edgeOf, edgeTo, GetSchema, hlive.1]) rfl
    · simp
    · rfl
    · intro r hr
      have hr' : r ∈ w1.dependents := by
        unfold DependencyCatalogSet.Scan CatalogSet.ScanWithPrefix at hr
        exact List.mem_of_mem_filter (List.mem_of_mem_filter hr)
      rw [hdeps] at hr'
      rcases List.mem_append.mp hr' with h | h
      · exact hfound r h
      · simp only [List.mem_singleton] at h
        subst h
        have := hlive.2.1
        simpa [edgeTo, GetSchema, hlive.1] using this
  have hbody : ∀ rec, DropObject.body D rec { w1 with catalog := c } A false
      = .threw (.DependencyException .CANNOT_DROP) { w1 with catalog := c } := by
    intro rec
    unfold DropObject.body
    simp only [hA, Bool.false_eq_true, if_false]
    rw [GetDependencySet_of_mem D { w1 with catalog := c } (.object A) hsA]
    simp only [DependencySetCatalogEntry.Dependents]
    rw [hscan]
  cases fuel with
  | zero => exact hbody _
  | succ n => exact hbody _

/-! ### Dropping records -/

theorem DropEntry_append_new {set : CatalogSet} {k : Str} (r : DependencyCatalogEntry)
    (h : ∀ x ∈ set, x.name ≠ k) (hr : r.name = k) :
    (CatalogSet.DropEntry (set ++ [r]) k).2 = set := by
  unfold CatalogSet.DropEntry
  simp only [List.filter_append]
  have h1 : set.filter (fun x => decide (x.name ≠ k)) = set := by
    rw [List.filter_eq_self]
    intro x hx
    simpa using h x hx
  have h2 : [r].filter (fun x => decide (x.name ≠ k)) = [] := by
    simp [hr]
  rw [h1, h2, List.append_nil]

theorem DropEntry_absent {set : CatalogSet} {k : Str} (h : ∀ x ∈ set, x.name ≠ k) :
    (CatalogSet.DropEntry set k).2 = set := by
  unfold CatalogSet.DropEntry
  simp only
  rw [List.filter_eq_self]
  intro x hx
  simpa using h x hx

/-! ### The catalog -/

theorem GetMapping_SetDeleted (c : Catalog) (s : Str) (t : CatalogType) (n : Str) (v : Bool)
    (s1 : Str) (t1 : CatalogType) (n1 : Str) :
    (c.SetDeleted s t n v).GetMapping s1 t1 n1
      = (c.GetMapping s1 t1 n1).map (fun m =>
          if m.entry.schema = s ∧ m.entry.type = t ∧ m.entry.name = n
          then { m with deleted := v } else m) := by
  unfold Catalog.GetMapping Catalog.SetDeleted
  simp only [List.find?_map]
  congr 1
  apply congrArg (fun p => List.find? p c.sets)
  funext m
  simp only [Function.comp]
  split_ifs <;> rfl

theorem GetSchemaIndex_SetDeleted (c : Catalog) (s : Str) (t : CatalogType) (n : Str) (v : Bool)
    (s1 : Str) : (c.SetDeleted s t n v).GetSchemaIndex s1 = c.GetSchemaIndex s1 := rfl

/-- An entry that was live and has been marked deleted no longer resolves. -/
theorem GetEntryInternal_SetDeleted (c : Catalog) (e : CatalogEntry) (h : c.Live e) :
    (c.SetDeleted e.schema e.type e.name true).GetEntryInternal e = none := by
  obtain ⟨h1, -, h3⟩ := h
  unfold Catalog.GetEntryInternal
  simp only [h1, if_false, GetMapping_SetDeleted, h3, Option.map_some']
  simp [Slot.GetEntryInternal]

/-! ### Dropping an object with one dependent -/

/-- The state after `AddObject(B, {A})` on two nodes without edges, followed by a drop
of `A` that the edge to `B` does not block, in a catalog `c` where `B` is live: `B` is
handed to its collection, marked deleted, and the two stores are as before
`AddObject`. -/
theorem DropObject_one_dependent (D : Decls) (w w1 : World) (A B : CatalogEntry) (c : Catalog)
    (fuel : Nat) (cascade : Bool)
    (hA : IsSystemEntry A = false) (hB : IsSystemEntry B = false)
    (hne : nodeOf D A ≠ nodeOf D B)
    (hlive : c.Live B)
    (hA1 : w.dependents.Free (nodeOf D A)) (hA2 : w.dependencies.Free (nodeOf D A))
    (hB1 : w.dependents.Free (nodeOf D B)) (hB2 : w.dependencies.Free (nodeOf D B))
    (hadd : AddObject D w B [A] = .returned w1)
    (hc : CascadeDrop cascade (edgeTypeOf B) = true) :
    DropObject D (fuel + 1) { w1 with catalog := c } A cascade
      = .returned { w1 with
          catalog := c.SetDeleted B.schema B.type B.name true
          dependents := w.dependents
          dependencies := w.dependencies
          dropped := w.dropped ++ [(B.schema, B.type, B.name)] } := by
  obtain ⟨-, hdr, hdeps, hdcs, hsA, hsB⟩ := AddObject_one D w w1 A B hB hadd
  rw [view_CreateEntry_new _ _ _ _ (Free_key_ne hA1 _)] at hdeps
  rw [view_CreateEntry_new _ _ _ _ (Free_key_ne hB2 _)] at hdcs
  have hlook : LookupEntry D c (.dependency (edgeOf D A B (edgeTypeOf B)))
      = .ok { set := some (B.schema, B.type),
              mapping_value := some { entry := B, deleted := false }, entry := some B } :=
    LookupEntry_live D c B _ hlive rfl (by simp [edgeOf, edgeTo, GetSchema, hlive.1]) rfl
  -- scans and removals
  have hsB1 : DependencyCatalogSet.Scan { mangled_name := nodeOf D B } w1.dependents = [] := by
    rw [hdeps, Scan_append, Scan_of_free _ _ hB1, Scan_other _ _ _ _ (Ne.symm hne)]
    rfl
  have hsB2 : DependencyCatalogSet.Scan { mangled_name := nodeOf D B } w1.dependencies
      = [edgeOf D B A D.defaultDependencyType] := by
    rw [hdcs, Scan_append, Scan_of_free _ _ hB2, Scan_own]
    rfl
  have hsA1 : DependencyCatalogSet.Scan { mangled_name := nodeOf D A } w1.dependents
      = [edgeOf D A B (edgeTypeOf B)] := by
    rw [hdeps, Scan_append, Scan_of_free _ _ hA1, Scan_own]
    rfl
  have e1 : (CatalogSet.DropEntry w1.dependents
      (MangledDependencyName
        (Entry.MangleName D (.dependency (edgeOf D B A D.defaultDependencyType)))
        (Entry.MangleName D (.dependencySet { mangledName := nodeOf D B })))).2
          = w.dependents := by
    rw [hdeps]
    exact DropEntry_append_new _ (Free_key_ne hA1 _) rfl
  have e2 : (CatalogSet.DropEntry w1.dependencies
      (MangledDependencyName (nodeOf D B)
        (Entry.MangleName D (.dependency (edgeOf D B A D.defaultDependencyType))))).2
          = w.dependencies := by
    rw [hdcs]
    exact DropEntry_append_new _ (Free_key_ne hB2 _) rfl
  have hmA : (DependencySetCatalogEntry.mk (Entry.MangleName D (Entry.object A)))
      ∈ w1.connections := hsA
  have hmA' : (DependencySetCatalogEntry.mk
      (Entry.MangleName D (Entry.dependency (edgeOf D B A D.defaultDependencyType))))
        ∈ w1.connections := hsA
  have hmB : (DependencySetCatalogEntry.mk (Entry.MangleName D (Entry.object B)))
      ∈ w1.connections := hsB
  have hmB' : (DependencySetCatalogEntry.mk
      (Entry.MangleName D (Entry.dependency (edgeOf D A B (edgeTypeOf B)))))
        ∈ w1.connections := hsB
  -- the nested drop of `B`
  have hinner : ∀ rec, DropObject.body D rec
      { w1 with
        catalog := c.SetDeleted B.schema B.type B.name true
        dropped := w.dropped ++ [(B.schema, B.type, B.name)] } B cascade
      = .returned
        { w1 with
          catalog := c.SetDeleted B.schema B.type B.name true
          dropped := w.dropped ++ [(B.schema, B.type, B.name)]
          dependents := w.dependents
          dependencies := w.dependencies } := by
    intro rec
    unfold DropObject.body CleanupDependencies
    simp only [hB, Bool.false_eq_true, if_false, GetDependencySet_eq, hmB, hmA', if_true,
      DependencySetCatalogEntry.Dependents, DependencySetCatalogEntry.Dependencies,
      hsB1, hsB2, DropObject.scan, DropObject.drop,
      CleanupDependencies.removeDependencies, CleanupDependencies.removeDependents,
      DependencySetCatalogEntry.RemoveDependent,
      DependencySetCatalogEntry.RemoveDependency, DependencyCatalogSet.DropEntry,
      DependencyCatalogSet.ApplyPrefix, e1, e2]
  have hrec : DropObject D fuel
      { w1 with
        catalog := c.SetDeleted B.schema B.type B.name true
        dropped := w.dropped ++ [(B.schema, B.type, B.name)] } B cascade
      = .returned
        { w1 with
          catalog := c.SetDeleted B.schema B.type B.name true
          dropped := w.dropped ++ [(B.schema, B.type, B.name)]
          dependents := w.dependents
          dependencies := w.dependencies } := by
    cases fuel with
    | zero => exact hinner _
    | succ n => exact hinner _
  -- the drop of `A`
  have hc' : CascadeDrop cascade (edgeOf D A B (edgeTypeOf B)).dependencyType = true := hc
  have hmap : c.GetMapping B.schema B.type B.name = some { entry := B, deleted := false } :=
    hlive.2.2
  show DropObject.body D (DropObject D fuel) _ A cascade = _
  unfold DropObject.body
  simp only [hA, Bool.false_eq_true, if_false, GetDependencySet_eq, hmA, hmB', if_true,
    DependencySetCatalogEntry.Dependents, hsA1, DropObject.scan, hlook, hc',
    Bool.not_true, List.nil_append, DropObject.drop, Catalog.DropEntry, hmap,
    Slot.GetEntryInternal, hdr, hrec]
  unfold CleanupDependencies
  simp only [GetDependencySet_eq, hmA, if_true,
    DependencySetCatalogEntry.Dependents, DependencySetCatalogEntry.Dependencies,
    Scan_of_free _ _ hA1, Scan_of_free _ _ hA2, CleanupDependencies.removeDependencies,
    CleanupDependencies.removeDependents]

theorem GetEntry_of_free (a x : Str) (set : CatalogSet) (h : set.Free a) :
    DependencyCatalogSet.GetEntry { mangled_name := a } set x = none := by
  unfold DependencyCatalogSet.GetEntry CatalogSet.GetEntry DependencyCatalogSet.ApplyPrefix
  rw [List.find?_eq_none]
  intro r hr
  simpa using Free_key_ne h x r hr

theorem GetEntry_append_new (a x : Str) (set : CatalogSet) (r : DependencyCatalogEntry)
    (h : ∀ y ∈ set, y.name ≠ MangledDependencyName a x)
    (hr : r.name = MangledDependencyName a x) :
    DependencyCatalogSet.GetEntry { mangled_name := a } (set ++ [r]) x = some r := by
  unfold DependencyCatalogSet.GetEntry CatalogSet.GetEntry DependencyCatalogSet.ApplyPrefix
  rw [List.find?_append]
  have : List.find? (fun y => decide (y.name = MangledDependencyName a x)) set = none := by
    rw [List.find?_eq_none]
    intro y hy
    simpa using h y hy
  rw [this]
  simp [hr]

/-- C3: after `AddObject(B, {A})` on two objects that are not system entries and have
no other edge, `DropObject(A, cascade = true)` returns, in every catalog `c` in which
`B` is live at the time of the drop; `B` has been handed to its collection, which has
dropped it, and no edge between `A` and `B` is left in either store. -/
theorem C3_drop_cascade (D : Decls) (w w1 : World) (A B : CatalogEntry) (c : Catalog)
    (fuel : Nat)
    (hA : IsSystemEntry A = false) (hB : IsSystemEntry B = false)
    (hne : nodeOf D A ≠ nodeOf D B)
    (hlive : c.Live B)
    (hA1 : w.dependents.Free (nodeOf D A)) (hA2 : w.dependencies.Free (nodeOf D A))
    (hB1 : w.dependents.Free (nodeOf D B)) (hB2 : w.dependencies.Free (nodeOf D B))
    (hadd : AddObject D w B [A] = .returned w1) :
    ∃ w2, DropObject D (fuel + 1) { w1 with catalog := c } A true = .returned w2 ∧
      (B.schema, B.type, B.name) ∈ w2.dropped ∧
      w2.catalog.GetEntryInternal B = none ∧
      DependencyCatalogSet.GetEntry { mangled_name := nodeOf D A } w2.dependents (nodeOf D B)
        = none ∧
      DependencyCatalogSet.GetEntry { mangled_name := nodeOf D B } w2.dependents (nodeOf D A)
        = none ∧
      DependencyCatalogSet.GetEntry { mangled_name := nodeOf D A } w2.dependencies (nodeOf D B)
        = none ∧
      DependencyCatalogSet.GetEntry { mangled_name := nodeOf D B } w2.dependencies (nodeOf D A)
        = none := by
  refine ⟨_, DropObject_one_dependent D w w1 A B c fuel true hA hB hne hlive hA1 hA2 hB1 hB2 hadd
    rfl, ?_, ?_, ?_, ?_, ?_, ?_⟩
  · simp
  · exact GetEntryInternal_SetDeleted c B hlive
  · exact GetEntry_of_free _ _ _ hA1
  · exact GetEntry_of_free _ _ _ hB1
  · exact GetEntry_of_free _ _ _ hA2
  · exact GetEntry_of_free _ _ _ hB2

theorem C3_drop_cascade_witness :
    ∃ w2, DropObject stdDecls 1
        { (AddObject stdDecls sampleWorld sampleView [sampleTable]).world with
          catalog := sampleCatalog } sampleTable true = .returned w2 ∧
      (sampleView.schema, sampleView.type, sampleView.name) ∈ w2.dropped ∧
      w2.catalog.GetEntryInternal sampleView = none ∧
      DependencyCatalogSet.GetEntry { mangled_name := nodeOf stdDecls sampleTable } w2.dependents
        (nodeOf stdDecls sampleView) = none ∧
      DependencyCatalogSet.GetEntry { mangled_name := nodeOf stdDecls sampleView } w2.dependents
        (nodeOf stdDecls sampleTable) = none ∧
      DependencyCatalogSet.GetEntry { mangled_name := nodeOf stdDecls sampleTable } w2.dependencies
        (nodeOf stdDecls sampleView) = none ∧
      DependencyCatalogSet.GetEntry { mangled_name := nodeOf stdDecls sampleView } w2.dependencies
        (nodeOf stdDecls sampleTable) = none :=
  C3_drop_cascade stdDecls sampleWorld _ sampleTable sampleView sampleCatalog 0 (by decide)
    (by decide) (by decide) (by decide) (by decide) (by decide) (by decide) (by decide)
    (by decide)

/-- C4: after `AddObject(I, {T})` for an index `I` (neither object a system entry, no
other edge on them), the edge registered on `T` is `AUTOMATIC`, `CascadeDrop` lets it
pass without cascade, and `DropObject(T, cascade = false)` returns, in every catalog `c`
in which `I` is live at the time of the drop, with `I` handed to its collection and
dropped. -/
theorem C4_index_dropped (D : Decls) (w w1 : World) (T I : CatalogEntry) (c : Catalog)
    (fuel : Nat)
    (hT : IsSystemEntry T = false) (hI : IsSystemEntry I = false)
    (hidx : I.type = .INDEX_ENTRY)
    (hne : nodeOf D T ≠ nodeOf D I)
    (hlive : c.Live I)
    (hT1 : w.dependents.Free (nodeOf D T)) (hT2 : w.dependencies.Free (nodeOf D T))
    (hI1 : w.dependents.Free (nodeOf D I)) (hI2 : w.dependencies.Free (nodeOf D I))
    (hadd : AddObject D w I [T] = .returned w1) :
    (∃ d, DependencyCatalogSet.GetEntry { mangled_name := nodeOf D T } w1.dependents
        (nodeOf D I) = some d ∧ d.dependencyType = .DEPENDENCY_AUTOMATIC) ∧
    CascadeDrop false .DEPENDENCY_AUTOMATIC = true ∧
    ∃ w2, DropObject D (fuel + 1) { w1 with catalog := c } T false = .returned w2 ∧
      (I.schema, I.type, I.name) ∈ w2.dropped ∧
      w2.catalog.GetEntryInternal I = none := by
  have hty : edgeTypeOf I = .DEPENDENCY_AUTOMATIC := by simp [edgeTypeOf, hidx]
  refine ⟨?_, rfl, _, DropObject_one_dependent D w w1 T I c fuel false hT hI hne hlive hT1 hT2
    hI1 hI2 hadd (by rw [hty]; rfl), ?_, ?_⟩
  · obtain ⟨-, -, hdeps, -, -, -⟩ := AddObject_one D w w1 T I hI hadd
    rw [view_CreateEntry_new _ _ _ _ (Free_key_ne hT1 _)] at hdeps
    rw [hdeps]
    exact ⟨_, GetEntry_append_new _ _ _ _ (Free_key_ne hT1 _) rfl, by simp [edgeTo, hty]⟩
  · simp
  · exact GetEntryInternal_SetDeleted c I hlive

theorem C4_index_dropped_witness :
    (∃ d, DependencyCatalogSet.GetEntry { mangled_name := nodeOf stdDecls sampleTable }
        (AddObject stdDecls sampleWorld sampleIndex [sampleTable]).world.dependents
        (nodeOf stdDecls sampleIndex) = some d ∧ d.dependencyType = .DEPENDENCY_AUTOMATIC) ∧
    CascadeDrop false .DEPENDENCY_AUTOMATIC = true ∧
    ∃ w2, DropObject stdDecls 1
        { (AddObject stdDecls sampleWorld sampleIndex [sampleTable]).world with
          catalog := sampleCatalog } sampleTable false = .returned w2 ∧
      (sampleIndex.schema, sampleIndex.type, sampleIndex.name) ∈ w2.dropped ∧
      w2.catalog.GetEntryInternal sampleIndex = none :=
  C4_index_dropped stdDecls sampleWorld _ sampleTable sampleIndex sampleCatalog 0 (by decide)
    (by decide) (by decide) (by decide) (by decide) (by decide) (by decide) (by decide)
    (by decide) (by decide)

theorem C2_drop_blocked_witness :
    DropObject stdDecls 0
        { (AddObject stdDecls sampleWorld sampleView [sampleTable]).world with
          catalog := sampleCatalog } sampleTable false
      = .threw (.DependencyException .CANNOT_DROP)
          { (AddObject stdDecls sampleWorld sampleView [sampleTable]).world with
            catalog := sampleCatalog } :=
  C2_drop_blocked stdDecls sampleWorld _ sampleTable sampleView sampleCatalog 0 (by decide)
    (by decide) (by decide) (by decide) (by decide) (by decide) (by decide)

/-! ### Keys of well-named objects -/

theorem Split_nodeOf_append (D : Decls) (e : CatalogEntry) (h : WellNamed D e) (rest : Str) :
    Split (MangledDependencyName (nodeOf D e) rest) NUL
      = D.CatalogTypeToString e.type :: GetSchema e :: e.name :: Split rest NUL := by
  obtain ⟨h1, h2, h3⟩ := h
  have e1 : MangledDependencyName (nodeOf D e) rest
      = D.CatalogTypeToString e.type ++ NUL :: (GetSchema e ++ NUL :: (e.name ++ NUL :: rest)) := by
    simp [MangledDependencyName, nodeOf, Entry.MangleName, MangleName]
  rw [e1, Split_append_sep _ _ NUL h1, Split_append_sep _ _ NUL h2, Split_append_sep _ _ NUL h3]

/-- The key of the edge from `a` to `b` is not the key of the edge from `b` to `a`. -/
theorem key_ne_swap (D : Decls) (a b : CatalogEntry) (ha : WellNamed D a) (hb : WellNamed D b)
    (hne : nodeOf D a ≠ nodeOf D b) :
    MangledDependencyName (nodeOf D a) (nodeOf D b)
      ≠ MangledDependencyName (nodeOf D b) (nodeOf D a) := by
  intro h
  have h1 := congrArg (fun s => Split s NUL) h
  simp only [Split_nodeOf_append D a ha, Split_nodeOf_append D b hb] at h1
  apply hne
  simp only [List.cons.injEq] at h1
  obtain ⟨e1, e2, e3, -⟩ := h1
  simp [nodeOf, Entry.MangleName, MangleName, e1, e2, e3]

/-! ### Lookups in a catalog with deleted entries -/

theorem LookupEntry_mapped (D : Decls) (c : Catalog) (d : DependencyCatalogEntry) (m : Slot)
    (hs : (c.GetSchemaIndex d.entrySchema).isSome = true) (ht : d.entryType ≠ .SCHEMA_ENTRY)
    (hm : c.GetMapping d.entrySchema d.entryType d.entryName = some m) :
    LookupEntry D c (.dependency d)
      = .ok { set := some (d.entrySchema, d.entryType), mapping_value := some m,
              entry := m.GetEntryInternal } := by
  unfold LookupEntry GetLookupProperties
  cases hsi : c.GetSchemaIndex d.entrySchema with
  | none => simp [hsi] at hs
  | some sl => simp [hsi, ht, hm]

/-- Marking another entry deleted leaves a live entry live. -/
theorem Live_SetDeleted (c : Catalog) (e x : CatalogEntry) (v : Bool) (h : c.Live e)
    (hne : ¬ (e.schema = x.schema ∧ e.type = x.type ∧ e.name = x.name)) :
    (c.SetDeleted x.schema x.type x.name v).Live e := by
  obtain ⟨h1, h2, h3⟩ := h
  refine ⟨h1, h2, ?_⟩
  rw [GetMapping_SetDeleted, h3]
  simp [hne]

/-- Two objects that are not schemas and have different nodes have different
identities. -/
theorem identity_ne (D : Decls) (e x : CatalogEntry)
    (hx : x.type ≠ .SCHEMA_ENTRY) (hne : nodeOf D e ≠ nodeOf D x) :
    ¬ (e.schema = x.schema ∧ e.type = x.type ∧ e.name = x.name) := by
  rintro ⟨h1, h2, h3⟩
  apply hne
  simp [nodeOf, Entry.MangleName, GetSchema, hx, h1, h2, h3]

/-! ### The state after `AddOwnership` -/

theorem AddOwnership_fresh (D : Decls) (w w1 : World) (O E : CatalogEntry)
    (hnO : WellNamed D O) (hnE : WellNamed D E) (hne : nodeOf D O ≠ nodeOf D E)
    (hO1 : w.dependents.Free (nodeOf D O)) (hO2 : w.dependencies.Free (nodeOf D O))
    (hE1 : w.dependents.Free (nodeOf D E))
    (hown : AddOwnership D w O E = .returned w1) :
    IsSystemEntry O = false ∧ IsSystemEntry E = false ∧
    w1.catalog = w.catalog ∧ w1.dropped = w.dropped ∧
    w1.dependents = w.dependents ++ [edgeOf D E O .DEPENDENCY_OWNED_BY, edgeOf D O E .DEPENDENCY_OWNS] ∧
    w1.dependencies = w.dependencies ++ [edgeOf D O E D.defaultDependencyType] ∧
    ({ mangledName := nodeOf D O } : DependencySetCatalogEntry) ∈ w1.connections ∧
    ({ mangledName := nodeOf D E } : DependencySetCatalogEntry) ∈ w1.connections := by
  unfold AddOwnership at hown
  cases hE : IsSystemEntry E with
  | true => simp [hE] at hown
  | false =>
    cases hO : IsSystemEntry O with
    | true => simp [hE, hO] at hown
    | false =>
      simp only [hE, hO, Bool.false_eq_true, if_false, GetOrCreate_snd, GetOrCreate_dependents,
        DependencySetCatalogEntry.Dependents, Scan_of_free _ _ hO1, Scan_of_free _ _ hE1,
        List.any_nil, AddOwnership.scan, Outcome.returned.injEq] at hown
      subst hown
      simp only [DependencySetCatalogEntry.AddDependent, DependencySetCatalogEntry.AddDependency,
        DependencySetCatalogEntry.Dependents, DependencySetCatalogEntry.Dependencies,
        GetOrCreate_dependents, GetOrCreate_dependencies, GetOrCreate_catalog,
        GetOrCreate_dropped]
      refine ⟨trivial, trivial, trivial, trivial, ?_, ?_, ?_, ?_⟩
      · rw [view_CreateEntry_new _ _ _ _ (Free_key_ne hE1 _)]
        rw [view_CreateEntry_new]
        · simp [edgeOf]
        · intro r hr
          rcases List.mem_append.mp hr with h | h
          · exact Free_key_ne hO1 _ r h
          · simp only [List.mem_singleton] at h
            subst h
            exact key_ne_swap D E O hnE hnO (Ne.symm hne)
      · rw [view_CreateEntry_new _ _ _ _ (Free_key_ne hO2 _)]
      · apply GetOrCreate_mono
        exact GetOrCreate_mem D w (.object O)
      · exact GetOrCreate_mem D _ (.object E)

/-! ### Dropping the owner -/

/-- C5 (amended): after `AddOwnership(owner, entry)` on two live objects without other edges,
the drop of `owner` without cascade goes through.  While `owner` is dropped it is pending
deletion: its collection has marked it deleted before it calls
`DropObject(owner, cascade = false)`.  The call returns for every fuel above zero,
`entry` has been handed to its collection and dropped, and the two stores are as they
were before `AddOwnership`. -/
theorem C5_owner_drop (D : Decls) (w w1 : World) (O E : CatalogEntry) (fuel : Nat)
    (hnO : WellNamed D O) (hnE : WellNamed D E) (hne : nodeOf D O ≠ nodeOf D E)
    (hliveO : w.catalog.Live O) (hliveE : w.catalog.Live E)
    (hO1 : w.dependents.Free (nodeOf D O)) (hO2 : w.dependencies.Free (nodeOf D O))
    (hE1 : w.dependents.Free (nodeOf D E)) (hE2 : w.dependencies.Free (nodeOf D E))
    (hown : AddOwnership D w O E = .returned w1) :
    ∃ w2, DropObject D (fuel + 1)
        { w1 with catalog := w1.catalog.SetDeleted O.schema O.type O.name true } O false
          = .returned w2 ∧
      (E.schema, E.type, E.name) ∈ w2.dropped ∧
      w2.catalog.GetEntryInternal E = none ∧
      w2.dependents = w.dependents ∧ w2.dependencies = w.dependencies := by
  obtain ⟨hsO, hsE, hcat, hdr, hdeps, hdcs, hmO, hmE⟩ :=
    AddOwnership_fresh D w w1 O E hnO hnE hne hO1 hO2 hE1 hown
  have hidOE : ¬ (E.schema = O.schema ∧ E.type = O.type ∧ E.name = O.name) :=
    identity_ne D E O hliveO.1 (Ne.symm hne)
  have hidEO : ¬ (O.schema = E.schema ∧ O.type = E.type ∧ O.name = E.name) :=
    identity_ne D O E hliveE.1 hne
  have hkey : MangledDependencyName (nodeOf D E) (nodeOf D O)
      ≠ MangledDependencyName (nodeOf D O) (nodeOf D E) :=
    key_ne_swap D E O hnE hnO (Ne.symm hne)
  -- the catalog while `owner` is being dropped, and while `entry` is
  have hliveE1 : (w.catalog.SetDeleted O.schema O.type O.name true).Live E :=
    Live_SetDeleted _ E O true hliveE hidOE
  have hmapO : ((w.catalog.SetDeleted O.schema O.type O.name true).SetDeleted
      E.schema E.type E.name true).GetMapping O.schema O.type O.name
        = some { entry := O, deleted := true } := by
    rw [GetMapping_SetDeleted, GetMapping_SetDeleted, hliveO.2.2]
    simp [hidEO]
  have hlookO : LookupEntry D ((w.catalog.SetDeleted O.schema O.type O.name true).SetDeleted
      E.schema E.type E.name true) (.dependency (edgeOf D E O .DEPENDENCY_OWNED_BY))
        = .ok { set := some (O.schema, O.type),
                mapping_value := some { entry := O, deleted := true }, entry := none } := by
    have hsch : (edgeOf D E O .DEPENDENCY_OWNED_BY).entrySchema = O.schema := by
      simp [edgeOf, edgeTo, GetSchema, hliveO.1]
    have := LookupEntry_mapped D ((w.catalog.SetDeleted O.schema O.type O.name true).SetDeleted
      E.schema E.type E.name true) (edgeOf D E O .DEPENDENCY_OWNED_BY)
      { entry := O, deleted := true } (by rw [hsch]; exact hliveO.2.1) hliveO.1
      (by rw [hsch]; exact hmapO)
    rw [this, hsch]
    rfl
  have hlookE : LookupEntry D (w.catalog.SetDeleted O.schema O.type O.name true)
      (.dependency (edgeOf D O E .DEPENDENCY_OWNS))
        = .ok { set := some (E.schema, E.type),
                mapping_value := some { entry := E, deleted := false }, entry := some E } :=
    LookupEntry_live D _ E _ hliveE1 rfl (by simp [edgeOf, edgeTo, GetSchema, hliveE.1]) rfl
  -- scans of the two nodes
  have hscanE : DependencyCatalogSet.Scan { mangled_name := nodeOf D E } w1.dependents
      = [edgeOf D E O .DEPENDENCY_OWNED_BY] := by
    have : w1.dependents = (w.dependents ++ [edgeOf D E O .DEPENDENCY_OWNED_BY])
        ++ [edgeOf D O E .DEPENDENCY_OWNS] := by rw [hdeps]; simp
    rw [this, Scan_append, Scan_append, Scan_of_free _ _ hE1, Scan_own,
      Scan_other _ _ _ _ (Ne.symm hne)]
    rfl
  have hscanE2 : DependencyCatalogSet.Scan { mangled_name := nodeOf D E } w1.dependencies
      = [] := by
    rw [hdcs, Scan_append, Scan_of_free _ _ hE2, Scan_other _ _ _ _ (Ne.symm hne)]
    rfl
  have hscanO : DependencyCatalogSet.Scan { mangled_name := nodeOf D O } w1.dependents
      = [edgeOf D O E .DEPENDENCY_OWNS] := by
    have : w1.dependents = (w.dependents ++ [edgeOf D E O .DEPENDENCY_OWNED_BY])
        ++ [edgeOf D O E .DEPENDENCY_OWNS] := by rw [hdeps]; simp
    rw [this, Scan_append, Scan_append, Scan_of_free _ _ hO1, Scan_other _ _ _ _ hne, Scan_own]
    rfl
  -- removals
  have hrm1 : (CatalogSet.DropEntry w1.dependencies
      (MangledDependencyName (nodeOf D O) (nodeOf D E))).2 = w.dependencies := by
    rw [hdcs]
    exact DropEntry_append_new _ (Free_key_ne hO2 _) rfl
  have hrm2 : (CatalogSet.DropEntry w1.dependents
      (MangledDependencyName (nodeOf D E) (nodeOf D O))).2
        = w.dependents ++ [edgeOf D O E .DEPENDENCY_OWNS] := by
    rw [hdeps]
    unfold CatalogSet.DropEntry
    simp only [List.filter_append]
    have h1 : w.dependents.filter
        (fun x => decide (x.name ≠ MangledDependencyName (nodeOf D E) (nodeOf D O)))
          = w.dependents := by
      rw [List.filter_eq_self]
      intro x hx
      simpa using Free_key_ne hE1 _ x hx
    rw [h1]
    simp [edgeOf, hkey.symm]
  have hrm3 : (CatalogSet.DropEntry w.dependencies
      (MangledDependencyName (nodeOf D E) (nodeOf D O))).2 = w.dependencies :=
    DropEntry_absent (Free_key_ne hE2 _)
  have hrm4 : (CatalogSet.DropEntry (w.dependents ++ [edgeOf D O E .DEPENDENCY_OWNS])
      (MangledDependencyName (nodeOf D O) (nodeOf D E))).2 = w.dependents :=
    DropEntry_append_new _ (Free_key_ne hO1 _) rfl
  have hscanO' : DependencyCatalogSet.Scan { mangled_name := nodeOf D O }
      (w.dependents ++ [edgeOf D O E .DEPENDENCY_OWNS]) = [edgeOf D O E .DEPENDENCY_OWNS] := by
    rw [Scan_append, Scan_of_free _ _ hO1, Scan_own]
    rfl
  -- the nested drop of `entry`
  have hinner : ∀ rec, DropObject.body D rec
      { w1 with
        catalog := (w.catalog.SetDeleted O.schema O.type O.name true).SetDeleted
          E.schema E.type E.name true
        dropped := w.dropped ++ [(E.schema, E.type, E.name)] } E false
      = .returned
        { w1 with
          catalog := (w.catalog.SetDeleted O.schema O.type O.name true).SetDeleted
            E.schema E.type E.name true
          dropped := w.dropped ++ [(E.schema, E.type, E.name)]
          dependents := w.dependents ++ [edgeOf D O E .DEPENDENCY_OWNS]
          dependencies := w.dependencies } := by
    intro rec
    have hmO' : (DependencySetCatalogEntry.mk
        (Entry.MangleName D (Entry.dependency (edgeOf D E O .DEPENDENCY_OWNED_BY))))
          ∈ w1.connections := hmO
    have hmE' : (DependencySetCatalogEntry.mk (Entry.MangleName D (Entry.object E)))
          ∈ w1.connections := hmE
    have e1 : (CatalogSet.DropEntry w1.dependencies
        (MangledDependencyName (Entry.MangleName D (.dependency (edgeOf D E O .DEPENDENCY_OWNED_BY)))
          (Entry.MangleName D (.dependencySet { mangledName := nodeOf D E })))).2
            = w.dependencies := hrm1
    have e2 : (CatalogSet.DropEntry w1.dependents
        (MangledDependencyName (nodeOf D E)
          (Entry.MangleName D (.dependency (edgeOf D E O .DEPENDENCY_OWNED_BY))))).2
            = w.dependents ++ [edgeOf D O E .DEPENDENCY_OWNS] := hrm2
    unfold DropObject.body CleanupDependencies
    simp only [hsE, Bool.false_eq_true, if_false, GetDependencySet_eq, hmE', hmO', if_true,
      DependencySetCatalogEntry.Dependents, DependencySetCatalogEntry.Dependencies,
      hscanE, hscanE2, DropObject.scan, hlookO, DropObject.drop,
      CleanupDependencies.removeDependencies, CleanupDependencies.removeDependents,
      DependencySetCatalogEntry.RemoveDependent,
      DependencySetCatalogEntry.RemoveDependency, DependencyCatalogSet.DropEntry,
      DependencyCatalogSet.ApplyPrefix, e1, e2]
  have hrec : DropObject D fuel
      { w1 with
        catalog := (w.catalog.SetDeleted O.schema O.type O.name true).SetDeleted
          E.schema E.type E.name true
        dropped := w.dropped ++ [(E.schema, E.type, E.name)] } E false
      = .returned
        { w1 with
          catalog := (w.catalog.SetDeleted O.schema O.type O.name true).SetDeleted
            E.schema E.type E.name true
          dropped := w.dropped ++ [(E.schema, E.type, E.name)]
          dependents := w.dependents ++ [edgeOf D O E .DEPENDENCY_OWNS]
          dependencies := w.dependencies } := by
    cases fuel with
    | zero => exact hinner _
    | succ n => exact hinner _
  -- the drop of `owner`
  have hmO' : (DependencySetCatalogEntry.mk (Entry.MangleName D (Entry.object O)))
      ∈ w1.connections := hmO
  have hmE' : (DependencySetCatalogEntry.mk
      (Entry.MangleName D (Entry.dependency (edgeOf D O E .DEPENDENCY_OWNS))))
        ∈ w1.connections := hmE
  have hmapE : (w.catalog.SetDeleted O.schema O.type O.name true).GetMapping E.schema E.type
      E.name = some { entry := E, deleted := false } := hliveE1.2.2
  have e3 : (CatalogSet.DropEntry w.dependencies
      (MangledDependencyName (Entry.MangleName D (.dependency (edgeOf D O E .DEPENDENCY_OWNS)))
        (Entry.MangleName D (.dependencySet { mangledName := nodeOf D O })))).2
          = w.dependencies := hrm3
  have e4 : (CatalogSet.DropEntry (w.dependents ++ [edgeOf D O E .DEPENDENCY_OWNS])
      (MangledDependencyName (nodeOf D O)
        (Entry.MangleName D (.dependency (edgeOf D O E .DEPENDENCY_OWNS))))).2
          = w.dependents := hrm4
  have hc : CascadeDrop false (edgeOf D O E .DEPENDENCY_OWNS).dependencyType = true := rfl
  have hfinal : DropObject D (fuel + 1)
      { w1 with catalog := w1.catalog.SetDeleted O.schema O.type O.name true } O false
      = .returned
        { w1 with
          catalog := (w.catalog.SetDeleted O.schema O.type O.name true).SetDeleted
            E.schema E.type E.name true
          dropped := w.dropped ++ [(E.schema, E.type, E.name)]
          dependents := w.dependents
          dependencies := w.dependencies } := by
    show DropObject.body D (DropObject D fuel) _ O false = _
    unfold DropObject.body
    simp only [hsO, Bool.false_eq_true, if_false, GetDependencySet_eq, hmO', hmE', if_true,
      DependencySetCatalogEntry.Dependents, hscanO, DropObject.scan, hcat, hlookE, hc,
      Bool.not_true, List.nil_append, DropObject.drop, Catalog.DropEntry, hmapE,
      Slot.GetEntryInternal, hdr, hrec]
    unfold CleanupDependencies
    simp only [GetDependencySet_eq, hmO', hmE', if_true,
      DependencySetCatalogEntry.Dependents, DependencySetCatalogEntry.Dependencies,
      hscanO', Scan_of_free _ _ hO2, CleanupDependencies.removeDependencies,
      CleanupDependencies.removeDependents, DependencySetCatalogEntry.RemoveDependent,
      DependencySetCatalogEntry.RemoveDependency, DependencyCatalogSet.DropEntry,
      DependencyCatalogSet.ApplyPrefix, e3, e4]
  refine ⟨_, hfinal, ?_, ?_, rfl, rfl⟩
  · simp
  · exact GetEntryInternal_SetDeleted _ E hliveE1

theorem C5_owner_drop_witness :
    ∃ w2, DropObject stdDecls 1
        { (AddOwnership stdDecls sampleWorld sampleTable sampleSequence).world with
          catalog := (AddOwnership stdDecls sampleWorld sampleTable sampleSequence).world.catalog.SetDeleted
            sampleTable.schema sampleTable.type sampleTable.name true } sampleTable false
          = .returned w2 ∧
      (sampleSequence.schema, sampleSequence.type, sampleSequence.name) ∈ w2.dropped ∧
      w2.catalog.GetEntryInternal sampleSequence = none ∧
      w2.dependents = sampleWorld.dependents ∧ w2.dependencies = sampleWorld.dependencies :=
  C5_owner_drop stdDecls sampleWorld _ sampleTable sampleSequence 0 (by decide) (by decide)
    (by decide) (by decide) (by decide) (by decide) (by decide) (by decide) (by decide)
    (by decide)

/-! ### The state after `AddOwnership`, in general -/

theorem mem_CreateEntry (v : DependencyCatalogSet) (set : CatalogSet) (x : Str)
    (value r : DependencyCatalogEntry) (h : r ∈ set) : r ∈ (v.CreateEntry set x value).2 := by
  unfold DependencyCatalogSet.CreateEntry CatalogSet.CreateEntry
  simp only
  split_ifs
  · exact h
  · exact List.mem_append_left _ h

theorem mem_Scan (a : Str) (set : CatalogSet) (r : DependencyCatalogEntry) (h : r ∈ set)
    (hf : r.fromName = a) (hp : a.isPrefixOf r.name = true) :
    r ∈ DependencyCatalogSet.Scan { mangled_name := a } set := by
  unfold DependencyCatalogSet.Scan CatalogSet.ScanWithPrefix
  rw [List.mem_filter, List.mem_filter]
  exact ⟨⟨h, hp⟩, by rw [hf]; exact CIEquals_self a⟩

/-- What `AddOwnership` leaves behind when it returns: neither object is a system
entry, both have a dependency set, and the record of the `OWNED_BY` edge is in the
dependents store when no record had its key. -/
theorem AddOwnership_returned (D : Decls) (w w1 : World) (O E : CatalogEntry)
    (hkey : ∀ r ∈ w.dependents, r.name ≠ MangledDependencyName (nodeOf D E) (nodeOf D O))
    (hown : AddOwnership D w O E = .returned w1) :
    IsSystemEntry O = false ∧ IsSystemEntry E = false ∧
    w1.catalog = w.catalog ∧ w1.dropped = w.dropped ∧
    edgeOf D E O .DEPENDENCY_OWNED_BY ∈ w1.dependents ∧
    ({ mangledName := nodeOf D O } : DependencySetCatalogEntry) ∈ w1.connections ∧
    ({ mangledName := nodeOf D E } : DependencySetCatalogEntry) ∈ w1.connections := by
  unfold AddOwnership at hown
  cases hE : IsSystemEntry E with
  | true => simp [hE] at hown
  | false =>
    cases hO : IsSystemEntry O with
    | true => simp [hE, hO] at hown
    | false =>
      simp only [hE, hO, Bool.false_eq_true, if_false] at hown
      split_ifs at hown
      split at hown
      · exact Outcome.noConfusion hown
      · simp only [Outcome.returned.injEq] at hown
        subst hown
        simp only [DependencySetCatalogEntry.AddDependent,
          DependencySetCatalogEntry.AddDependency, DependencySetCatalogEntry.Dependents,
          DependencySetCatalogEntry.Dependencies, GetOrCreate_dependents,
          GetOrCreate_dependencies, GetOrCreate_catalog, GetOrCreate_dropped, GetOrCreate_snd]
        refine ⟨trivial, trivial, trivial, trivial, ?_, ?_, ?_⟩
        · apply mem_CreateEntry
          rw [view_CreateEntry_new _ _ _ _ hkey]
          simp [edgeOf]
        · apply GetOrCreate_mono
          exact GetOrCreate_mem D w (.object O)
        · exact GetOrCreate_mem D _ (.object E)

/-- C6: after `AddOwnership(owner, entry)` has returned (with `owner` not already
recorded as a dependent of `entry`), `DropObject(entry, cascade = false)` does not remove
`owner`, in every catalog `c` in which `owner` is live at the time of the drop: the call
throws while it scans the dependents, the state is the one before the call, so nothing
has been handed to a collection for dropping, and `owner` still resolves. -/
theorem C6_entry_drop_keeps_owner (D : Decls) (w w1 : World) (O E : CatalogEntry) (c : Catalog)
    (fuel : Nat)
    (hliveO : c.Live O)
    (hkey : ∀ r ∈ w.dependents, r.name ≠ MangledDependencyName (nodeOf D E) (nodeOf D O))
    (hown : AddOwnership D w O E = .returned w1) :
    ∃ e, DropObject D fuel { w1 with catalog := c } E false
        = .threw e { w1 with catalog := c } ∧
      (DropObject D fuel { w1 with catalog := c } E false).world.dropped = w1.dropped ∧
      (DropObject D fuel { w1 with catalog := c } E false).world.catalog.GetEntryInternal O
        = some O := by
  obtain ⟨-, hsE, -, -, hmem, hmO, hmE⟩ := AddOwnership_returned D w w1 O E hkey hown
  have hlook := LookupEntry_live D c O (edgeOf D E O .DEPENDENCY_OWNED_BY) hliveO rfl
    (by simp [edgeOf, edgeTo, GetSchema, hliveO.1]) rfl
  obtain ⟨e, he⟩ := DropObject_scan_fails D { w1 with catalog := c } false
    (DependencyCatalogSet.Scan { mangled_name := nodeOf D E } w1.dependents) []
    (edgeOf D E O .DEPENDENCY_OWNED_BY)
    (mem_Scan _ _ _ hmem rfl (applied_isPrefixOf _ _))
    (by rw [GetDependencySet_of_mem D { w1 with catalog := c }
          (.dependency (edgeOf D E O .DEPENDENCY_OWNED_BY)) hmO]
        simp)
    _ hlook (by simp) rfl
  have hbody : ∀ rec, DropObject.body D rec { w1 with catalog := c } E false
      = .threw e { w1 with catalog := c } := by
    intro rec
    unfold DropObject.body
    simp only [hsE, Bool.false_eq_true, if_false]
    rw [GetDependencySet_of_mem D { w1 with catalog := c } (.object E) hmE]
    simp only [DependencySetCatalogEntry.Dependents]
    rw [he]
  have hres : DropObject D fuel { w1 with catalog := c } E false
      = .threw e { w1 with catalog := c } := by
    cases fuel with
    | zero => exact hbody _
    | succ n => exact hbody _
  refine ⟨e, hres, ?_, ?_⟩
  · rw [hres]; rfl
  · rw [hres]
    show c.GetEntryInternal O = some O
    unfold Catalog.GetEntryInternal
    simp [hliveO.1, hliveO.2.2, Slot.GetEntryInternal]

theorem C6_entry_drop_keeps_owner_witness :
    ∃ e, DropObject stdDecls 1
        { (AddOwnership stdDecls sampleWorld sampleTable sampleSequence).world with
          catalog := sampleCatalog } sampleSequence false
          = .threw e { (AddOwnership stdDecls sampleWorld sampleTable sampleSequence).world with
              catalog := sampleCatalog } ∧
      (DropObject stdDecls 1
        { (AddOwnership stdDecls sampleWorld sampleTable sampleSequence).world with
          catalog := sampleCatalog } sampleSequence false).world.dropped
          = (AddOwnership stdDecls sampleWorld sampleTable sampleSequence).world.dropped ∧
      (DropObject stdDecls 1
        { (AddOwnership stdDecls sampleWorld sampleTable sampleSequence).world with
          catalog := sampleCatalog } sampleSequence false).world.catalog.GetEntryInternal
            sampleTable = some sampleTable :=
  C6_entry_drop_keeps_owner stdDecls sampleWorld _ sampleTable sampleSequence sampleCatalog 1
    (by decide) (by decide) (by decide)

/-- C8: after `AddOwnership(X, Y)` has returned (with `X` not already recorded as a
dependent of `Y`), `AddOwnership(Y, X)` throws the `DependencyException` that
`AddOwnership` throws for its conflicts, here "already owned by", raised by the first
check; the state is the one before the call, so no edge has been added. -/
theorem C8_ownership_cycle_rejected (D : Decls) (w w1 : World) (X Y : CatalogEntry)
    (hkey : ∀ r ∈ w.dependents, r.name ≠ MangledDependencyName (nodeOf D Y) (nodeOf D X))
    (hown : AddOwnership D w X Y = .returned w1) :
    AddOwnership D w1 Y X = .threw (.DependencyException .ALREADY_OWNED_BY) w1 := by
  obtain ⟨hsX, hsY, -, -, hmem, -, hmY⟩ := AddOwnership_returned D w w1 X Y hkey hown
  unfold AddOwnership
  simp only [hsX, hsY, Bool.false_eq_true, if_false]
  rw [GetOrCreate_of_mem D w1 (.object Y) hmY]
  have hany : (DependencyCatalogSet.Scan { mangled_name := nodeOf D Y } w1.dependents).any
      (fun dependent_entry => decide (dependent_entry.dependencyType = .DEPENDENCY_OWNED_BY))
        = true := by
    rw [List.any_eq_true]
    exact ⟨_, mem_Scan _ _ _ hmem rfl (applied_isPrefixOf _ _), by simp [edgeOf, edgeTo]⟩
  simp only [DependencySetCatalogEntry.Dependents]
  rw [if_pos hany]

theorem C8_ownership_cycle_rejected_witness :
    AddOwnership stdDecls (AddOwnership stdDecls sampleWorld sampleTable sampleSequence).world
        sampleSequence sampleTable
      = .threw (.DependencyException .ALREADY_OWNED_BY)
          (AddOwnership stdDecls sampleWorld sampleTable sampleSequence).world :=
  C8_ownership_cycle_rejected stdDecls sampleWorld _ sampleTable sampleSequence (by decide)
    (by decide)

/-! ### What the scan of `DropObject` collects -/

/-- C7 (as stated, refuted): with `cascade = true` the owner is collected and dropped.
After `AddOwnership(t, s)`, the scan of `DropObject(s, cascade = true)` collects the
lookup of the owner `t`, the call returns, and `t` has been handed to its collection
and no longer resolves; the same happens when the collection of `s` has marked `s`
deleted before the call. -/
theorem C7_counterexample :
    (AddOwnership stdDecls sampleWorld sampleTable sampleSequence).isReturned = true ∧
    (DropObject.scan stdDecls (AddOwnership stdDecls sampleWorld sampleTable sampleSequence).world
        true
        (DependencyCatalogSet.Scan { mangled_name := nodeOf stdDecls sampleSequence }
          (AddOwnership stdDecls sampleWorld sampleTable sampleSequence).world.dependents) []
      = .ok [{ set := some (sampleTable.schema, sampleTable.type),
               mapping_value := some { entry := sampleTable, deleted := false },
               entry := some sampleTable }]) ∧
    (DropObject stdDecls 2 (AddOwnership stdDecls sampleWorld sampleTable sampleSequence).world
        sampleSequence true).isReturned = true ∧
    (sampleTable.schema, sampleTable.type, sampleTable.name)
      ∈ (DropObject stdDecls 2 (AddOwnership stdDecls sampleWorld sampleTable sampleSequence).world
          sampleSequence true).world.dropped ∧
    (DropObject stdDecls 2 (AddOwnership stdDecls sampleWorld sampleTable sampleSequence).world
        sampleSequence true).world.catalog.GetEntryInternal sampleTable = none ∧
    (DropObject stdDecls 2
        { (AddOwnership stdDecls sampleWorld sampleTable sampleSequence).world with
          catalog := sampleCatalog.SetDeleted sampleSequence.schema sampleSequence.type
            sampleSequence.name true }
        sampleSequence true).isReturned = true ∧
    (sampleTable.schema, sampleTable.type, sampleTable.name)
      ∈ (DropObject stdDecls 2
          { (AddOwnership stdDecls sampleWorld sampleTable sampleSequence).world with
            catalog := sampleCatalog.SetDeleted sampleSequence.schema sampleSequence.type
              sampleSequence.name true }
          sampleSequence true).world.dropped := by
  decide

/-- C7 (amended): when cascade is not requested, an edge of type `OWNED_BY` is never
collected for dropping: every lookup that the scan of `DropObject` adds to `to_drop`
comes from a Dependents edge of type `AUTOMATIC` or `OWNS`. -/
theorem C7_owned_by_not_collected (D : Decls) (w : World) (L : List DependencyCatalogEntry)
    (acc to_drop : List LookupResult)
    (h : DropObject.scan D w false L acc = .ok to_drop) :
    ∀ l ∈ to_drop, l ∈ acc ∨
      ∃ d ∈ L, (d.dependencyType = .DEPENDENCY_AUTOMATIC ∨ d.dependencyType = .DEPENDENCY_OWNS) ∧
        LookupEntry D w.catalog (.dependency d) = .ok l := by
  induction L generalizing acc with
  | nil =>
    simp only [DropObject.scan, Except.ok.injEq] at h
    subst h
    intro l hl
    exact Or.inl hl
  | cons x rest ih =>
    have lift : (∀ l ∈ to_drop, l ∈ acc ∨ ∃ d ∈ rest,
        (d.dependencyType = .DEPENDENCY_AUTOMATIC ∨ d.dependencyType = .DEPENDENCY_OWNS) ∧
          LookupEntry D w.catalog (.dependency d) = .ok l) →
        ∀ l ∈ to_drop, l ∈ acc ∨ ∃ d ∈ x :: rest,
          (d.dependencyType = .DEPENDENCY_AUTOMATIC ∨ d.dependencyType = .DEPENDENCY_OWNS) ∧
            LookupEntry D w.catalog (.dependency d) = .ok l := by
      intro hyp l hl
      rcases hyp l hl with h1 | ⟨d, hd, h2⟩
      · exact Or.inl h1
      · exact Or.inr ⟨d, List.mem_cons_of_mem _ hd, h2⟩
    unfold DropObject.scan at h
    cases hs : GetDependencySet D w (.dependency x) with
    | none =>
      simp only [hs] at h
      exact lift (ih acc h)
    | some s =>
      simp only [hs] at h
      cases hlx : LookupEntry D w.catalog (.dependency x) with
      | error e => simp [hlx] at h
      | ok lx =>
        simp only [hlx] at h
        cases hle : lx.entry with
        | none =>
          simp only [hle] at h
          exact lift (ih acc h)
        | some e0 =>
          simp only [hle] at h
          split_ifs at h with hc
          have hty : x.dependencyType = .DEPENDENCY_AUTOMATIC ∨
              x.dependencyType = .DEPENDENCY_OWNS := by
            unfold CascadeDrop at hc
            simp only [Bool.false_eq_true, if_false] at hc
            by_cases h1 : x.dependencyType = .DEPENDENCY_AUTOMATIC
            · exact Or.inl h1
            · by_cases h2 : x.dependencyType = .DEPENDENCY_OWNS
              · exact Or.inr h2
              · simp [h1, h2] at hc
          intro l hl
          rcases ih _ h l hl with h1 | ⟨d, hd, h2⟩
          · rcases List.mem_append.mp h1 with h3 | h3
            · exact Or.inl h3
            · simp only [List.mem_singleton] at h3
              subst h3
              exact Or.inr ⟨x, List.mem_cons_self _ _, hty, hlx⟩
          · exact Or.inr ⟨d, List.mem_cons_of_mem _ hd, h2⟩

theorem C7_owned_by_not_collected_witness :
    ({ set := some (sampleIndex.schema, sampleIndex.type),
       mapping_value := some { entry := sampleIndex, deleted := false },
       entry := some sampleIndex } : LookupResult) ∈ ([] : List LookupResult) ∨
    ∃ d ∈ DependencyCatalogSet.Scan { mangled_name := nodeOf stdDecls sampleTable }
        (AddObject stdDecls sampleWorld sampleIndex [sampleTable]).world.dependents,
      (d.dependencyType = .DEPENDENCY_AUTOMATIC ∨ d.dependencyType = .DEPENDENCY_OWNS) ∧
        LookupEntry stdDecls (AddObject stdDecls sampleWorld sampleIndex [sampleTable]).world.catalog
          (.dependency d)
          = .ok { set := some (sampleIndex.schema, sampleIndex.type),
                  mapping_value := some { entry := sampleIndex, deleted := false },
                  entry := some sampleIndex } :=
  C7_owned_by_not_collected stdDecls (AddObject stdDecls sampleWorld sampleIndex [sampleTable]).world
    _ [] [{ set := some (sampleIndex.schema, sampleIndex.type),
            mapping_value := some { entry := sampleIndex, deleted := false },
            entry := some sampleIndex }] (by decide) _ (List.mem_singleton_self _)

/-! ### The scans of `AlterObject` -/

/-- A record whose target has a dependency set and resolves to a live entry, and whose
type is not `OWNS`, makes the scan of the dependents throw. -/
theorem AlterObject_scan_blocked (D : Decls) (w : World)
    (L : List DependencyCatalogEntry) (acc : List Dependency)
    (hfound : w.catalog.SchemasFound L)
    (d : DependencyCatalogEntry) (hd : d ∈ L)
    (hset : GetDependencySet D w (.dependency d) ≠ none)
    (l : LookupResult) (hl : LookupEntry D w.catalog (.dependency d) = .ok l)
    (he : l.entry ≠ none) (hty : d.dependencyType ≠ .DEPENDENCY_OWNS) :
    AlterObject.scanDependents D w L acc = .error (.DependencyException .CANNOT_ALTER) := by
  induction L generalizing acc with
  | nil => cases hd
  | cons x rest ih =>
    have hrest : w.catalog.SchemasFound rest := fun r hr => hfound r (List.mem_cons_of_mem _ hr)
    unfold AlterObject.scanDependents
    by_cases hx : x = d
    · subst hx
      cases hs : GetDependencySet D w (.dependency x) with
      | none => exact absurd hs hset
      | some s =>
        simp only [hl]
        cases hle : l.entry with
        | none => exact absurd hle he
        | some e0 => simp [hty]
    · have hd' : d ∈ rest := by
        cases hd with
        | head => exact absurd rfl hx
        | tail _ h => exact h
      cases hs : GetDependencySet D w (.dependency x) with
      | none => exact ih acc hrest hd'
      | some s =>
        simp only
        obtain ⟨lx, hlx⟩ := LookupEntry_found D w.catalog x (hfound x (List.mem_cons_self _ _))
        simp only [hlx]
        cases hle : lx.entry with
        | none => exact ih acc hrest hd'
        | some e0 =>
          simp only
          split_ifs
          · exact ih _ hrest hd'
          · rfl

theorem SchemasFound_Scan (c : Catalog) (set : CatalogSet) (v : DependencyCatalogSet)
    (h : c.SchemasFound set) : c.SchemasFound (v.Scan set) := by
  intro r hr
  unfold DependencyCatalogSet.Scan CatalogSet.ScanWithPrefix at hr
  exact h r (List.mem_of_mem_filter (List.mem_of_mem_filter hr))

/-- C9: `AlterObject(old, new)`, for `new` not a system entry and `old` with a dependency
set, throws the `DependencyException` "Cannot alter entry" whenever the dependents of
`old` hold an edge of type `REGULAR` whose target has a dependency set and resolves to a
live entry (the schema of every dependents record being findable); the state is left as
it was. -/
theorem C9_alter_blocked (D : Decls) (w : World) (old_obj new_obj : CatalogEntry)
    (d : DependencyCatalogEntry) (l : LookupResult)
    (hnew : IsSystemEntry new_obj = false)
    (hset : ({ mangledName := nodeOf D old_obj } : DependencySetCatalogEntry) ∈ w.connections)
    (hfound : w.catalog.SchemasFound w.dependents)
    (hd : d ∈ DependencyCatalogSet.Scan { mangled_name := nodeOf D old_obj } w.dependents)
    (hty : d.dependencyType = .DEPENDENCY_REGULAR)
    (hdset : GetDependencySet D w (.dependency d) ≠ none)
    (hl : LookupEntry D w.catalog (.dependency d) = .ok l) (he : l.entry ≠ none) :
    AlterObject D w old_obj new_obj = .threw (.DependencyException .CANNOT_ALTER) w := by
  unfold AlterObject
  simp only [hnew, Bool.false_eq_true, if_false]
  rw [GetDependencySet_of_mem D w (.object old_obj) hset]
  simp only [DependencySetCatalogEntry.Dependents]
  rw [AlterObject_scan_blocked D w _ [] (SchemasFound_Scan _ _ _ hfound) d hd hdset l hl he
    (by rw [hty]; decide)]

theorem C9_alter_blocked_witness :
    AlterObject stdDecls (AddObject stdDecls sampleWorld sampleView [sampleTable]).world
        sampleTable { sampleTable with oid := 11 }
      = .threw (.DependencyException .CANNOT_ALTER)
          (AddObject stdDecls sampleWorld sampleView [sampleTable]).world :=
  C9_alter_blocked stdDecls (AddObject stdDecls sampleWorld sampleView [sampleTable]).world
    sampleTable { sampleTable with oid := 11 }
    (edgeOf stdDecls sampleTable sampleView .DEPENDENCY_REGULAR)
    { set := some (sampleView.schema, sampleView.type),
      mapping_value := some { entry := sampleView, deleted := false }, entry := some sampleView }
    (by decide) (by decide) (by decide) (by decide) (by decide) (by decide) (by decide)
    (by decide)

/-! ### Stores only grow under `AddDependent` -/

theorem prefix_CreateEntry (v : DependencyCatalogSet) (set : CatalogSet) (x : Str)
    (value : DependencyCatalogEntry) : set <+: (v.CreateEntry set x value).2 := by
  unfold DependencyCatalogSet.CreateEntry CatalogSet.CreateEntry
  simp only
  split_ifs
  · exact List.prefix_refl _
  · exact List.prefix_append _ _

theorem GetEntry_of_prefix (v : DependencyCatalogSet) (s t : CatalogSet) (x : Str)
    (r : DependencyCatalogEntry) (hp : s <+: t) (h : v.GetEntry s x = some r) :
    v.GetEntry t x = some r := by
  obtain ⟨u, rfl⟩ := hp
  unfold DependencyCatalogSet.GetEntry CatalogSet.GetEntry at *
  rw [List.find?_append, h]
  rfl

theorem AddDependent_frame (D : Decls) (s : DependencySetCatalogEntry) (w : World)
    (e : CatalogEntry) (t : DependencyType) :
    (s.AddDependent D w e t).connections = w.connections ∧
    (s.AddDependent D w e t).catalog = w.catalog ∧
    (s.AddDependent D w e t).dependencies = w.dependencies ∧
    w.dependents <+: (s.AddDependent D w e t).dependents :=
  ⟨rfl, rfl, rfl, prefix_CreateEntry _ _ _ _⟩

theorem AddDependents_frame (D : Decls) (s : DependencySetCatalogEntry) (w : World)
    (l : List Dependency) :
    (s.AddDependents D w l).connections = w.connections ∧
    (s.AddDependents D w l).catalog = w.catalog ∧
    (s.AddDependents D w l).dependencies = w.dependencies ∧
    w.dependents <+: (s.AddDependents D w l).dependents := by
  unfold DependencySetCatalogEntry.AddDependents
  induction l generalizing w with
  | nil => exact ⟨rfl, rfl, rfl, List.prefix_refl _⟩
  | cons x rest ih =>
    simp only [List.foldl_cons]
    obtain ⟨h1, h2, h3, h4⟩ := ih (s.AddDependent D w x.entry x.dependencyType)
    obtain ⟨g1, g2, g3, g4⟩ := AddDependent_frame D s w x.entry x.dependencyType
    exact ⟨h1.trans g1, h2.trans g2, h3.trans g3, g4.trans h4⟩

theorem AddDependenciesOf_frame (D : Decls) (s : DependencySetCatalogEntry) (w : World)
    (l : List Dependency) :
    (s.AddDependenciesOf D w l).connections = w.connections ∧
    (s.AddDependenciesOf D w l).catalog = w.catalog ∧
    (s.AddDependenciesOf D w l).dependents = w.dependents := by
  unfold DependencySetCatalogEntry.AddDependenciesOf
  induction l generalizing w with
  | nil => exact ⟨rfl, rfl, rfl⟩
  | cons x rest ih =>
    simp only [List.foldl_cons]
    obtain ⟨h1, h2, h3⟩ := ih (s.AddDependency D w x.entry x.dependencyType)
    exact ⟨h1, h2, h3⟩

/-- The two loops of `AlterObject` that register the new object on other nodes return
when every node has its dependency set; they only add records to the dependents. -/
theorem addDependents_frame (D : Decls) (new_obj : CatalogEntry) (w : World)
    (l : List Dependency)
    (h : ∀ dep ∈ l, ({ mangledName := nodeOf D dep.entry } : DependencySetCatalogEntry)
      ∈ w.connections) :
    ∃ w2, AlterObject.addDependents D new_obj w l = .returned w2 ∧
      w2.connections = w.connections ∧ w2.catalog = w.catalog ∧
      w.dependents <+: w2.dependents := by
  induction l generalizing w with
  | nil => exact ⟨w, rfl, rfl, rfl, List.prefix_refl _⟩
  | cons x rest ih =>
    unfold AlterObject.addDependents
    rw [GetDependencySet_of_mem D w (.object x.entry) (h x (List.mem_cons_self _ _))]
    simp only
    obtain ⟨g1, g2, -, g4⟩ := AddDependent_frame D { mangledName := nodeOf D x.entry } w new_obj
      .DEPENDENCY_REGULAR
    obtain ⟨w2, e, h1, h2, h4⟩ := ih
      (DependencySetCatalogEntry.AddDependent D { mangledName := nodeOf D x.entry } w new_obj
        .DEPENDENCY_REGULAR)
      (fun dep hdep => by rw [g1]; exact h dep (List.mem_cons_of_mem _ hdep))
    exact ⟨w2, e, h1.trans g1, h2.trans g2, g4.trans h4⟩

theorem addOwnedBy_frame (D : Decls) (new_obj : CatalogEntry) (w : World)
    (l : List Dependency)
    (h : ∀ dep ∈ l, ({ mangledName := nodeOf D dep.entry } : DependencySetCatalogEntry)
      ∈ w.connections) :
    ∃ w2, AlterObject.addOwnedBy D new_obj w l = .returned w2 ∧
      w2.connections = w.connections ∧ w2.catalog = w.catalog ∧
      w.dependents <+: w2.dependents := by
  induction l generalizing w with
  | nil => exact ⟨w, rfl, rfl, rfl, List.prefix_refl _⟩
  | cons x rest ih =>
    unfold AlterObject.addOwnedBy
    rw [GetDependencySet_of_mem D w (.object x.entry) (h x (List.mem_cons_self _ _))]
    simp only
    obtain ⟨g1, g2, -, g4⟩ := AddDependent_frame D { mangledName := nodeOf D x.entry } w new_obj
      .DEPENDENCY_OWNED_BY
    obtain ⟨w2, e, h1, h2, h4⟩ := ih
      (DependencySetCatalogEntry.AddDependent D { mangledName := nodeOf D x.entry } w new_obj
        .DEPENDENCY_OWNED_BY)
      (fun dep hdep => by rw [g1]; exact h dep (List.mem_cons_of_mem _ hdep))
    exact ⟨w2, e, h1.trans g1, h2.trans g2, g4.trans h4⟩

theorem mem_Dependency_insert (s : List Dependency) (d x : Dependency)
    (h : x ∈ Dependency.insert s d) : x ∈ s ∨ x = d := by
  unfold Dependency.insert at h
  split_ifs at h
  · exact Or.inl h
  · rcases List.mem_append.mp h with h1 | h1
    · exact Or.inl h1
    · exact Or.inr (by simpa using h1)

/-- The scan of the dependencies returns when every schema can be found, and every
dependency it keeps is the live entry that a scanned record resolves to. -/
theorem scanDependencies_ok (D : Decls) (w : World) (L : List DependencyCatalogEntry)
    (acc : List Dependency) (hfound : w.catalog.SchemasFound L) :
    ∃ dl, AlterObject.scanDependencies D w L acc = .ok dl ∧
      ∀ dep ∈ dl, dep ∈ acc ∨ ∃ q ∈ L, ∃ l, LookupEntry D w.catalog (.dependency q) = .ok l ∧
        l.entry = some dep.entry := by
  induction L generalizing acc with
  | nil => exact ⟨acc, rfl, fun dep h => Or.inl h⟩
  | cons x rest ih =>
    have hrest : w.catalog.SchemasFound rest := fun r hr => hfound r (List.mem_cons_of_mem _ hr)
    unfold AlterObject.scanDependencies
    obtain ⟨lx, hlx⟩ := LookupEntry_found D w.catalog x (hfound x (List.mem_cons_self _ _))
    simp only [hlx]
    cases hle : lx.entry with
    | none =>
      obtain ⟨dl, e, hdl⟩ := ih acc hrest
      refine ⟨dl, e, fun dep hdep => ?_⟩
      rcases hdl dep hdep with h1 | ⟨q, hq, h2⟩
      · exact Or.inl h1
      · exact Or.inr ⟨q, List.mem_cons_of_mem _ hq, h2⟩
    | some e0 =>
      obtain ⟨dl, e, hdl⟩ := ih (Dependency.insert acc
        { entry := e0, dependencyType := x.dependencyType }) hrest
      refine ⟨dl, e, fun dep hdep => ?_⟩
      rcases hdl dep hdep with h1 | ⟨q, hq, h2⟩
      · rcases mem_Dependency_insert _ _ _ h1 with h3 | h3
        · exact Or.inl h3
        · exact Or.inr ⟨x, List.mem_cons_self _ _, lx, hlx, by rw [hle, h3]⟩
      · exact Or.inr ⟨q, List.mem_cons_of_mem _ hq, h2⟩

/-- C10 (as stated, refuted): an `OWNED_BY` dependent blocks the alter.  After
`AddOwnership(t, s)` the only Dependents edge of `s` is the `OWNED_BY` edge to the live
table `t`, and `AlterObject(s, s')` throws "Cannot alter entry". -/
theorem C10_counterexample :
    (DependencyCatalogSet.Scan { mangled_name := nodeOf stdDecls sampleSequence }
        (AddOwnership stdDecls sampleWorld sampleTable sampleSequence).world.dependents
      = [edgeOf stdDecls sampleSequence sampleTable .DEPENDENCY_OWNED_BY]) ∧
    AlterObject stdDecls (AddOwnership stdDecls sampleWorld sampleTable sampleSequence).world
        sampleSequence { sampleSequence with oid := 14 }
      = .threw (.DependencyException .CANNOT_ALTER)
          (AddOwnership stdDecls sampleWorld sampleTable sampleSequence).world := by
  decide

/-! ### The checks of `AddObject` -/

theorem check_fails (c : Catalog) (object d : CatalogEntry) (deps : List CatalogEntry)
    (hd : d ∈ deps) (hcat : d.catalog ≠ object.catalog) :
    ∃ e, AddObject.check c object deps = some e := by
  induction deps with
  | nil => cases hd
  | cons x rest ih =>
    unfold AddObject.check
    by_cases hx : x.catalog ≠ object.catalog
    · exact ⟨_, if_pos hx⟩
    · rw [if_neg hx]
      by_cases hset : (!x.hasSet) = true
      · exact ⟨_, if_pos hset⟩
      · rw [if_neg hset]
        cases hget : c.GetEntryInternal x with
        | none => exact ⟨_, rfl⟩
        | some y =>
          have hne : d ≠ x := fun e => hx (e ▸ hcat)
          have hmem : d ∈ rest := by
            rcases List.mem_cons.mp hd with h | h
            · exact absurd h hne
            · exact h
          exact ih hmem

theorem check_cross_catalog (c : Catalog) (object d : CatalogEntry) (deps : List CatalogEntry)
    (hd : d ∈ deps) (hcat : d.catalog ≠ object.catalog)
    (hok : ∀ x ∈ deps, x.catalog = object.catalog →
      x.hasSet = true ∧ c.GetEntryInternal x ≠ none) :
    AddObject.check c object deps = some (.DependencyException .CROSS_CATALOG) := by
  induction deps with
  | nil => cases hd
  | cons x rest ih =>
    unfold AddObject.check
    by_cases hx : x.catalog ≠ object.catalog
    · exact if_pos hx
    · rw [if_neg hx]
      have hx' : x.catalog = object.catalog := not_not.mp hx
      obtain ⟨h1, h2⟩ := hok x (List.mem_cons_self _ _) hx'
      have hset : ¬ ((!x.hasSet) = true) := by simp [h1]
      rw [if_neg hset]
      cases hget : c.GetEntryInternal x with
      | none => exact absurd hget h2
      | some y =>
        have hne : d ≠ x := fun e => hx (e ▸ hcat)
        have hmem : d ∈ rest := by
          rcases List.mem_cons.mp hd with h | h
          · exact absurd h hne
          · exact h
        exact ih hmem (fun z hz => hok z (List.mem_cons_of_mem _ hz))

/-- C11 (as stated, refuted): the view `v` of catalog 1 is registered with two
dependencies, a table of its own catalog that cannot be found any more and, after it, an
index of catalog 2.  The loop of `AddObject` meets the table first and throws the
`InternalException` of a deleted dependency, not the `DependencyException`. -/
theorem C11_counterexample :
    IsSystemEntry sampleView = false ∧
    ({ sampleIndex with catalog := 2 } : CatalogEntry) ∈
      [{ sampleTable with name := "gone".toList }, { sampleIndex with catalog := 2 }] ∧
    ({ sampleIndex with catalog := 2 } : CatalogEntry).catalog ≠ sampleView.catalog ∧
    AddObject stdDecls sampleWorld sampleView
        [{ sampleTable with name := "gone".toList }, { sampleIndex with catalog := 2 }]
      = .threw .InternalException sampleWorld := by
  decide

/-- C11 (amended): when `object` is not a system entry and some dependency of `deps` is
in another catalog than `object`, `AddObject` throws and leaves the state as it was; the
exception is the `DependencyException` of the catalog check when every dependency of
`deps` that is in the catalog of `object` has a collection and can still be found. -/
theorem C11_cross_catalog (D : Decls) (w : World) (object d : CatalogEntry)
    (deps : List CatalogEntry) (hsys : IsSystemEntry object = false) (hd : d ∈ deps)
    (hcat : d.catalog ≠ object.catalog) :
    (∃ e, AddObject D w object deps = .threw e w) ∧
    ((∀ x ∈ deps, x.catalog = object.catalog →
        x.hasSet = true ∧ w.catalog.GetEntryInternal x ≠ none) →
      AddObject D w object deps = .threw (.DependencyException .CROSS_CATALOG) w) := by
  constructor
  · obtain ⟨e, he⟩ := check_fails w.catalog object d deps hd hcat
    exact ⟨e, by simp [AddObject, hsys, he]⟩
  · intro hok
    have he := check_cross_catalog w.catalog object d deps hd hcat hok
    simp [AddObject, hsys, he]

theorem C11_cross_catalog_witness :
    (∃ e, AddObject stdDecls sampleWorld sampleView
        [sampleTable, { sampleIndex with catalog := 2 }] = .threw e sampleWorld) ∧
    AddObject stdDecls sampleWorld sampleView [sampleTable, { sampleIndex with catalog := 2 }]
      = .threw (.DependencyException .CROSS_CATALOG) sampleWorld :=
  ⟨(C11_cross_catalog stdDecls sampleWorld sampleView { sampleIndex with catalog := 2 }
      [sampleTable, { sampleIndex with catalog := 2 }] (by decide) (by decide) (by decide)).1,
   (C11_cross_catalog stdDecls sampleWorld sampleView { sampleIndex with catalog := 2 }
      [sampleTable, { sampleIndex with catalog := 2 }] (by decide) (by decide) (by decide)).2
      (by decide)⟩

/-- With its assertion checked, `UnmangleName` throws the `InternalException` exactly for
the keys that do not split into three NUL-separated parts, and returns a triple exactly
for the keys that do. -/
theorem UnmangleName_three_parts (D : Decls) (key : Str) :
    (UnmangleName D key = .error .InternalException ↔ (Split key NUL).length ≠ 3) ∧
    ((∃ r, UnmangleName D key = .ok r) ↔ (Split key NUL).length = 3) := by
  unfold UnmangleName
  split
  · rename_i p0 p1 p2 heq
    simp [heq]
  · rename_i hne
    have h3 : (Split key NUL).length ≠ 3 := by
      intro hl
      match hs : Split key NUL, hl with
      | [a, b, c], _ => exact hne a b c hs
    simp [h3]

/-! ### Injectivity of the key -/

theorem append_sep_inj (sep : Char) (a b x y : Str) (ha : sep ∉ a) (hb : sep ∉ b)
    (h : a ++ sep :: x = b ++ sep :: y) : a = b ∧ x = y := by
  induction a generalizing b with
  | nil =>
    cases b with
    | nil => simpa using h
    | cons c cs =>
      simp only [List.nil_append, List.cons_append, List.cons.injEq] at h
      exact absurd (by simp [h.1]) hb
  | cons c cs ih =>
    cases b with
    | nil =>
      simp only [List.nil_append, List.cons_append, List.cons.injEq] at h
      exact absurd (by simp [h.1]) ha
    | cons c2 cs2 =>
      simp only [List.cons_append, List.cons.injEq] at h
      have hcs : sep ∉ cs := fun m => ha (List.mem_cons_of_mem _ m)
      have hcs2 : sep ∉ cs2 := fun m => hb (List.mem_cons_of_mem _ m)
      obtain ⟨h1, h2⟩ := ih cs2 hcs hcs2 h.2
      exact ⟨by rw [h.1, h1], h2⟩

/-- C13 (as stated, refuted): whatever the tag strings are, the schema `a\0b` with the
name `c` and the schema `a` with the name `b\0c` have the same key. -/
theorem C13_counterexample :
    ¬ ∃ D : Decls, ∀ (s1 n1 s2 n2 : Str),
        MangleName D .TABLE_ENTRY s1 n1 = MangleName D .TABLE_ENTRY s2 n2 →
          s1 = s2 ∧ n1 = n2 := by
  rintro ⟨D, h⟩
  have := h ['a', NUL, 'b'] ['c'] ['a'] ['b', NUL, 'c'] (by simp [MangleName])
  simp at this

/-- C13 (amended): when different types have different tags, and neither the tags nor
the schema names contain a NUL byte, two triples with the same key are equal. -/
theorem C13_mangle_injective (D : Decls) (t1 t2 : CatalogType) (s1 n1 s2 n2 : Str)
    (hinj : D.CatalogTypeToString t1 = D.CatalogTypeToString t2 → t1 = t2)
    (ht1 : NUL ∉ D.CatalogTypeToString t1) (ht2 : NUL ∉ D.CatalogTypeToString t2)
    (hs1 : NUL ∉ s1) (hs2 : NUL ∉ s2)
    (h : MangleName D t1 s1 n1 = MangleName D t2 s2 n2) :
    t1 = t2 ∧ s1 = s2 ∧ n1 = n2 := by
  unfold MangleName at h
  have h' : D.CatalogTypeToString t1 ++ NUL :: (s1 ++ NUL :: n1)
      = D.CatalogTypeToString t2 ++ NUL :: (s2 ++ NUL :: n2) := by simpa using h
  obtain ⟨e1, e2⟩ := append_sep_inj NUL _ _ _ _ ht1 ht2 h'
  obtain ⟨e3, e4⟩ := append_sep_inj NUL _ _ _ _ hs1 hs2 e2
  exact ⟨hinj e1, e3, e4⟩

theorem C13_mangle_injective_witness :
    CatalogType.VIEW_ENTRY = CatalogType.VIEW_ENTRY ∧ "main".toList = "main".toList ∧
      ['v', NUL, '1'] = ['v', NUL, '1'] :=
  C13_mangle_injective stdDecls .VIEW_ENTRY .VIEW_ENTRY "main".toList ['v', NUL, '1']
    "main".toList ['v', NUL, '1'] (fun _ => rfl) (by decide) (by decide) (by decide)
    (by decide) rfl

/-- C14: `CascadeDrop` lets a dependent be dropped exactly when `cascade` is set or the
edge is of type `AUTOMATIC` or `OWNS`; for a `REGULAR` edge the answer is `cascade`. -/
theorem C14_cascade_drop (cascade : Bool) (type : DependencyType) :
    (CascadeDrop cascade type = true ↔
      cascade = true ∨ type = .DEPENDENCY_AUTOMATIC ∨ type = .DEPENDENCY_OWNS) ∧
    CascadeDrop cascade .DEPENDENCY_REGULAR = cascade := by
  cases cascade <;> cases type <;> decide

/-! ### System entries -/

/-- C15 (as stated, refuted): `AlterObject` tests the new object only.  The view `v`
depends on the internal table `t` and is deleted in the catalog; altering `t` into a
table `t2` that is not internal returns, and the edge records of `t` are gone. -/
theorem C15_counterexample :
    IsSystemEntry { sampleTable with internal := true } = true ∧
    (AlterObject stdDecls
        { (AddObject stdDecls sampleWorld sampleView
            [{ sampleTable with internal := true }]).world with
          catalog := sampleCatalog.SetDeleted "main".toList .VIEW_ENTRY "v".toList true }
        { sampleTable with internal := true }
        { sampleTable with name := "t2".toList }).isReturned = true ∧
    (AlterObject stdDecls
        { (AddObject stdDecls sampleWorld sampleView
            [{ sampleTable with internal := true }]).world with
          catalog := sampleCatalog.SetDeleted "main".toList .VIEW_ENTRY "v".toList true }
        { sampleTable with internal := true }
        { sampleTable with name := "t2".toList }).world.dependents
      ≠ (AddObject stdDecls sampleWorld sampleView
          [{ sampleTable with internal := true }]).world.dependents := by
  decide

/-- With its two assertions checked, `AddOwnership` throws when the owner or the entry
is a system entry, and the state, with its edge records, is the one it was given. -/
theorem AddOwnership_system_entry (D : Decls) (w : World) (owner entry : CatalogEntry)
    (hsys : IsSystemEntry owner = true ∨ IsSystemEntry entry = true) :
    AddOwnership D w owner entry = .threw .InternalException w := by
  unfold AddOwnership
  rcases hsys with h | h
  · simp only [h, if_true]
    split_ifs <;> rfl
  · simp [h]

theorem AddOwnership_system_entry_sample :
    AddOwnership stdDecls sampleWorld { sampleTable with type := .DATABASE_ENTRY } sampleSequence
      = .threw .InternalException sampleWorld :=
  AddOwnership_system_entry stdDecls sampleWorld { sampleTable with type := .DATABASE_ENTRY }
    sampleSequence (Or.inl (by decide))

/-- C20: when neither object is a system entry and the scan of the Dependents of the
owner meets a record of type `OWNED_BY`, `AddOwnership` throws the `DependencyException`
"already owned by"; no edge record is added. -/
theorem C20_owner_already_owned (D : Decls) (w : World) (owner entry : CatalogEntry)
    (d : DependencyCatalogEntry)
    (hO : IsSystemEntry owner = false) (hE : IsSystemEntry entry = false)
    (hd : d ∈ DependencyCatalogSet.Scan { mangled_name := nodeOf D owner } w.dependents)
    (ht : d.dependencyType = .DEPENDENCY_OWNED_BY) :
    ∃ w1, AddOwnership D w owner entry = .threw (.DependencyException .ALREADY_OWNED_BY) w1 ∧
      w1.dependents = w.dependents ∧ w1.dependencies = w.dependencies := by
  refine ⟨(GetOrCreateDependencySet D w (.object owner)).1, ?_, GetOrCreate_dependents _ _ _,
    GetOrCreate_dependencies _ _ _⟩
  unfold AddOwnership
  have hany : (DependencyCatalogSet.Scan
      (GetOrCreateDependencySet D w (.object owner)).2.Dependents
      (GetOrCreateDependencySet D w (.object owner)).1.dependents).any
      (fun dependent_entry => decide (dependent_entry.dependencyType = .DEPENDENCY_OWNED_BY))
      = true := by
    rw [GetOrCreate_snd, GetOrCreate_dependents, List.any_eq_true]
    exact ⟨d, hd, by simp [ht]⟩
  simp only [hO, hE, Bool.false_eq_true, if_false, hany, if_true]

theorem C20_owner_already_owned_witness :
    ∃ w1, AddOwnership stdDecls (AddOwnership stdDecls sampleWorld sampleTable sampleSequence).world
          sampleSequence sampleView
        = .threw (.DependencyException .ALREADY_OWNED_BY) w1 ∧
      w1.dependents = (AddOwnership stdDecls sampleWorld sampleTable sampleSequence).world.dependents ∧
      w1.dependencies
        = (AddOwnership stdDecls sampleWorld sampleTable sampleSequence).world.dependencies :=
  C20_owner_already_owned stdDecls (AddOwnership stdDecls sampleWorld sampleTable sampleSequence).world
    sampleSequence sampleView
    (edgeOf stdDecls sampleSequence sampleTable .DEPENDENCY_OWNED_BY)
    (by decide) (by decide) (by decide) (by decide)

/-! ### The records that `AddObject` registers -/

/-- After a creation the key is mapped: to the record it was mapped to before, or else to
the new record. -/
theorem GetEntry_CreateEntry (v : DependencyCatalogSet) (set : CatalogSet) (x : Str)
    (value : DependencyCatalogEntry) :
    v.GetEntry (v.CreateEntry set x value).2 x
      = match v.GetEntry set x with
        | some r => some r
        | none => some { value with fromName := v.mangled_name, name := v.ApplyPrefix x } := by
  unfold DependencyCatalogSet.GetEntry DependencyCatalogSet.CreateEntry CatalogSet.GetEntry
    CatalogSet.CreateEntry
  cases hf : set.find? (fun r => decide (r.name = v.ApplyPrefix x)) with
  | none =>
    have hany : set.any (fun r => decide (r.name = v.ApplyPrefix x)) = false := by
      rw [List.any_eq_false]
      intro r hr
      have := List.find?_eq_none.mp hf r hr
      simpa using this
    simp [hany, List.find?_append, hf]
  | some r =>
    have hany : set.any (fun r => decide (r.name = v.ApplyPrefix x)) = true := by
      rw [List.any_eq_true]
      exact ⟨r, List.mem_of_find?_eq_some hf, by simpa using List.find?_some hf⟩
    simp [hany, hf]

/-- A creation under another key leaves the mapping of a key as it was. -/
theorem GetEntry_CreateEntry_ne (v u : DependencyCatalogSet) (set : CatalogSet) (x y : Str)
    (value : DependencyCatalogEntry) (hne : u.ApplyPrefix y ≠ v.ApplyPrefix x) :
    u.GetEntry (v.CreateEntry set x value).2 y = u.GetEntry set y := by
  unfold DependencyCatalogSet.GetEntry DependencyCatalogSet.CreateEntry CatalogSet.GetEntry
    CatalogSet.CreateEntry
  simp only
  split_ifs
  · rfl
  · rw [List.find?_append]
    have : ¬ (v.ApplyPrefix x = u.ApplyPrefix y) := fun e => hne e.symm
    simp [this]

theorem key_left_inj (a b x : Str)
    (h : MangledDependencyName a x = MangledDependencyName b x) : a = b := by
  unfold MangledDependencyName at h
  have h' : a ++ ([NUL] ++ x) = b ++ ([NUL] ++ x) := by simpa using h
  exact List.append_cancel_right h'

theorem key_right_inj (a x y : Str)
    (h : MangledDependencyName a x = MangledDependencyName a y) : x = y := by
  unfold MangledDependencyName at h
  have h' : a ++ ([NUL] ++ x) = a ++ ([NUL] ++ y) := by simpa using h
  simpa using h'

/-- The first loop of `AddObject` that writes: every dependency gets its dependency set
and a Dependents record for the object. -/
theorem AddObject_dependents_loop (D : Decls) (object : CatalogEntry) (type : DependencyType)
    (deps : List CatalogEntry) (w : World)
    (hP : ∀ d ∈ deps,
      DependencyCatalogSet.GetEntry { mangled_name := nodeOf D d } w.dependents (nodeOf D object)
          = none ∨
      DependencyCatalogSet.GetEntry { mangled_name := nodeOf D d } w.dependents (nodeOf D object)
          = some (edgeOf D d object type)) :
    (deps.foldl (fun acc dependency =>
        (GetOrCreateDependencySet D acc (.object dependency)).2.AddDependent D
          (GetOrCreateDependencySet D acc (.object dependency)).1 object type) w).dependencies
      = w.dependencies ∧
    (deps.foldl (fun acc dependency =>
        (GetOrCreateDependencySet D acc (.object dependency)).2.AddDependent D
          (GetOrCreateDependencySet D acc (.object dependency)).1 object type) w).catalog
      = w.catalog ∧
    w.dependents <+: (deps.foldl (fun acc dependency =>
        (GetOrCreateDependencySet D acc (.object dependency)).2.AddDependent D
          (GetOrCreateDependencySet D acc (.object dependency)).1 object type) w).dependents ∧
    ∀ d ∈ deps,
      DependencyCatalogSet.GetEntry { mangled_name := nodeOf D d }
        (deps.foldl (fun acc dependency =>
          (GetOrCreateDependencySet D acc (.object dependency)).2.AddDependent D
            (GetOrCreateDependencySet D acc (.object dependency)).1 object type) w).dependents
        (nodeOf D object) = some (edgeOf D d object type) := by
  induction deps generalizing w with
  | nil => exact ⟨rfl, rfl, List.prefix_refl _, fun d hd => by cases hd⟩
  | cons x rest ih =>
    simp only [List.foldl_cons]
    have hstep : ((GetOrCreateDependencySet D w (.object x)).2.AddDependent D
        (GetOrCreateDependencySet D w (.object x)).1 object type).dependents
        = (DependencyCatalogSet.CreateEntry { mangled_name := nodeOf D x } w.dependents
            (nodeOf D object) (edgeTo object type)).2 := by
      simp only [DependencySetCatalogEntry.AddDependent, DependencySetCatalogEntry.Dependents,
        GetOrCreate_snd, GetOrCreate_dependents]
    have hx : DependencyCatalogSet.GetEntry { mangled_name := nodeOf D x }
        ((GetOrCreateDependencySet D w (.object x)).2.AddDependent D
          (GetOrCreateDependencySet D w (.object x)).1 object type).dependents (nodeOf D object)
        = some (edgeOf D x object type) := by
      rw [hstep, GetEntry_CreateEntry]
      rcases hP x (List.mem_cons_self _ _) with h | h
      · rw [h]
        rfl
      · rw [h]
    have hP' : ∀ d ∈ rest,
        DependencyCatalogSet.GetEntry { mangled_name := nodeOf D d }
          ((GetOrCreateDependencySet D w (.object x)).2.AddDependent D
            (GetOrCreateDependencySet D w (.object x)).1 object type).dependents
          (nodeOf D object) = none ∨
        DependencyCatalogSet.GetEntry { mangled_name := nodeOf D d }
          ((GetOrCreateDependencySet D w (.object x)).2.AddDependent D
            (GetOrCreateDependencySet D w (.object x)).1 object type).dependents
          (nodeOf D object) = some (edgeOf D d object type) := by
      intro d hd
      by_cases hk : MangledDependencyName (nodeOf D d) (nodeOf D object)
          = MangledDependencyName (nodeOf D x) (nodeOf D object)
      · have hn : nodeOf D d = nodeOf D x := key_left_inj _ _ _ hk
        right
        have he : edgeOf D d object type = edgeOf D x object type := by
          simp only [edgeOf, hn]
        rw [he, hn]
        exact hx
      · have hsame := GetEntry_CreateEntry_ne { mangled_name := nodeOf D x }
          { mangled_name := nodeOf D d } w.dependents (nodeOf D object) (nodeOf D object)
          (edgeTo object type) hk
        rw [hstep, hsame]
        exact hP d (List.mem_cons_of_mem _ hd)
    obtain ⟨h1, h2, h3, h4⟩ := ih _ hP'
    refine ⟨?_, ?_, ?_, ?_⟩
    · rw [h1]
      simp only [DependencySetCatalogEntry.AddDependent, GetOrCreate_dependencies]
    · rw [h2]
      simp only [DependencySetCatalogEntry.AddDependent, GetOrCreate_catalog]
    · refine List.IsPrefix.trans ?_ h3
      rw [hstep]
      exact prefix_CreateEntry _ _ _ _
    · intro d hd
      rcases List.mem_cons.mp hd with h | h
      · subst h
        by_cases hm : d ∈ rest
        · exact h4 d hm
        · exact GetEntry_of_prefix _ _ _ _ _ h3 hx
      · exact h4 d h

/-- The loop of `AddDependencies`: the node gets a Dependencies record for every entry of
the list. -/
theorem AddDependencies_loop (D : Decls) (object : CatalogEntry) (deps : List CatalogEntry)
    (w : World)
    (hP : ∀ d ∈ deps,
      DependencyCatalogSet.GetEntry { mangled_name := nodeOf D object } w.dependencies
          (nodeOf D d) = none ∨
      ∃ r, DependencyCatalogSet.GetEntry { mangled_name := nodeOf D object } w.dependencies
          (nodeOf D d) = some r ∧ r.fromName = nodeOf D object ∧ r.MangledName D = nodeOf D d) :
    (DependencySetCatalogEntry.AddDependencies D { mangledName := nodeOf D object } w
        deps).dependents = w.dependents ∧
    (DependencySetCatalogEntry.AddDependencies D { mangledName := nodeOf D object } w
        deps).catalog = w.catalog ∧
    ∀ d ∈ deps, ∃ r,
      DependencyCatalogSet.GetEntry { mangled_name := nodeOf D object }
        (DependencySetCatalogEntry.AddDependencies D { mangledName := nodeOf D object } w
          deps).dependencies (nodeOf D d) = some r ∧
      r.fromName = nodeOf D object ∧ r.MangledName D = nodeOf D d := by
  unfold DependencySetCatalogEntry.AddDependencies
  induction deps generalizing w with
  | nil => exact ⟨rfl, rfl, fun d hd => by cases hd⟩
  | cons x rest ih =>
    simp only [List.foldl_cons]
    have hstep : (DependencySetCatalogEntry.AddDependency D { mangledName := nodeOf D object } w x
        D.defaultDependencyType).dependencies
        = (DependencyCatalogSet.CreateEntry { mangled_name := nodeOf D object } w.dependencies
            (nodeOf D x) (edgeTo x D.defaultDependencyType)).2 := rfl
    have hx : ∃ r, DependencyCatalogSet.GetEntry { mangled_name := nodeOf D object }
        (DependencySetCatalogEntry.AddDependency D { mangledName := nodeOf D object } w x
          D.defaultDependencyType).dependencies (nodeOf D x) = some r ∧
        r.fromName = nodeOf D object ∧ r.MangledName D = nodeOf D x := by
      rw [hstep, GetEntry_CreateEntry]
      rcases hP x (List.mem_cons_self _ _) with h | ⟨r, h, hr⟩
      · rw [h]
        exact ⟨_, rfl, rfl, rfl⟩
      · rw [h]
        exact ⟨r, rfl, hr⟩
    have hP' : ∀ d ∈ rest,
        DependencyCatalogSet.GetEntry { mangled_name := nodeOf D object }
          (DependencySetCatalogEntry.AddDependency D { mangledName := nodeOf D object } w x
            D.defaultDependencyType).dependencies (nodeOf D d) = none ∨
        ∃ r, DependencyCatalogSet.GetEntry { mangled_name := nodeOf D object }
          (DependencySetCatalogEntry.AddDependency D { mangledName := nodeOf D object } w x
            D.defaultDependencyType).dependencies (nodeOf D d) = some r ∧
          r.fromName = nodeOf D object ∧ r.MangledName D = nodeOf D d := by
      intro d hd
      by_cases hk : MangledDependencyName (nodeOf D object) (nodeOf D d)
          = MangledDependencyName (nodeOf D object) (nodeOf D x)
      · have hn : nodeOf D d = nodeOf D x := key_right_inj _ _ _ hk
        right
        rw [hn]
        exact hx
      · have hsame := GetEntry_CreateEntry_ne { mangled_name := nodeOf D object }
          { mangled_name := nodeOf D object } w.dependencies (nodeOf D x) (nodeOf D d)
          (edgeTo x D.defaultDependencyType) hk
        rw [hstep, hsame]
        exact hP d (List.mem_cons_of_mem _ hd)
    obtain ⟨h1, h2, h3⟩ := ih _ hP'
    refine ⟨by rw [h1]; rfl, by rw [h2]; rfl, ?_⟩
    intro d hd
    rcases List.mem_cons.mp hd with h | h
    · subst h
      by_cases hm : d ∈ rest
      · exact h3 d hm
      · obtain ⟨r, hr, hr2⟩ := hx
        refine ⟨r, ?_, hr2⟩
        have hpre : (DependencySetCatalogEntry.AddDependency D { mangledName := nodeOf D object }
            w d D.defaultDependencyType).dependencies <+:
            (List.foldl (fun acc dep =>
              DependencySetCatalogEntry.AddDependency D { mangledName := nodeOf D object } acc dep
                D.defaultDependencyType)
              (DependencySetCatalogEntry.AddDependency D { mangledName := nodeOf D object } w d
                D.defaultDependencyType) rest).dependencies := by
          clear ih hP' h1 h2 h3 hr hstep hP hd hm
          generalize (DependencySetCatalogEntry.AddDependency D { mangledName := nodeOf D object }
            w d D.defaultDependencyType) = w0
          induction rest generalizing w0 with
          | nil => exact List.prefix_refl _
          | cons y ys ihy =>
            simp only [List.foldl_cons]
            have hfirst : w0.dependencies <+:
                (DependencySetCatalogEntry.AddDependency D { mangledName := nodeOf D object } w0 y
                  D.defaultDependencyType).dependencies := prefix_CreateEntry _ _ _ _
            exact List.IsPrefix.trans hfirst (ihy _)
        exact GetEntry_of_prefix _ _ _ _ _ hpre hr
    · exact h3 d h

/-- C17: after `AddObject(object, deps)` has returned for an object that is not a system
entry (with no record under the keys of the new edges before the call), every `d` of
`deps` has, in its Dependents, the record of an edge to `object` of type `AUTOMATIC` if
`object` is an index and `REGULAR` otherwise, and the Dependencies of `object` hold a
record of an edge to every `d`. -/
theorem C17_edges_registered (D : Decls) (w w1 : World) (object : CatalogEntry)
    (deps : List CatalogEntry)
    (hsys : IsSystemEntry object = false)
    (hf1 : ∀ d ∈ deps,
      DependencyCatalogSet.GetEntry { mangled_name := nodeOf D d } w.dependents
        (nodeOf D object) = none)
    (hf2 : ∀ d ∈ deps,
      DependencyCatalogSet.GetEntry { mangled_name := nodeOf D object } w.dependencies
        (nodeOf D d) = none)
    (hadd : AddObject D w object deps = .returned w1) :
    ∀ d ∈ deps,
      DependencyCatalogSet.GetEntry { mangled_name := nodeOf D d } w1.dependents
          (nodeOf D object)
        = some (edgeOf D d object
            (if object.type = .INDEX_ENTRY then .DEPENDENCY_AUTOMATIC
             else .DEPENDENCY_REGULAR)) ∧
      ∃ r, DependencyCatalogSet.GetEntry { mangled_name := nodeOf D object } w1.dependencies
          (nodeOf D d) = some r ∧
        r.fromName = nodeOf D object ∧ r.MangledName D = nodeOf D d := by
  unfold AddObject at hadd
  simp only [hsys, Bool.false_eq_true, if_false] at hadd
  split at hadd
  · exact Outcome.noConfusion hadd
  · simp only [Outcome.returned.injEq] at hadd
    subst hadd
    obtain ⟨h1, -, h3, h4⟩ := AddObject_dependents_loop D object
      (if object.type = .INDEX_ENTRY then .DEPENDENCY_AUTOMATIC else .DEPENDENCY_REGULAR)
      deps w (fun d hd => Or.inl (hf1 d hd))
    rw [GetOrCreate_snd]
    obtain ⟨g1, -, g3⟩ := AddDependencies_loop D object deps
      (GetOrCreateDependencySet D
        (deps.foldl (fun acc dependency =>
          (GetOrCreateDependencySet D acc (.object dependency)).2.AddDependent D
            (GetOrCreateDependencySet D acc (.object dependency)).1 object
            (if object.type = .INDEX_ENTRY then .DEPENDENCY_AUTOMATIC
             else .DEPENDENCY_REGULAR)) w) (.object object)).1
      (fun d hd => Or.inl (by rw [GetOrCreate_dependencies, h1]; exact hf2 d hd))
    intro d hd
    refine ⟨?_, g3 d hd⟩
    rw [g1, GetOrCreate_dependents]
    exact h4 d hd

theorem C17_edges_registered_witness :
    DependencyCatalogSet.GetEntry { mangled_name := nodeOf stdDecls sampleView }
        (AddObject stdDecls sampleWorld sampleIndex [sampleTable, sampleView]).world.dependents
        (nodeOf stdDecls sampleIndex)
      = some (edgeOf stdDecls sampleView sampleIndex
          (if sampleIndex.type = .INDEX_ENTRY then .DEPENDENCY_AUTOMATIC
           else .DEPENDENCY_REGULAR)) ∧
    ∃ r, DependencyCatalogSet.GetEntry { mangled_name := nodeOf stdDecls sampleIndex }
        (AddObject stdDecls sampleWorld sampleIndex
          [sampleTable, sampleView]).world.dependencies
        (nodeOf stdDecls sampleView) = some r ∧
      r.fromName = nodeOf stdDecls sampleIndex ∧
      r.MangledName stdDecls = nodeOf stdDecls sampleView :=
  C17_edges_registered stdDecls sampleWorld _ sampleIndex [sampleTable, sampleView]
    (by decide) (by decide) (by decide) (by decide) sampleView (by decide)

/-! ### Uniqueness of ownership -/

/-- A record that resolves to a live entry other than the owner stops the scan of
`AddOwnership`. -/
theorem AddOwnership_scan_rejects (D : Decls) (w : World) (owner x : CatalogEntry)
    (L : List DependencyCatalogEntry) (d : DependencyCatalogEntry) (l : LookupResult)
    (hd : d ∈ L) (hl : LookupEntry D w.catalog (.dependency d) = .ok l)
    (hx : l.entry = some x) (hne : x ≠ owner) :
    ∃ e, AddOwnership.scan D w owner L = some e := by
  induction L with
  | nil => cases hd
  | cons q rest ih =>
    unfold AddOwnership.scan
    by_cases hq : d = q
    · subst hq
      simp only [hl, hx]
      exact ⟨_, if_pos hne⟩
    · have hmem : d ∈ rest := by
        rcases List.mem_cons.mp hd with h | h
        · exact absurd h hq
        · exact h
      cases hlq : LookupEntry D w.catalog (.dependency q) with
      | error e => exact ⟨e, rfl⟩
      | ok lq =>
        cases hlqe : lq.entry with
        | none => simpa [hlqe] using ih hmem
        | some dep =>
          simp only [hlqe]
          split_ifs
          · exact ⟨_, rfl⟩
          · exact ⟨_, rfl⟩
          · exact ih hmem

/-- C19 (as stated, refuted): an owner may own two objects.  After
`AddOwnership(t, s)`, the call `AddOwnership(t, v)` returns, and the table `t` holds an
`OWNS` edge to the sequence `s` and one to the view `v`. -/
theorem C19_counterexample :
    (AddOwnership stdDecls sampleWorld sampleTable sampleSequence).isReturned = true ∧
    sampleView ≠ sampleSequence ∧
    (AddOwnership stdDecls (AddOwnership stdDecls sampleWorld sampleTable sampleSequence).world
        sampleTable sampleView).isReturned = true ∧
    edgeOf stdDecls sampleTable sampleSequence .DEPENDENCY_OWNS ∈
      (AddOwnership stdDecls (AddOwnership stdDecls sampleWorld sampleTable sampleSequence).world
        sampleTable sampleView).world.dependents ∧
    edgeOf stdDecls sampleTable sampleView .DEPENDENCY_OWNS ∈
      (AddOwnership stdDecls (AddOwnership stdDecls sampleWorld sampleTable sampleSequence).world
        sampleTable sampleView).world.dependents := by
  decide

/-- C19 (amended): an object has at most one owner.  After `AddOwnership(O, E)` has
returned (with `O` not already recorded as a dependent of `E`), `AddOwnership(O2, E)`
for an owner `O2` other than `O` throws, in every catalog `c` in which `O` is live at
the time of the call, and no edge record is added. -/
theorem C19_second_owner_rejected (D : Decls) (w w1 : World) (O O2 E : CatalogEntry)
    (c : Catalog) (hliveO : c.Live O) (hne : O2 ≠ O)
    (hkey : ∀ r ∈ w.dependents, r.name ≠ MangledDependencyName (nodeOf D E) (nodeOf D O))
    (hown : AddOwnership D w O E = .returned w1) :
    ∃ e w2, AddOwnership D { w1 with catalog := c } O2 E = .threw e w2 ∧
      w2.dependents = w1.dependents ∧ w2.dependencies = w1.dependencies := by
  obtain ⟨-, hsE, -, -, hmem, -, hmE⟩ := AddOwnership_returned D w w1 O E hkey hown
  have hlook := LookupEntry_live D c O (edgeOf D E O .DEPENDENCY_OWNED_BY) hliveO rfl
    (by simp [edgeOf, edgeTo, GetSchema, hliveO.1]) rfl
  unfold AddOwnership
  simp only [hsE, Bool.false_eq_true, if_false]
  by_cases hsO2 : IsSystemEntry O2 = true
  · exact ⟨_, _, if_pos hsO2, rfl, rfl⟩
  · rw [if_neg hsO2]
    split_ifs with hany
    · exact ⟨_, _, rfl, GetOrCreate_dependents _ _ _, GetOrCreate_dependencies _ _ _⟩
    · obtain ⟨e, he⟩ := AddOwnership_scan_rejects D
        (GetOrCreateDependencySet D
          (GetOrCreateDependencySet D { w1 with catalog := c } (.object O2)).1 (.object E)).1
        O2 O
        (DependencyCatalogSet.Scan
          (GetOrCreateDependencySet D
            (GetOrCreateDependencySet D { w1 with catalog := c } (.object O2)).1
            (.object E)).2.Dependents
          (GetOrCreateDependencySet D
            (GetOrCreateDependencySet D { w1 with catalog := c } (.object O2)).1
            (.object E)).1.dependents)
        (edgeOf D E O .DEPENDENCY_OWNED_BY) _
        (by
          rw [GetOrCreate_snd, GetOrCreate_dependents, GetOrCreate_dependents]
          exact mem_Scan _ _ _ hmem rfl (applied_isPrefixOf _ _))
        (by
          rw [GetOrCreate_catalog, GetOrCreate_catalog]
          exact hlook)
        rfl (Ne.symm hne)
      rw [he]
      refine ⟨e, _, rfl, ?_, ?_⟩
      · rw [GetOrCreate_dependents, GetOrCreate_dependents]
      · rw [GetOrCreate_dependencies, GetOrCreate_dependencies]

theorem C19_second_owner_rejected_witness :
    ∃ e w2, AddOwnership stdDecls
        { (AddOwnership stdDecls sampleWorld sampleTable sampleSequence).world with
          catalog := sampleCatalog } sampleView sampleSequence = .threw e w2 ∧
      w2.dependents
        = (AddOwnership stdDecls sampleWorld sampleTable sampleSequence).world.dependents ∧
      w2.dependencies
        = (AddOwnership stdDecls sampleWorld sampleTable sampleSequence).world.dependencies :=
  C19_second_owner_rejected stdDecls sampleWorld _ sampleTable sampleView sampleSequence
    sampleCatalog (by decide) (by decide) (by decide) (by decide)

/-! ### Keys of the edge records -/

theorem count_nodeOf (D : Decls) (e : CatalogEntry) (h : WellNamed D e) :
    (nodeOf D e).count NUL = 2 := by
  obtain ⟨h1, h2, h3⟩ := h
  simp only [nodeOf, Entry.MangleName, MangleName, List.count_append,
    List.count_eq_zero.mpr h1, List.count_eq_zero.mpr h2, List.count_eq_zero.mpr h3]
  simp

/-- Two composite keys whose first parts hold the same number of NUL bytes are equal
only when their parts are. -/
theorem key_inj (a b x y : Str) (hc : a.count NUL = b.count NUL)
    (h : MangledDependencyName a x = MangledDependencyName b y) : a = b ∧ x = y := by
  unfold MangledDependencyName at h
  induction a generalizing b with
  | nil =>
    cases b with
    | nil => simpa using h
    | cons c cs =>
      simp only [List.nil_append, List.cons_append, List.singleton_append, List.cons.injEq] at h
      rw [← h.1] at hc
      simp at hc
  | cons c cs ih =>
    cases b with
    | nil =>
      simp only [List.nil_append, List.cons_append, List.singleton_append, List.cons.injEq] at h
      rw [h.1] at hc
      simp at hc
    | cons c2 cs2 =>
      simp only [List.cons_append, List.cons.injEq] at h
      obtain ⟨h1, h2⟩ := h
      subst h1
      have hc' : cs.count NUL = cs2.count NUL := by
        simp only [List.count_cons] at hc
        omega
      obtain ⟨e1, e2⟩ := ih cs2 hc' h2
      exact ⟨by rw [e1], e2⟩

theorem Std_created (D : Decls) (a : Str) (to_add : CatalogEntry) (type : DependencyType)
    (ha : a.count NUL = 2) (hb : (nodeOf D to_add).count NUL = 2) :
    DependencyCatalogEntry.Std D
      { edgeTo to_add type with
        fromName := a, name := MangledDependencyName a (nodeOf D to_add) } :=
  ⟨rfl, ha, hb⟩

theorem mem_CreateEntry_inv (v : DependencyCatalogSet) (set : CatalogSet) (x : Str)
    (value r : DependencyCatalogEntry) (h : r ∈ (v.CreateEntry set x value).2) :
    r ∈ set ∨ r = { value with fromName := v.mangled_name, name := v.ApplyPrefix x } := by
  unfold DependencyCatalogSet.CreateEntry CatalogSet.CreateEntry at h
  simp only at h
  split_ifs at h
  · exact Or.inl h
  · rcases List.mem_append.mp h with h1 | h1
    · exact Or.inl h1
    · exact Or.inr (by simpa using h1)

theorem HasKey_CreateEntry (v : DependencyCatalogSet) (set : CatalogSet) (x : Str)
    (value : DependencyCatalogEntry) :
    CatalogSet.HasKey (v.CreateEntry set x value).2 (v.ApplyPrefix x) := by
  unfold DependencyCatalogSet.CreateEntry CatalogSet.CreateEntry CatalogSet.HasKey
  simp only
  split_ifs with h
  · rw [List.any_eq_true] at h
    obtain ⟨r, hr, e⟩ := h
    exact ⟨r, hr, by simpa using e⟩
  · exact ⟨_, List.mem_append_right _ (List.mem_singleton_self _), rfl⟩

theorem HasKey_of_prefix {s t : CatalogSet} (k : Str) (hp : s <+: t)
    (h : CatalogSet.HasKey s k) : CatalogSet.HasKey t k := by
  obtain ⟨r, hr, e⟩ := h
  exact ⟨r, hp.subset hr, e⟩

/-- A record with a standard key that is under a key of the store matches it in both
parts. -/
theorem Std_fields_of_key (D : Decls) (q : DependencyCatalogEntry) (a x : Str)
    (hq : q.Std D) (ha : a.count NUL = 2) (hk : q.name = MangledDependencyName a x) :
    q.fromName = a ∧ q.MangledName D = x := by
  obtain ⟨h1, h2, -⟩ := hq
  rw [h1] at hk
  exact key_inj _ _ _ _ (by rw [h2, ha]) hk

/-! ### The invariant of the edge stores -/

theorem Mirrored_of_Consistent (D : Decls) (w : World) (h : w.Consistent D) : w.Mirrored D := by
  obtain ⟨h1, h2, h3⟩ := h
  intro r hr
  obtain ⟨q, hq, hk⟩ := h3 r hr
  exact ⟨q, hq, Std_fields_of_key D q _ _ (h1 q hq) (h2 r hr).2.2 hk⟩

theorem AddDependent_Consistent (D : Decls) (s : DependencySetCatalogEntry) (w : World)
    (to_add : CatalogEntry) (type : DependencyType) (h : w.Consistent D)
    (hs : s.mangledName.count NUL = 2) (ht : (nodeOf D to_add).count NUL = 2) :
    (s.AddDependent D w to_add type).Consistent D ∧
    CatalogSet.HasKey (s.AddDependent D w to_add type).dependents
      (MangledDependencyName s.mangledName (nodeOf D to_add)) := by
  obtain ⟨h1, h2, h3⟩ := h
  refine ⟨⟨?_, h2, ?_⟩, HasKey_CreateEntry _ _ _ _⟩
  · intro r hr
    rcases mem_CreateEntry_inv _ _ _ _ _ hr with h | h
    · exact h1 r h
    · rw [h]
      exact Std_created D s.mangledName to_add type hs ht
  · intro r hr
    exact HasKey_of_prefix _ (prefix_CreateEntry _ _ _ _) (h3 r hr)

theorem AddDependency_Consistent (D : Decls) (s : DependencySetCatalogEntry) (w : World)
    (to_add : CatalogEntry) (type : DependencyType) (h : w.Consistent D)
    (hs : s.mangledName.count NUL = 2) (ht : (nodeOf D to_add).count NUL = 2)
    (hk : CatalogSet.HasKey w.dependents
      (MangledDependencyName (nodeOf D to_add) s.mangledName)) :
    (s.AddDependency D w to_add type).Consistent D := by
  obtain ⟨h1, h2, h3⟩ := h
  refine ⟨h1, ?_, ?_⟩
  · intro r hr
    rcases mem_CreateEntry_inv _ _ _ _ _ hr with h | h
    · exact h2 r h
    · rw [h]
      exact Std_created D s.mangledName to_add type hs ht
  · intro r hr
    rcases mem_CreateEntry_inv _ _ _ _ _ hr with h | h
    · exact h3 r h
    · rw [h]
      exact hk

theorem Consistent_connections (D : Decls) (w : World) (l : List DependencySetCatalogEntry)
    (h : w.Consistent D) : World.Consistent D { w with connections := l } := h

theorem GetOrCreate_Consistent (D : Decls) (w : World) (e : Entry) (h : w.Consistent D) :
    (GetOrCreateDependencySet D w e).1.Consistent D := by
  unfold World.Consistent
  rw [GetOrCreate_dependents, GetOrCreate_dependencies]
  exact h

/-- The first writing loop of `AddObject` keeps the invariant and leaves a Dependents
record under the key of every new edge. -/
theorem AddObject_dependents_Consistent (D : Decls) (object : CatalogEntry)
    (type : DependencyType) (deps : List CatalogEntry) (w : World)
    (h : w.Consistent D) (ho : (nodeOf D object).count NUL = 2)
    (hd : ∀ d ∈ deps, (nodeOf D d).count NUL = 2) :
    (deps.foldl (fun acc dependency =>
        (GetOrCreateDependencySet D acc (.object dependency)).2.AddDependent D
          (GetOrCreateDependencySet D acc (.object dependency)).1 object type) w).Consistent D ∧
    w.dependents <+: (deps.foldl (fun acc dependency =>
        (GetOrCreateDependencySet D acc (.object dependency)).2.AddDependent D
          (GetOrCreateDependencySet D acc (.object dependency)).1 object type) w).dependents ∧
    ∀ d ∈ deps, CatalogSet.HasKey
      (deps.foldl (fun acc dependency =>
        (GetOrCreateDependencySet D acc (.object dependency)).2.AddDependent D
          (GetOrCreateDependencySet D acc (.object dependency)).1 object type) w).dependents
      (MangledDependencyName (nodeOf D d) (nodeOf D object)) := by
  induction deps generalizing w with
  | nil => exact ⟨h, List.prefix_refl _, fun d hd => by cases hd⟩
  | cons x rest ih =>
    simp only [List.foldl_cons]
    have hx := hd x (List.mem_cons_self _ _)
    obtain ⟨g1, g2⟩ := AddDependent_Consistent D (GetOrCreateDependencySet D w (.object x)).2
      (GetOrCreateDependencySet D w (.object x)).1 object type (GetOrCreate_Consistent D w _ h)
      (by rw [GetOrCreate_snd]; exact hx) ho
    have hname : (GetOrCreateDependencySet D w (.object x)).2.mangledName = nodeOf D x := by
      rw [GetOrCreate_snd]
    rw [hname] at g2
    have g3 : w.dependents <+: ((GetOrCreateDependencySet D w (.object x)).2.AddDependent D
        (GetOrCreateDependencySet D w (.object x)).1 object type).dependents := by
      have := (AddDependent_frame D (GetOrCreateDependencySet D w (.object x)).2
        (GetOrCreateDependencySet D w (.object x)).1 object type).2.2.2
      rwa [GetOrCreate_dependents] at this
    obtain ⟨i1, i2, i3⟩ := ih _ g1 (fun d hd2 => hd d (List.mem_cons_of_mem _ hd2))
    refine ⟨i1, g3.trans i2, ?_⟩
    intro d hd2
    rcases List.mem_cons.mp hd2 with e | e
    · subst e
      exact HasKey_of_prefix _ i2 g2
    · exact i3 d e

/-- The loop of `AddDependencies` keeps the invariant when the dependents store holds the
mirrored keys. -/
theorem AddDependencies_Consistent (D : Decls) (s : DependencySetCatalogEntry)
    (deps : List CatalogEntry) (w : World) (h : w.Consistent D)
    (hs : s.mangledName.count NUL = 2) (hd : ∀ d ∈ deps, (nodeOf D d).count NUL = 2)
    (hk : ∀ d ∈ deps, CatalogSet.HasKey w.dependents
      (MangledDependencyName (nodeOf D d) s.mangledName)) :
    (s.AddDependencies D w deps).Consistent D := by
  unfold DependencySetCatalogEntry.AddDependencies
  induction deps generalizing w with
  | nil => exact h
  | cons x rest ih =>
    simp only [List.foldl_cons]
    exact ih _ (AddDependency_Consistent D s w x _ h hs (hd x (List.mem_cons_self _ _))
        (hk x (List.mem_cons_self _ _)))
      (fun d hd2 => hd d (List.mem_cons_of_mem _ hd2))
      (fun d hd2 => hk d (List.mem_cons_of_mem _ hd2))

theorem AddObject_Consistent (D : Decls) (w w1 : World) (object : CatalogEntry)
    (deps : List CatalogEntry) (h : w.Consistent D) (ho : WellNamed D object)
    (hd : ∀ d ∈ deps, WellNamed D d) (hadd : AddObject D w object deps = .returned w1) :
    w1.Consistent D := by
  unfold AddObject at hadd
  cases hsys : IsSystemEntry object with
  | true =>
    simp only [hsys, if_true, Outcome.returned.injEq] at hadd
    subst hadd
    exact h
  | false =>
    simp only [hsys, Bool.false_eq_true, if_false] at hadd
    split at hadd
    · exact Outcome.noConfusion hadd
    · simp only [Outcome.returned.injEq] at hadd
      subst hadd
      obtain ⟨g1, -, g3⟩ := AddObject_dependents_Consistent D object
        (if object.type = .INDEX_ENTRY then .DEPENDENCY_AUTOMATIC else .DEPENDENCY_REGULAR)
        deps w h (count_nodeOf D object ho) (fun d hd2 => count_nodeOf D d (hd d hd2))
      apply AddDependencies_Consistent D _ deps _ (GetOrCreate_Consistent D _ _ g1)
      · rw [GetOrCreate_snd]
        exact count_nodeOf D object ho
      · exact fun d hd2 => count_nodeOf D d (hd d hd2)
      · intro d hd2
        rw [GetOrCreate_snd, GetOrCreate_dependents]
        exact g3 d hd2

theorem AddOwnership_Consistent (D : Decls) (w w1 : World) (owner entry : CatalogEntry)
    (h : w.Consistent D) (ho : WellNamed D owner) (he : WellNamed D entry)
    (hown : AddOwnership D w owner entry = .returned w1) : w1.Consistent D := by
  unfold AddOwnership at hown
  cases hE : IsSystemEntry entry with
  | true => simp [hE] at hown
  | false =>
  cases hO : IsSystemEntry owner with
  | true => simp [hE, hO] at hown
  | false =>
  simp only [hE, hO, Bool.false_eq_true, if_false] at hown
  split_ifs at hown
  split at hown
  · exact Outcome.noConfusion hown
  · simp only [Outcome.returned.injEq] at hown
    subst hown
    have c1 := GetOrCreate_Consistent D _ (.object entry)
      (GetOrCreate_Consistent D w (.object owner) h)
    have hco := count_nodeOf D owner ho
    have hce := count_nodeOf D entry he
    obtain ⟨c2, k2⟩ := AddDependent_Consistent D
      (GetOrCreateDependencySet D (GetOrCreateDependencySet D w (.object owner)).1
        (.object entry)).2 _ owner .DEPENDENCY_OWNED_BY c1
      (by rw [GetOrCreate_snd]; exact hce) hco
    have c3 := AddDependency_Consistent D (GetOrCreateDependencySet D w (.object owner)).2 _
      entry D.defaultDependencyType c2 (by rw [GetOrCreate_snd]; exact hco) hce
      (by simpa only [GetOrCreate_snd] using k2)
    exact (AddDependent_Consistent D (GetOrCreateDependencySet D w (.object owner)).2 _ entry
      .DEPENDENCY_OWNS c3 (by rw [GetOrCreate_snd]; exact hco) hce).1

/-! ### Removing the edges of a node -/

theorem mem_Scan_inv (v : DependencyCatalogSet) (set : CatalogSet) (d : DependencyCatalogEntry)
    (h : d ∈ v.Scan set) :
    d ∈ set ∧ v.mangled_name.isPrefixOf d.name = true ∧
      CIEquals d.fromName v.mangled_name = true := by
  unfold DependencyCatalogSet.Scan CatalogSet.ScanWithPrefix at h
  rw [List.mem_filter, List.mem_filter] at h
  exact ⟨h.1.1, h.1.2, h.2⟩

/-- A scanned record with a standard key is owned by the node of the view. -/
theorem Scan_fromName (D : Decls) (v : DependencyCatalogSet) (set : CatalogSet)
    (d : DependencyCatalogEntry) (h : d ∈ v.Scan set) (hs : d.Std D) :
    d.fromName = v.mangled_name := by
  obtain ⟨-, hp, hci⟩ := mem_Scan_inv v set d h
  rw [hs.1] at hp
  have hp' : v.mangled_name.isPrefixOf (d.fromName ++ ([NUL] ++ d.MangledName D)) = true := by
    simpa [MangledDependencyName] using hp
  exact (eq_of_isPrefixOf_of_length hp' (CIEquals_length hci).symm).symm

/-- Removing the two records of a pair of mirrored keys keeps the invariant. -/
theorem remove_pair_Consistent (D : Decls) (w w1 : World) (X Y : Str) (h : w.Consistent D)
    (hX : X.count NUL = 2)
    (hd : w1.dependents = w.dependents.filter (fun r => r.name ≠ MangledDependencyName X Y))
    (hdep : w1.dependencies
      = w.dependencies.filter (fun r => r.name ≠ MangledDependencyName Y X)) :
    w1.Consistent D := by
  obtain ⟨h1, h2, h3⟩ := h
  unfold World.Consistent
  rw [hd, hdep]
  refine ⟨fun r hr => h1 r (List.mem_filter.mp hr).1, fun r hr => h2 r (List.mem_filter.mp hr).1,
    ?_⟩
  intro r hr
  obtain ⟨hr1, hr2⟩ := List.mem_filter.mp hr
  obtain ⟨q, hq, hk⟩ := h3 r hr1
  refine ⟨q, List.mem_filter.mpr ⟨hq, ?_⟩, hk⟩
  simp only [decide_eq_true_eq]
  intro e
  rw [hk] at e
  obtain ⟨e1, e2⟩ := key_inj _ _ _ _ (by rw [(h2 r hr1).2.2, hX]) e
  have : r.name = MangledDependencyName Y X := by rw [(h2 r hr1).1, e1, e2]
  simp [this] at hr2

theorem removeDependencies_Consistent (D : Decls) (connections : DependencySetCatalogEntry)
    (L : List DependencyCatalogEntry) (w w1 : World) (h : w.Consistent D)
    (hL : ∀ d ∈ L, d.Std D)
    (hr : CleanupDependencies.removeDependencies D connections w L = .returned w1) :
    w1.Consistent D ∧ w1.catalog = w.catalog ∧ w1.connections = w.connections := by
  induction L generalizing w with
  | nil =>
    simp only [CleanupDependencies.removeDependencies, Outcome.returned.injEq] at hr
    subst hr
    exact ⟨h, rfl, rfl⟩
  | cons d rest ih =>
    unfold CleanupDependencies.removeDependencies at hr
    rw [GetDependencySet_eq] at hr
    split_ifs at hr with hm
    · simp only at hr
      obtain ⟨g1, g2, g3⟩ := ih _
        (remove_pair_Consistent D w _ (d.MangledName D) connections.mangledName h
          (hL d (List.mem_cons_self _ _)).2.2 rfl rfl)
        (fun x hx => hL x (List.mem_cons_of_mem _ hx)) hr
      exact ⟨g1, g2, g3⟩

theorem removeDependents_Consistent (D : Decls) (connections : DependencySetCatalogEntry)
    (L : List DependencyCatalogEntry) (w w1 : World) (h : w.Consistent D)
    (hL : ∀ d ∈ L, d.Std D ∧ d.fromName = connections.mangledName)
    (hr : CleanupDependencies.removeDependents D connections w L = .returned w1) :
    w1.Consistent D ∧ w1.catalog = w.catalog ∧ w1.connections = w.connections := by
  induction L generalizing w with
  | nil =>
    simp only [CleanupDependencies.removeDependents, Outcome.returned.injEq] at hr
    subst hr
    exact ⟨h, rfl, rfl⟩
  | cons d rest ih =>
    unfold CleanupDependencies.removeDependents at hr
    rw [GetDependencySet_eq] at hr
    split_ifs at hr with hm
    · simp only at hr
      obtain ⟨hs, hf⟩ := hL d (List.mem_cons_self _ _)
      obtain ⟨g1, g2, g3⟩ := ih _
        (remove_pair_Consistent D w _ connections.mangledName (d.MangledName D) h
          (by rw [← hf]; exact hs.2.1) rfl rfl)
        (fun x hx => hL x (List.mem_cons_of_mem _ hx)) hr
      exact ⟨g1, g2, g3⟩

theorem CleanupDependencies_Consistent (D : Decls) (w w1 : World) (object : CatalogEntry)
    (h : w.Consistent D) (hr : CleanupDependencies D w object = .returned w1) :
    w1.Consistent D ∧ w1.catalog = w.catalog ∧ w1.connections = w.connections := by
  unfold CleanupDependencies at hr
  split at hr
  · exact Outcome.noConfusion hr
  · rename_i connections hget
    simp only at hr
    split at hr
    · exact Outcome.noConfusion hr
    · rename_i w2 hrem
      obtain ⟨g1, g2, g3⟩ := removeDependencies_Consistent D connections _ w w2 h
        (fun d hd => h.2.1 d (mem_Scan_inv _ _ _ hd).1) hrem
      obtain ⟨k1, k2, k3⟩ := removeDependents_Consistent D connections _ w2 w1 g1
        (fun d hd => ⟨h.1 d (mem_Scan_inv _ _ _ hd).1,
          Scan_fromName D _ _ d hd (h.1 d (mem_Scan_inv _ _ _ hd).1)⟩) hr
      exact ⟨k1, k2.trans g2, k3.trans g3⟩

/-! ### The invariant under `DropObject` -/

theorem Catalog_DropEntry_Consistent (D : Decls)
    (rec : World → CatalogEntry → Bool → Outcome)
    (hrec : ∀ w obj c w1, World.Consistent D w → rec w obj c = .returned w1 →
      World.Consistent D w1)
    (w w1 : World) (set : Str × CatalogType) (name : Str) (cascade : Bool)
    (h : w.Consistent D) (hr : Catalog.DropEntry rec w set name cascade = .returned w1) :
    w1.Consistent D := by
  unfold Catalog.DropEntry at hr
  simp only at hr
  split at hr
  · simp only [Outcome.returned.injEq] at hr
    subst hr
    exact h
  · split at hr
    · simp only [Outcome.returned.injEq] at hr
      subst hr
      exact h
    · split at hr
      · rename_i w2 hcall
        simp only [Outcome.returned.injEq] at hr
        subst hr
        exact hrec _ _ _ _ (by exact h) hcall
      · exact Outcome.noConfusion hr

theorem DropObject_drop_Consistent (D : Decls)
    (DropEntry : World → Str × CatalogType → Str → Bool → Outcome)
    (hdrop : ∀ w set name c w1, World.Consistent D w → DropEntry w set name c = .returned w1 →
      World.Consistent D w1)
    (cascade : Bool) (L : List LookupResult) (w w1 : World) (h : w.Consistent D)
    (hr : DropObject.drop DropEntry cascade w L = .returned w1) : w1.Consistent D := by
  induction L generalizing w with
  | nil =>
    simp only [DropObject.drop, Outcome.returned.injEq] at hr
    subst hr
    exact h
  | cons l rest ih =>
    unfold DropObject.drop at hr
    split at hr
    · split at hr
      · exact Outcome.noConfusion hr
      · rename_i w2 hcall
        exact ih w2 (hdrop _ _ _ _ _ h hcall) hr
    · exact Outcome.noConfusion hr

theorem DropObject_body_Consistent (D : Decls)
    (rec : World → CatalogEntry → Bool → Outcome)
    (hrec : ∀ w obj c w1, World.Consistent D w → rec w obj c = .returned w1 →
      World.Consistent D w1)
    (w w1 : World) (object : CatalogEntry) (cascade : Bool) (h : w.Consistent D)
    (hr : DropObject.body D rec w object cascade = .returned w1) : w1.Consistent D := by
  unfold DropObject.body at hr
  split_ifs at hr
  · simp only [Outcome.returned.injEq] at hr
    subst hr
    exact h
  · split at hr
    · simp only [Outcome.returned.injEq] at hr
      subst hr
      exact h
    · split at hr
      · exact Outcome.noConfusion hr
      · split at hr
        · exact Outcome.noConfusion hr
        · rename_i w2 hdropped
          have h2 := DropObject_drop_Consistent D _
            (fun w set name c w1 hw hcall =>
              Catalog_DropEntry_Consistent D rec hrec w w1 set name c hw hcall)
            cascade _ w w2 h hdropped
          exact (CleanupDependencies_Consistent D w2 w1 object h2 hr).1

theorem DropObject_Consistent (D : Decls) (fuel : Nat) (w w1 : World) (object : CatalogEntry)
    (cascade : Bool) (h : w.Consistent D)
    (hr : DropObject D fuel w object cascade = .returned w1) : w1.Consistent D := by
  induction fuel generalizing w w1 object cascade with
  | zero =>
    exact DropObject_body_Consistent D _
      (fun w obj c w1 _ hcall => Outcome.noConfusion hcall) w w1 object cascade h hr
  | succ n ih =>
    exact DropObject_body_Consistent D (DropObject D n)
      (fun w obj c w1 hw hcall => ih w w1 obj c hw hcall) w w1 object cascade h hr

/-! ### The invariant under `AlterObject` -/

theorem LookupEntry_entry_mem (D : Decls) (c : Catalog) (d : DependencyCatalogEntry)
    (l : LookupResult) (e : CatalogEntry) (h : LookupEntry D c (.dependency d) = .ok l)
    (he : l.entry = some e) : ∃ s ∈ c.schemas ++ c.sets, s.entry = e := by
  unfold LookupEntry GetLookupProperties at h
  simp only at h
  split at h
  · exact Except.noConfusion h
  · rename_i schema_entry hsi
    split_ifs at h
    · simp only [Except.ok.injEq] at h
      subst h
      simp only [Option.some.injEq] at he
      exact ⟨schema_entry, List.mem_append_left _ (List.mem_of_find?_eq_some hsi), he⟩
    · split at h
      · simp only [Except.ok.injEq] at h
        subst h
        cases he
      · rename_i m hm
        simp only [Except.ok.injEq] at h
        subst h
        simp only [Slot.GetEntryInternal] at he
        split_ifs at he
        simp only [Option.some.injEq] at he
        exact ⟨m, List.mem_append_right _ (List.mem_of_find?_eq_some hm), he⟩

theorem scanDependents_WellNamed (D : Decls) (w : World) (L : List DependencyCatalogEntry)
    (acc res : List Dependency) (hcat : w.catalog.AllWellNamed D)
    (hacc : ∀ dep ∈ acc, WellNamed D dep.entry)
    (h : AlterObject.scanDependents D w L acc = .ok res) :
    ∀ dep ∈ res, WellNamed D dep.entry := by
  induction L generalizing acc with
  | nil =>
    simp only [AlterObject.scanDependents, Except.ok.injEq] at h
    subst h
    exact hacc
  | cons x rest ih =>
    unfold AlterObject.scanDependents at h
    split at h
    · exact ih acc hacc h
    · split at h
      · exact Except.noConfusion h
      · rename_i lookup hl
        split at h
        · exact ih acc hacc h
        · rename_i entry he
          split_ifs at h
          refine ih _ ?_ h
          intro dep hdep
          rcases mem_Dependency_insert _ _ _ hdep with h1 | h1
          · exact hacc dep h1
          · obtain ⟨s, hs, e⟩ := LookupEntry_entry_mem D w.catalog x lookup entry hl he
            rw [h1]
            simp only
            rw [← e]
            exact hcat s hs

theorem scanDependencies_WellNamed (D : Decls) (w : World) (L : List DependencyCatalogEntry)
    (acc res : List Dependency) (hcat : w.catalog.AllWellNamed D)
    (hacc : ∀ dep ∈ acc, WellNamed D dep.entry)
    (h : AlterObject.scanDependencies D w L acc = .ok res) :
    ∀ dep ∈ res, WellNamed D dep.entry := by
  induction L generalizing acc with
  | nil =>
    simp only [AlterObject.scanDependencies, Except.ok.injEq] at h
    subst h
    exact hacc
  | cons x rest ih =>
    unfold AlterObject.scanDependencies at h
    split at h
    · exact Except.noConfusion h
    · rename_i lookup hl
      split at h
      · exact ih acc hacc h
      · rename_i entry he
        refine ih _ ?_ h
        intro dep hdep
        rcases mem_Dependency_insert _ _ _ hdep with h1 | h1
        · exact hacc dep h1
        · obtain ⟨s, hs, e⟩ := LookupEntry_entry_mem D w.catalog x lookup entry hl he
          rw [h1]
          simp only
          rw [← e]
          exact hcat s hs

theorem AddDependent_Std (D : Decls) (s : DependencySetCatalogEntry) (w : World)
    (to_add : CatalogEntry) (type : DependencyType)
    (h : ∀ r ∈ w.dependents, r.Std D)
    (hs : s.mangledName.count NUL = 2) (ht : (nodeOf D to_add).count NUL = 2) :
    ∀ r ∈ (s.AddDependent D w to_add type).dependents, r.Std D := by
  intro r hr
  rcases mem_CreateEntry_inv _ _ _ _ _ hr with h1 | h1
  · exact h r h1
  · rw [h1]
    exact Std_created D s.mangledName to_add type hs ht

/-- A loop of `AlterObject` that registers the new object on other nodes: it adds
Dependents records with a standard key, one under the key of every node of the list. -/
theorem addDependents_Std (D : Decls) (new_obj : CatalogEntry) (l : List Dependency)
    (w w2 : World) (h : ∀ r ∈ w.dependents, r.Std D)
    (hn : (nodeOf D new_obj).count NUL = 2)
    (hl : ∀ dep ∈ l, (nodeOf D dep.entry).count NUL = 2)
    (hr : AlterObject.addDependents D new_obj w l = .returned w2) :
    (∀ r ∈ w2.dependents, r.Std D) ∧ w2.dependencies = w.dependencies ∧
    w2.catalog = w.catalog ∧ w.dependents <+: w2.dependents ∧
    ∀ dep ∈ l, CatalogSet.HasKey w2.dependents
      (MangledDependencyName (nodeOf D dep.entry) (nodeOf D new_obj)) := by
  induction l generalizing w with
  | nil =>
    simp only [AlterObject.addDependents, Outcome.returned.injEq] at hr
    subst hr
    exact ⟨h, rfl, rfl, List.prefix_refl _, fun dep hd => by cases hd⟩
  | cons x rest ih =>
    unfold AlterObject.addDependents at hr
    rw [GetDependencySet_eq] at hr
    split_ifs at hr with hm
    simp only at hr
    have hx := hl x (List.mem_cons_self _ _)
    obtain ⟨g1, g2, g3, g4, g5⟩ := ih _
      (AddDependent_Std D { mangledName := nodeOf D x.entry } w new_obj .DEPENDENCY_REGULAR h
        hx hn)
      (fun dep hd => hl dep (List.mem_cons_of_mem _ hd)) hr
    have hpre : w.dependents <+: (DependencySetCatalogEntry.AddDependent D
        { mangledName := nodeOf D x.entry } w new_obj .DEPENDENCY_REGULAR).dependents :=
      prefix_CreateEntry _ _ _ _
    refine ⟨g1, g2, g3, hpre.trans g4, ?_⟩
    intro dep hd
    rcases List.mem_cons.mp hd with e | e
    · subst e
      exact HasKey_of_prefix _ g4 (HasKey_CreateEntry _ _ _ _)
    · exact g5 dep e

theorem addOwnedBy_Std (D : Decls) (new_obj : CatalogEntry) (l : List Dependency)
    (w w2 : World) (h : ∀ r ∈ w.dependents, r.Std D)
    (hn : (nodeOf D new_obj).count NUL = 2)
    (hl : ∀ dep ∈ l, (nodeOf D dep.entry).count NUL = 2)
    (hr : AlterObject.addOwnedBy D new_obj w l = .returned w2) :
    (∀ r ∈ w2.dependents, r.Std D) ∧ w2.dependencies = w.dependencies ∧
    w2.catalog = w.catalog ∧ w.dependents <+: w2.dependents ∧
    ∀ dep ∈ l, CatalogSet.HasKey w2.dependents
      (MangledDependencyName (nodeOf D dep.entry) (nodeOf D new_obj)) := by
  induction l generalizing w with
  | nil =>
    simp only [AlterObject.addOwnedBy, Outcome.returned.injEq] at hr
    subst hr
    exact ⟨h, rfl, rfl, List.prefix_refl _, fun dep hd => by cases hd⟩
  | cons x rest ih =>
    unfold AlterObject.addOwnedBy at hr
    rw [GetDependencySet_eq] at hr
    split_ifs at hr with hm
    simp only at hr
    have hx := hl x (List.mem_cons_self _ _)
    obtain ⟨g1, g2, g3, g4, g5⟩ := ih _
      (AddDependent_Std D { mangledName := nodeOf D x.entry } w new_obj .DEPENDENCY_OWNED_BY h
        hx hn)
      (fun dep hd => hl dep (List.mem_cons_of_mem _ hd)) hr
    have hpre : w.dependents <+: (DependencySetCatalogEntry.AddDependent D
        { mangledName := nodeOf D x.entry } w new_obj .DEPENDENCY_OWNED_BY).dependents :=
      prefix_CreateEntry _ _ _ _
    refine ⟨g1, g2, g3, hpre.trans g4, ?_⟩
    intro dep hd
    rcases List.mem_cons.mp hd with e | e
    · subst e
      exact HasKey_of_prefix _ g4 (HasKey_CreateEntry _ _ _ _)
    · exact g5 dep e

theorem AddDependents_Std (D : Decls) (s : DependencySetCatalogEntry) (l : List Dependency)
    (w : World) (h : ∀ r ∈ w.dependents, r.Std D)
    (hs : s.mangledName.count NUL = 2)
    (hl : ∀ dep ∈ l, (nodeOf D dep.entry).count NUL = 2) :
    ∀ r ∈ (s.AddDependents D w l).dependents, r.Std D := by
  unfold DependencySetCatalogEntry.AddDependents
  induction l generalizing w with
  | nil => exact h
  | cons x rest ih =>
    simp only [List.foldl_cons]
    exact ih _ (AddDependent_Std D s w x.entry x.dependencyType h hs
      (hl x (List.mem_cons_self _ _))) (fun dep hd => hl dep (List.mem_cons_of_mem _ hd))

theorem AddDependenciesOf_mem (D : Decls) (s : DependencySetCatalogEntry) (l : List Dependency)
    (w : World) (x : DependencyCatalogEntry)
    (hx : x ∈ (s.AddDependenciesOf D w l).dependencies) :
    x ∈ w.dependencies ∨ ∃ dep ∈ l,
      x = { edgeTo dep.entry dep.dependencyType with
            fromName := s.mangledName,
            name := MangledDependencyName s.mangledName (nodeOf D dep.entry) } := by
  unfold DependencySetCatalogEntry.AddDependenciesOf at hx
  induction l generalizing w with
  | nil => exact Or.inl hx
  | cons y rest ih =>
    simp only [List.foldl_cons] at hx
    rcases ih _ hx with h1 | ⟨dep, hd, e⟩
    · rcases mem_CreateEntry_inv _ _ _ _ _ h1 with h2 | h2
      · exact Or.inl h2
      · exact Or.inr ⟨y, List.mem_cons_self _ _, h2⟩
    · exact Or.inr ⟨dep, List.mem_cons_of_mem _ hd, e⟩

theorem mem_insert_regular (preserved : List Dependency) (acc : List Dependency)
    (dep : Dependency)
    (h : dep ∈ preserved.foldl (fun acc dep =>
      Dependency.insert acc { entry := dep.entry, dependencyType := .DEPENDENCY_REGULAR }) acc) :
    dep ∈ acc ∨ ∃ p ∈ preserved, dep.entry = p.entry := by
  induction preserved generalizing acc with
  | nil => exact Or.inl h
  | cons y rest ih =>
    simp only [List.foldl_cons] at h
    rcases ih _ h with h1 | ⟨p, hp, e⟩
    · rcases mem_Dependency_insert _ _ _ h1 with h2 | h2
      · exact Or.inl h2
      · exact Or.inr ⟨y, List.mem_cons_self _ _, by rw [h2]⟩
    · exact Or.inr ⟨p, List.mem_cons_of_mem _ hp, e⟩

/-- The writing part of `AlterObject`, from a state that satisfies the invariant. -/
theorem AlterObject_write_Consistent (D : Decls) (wc w2 w1 : World) (new_obj : CatalogEntry)
    (preserved dependency_list : List Dependency)
    (h : wc.Consistent D) (hn : WellNamed D new_obj)
    (hp : ∀ dep ∈ preserved, WellNamed D dep.entry)
    (hd : ∀ dep ∈ dependency_list, WellNamed D dep.entry)
    (hadd : AlterObject.addDependents D new_obj wc dependency_list = .returned w2)
    (hfin : AlterObject.addOwnedBy D new_obj
      (DependencySetCatalogEntry.AddDependents D
        (GetOrCreateDependencySet D w2 (.object new_obj)).2
        (DependencySetCatalogEntry.AddDependenciesOf D
          (GetOrCreateDependencySet D w2 (.object new_obj)).2
          (GetOrCreateDependencySet D w2 (.object new_obj)).1
          (preserved.foldl (fun acc dep =>
            Dependency.insert acc { entry := dep.entry, dependencyType := .DEPENDENCY_REGULAR })
            dependency_list))
        preserved)
      preserved = .returned w1) :
    w1.Consistent D := by
  have hcn := count_nodeOf D new_obj hn
  obtain ⟨a1, a2, -, a4, a5⟩ := addDependents_Std D new_obj dependency_list wc w2 h.1 hcn
    (fun dep hdep => count_nodeOf D dep.entry (hd dep hdep)) hadd
  rw [GetOrCreate_snd] at hfin
  -- the state after the Dependencies records of the new object are written
  have b1 := (AddDependenciesOf_frame D { mangledName := nodeOf D new_obj }
    (GetOrCreateDependencySet D w2 (.object new_obj)).1
    (preserved.foldl (fun acc dep =>
      Dependency.insert acc { entry := dep.entry, dependencyType := .DEPENDENCY_REGULAR })
      dependency_list)).2.2
  rw [GetOrCreate_dependents] at b1
  -- the state after the Dependents records of the new object are written
  obtain ⟨-, -, c3, c4⟩ := AddDependents_frame D { mangledName := nodeOf D new_obj }
    (DependencySetCatalogEntry.AddDependenciesOf D { mangledName := nodeOf D new_obj }
      (GetOrCreateDependencySet D w2 (.object new_obj)).1
      (preserved.foldl (fun acc dep =>
        Dependency.insert acc { entry := dep.entry, dependencyType := .DEPENDENCY_REGULAR })
        dependency_list)) preserved
  have c1 := AddDependents_Std D { mangledName := nodeOf D new_obj } preserved
    (DependencySetCatalogEntry.AddDependenciesOf D { mangledName := nodeOf D new_obj }
      (GetOrCreateDependencySet D w2 (.object new_obj)).1
      (preserved.foldl (fun acc dep =>
        Dependency.insert acc { entry := dep.entry, dependencyType := .DEPENDENCY_REGULAR })
        dependency_list))
    (by rw [b1]; exact a1) hcn (fun dep hdep => count_nodeOf D dep.entry (hp dep hdep))
  obtain ⟨e1, e2, -, e4, e5⟩ := addOwnedBy_Std D new_obj preserved _ w1 c1 hcn
    (fun dep hdep => count_nodeOf D dep.entry (hp dep hdep)) hfin
  have hgrow : w2.dependents <+: w1.dependents := by
    rw [b1] at c4
    exact c4.trans e4
  have hmem : ∀ x ∈ w1.dependencies, x ∈ wc.dependencies ∨
      ∃ dep : Dependency, ((∃ d0 ∈ dependency_list, dep.entry = d0.entry) ∨
          ∃ p ∈ preserved, dep.entry = p.entry) ∧
        x = { edgeTo dep.entry dep.dependencyType with
              fromName := nodeOf D new_obj,
              name := MangledDependencyName (nodeOf D new_obj) (nodeOf D dep.entry) } := by
    intro x hx
    rw [e2, c3] at hx
    rcases AddDependenciesOf_mem D _ _ _ x hx with h1 | ⟨dep, hdep, e⟩
    · rw [GetOrCreate_dependencies, a2] at h1
      exact Or.inl h1
    · refine Or.inr ⟨dep, ?_, e⟩
      rcases mem_insert_regular _ _ _ hdep with h2 | h2
      · exact Or.inl ⟨dep, h2, rfl⟩
      · exact Or.inr h2
  refine ⟨e1, ?_, ?_⟩
  · intro x hx
    rcases hmem x hx with h1 | ⟨dep, hdep, e⟩
    · exact h.2.1 x h1
    · rw [e]
      refine Std_created D _ dep.entry dep.dependencyType hcn ?_
      rcases hdep with ⟨d0, hd0, e0⟩ | ⟨p, hp0, e0⟩
      · rw [e0]; exact count_nodeOf D _ (hd d0 hd0)
      · rw [e0]; exact count_nodeOf D _ (hp p hp0)
  · intro x hx
    rcases hmem x hx with h1 | ⟨dep, hdep, e⟩
    · exact HasKey_of_prefix _ (a4.trans hgrow) (h.2.2 x h1)
    · rw [e]
      show CatalogSet.HasKey w1.dependents
        (MangledDependencyName (nodeOf D dep.entry) (nodeOf D new_obj))
      rcases hdep with ⟨d0, hd0, e0⟩ | ⟨p, hp0, e0⟩
      · rw [e0]
        exact HasKey_of_prefix _ hgrow (a5 d0 hd0)
      · rw [e0]
        exact e5 p hp0

theorem AlterObject_Consistent (D : Decls) (w w1 : World) (old_obj new_obj : CatalogEntry)
    (h : w.Consistent D) (hcat : w.catalog.AllWellNamed D) (hn : WellNamed D new_obj)
    (hr : AlterObject D w old_obj new_obj = .returned w1) : w1.Consistent D := by
  unfold AlterObject at hr
  cases hsys : IsSystemEntry new_obj with
  | true =>
    simp only [hsys, if_true, Outcome.returned.injEq] at hr
    subst hr
    exact h
  | false =>
    simp only [hsys, Bool.false_eq_true, if_false] at hr
    split at hr
    · simp only [Outcome.returned.injEq] at hr
      subst hr
      exact h
    · rename_i old_connections hold
      split at hr
      · exact Outcome.noConfusion hr
      · rename_i preserved hpres
        split at hr
        · exact Outcome.noConfusion hr
        · rename_i dependency_list hdeps
          have hp := scanDependents_WellNamed D w _ [] preserved hcat
            (fun dep hdep => by cases hdep) hpres
          have hd := scanDependencies_WellNamed D w _ [] dependency_list hcat
            (fun dep hdep => by cases hdep) hdeps
          by_cases hname : old_obj.name ≠ new_obj.name
          · rw [if_pos hname] at hr
            split at hr
            · exact Outcome.noConfusion hr
            · rename_i wc hclean
              split at hr
              · exact Outcome.noConfusion hr
              · rename_i w2 hadd
                exact AlterObject_write_Consistent D wc w2 w1 new_obj preserved dependency_list
                  (CleanupDependencies_Consistent D w wc old_obj h hclean).1 hn hp hd hadd hr
          · rw [if_neg hname] at hr
            simp only at hr
            split at hr
            · exact Outcome.noConfusion hr
            · rename_i w2 hadd
              exact AlterObject_write_Consistent D w w2 w1 new_obj preserved dependency_list
                h hn hp hd hadd hr

/-! ### The reachable states -/

theorem Reachable_Consistent (D : Decls) (w : World) (h : Reachable D w) : w.Consistent D := by
  induction h with
  | init c =>
    exact ⟨fun r hr => (by cases hr), fun r hr => (by cases hr), fun r hr => (by cases hr)⟩
  | setCatalog w c _ ih => exact ih
  | addObject w w1 object deps _ ho hd hadd ih =>
    exact AddObject_Consistent D w w1 object deps ih ho hd hadd
  | dropObject w w1 object cascade fuel _ hdrop ih =>
    exact DropObject_Consistent D fuel w w1 object cascade ih hdrop
  | alterObject w w1 old_obj new_obj _ hcat hn halter ih =>
    exact AlterObject_Consistent D w w1 old_obj new_obj ih hcat hn halter
  | addOwnership w w1 owner entry _ ho he hown ih =>
    exact AddOwnership_Consistent D w w1 owner entry ih ho he hown

/-- C18 (as stated, refuted): the `OWNS` edge has no mirror.  The state after
`AddOwnership(t, s)` on the empty registry is reachable; the Dependents of the table `t`
hold the `OWNS` record that points at the sequence `s`, and no Dependencies record of `s`
points at `t`. -/
theorem C18_counterexample :
    Reachable stdDecls (AddOwnership stdDecls sampleWorld sampleTable sampleSequence).world ∧
    edgeOf stdDecls sampleTable sampleSequence .DEPENDENCY_OWNS ∈
      (AddOwnership stdDecls sampleWorld sampleTable sampleSequence).world.dependents ∧
    ∀ r ∈ (AddOwnership stdDecls sampleWorld sampleTable sampleSequence).world.dependencies,
      ¬ (r.fromName = nodeOf stdDecls sampleSequence ∧
          r.MangledName stdDecls = nodeOf stdDecls sampleTable) := by
  refine ⟨?_, by decide, by decide⟩
  exact Reachable.addOwnership sampleWorld _ sampleTable sampleSequence
    (Reachable.init sampleCatalog) (by decide) (by decide) (by decide)

/-- C18 (amended): in every state reached from an empty registry by calls of
`AddObject`, `DropObject`, `AlterObject` and `AddOwnership` that return, on well-named
objects, every Dependencies record from a node `A` to a target `B` is matched by a
Dependents record that is stored on `B` and points at `A`. -/
theorem C18_dependencies_mirrored (D : Decls) (w : World) (h : Reachable D w) :
    ∀ r ∈ w.dependencies, ∃ q ∈ w.dependents,
      q.fromName = r.MangledName D ∧ q.MangledName D = r.fromName :=
  Mirrored_of_Consistent D w (Reachable_Consistent D w h)

theorem C18_dependencies_mirrored_witness :
    World.Mirrored stdDecls
      (AddOwnership stdDecls sampleWorld sampleTable sampleSequence).world :=
  C18_dependencies_mirrored stdDecls _
    (Reachable.addOwnership sampleWorld _ sampleTable sampleSequence
      (Reachable.init sampleCatalog) (by decide) (by decide) (by decide))

/-! ### The second scan of `AddOwnership` -/

/-- C21: when the Dependents of `entry` hold a record, of any type, that resolves to a
live entry other than `owner`, `AddOwnership(owner, entry)` throws and adds no edge
record; and the scan of the Dependents passes over the records that do not resolve: its
result is the one on the list without them. -/
theorem C21_entry_has_other_dependent (D : Decls) (w : World) (owner entry x : CatalogEntry)
    (d : DependencyCatalogEntry) (l : LookupResult)
    (hd : d ∈ DependencyCatalogSet.Scan { mangled_name := nodeOf D entry } w.dependents)
    (hl : LookupEntry D w.catalog (.dependency d) = .ok l)
    (hx : l.entry = some x) (hne : x ≠ owner) :
    (∃ e w1, AddOwnership D w owner entry = .threw e w1 ∧
      w1.dependents = w.dependents ∧ w1.dependencies = w.dependencies) ∧
    ∀ L : List DependencyCatalogEntry,
      AddOwnership.scan D w owner L
        = AddOwnership.scan D w owner (L.filter (fun q =>
            match LookupEntry D w.catalog (.dependency q) with
            | .ok lq => lq.entry.isSome
            | .error _ => true)) := by
  constructor
  · unfold AddOwnership
    by_cases hsE : IsSystemEntry entry = true
    · exact ⟨_, _, if_pos hsE, rfl, rfl⟩
    · rw [if_neg hsE]
      by_cases hsO : IsSystemEntry owner = true
      · exact ⟨_, _, if_pos hsO, rfl, rfl⟩
      · rw [if_neg hsO]
        dsimp only
        split_ifs with hany
        · exact ⟨_, _, rfl, GetOrCreate_dependents _ _ _, GetOrCreate_dependencies _ _ _⟩
        · obtain ⟨e, he⟩ := AddOwnership_scan_rejects D
            (GetOrCreateDependencySet D
              (GetOrCreateDependencySet D w (.object owner)).1 (.object entry)).1
            owner x
            (DependencyCatalogSet.Scan
              (GetOrCreateDependencySet D
                (GetOrCreateDependencySet D w (.object owner)).1
                (.object entry)).2.Dependents
              (GetOrCreateDependencySet D
                (GetOrCreateDependencySet D w (.object owner)).1
                (.object entry)).1.dependents)
            d l
            (by
              rw [GetOrCreate_snd, GetOrCreate_dependents, GetOrCreate_dependents]
              exact hd)
            (by
              rw [GetOrCreate_catalog, GetOrCreate_catalog]
              exact hl)
            hx hne
          rw [he]
          refine ⟨e, _, rfl, ?_, ?_⟩
          · rw [GetOrCreate_dependents, GetOrCreate_dependents]
          · rw [GetOrCreate_dependencies, GetOrCreate_dependencies]
  · intro L
    induction L with
    | nil => rfl
    | cons q rest ih =>
      cases hq : LookupEntry D w.catalog (.dependency q) with
      | error e =>
        simp only [List.filter_cons, hq, if_true]
        unfold AddOwnership.scan
        simp only [hq]
      | ok lq =>
        cases hqe : lq.entry with
        | none =>
          simp only [List.filter_cons, hq, hqe, Option.isSome_none, Bool.false_eq_true, if_false]
          rw [← ih]
          conv_lhs => unfold AddOwnership.scan
          simp only [hq, hqe]
        | some dep =>
          simp only [List.filter_cons, hq, hqe, Option.isSome_some, if_true]
          unfold AddOwnership.scan
          simp only [hq, hqe]
          rw [ih]

theorem C21_entry_has_other_dependent_witness :
    (∃ e w1, AddOwnership stdDecls
        (AddObject stdDecls sampleWorld sampleView [sampleSequence]).world
        sampleTable sampleSequence = .threw e w1 ∧
      w1.dependents = (AddObject stdDecls sampleWorld sampleView [sampleSequence]).world.dependents ∧
      w1.dependencies
        = (AddObject stdDecls sampleWorld sampleView [sampleSequence]).world.dependencies) ∧
    ∀ L : List DependencyCatalogEntry,
      AddOwnership.scan stdDecls
          (AddObject stdDecls sampleWorld sampleView [sampleSequence]).world sampleTable L
        = AddOwnership.scan stdDecls
            (AddObject stdDecls sampleWorld sampleView [sampleSequence]).world sampleTable
            (L.filter (fun q =>
              match LookupEntry stdDecls
                (AddObject stdDecls sampleWorld sampleView [sampleSequence]).world.catalog
                (.dependency q) with
              | .ok lq => lq.entry.isSome
              | .error _ => true)) :=
  C21_entry_has_other_dependent stdDecls
    (AddObject stdDecls sampleWorld sampleView [sampleSequence]).world
    sampleTable sampleSequence sampleView
    (edgeOf stdDecls sampleSequence sampleView .DEPENDENCY_REGULAR)
    { set := some ("main".toList, .VIEW_ENTRY),
      mapping_value := some { entry := sampleView, deleted := false }, entry := some sampleView }
    (by decide) (by decide) rfl (by decide)

/-! ### The records that `AddOwnership` registers -/

/-- C25: for an object that is not a system entry and has no dependency set,
`DropObject` returns the state it was given, whatever `cascade` is: nothing is handed to
a collection for dropping and the registry is unchanged. -/
theorem C25_drop_without_set (D : Decls) (w : World) (object : CatalogEntry) (cascade : Bool)
    (fuel : Nat) (hsys : IsSystemEntry object = false)
    (hset : GetDependencySet D w (.object object) = none) :
    DropObject D fuel w object cascade = .returned w := by
  cases fuel <;> simp [DropObject, DropObject.body, hsys, hset]

theorem C25_drop_without_set_witness :
    DropObject stdDecls 0 sampleWorld sampleTable false = .returned sampleWorld ∧
    DropObject stdDecls 0 sampleWorld sampleTable true = .returned sampleWorld :=
  ⟨C25_drop_without_set stdDecls sampleWorld sampleTable false 0 (by decide) (by decide),
   C25_drop_without_set stdDecls sampleWorld sampleTable true 0 (by decide) (by decide)⟩

/-! ### The results of `LookupEntry` -/

/-- C30: for an entry whose target is `(schema, name, type)`, `LookupEntry` throws (the
`InternalException`) exactly when the schema cannot be found; when the schema is found it
returns the schema itself, without collection and mapping, for a schema target, the
collection alone when the name has no mapping, and else the collection, the mapping and
the entry of the mapping, which is absent when it is deleted. -/
theorem C30_lookup_results (D : Decls) (c : Catalog) (dependency : Entry)
    (schema name : Str) (type : CatalogType)
    (hprops : GetLookupProperties D dependency = .ok (schema, name, type)) :
    (c.GetSchemaIndex schema = none →
      LookupEntry D c dependency = .error .InternalException) ∧
    (∀ schema_entry, c.GetSchemaIndex schema = some schema_entry →
      (type = .SCHEMA_ENTRY →
        LookupEntry D c dependency
          = .ok { set := none, mapping_value := none, entry := some schema_entry.entry }) ∧
      (type ≠ .SCHEMA_ENTRY → c.GetMapping schema type name = none →
        LookupEntry D c dependency
          = .ok { set := some (schema, type), mapping_value := none, entry := none }) ∧
      (∀ m, type ≠ .SCHEMA_ENTRY → c.GetMapping schema type name = some m →
        LookupEntry D c dependency
          = .ok { set := some (schema, type), mapping_value := some m,
                  entry := if m.deleted then none else some m.entry })) := by
  unfold LookupEntry
  rw [hprops]
  refine ⟨fun h => by simp [h], fun se h => ⟨fun ht => by simp [h, ht],
    fun ht hm => by simp [h, ht, hm], fun m ht hm => by simp [h, ht, hm, Slot.GetEntryInternal]⟩⟩

theorem C30_lookup_results_witness :
    (sampleCatalog.GetSchemaIndex "main".toList = none →
      LookupEntry stdDecls sampleCatalog
        (.dependencySet { mangledName := nodeOf stdDecls sampleView })
        = .error .InternalException) ∧
    (∀ schema_entry, sampleCatalog.GetSchemaIndex "main".toList = some schema_entry →
      (CatalogType.VIEW_ENTRY = .SCHEMA_ENTRY →
        LookupEntry stdDecls sampleCatalog
            (.dependencySet { mangledName := nodeOf stdDecls sampleView })
          = .ok { set := none, mapping_value := none, entry := some schema_entry.entry }) ∧
      (CatalogType.VIEW_ENTRY ≠ .SCHEMA_ENTRY →
        sampleCatalog.GetMapping "main".toList .VIEW_ENTRY "v".toList = none →
        LookupEntry stdDecls sampleCatalog
            (.dependencySet { mangledName := nodeOf stdDecls sampleView })
          = .ok { set := some ("main".toList, .VIEW_ENTRY), mapping_value := none,
                  entry := none }) ∧
      (∀ m, CatalogType.VIEW_ENTRY ≠ .SCHEMA_ENTRY →
        sampleCatalog.GetMapping "main".toList .VIEW_ENTRY "v".toList = some m →
        LookupEntry stdDecls sampleCatalog
            (.dependencySet { mangledName := nodeOf stdDecls sampleView })
          = .ok { set := some ("main".toList, .VIEW_ENTRY), mapping_value := some m,
                  entry := if m.deleted then none else some m.entry })) :=
  C30_lookup_results stdDecls sampleCatalog
    (.dependencySet { mangledName := nodeOf stdDecls sampleView })
    "main".toList "v".toList .VIEW_ENTRY (by decide)

/-! ### The scan of a view -/

theorem prefix_eq_of_length {a b s : Str} (ha : a <+: s) (hb : b <+: s)
    (hl : a.length = b.length) : a = b :=
  (List.prefix_of_prefix_length_le ha hb (le_of_eq hl)).eq_of_length hl

/-- C27: over a store in which every record is under a key that starts with the mangled
name of its owner, the scan of the view of a node passes exactly the records whose owner
is the node, character for character, in their order in the store; and a creation
through a view keeps the store so. -/
theorem C27_scan_exact_owner (v : DependencyCatalogSet) (set : CatalogSet) (hk : set.Keyed) :
    v.Scan set = set.filter (fun r => decide (r.fromName = v.mangled_name)) ∧
    ∀ (u : DependencyCatalogSet) (x : Str) (value : DependencyCatalogEntry),
      CatalogSet.Keyed (u.CreateEntry set x value).2 := by
  constructor
  · unfold DependencyCatalogSet.Scan CatalogSet.ScanWithPrefix
    rw [List.filter_filter]
    apply List.filter_congr
    intro r hr
    have hp := hk r hr
    rw [List.isPrefixOf_iff_prefix] at hp
    by_cases he : r.fromName = v.mangled_name
    · have hp2 : v.mangled_name.isPrefixOf r.name = true := by
        rw [← he, List.isPrefixOf_iff_prefix]
        exact hp
      simp [he, hp2, CIEquals_self]
    · simp only [he, decide_False]
      cases hci : CIEquals r.fromName v.mangled_name with
      | false => rfl
      | true =>
        cases hpre : v.mangled_name.isPrefixOf r.name with
        | false => rfl
        | true =>
          rw [List.isPrefixOf_iff_prefix] at hpre
          exact absurd (prefix_eq_of_length hp hpre (CIEquals_length hci)) he
  · intro u x value r hr
    rcases mem_CreateEntry_inv _ _ _ _ _ hr with h | h
    · exact hk r h
    · rw [h]
      exact applied_isPrefixOf _ _

theorem C27_scan_exact_owner_witness :
    DependencyCatalogSet.Scan { mangled_name := "ab".toList }
        (DependencyCatalogSet.CreateEntry { mangled_name := "abc".toList }
          (DependencyCatalogSet.CreateEntry { mangled_name := "ab".toList } [] "x".toList
            (edgeTo sampleView .DEPENDENCY_REGULAR)).2
          "y".toList (edgeTo sampleIndex .DEPENDENCY_AUTOMATIC)).2
      = (DependencyCatalogSet.CreateEntry { mangled_name := "abc".toList }
          (DependencyCatalogSet.CreateEntry { mangled_name := "ab".toList } [] "x".toList
            (edgeTo sampleView .DEPENDENCY_REGULAR)).2
          "y".toList (edgeTo sampleIndex .DEPENDENCY_AUTOMATIC)).2.filter
          (fun r => decide (r.fromName = "ab".toList)) ∧
    ∀ (u : DependencyCatalogSet) (x : Str) (value : DependencyCatalogEntry),
      CatalogSet.Keyed (u.CreateEntry
        (DependencyCatalogSet.CreateEntry { mangled_name := "abc".toList }
          (DependencyCatalogSet.CreateEntry { mangled_name := "ab".toList } [] "x".toList
            (edgeTo sampleView .DEPENDENCY_REGULAR)).2
          "y".toList (edgeTo sampleIndex .DEPENDENCY_AUTOMATIC)).2 x value).2 :=
  C27_scan_exact_owner { mangled_name := "ab".toList } _ (by decide)

/-! ### The dependency sets under a drop -/

theorem removeDependencies_connections (D : Decls) (connections : DependencySetCatalogEntry)
    (L : List DependencyCatalogEntry) (w : World) :
    (CleanupDependencies.removeDependencies D connections w L).world.connections
      = w.connections := by
  induction L generalizing w with
  | nil => rfl
  | cons d rest ih =>
    unfold CleanupDependencies.removeDependencies
    split
    · rfl
    · simp only
      rw [ih]
      rfl

theorem removeDependents_connections (D : Decls) (connections : DependencySetCatalogEntry)
    (L : List DependencyCatalogEntry) (w : World) :
    (CleanupDependencies.removeDependents D connections w L).world.connections
      = w.connections := by
  induction L generalizing w with
  | nil => rfl
  | cons d rest ih =>
    unfold CleanupDependencies.removeDependents
    split
    · rfl
    · simp only
      rw [ih]
      rfl

theorem CleanupDependencies_connections (D : Decls) (w : World) (object : CatalogEntry) :
    (CleanupDependencies D w object).world.connections = w.connections := by
  unfold CleanupDependencies
  split
  · rfl
  · rename_i connections _
    simp only
    have h1 := removeDependencies_connections D connections
      (connections.Dependencies.Scan w.dependencies) w
    split
    · rename_i e w1 heq
      rw [heq] at h1
      exact h1
    · rename_i w1 heq
      rw [heq] at h1
      rw [removeDependents_connections]
      exact h1

theorem Catalog_DropEntry_connections (rec : World → CatalogEntry → Bool → Outcome)
    (hrec : ∀ w obj c, (rec w obj c).world.connections = w.connections)
    (w : World) (set : Str × CatalogType) (name : Str) (cascade : Bool) :
    (Catalog.DropEntry rec w set name cascade).world.connections = w.connections := by
  unfold Catalog.DropEntry
  simp only
  split
  · rfl
  · split
    · rfl
    · rename_i entry _
      have h := hrec
        { w with dropped := w.dropped ++ [(set.1, set.2, name)],
                 catalog := w.catalog.SetDeleted set.1 set.2 name true } entry cascade
      split
      · rename_i w2 heq
        rw [heq] at h
        exact h
      · rename_i e w2 heq
        rw [heq] at h
        exact h

theorem DropObject_drop_connections
    (DropEntry : World → Str × CatalogType → Str → Bool → Outcome)
    (hdrop : ∀ w set name c, (DropEntry w set name c).world.connections = w.connections)
    (cascade : Bool) (L : List LookupResult) (w : World) :
    (DropObject.drop DropEntry cascade w L).world.connections = w.connections := by
  induction L generalizing w with
  | nil => rfl
  | cons l rest ih =>
    unfold DropObject.drop
    split
    · rename_i set entry _ _
      have h := hdrop w set entry.name cascade
      split
      · rename_i e w1 heq
        rw [heq] at h
        exact h
      · rename_i w1 heq
        rw [heq] at h
        rw [ih]
        exact h
    · rfl

theorem DropObject_body_connections (D : Decls) (rec : World → CatalogEntry → Bool → Outcome)
    (hrec : ∀ w obj c, (rec w obj c).world.connections = w.connections)
    (w : World) (object : CatalogEntry) (cascade : Bool) :
    (DropObject.body D rec w object cascade).world.connections = w.connections := by
  unfold DropObject.body
  split_ifs
  · rfl
  · split
    · rfl
    · split
      · rfl
      · rename_i to_drop _
        have h := DropObject_drop_connections (Catalog.DropEntry rec)
          (Catalog_DropEntry_connections rec hrec) cascade to_drop w
        split
        · rename_i e w1 heq
          rw [heq] at h
          exact h
        · rename_i w1 heq
          rw [heq] at h
          rw [CleanupDependencies_connections]
          exact h

theorem DropObject_connections (D : Decls) (fuel : Nat) (w : World) (object : CatalogEntry)
    (cascade : Bool) : (DropObject D fuel w object cascade).world.connections = w.connections := by
  induction fuel generalizing w object cascade with
  | zero =>
    exact DropObject_body_connections D (fun w _ _ => .threw .OUT_OF_FUEL w) (fun _ _ _ => rfl)
      w object cascade
  | succ n ih => exact DropObject_body_connections D _ (fun w o c => ih w o c) w object cascade

/-- C24 (as stated, refuted): the dependency set outlives the drop.  The view `v`
depends on the table `t`; `DropObject(v)`, called for `v` pending deletion, returns and
has emptied both views of `v`, and the registry still holds the dependency set of `v`. -/
theorem C24_counterexample :
    (DropObject stdDecls 1
      { (AddObject stdDecls sampleWorld sampleView [sampleTable]).world with
        catalog := sampleCatalog.SetDeleted "main".toList .VIEW_ENTRY "v".toList true }
      sampleView false).isReturned = true ∧
    DependencyCatalogSet.Scan { mangled_name := nodeOf stdDecls sampleView }
      (DropObject stdDecls 1
        { (AddObject stdDecls sampleWorld sampleView [sampleTable]).world with
          catalog := sampleCatalog.SetDeleted "main".toList .VIEW_ENTRY "v".toList true }
        sampleView false).world.dependents = [] ∧
    DependencyCatalogSet.Scan { mangled_name := nodeOf stdDecls sampleView }
      (DropObject stdDecls 1
        { (AddObject stdDecls sampleWorld sampleView [sampleTable]).world with
          catalog := sampleCatalog.SetDeleted "main".toList .VIEW_ENTRY "v".toList true }
        sampleView false).world.dependencies = [] ∧
    GetDependencySet stdDecls
      (DropObject stdDecls 1
        { (AddObject stdDecls sampleWorld sampleView [sampleTable]).world with
          catalog := sampleCatalog.SetDeleted "main".toList .VIEW_ENTRY "v".toList true }
        sampleView false).world (.object sampleView)
      = some { mangledName := nodeOf stdDecls sampleView } := by
  decide

/-- C24 (amended): `CleanupDependencies` and `DropObject` remove edge records only: the
dependency sets of the registry after the call, whether it returns or throws, are those
before it, and `GetDependencySet` returns for every entry what it returned before. -/
theorem C24_set_outlives_drop (D : Decls) (w : World) (object : CatalogEntry) (fuel : Nat)
    (cascade : Bool) :
    (CleanupDependencies D w object).world.connections = w.connections ∧
    (DropObject D fuel w object cascade).world.connections = w.connections ∧
    ∀ e : Entry,
      GetDependencySet D (CleanupDependencies D w object).world e = GetDependencySet D w e ∧
      GetDependencySet D (DropObject D fuel w object cascade).world e
        = GetDependencySet D w e := by
  refine ⟨CleanupDependencies_connections D w object,
    DropObject_connections D fuel w object cascade, fun e => ⟨?_, ?_⟩⟩
  · unfold GetDependencySet
    rw [CleanupDependencies_connections]
  · unfold GetDependencySet
    rw [DropObject_connections]

/-! ### `DependencyManager::Scan` -/

/-- The first loop of `Scan` returns when every set resolves; its result holds the
entries it was given and the entries the sets resolve to, and no other. -/
theorem Scan_entries_ok (D : Decls) (c : Catalog) (L : List DependencySetCatalogEntry)
    (acc : List CatalogEntry)
    (h : ∀ set ∈ L, ∃ l e, LookupEntry D c (.dependencySet set) = .ok l ∧ l.entry = some e) :
    ∃ res, DependencyManager.Scan.entries D c L acc = .ok res ∧
      ∀ x, x ∈ res ↔ x ∈ acc ∨
        ∃ set ∈ L, ∃ l, LookupEntry D c (.dependencySet set) = .ok l ∧ l.entry = some x := by
  induction L generalizing acc with
  | nil => exact ⟨acc, rfl, fun x => by simp⟩
  | cons s rest ih =>
    obtain ⟨l, e, hl, he⟩ := h s (List.mem_cons_self _ _)
    unfold DependencyManager.Scan.entries
    simp only [hl, he]
    obtain ⟨res, hres, hmem⟩ := ih (if e ∈ acc then acc else acc ++ [e])
      (fun set hs => h set (List.mem_cons_of_mem _ hs))
    refine ⟨res, hres, fun x => ?_⟩
    rw [hmem]
    constructor
    · rintro (h1 | ⟨set, hs, l2, hl2, he2⟩)
      · split_ifs at h1 with hin
        · exact Or.inl h1
        · rcases List.mem_append.mp h1 with h2 | h2
          · exact Or.inl h2
          · simp only [List.mem_singleton] at h2
            subst h2
            exact Or.inr ⟨s, List.mem_cons_self _ _, l, hl, he⟩
      · exact Or.inr ⟨set, List.mem_cons_of_mem _ hs, l2, hl2, he2⟩
    · rintro (h1 | ⟨set, hs, l2, hl2, he2⟩)
      · left
        split_ifs
        · exact h1
        · exact List.mem_append_left _ h1
      · rcases List.mem_cons.mp hs with h2 | h2
        · subst h2
          rw [hl] at hl2
          simp only [Except.ok.injEq] at hl2
          subst hl2
          rw [he] at he2
          simp only [Option.some.injEq] at he2
          subst he2
          left
          split_ifs with hin
          · exact hin
          · exact List.mem_append_right _ (List.mem_singleton_self _)
        · exact Or.inr ⟨set, h2, l2, hl2, he2⟩

/-- A set that does not resolve stops the first loop of `Scan`. -/
theorem Scan_entries_fails (D : Decls) (c : Catalog) (L : List DependencySetCatalogEntry)
    (acc : List CatalogEntry) (set : DependencySetCatalogEntry) (l : LookupResult)
    (hs : set ∈ L) (hl : LookupEntry D c (.dependencySet set) = .ok l) (he : l.entry = none) :
    ∃ e, DependencyManager.Scan.entries D c L acc = .error e := by
  induction L generalizing acc with
  | nil => cases hs
  | cons s rest ih =>
    unfold DependencyManager.Scan.entries
    by_cases hq : set = s
    · subst hq
      simp only [hl, he]
      exact ⟨_, rfl⟩
    · have hmem : set ∈ rest := by
        rcases List.mem_cons.mp hs with h | h
        · exact absurd h hq
        · exact h
      cases hls : LookupEntry D c (.dependencySet s) with
      | error e => exact ⟨e, rfl⟩
      | ok ls =>
        cases hlse : ls.entry with
        | none =>
          simp only [hlse]
          exact ⟨_, rfl⟩
        | some x =>
          simp only [hlse]
          exact ih _ hmem

/-- The scan of the dependents of one entry returns when every schema can be found: it
appends one call for every record that resolves, in order. -/
theorem Scan_dependents_ok (D : Decls) (c : Catalog) (entry : CatalogEntry)
    (L : List DependencyCatalogEntry)
    (calls : List (CatalogEntry × CatalogEntry × DependencyType))
    (hfound : c.SchemasFound L) :
    ∃ res, DependencyManager.Scan.dependents D c entry L calls = .ok (calls ++ res) ∧
      ∀ x, x ∈ res ↔ ∃ d ∈ L, ∃ l dependent, LookupEntry D c (.dependency d) = .ok l ∧
        l.entry = some dependent ∧ x = (entry, dependent, d.dependencyType) := by
  induction L generalizing calls with
  | nil => exact ⟨[], by simp [DependencyManager.Scan.dependents], fun x => by simp⟩
  | cons q rest ih =>
    have hrest : c.SchemasFound rest := fun r hr => hfound r (List.mem_cons_of_mem _ hr)
    obtain ⟨lq, hlq⟩ := LookupEntry_found D c q (hfound q (List.mem_cons_self _ _))
    unfold DependencyManager.Scan.dependents
    simp only [hlq]
    cases hle : lq.entry with
    | none =>
      obtain ⟨res, hres, hmem⟩ := ih calls hrest
      refine ⟨res, hres, fun x => ?_⟩
      rw [hmem]
      constructor
      · rintro ⟨d, hd, l, dep, h1, h2, h3⟩
        exact ⟨d, List.mem_cons_of_mem _ hd, l, dep, h1, h2, h3⟩
      · rintro ⟨d, hd, l, dep, h1, h2, h3⟩
        rcases List.mem_cons.mp hd with e | e
        · subst e
          rw [hlq] at h1
          simp only [Except.ok.injEq] at h1
          subst h1
          rw [hle] at h2
          cases h2
        · exact ⟨d, e, l, dep, h1, h2, h3⟩
    | some x0 =>
      obtain ⟨res, hres, hmem⟩ := ih (calls ++ [(entry, x0, q.dependencyType)]) hrest
      refine ⟨(entry, x0, q.dependencyType) :: res, ?_, fun x => ?_⟩
      · simp only
        rw [hres]
        simp
      · rw [List.mem_cons, hmem]
        constructor
        · rintro (h1 | ⟨d, hd, l, dep, h1, h2, h3⟩)
          · exact ⟨q, List.mem_cons_self _ _, lq, x0, hlq, hle, h1⟩
          · exact ⟨d, List.mem_cons_of_mem _ hd, l, dep, h1, h2, h3⟩
        · rintro ⟨d, hd, l, dep, h1, h2, h3⟩
          rcases List.mem_cons.mp hd with e | e
          · subst e
            rw [hlq] at h1
            simp only [Except.ok.injEq] at h1
            subst h1
            rw [hle] at h2
            simp only [Option.some.injEq] at h2
            subst h2
            exact Or.inl h3
          · exact Or.inr ⟨d, e, l, dep, h1, h2, h3⟩

theorem SchemasFound_Scan_view (c : Catalog) (set : CatalogSet) (v : DependencyCatalogSet)
    (h : c.SchemasFound set) : c.SchemasFound (v.Scan set) :=
  fun d hd => h d (mem_Scan_inv v set d hd).1

/-- The second loop of `Scan` returns when every entry has its dependency set and every
schema can be found. -/
theorem Scan_loop_ok (D : Decls) (w : World) (entries : List CatalogEntry)
    (calls : List (CatalogEntry × CatalogEntry × DependencyType))
    (hsets : ∀ e ∈ entries, ({ mangledName := nodeOf D e } : DependencySetCatalogEntry)
      ∈ w.connections)
    (hfound : w.catalog.SchemasFound w.dependents) :
    ∃ res, DependencyManager.Scan.loop D w entries calls = .ok (calls ++ res) ∧
      ∀ x, x ∈ res ↔ ∃ e ∈ entries,
        ∃ d ∈ DependencyCatalogSet.Scan { mangled_name := nodeOf D e } w.dependents,
        ∃ l dependent, LookupEntry D w.catalog (.dependency d) = .ok l ∧
          l.entry = some dependent ∧ x = (e, dependent, d.dependencyType) := by
  induction entries generalizing calls with
  | nil => exact ⟨[], by simp [DependencyManager.Scan.loop], fun x => by simp⟩
  | cons e rest ih =>
    unfold DependencyManager.Scan.loop
    rw [GetDependencySet_of_mem D w (.object e) (hsets e (List.mem_cons_self _ _))]
    simp only [DependencySetCatalogEntry.Dependents]
    obtain ⟨r1, hr1, hm1⟩ := Scan_dependents_ok D w.catalog e
      (DependencyCatalogSet.Scan { mangled_name := nodeOf D e } w.dependents) calls
      (SchemasFound_Scan_view _ _ _ hfound)
    rw [hr1]
    simp only
    obtain ⟨r2, hr2, hm2⟩ := ih (calls ++ r1) (fun x hx => hsets x (List.mem_cons_of_mem _ hx))
    refine ⟨r1 ++ r2, by rw [hr2, List.append_assoc], fun x => ?_⟩
    rw [List.mem_append, hm1, hm2]
    constructor
    · rintro (⟨d, hd, l, dep, h1, h2, h3⟩ | ⟨e2, he2, d, hd, l, dep, h1, h2, h3⟩)
      · exact ⟨e, List.mem_cons_self _ _, d, hd, l, dep, h1, h2, h3⟩
      · exact ⟨e2, List.mem_cons_of_mem _ he2, d, hd, l, dep, h1, h2, h3⟩
    · rintro ⟨e2, he2, d, hd, l, dep, h1, h2, h3⟩
      rcases List.mem_cons.mp he2 with h | h
      · subst h
        exact Or.inl ⟨d, hd, l, dep, h1, h2, h3⟩
      · exact Or.inr ⟨e2, h, d, hd, l, dep, h1, h2, h3⟩

theorem NodesResolve_mem (D : Decls) (w : World) (h : w.NodesResolve D)
    (set : DependencySetCatalogEntry) (hs : set ∈ w.connections) :
    ∃ l e, LookupEntry D w.catalog (.dependencySet set) = .ok l ∧ l.entry = some e ∧
      ({ mangledName := nodeOf D e } : DependencySetCatalogEntry) ∈ w.connections := by
  unfold World.NodesResolve at h
  rw [List.all_eq_true] at h
  have h1 := h set hs
  cases hl : LookupEntry D w.catalog (.dependencySet set) with
  | error e => simp [hl] at h1
  | ok l =>
    cases he : l.entry with
    | none => simp [hl, he] at h1
    | some e =>
      simp only [hl, he] at h1
      refine ⟨l, e, rfl, he, ?_⟩
      rw [GetDependencySet_eq] at h1
      split_ifs at h1 with hm
      · exact hm
      · simp at h1

/-- C26: a registered node that no longer resolves is not skipped.  The view `v` depends
on the table `t` and has been dropped: `DropObject(v)` has returned, the dependency set of
`v` is still registered and `v` is deleted.  `Scan` does not pass over the node of `v`: the
dereference of its lookup, which has no entry, throws. -/
theorem C26_unresolved_node_throws :
    (DropObject stdDecls 1
      { (AddObject stdDecls sampleWorld sampleView [sampleTable]).world with
        catalog := sampleCatalog.SetDeleted "main".toList .VIEW_ENTRY "v".toList true }
      sampleView false).isReturned = true ∧
    DependencyManager.Scan stdDecls
      (DropObject stdDecls 1
        { (AddObject stdDecls sampleWorld sampleView [sampleTable]).world with
          catalog := sampleCatalog.SetDeleted "main".toList .VIEW_ENTRY "v".toList true }
        sampleView false).world = .error .InternalException := by
  decide

/-- The calls of `Scan`.  When every registered node resolves to a live entry that has its
dependency set, and the schema of every Dependents record can be found, `Scan` returns,
and it has invoked the callback with `(object, dependent, type)` exactly for the entries
`object` that a registered node resolves to and the records of the Dependents of
`object` that resolve to the live entry `dependent`, `type` being the type of the record;
the records that do not resolve are passed over.  A registered node that does not
resolve makes `Scan` throw. -/
theorem DependencyManager_Scan_calls (D : Decls) (w : World) :
    (w.NodesResolve D → w.catalog.SchemasFound w.dependents →
      ∃ calls, DependencyManager.Scan D w = .ok calls ∧
        ∀ (object dependent : CatalogEntry) (type : DependencyType),
          (object, dependent, type) ∈ calls ↔
            (∃ set ∈ w.connections, ∃ l,
              LookupEntry D w.catalog (.dependencySet set) = .ok l ∧ l.entry = some object) ∧
            ∃ d ∈ DependencyCatalogSet.Scan { mangled_name := nodeOf D object } w.dependents,
              ∃ ld, LookupEntry D w.catalog (.dependency d) = .ok ld ∧
                ld.entry = some dependent ∧ d.dependencyType = type) ∧
    (∀ (set : DependencySetCatalogEntry) (l : LookupResult), set ∈ w.connections →
      LookupEntry D w.catalog (.dependencySet set) = .ok l → l.entry = none →
      ∃ e, DependencyManager.Scan D w = .error e) := by
  constructor
  · intro hnodes hfound
    obtain ⟨entries, hentries, hmem⟩ := Scan_entries_ok D w.catalog w.connections []
      (fun set hs => by
        obtain ⟨l, e, h1, h2, -⟩ := NodesResolve_mem D w hnodes set hs
        exact ⟨l, e, h1, h2⟩)
    have hsets : ∀ e ∈ entries, ({ mangledName := nodeOf D e } : DependencySetCatalogEntry)
        ∈ w.connections := by
      intro e he
      rcases (hmem e).mp he with h | ⟨set, hs, l, hl, hle⟩
      · cases h
      · obtain ⟨l2, e2, h1, h2, h3⟩ := NodesResolve_mem D w hnodes set hs
        rw [hl] at h1
        simp only [Except.ok.injEq] at h1
        subst h1
        rw [hle] at h2
        simp only [Option.some.injEq] at h2
        subst h2
        exact h3
    obtain ⟨calls, hcalls, hc⟩ := Scan_loop_ok D w entries [] hsets hfound
    refine ⟨calls, ?_, ?_⟩
    · unfold DependencyManager.Scan
      rw [hentries]
      simpa using hcalls
    · intro object dependent type
      rw [hc]
      constructor
      · rintro ⟨e, he, d, hd, l, dep, h1, h2, h3⟩
        simp only [Prod.mk.injEq] at h3
        obtain ⟨e1, e2, e3⟩ := h3
        subst e1 e2
        rcases (hmem object).mp he with h | h
        · cases h
        · exact ⟨h, d, hd, l, h1, h2, e3.symm⟩
      · rintro ⟨hnode, d, hd, ld, h1, h2, h3⟩
        exact ⟨object, (hmem object).mpr (Or.inr hnode), d, hd, ld, dependent, h1, h2,
          by rw [h3]⟩
  · intro set l hs hl he
    obtain ⟨e, hfail⟩ := Scan_entries_fails D w.catalog w.connections [] set l hs hl he
    exact ⟨e, by unfold DependencyManager.Scan; rw [hfail]⟩

theorem DependencyManager_Scan_calls_sample :
    ∃ calls, DependencyManager.Scan stdDecls
        (AddObject stdDecls sampleWorld sampleView [sampleTable]).world = .ok calls ∧
      ∀ (object dependent : CatalogEntry) (type : DependencyType),
        (object, dependent, type) ∈ calls ↔
          (∃ set ∈ (AddObject stdDecls sampleWorld sampleView [sampleTable]).world.connections,
            ∃ l, LookupEntry stdDecls
                (AddObject stdDecls sampleWorld sampleView [sampleTable]).world.catalog
                (.dependencySet set) = .ok l ∧ l.entry = some object) ∧
          ∃ d ∈ DependencyCatalogSet.Scan { mangled_name := nodeOf stdDecls object }
              (AddObject stdDecls sampleWorld sampleView [sampleTable]).world.dependents,
            ∃ ld, LookupEntry stdDecls
                (AddObject stdDecls sampleWorld sampleView [sampleTable]).world.catalog
                (.dependency d) = .ok ld ∧
              ld.entry = some dependent ∧ d.dependencyType = type :=
  (DependencyManager_Scan_calls stdDecls
    (AddObject stdDecls sampleWorld sampleView [sampleTable]).world).1
    (by decide) (by decide)

/-! ### What `CleanupDependencies` removes -/

theorem mem_DropEntry (v : DependencyCatalogSet) (set : CatalogSet) (x : Str)
    (r : DependencyCatalogEntry) :
    r ∈ (v.DropEntry set x).2 ↔ r ∈ set ∧ r.name ≠ MangledDependencyName v.mangled_name x := by
  unfold DependencyCatalogSet.DropEntry CatalogSet.DropEntry DependencyCatalogSet.ApplyPrefix
  simp [List.mem_filter]

/-- The records left by the first loop of `CleanupDependencies`: for every dependency of
the list, the Dependents record of its node that points at the node of `connections` and
the Dependencies record of `connections` that points at it are gone. -/
theorem removeDependencies_mem (D : Decls) (connections : DependencySetCatalogEntry)
    (L : List DependencyCatalogEntry) (w w1 : World)
    (hr : CleanupDependencies.removeDependencies D connections w L = .returned w1) :
    (∀ r, r ∈ w1.dependents ↔ r ∈ w.dependents ∧
      ∀ d ∈ L, r.name ≠ MangledDependencyName (d.MangledName D) connections.mangledName) ∧
    (∀ r, r ∈ w1.dependencies ↔ r ∈ w.dependencies ∧
      ∀ d ∈ L, r.name ≠ MangledDependencyName connections.mangledName (d.MangledName D)) := by
  induction L generalizing w with
  | nil =>
    simp only [CleanupDependencies.removeDependencies, Outcome.returned.injEq] at hr
    subst hr
    exact ⟨fun r => by simp, fun r => by simp⟩
  | cons d rest ih =>
    unfold CleanupDependencies.removeDependencies at hr
    rw [GetDependencySet_eq] at hr
    split_ifs at hr with hm
    simp only at hr
    obtain ⟨g1, g2⟩ := ih _ hr
    constructor
    · intro r
      rw [g1]
      simp only [DependencySetCatalogEntry.RemoveDependency,
        DependencySetCatalogEntry.RemoveDependent, DependencySetCatalogEntry.Dependents]
      rw [mem_DropEntry]
      simp only [Entry.MangleName, List.mem_cons, forall_eq_or_imp]
      tauto
    · intro r
      rw [g2]
      simp only [DependencySetCatalogEntry.RemoveDependency,
        DependencySetCatalogEntry.RemoveDependent, DependencySetCatalogEntry.Dependencies]
      rw [mem_DropEntry]
      simp only [Entry.MangleName, List.mem_cons, forall_eq_or_imp]
      tauto

/-- The records left by the second loop of `CleanupDependencies`. -/
theorem removeDependents_mem (D : Decls) (connections : DependencySetCatalogEntry)
    (L : List DependencyCatalogEntry) (w w1 : World)
    (hr : CleanupDependencies.removeDependents D connections w L = .returned w1) :
    (∀ r, r ∈ w1.dependents ↔ r ∈ w.dependents ∧
      ∀ d ∈ L, r.name ≠ MangledDependencyName connections.mangledName (d.MangledName D)) ∧
    (∀ r, r ∈ w1.dependencies ↔ r ∈ w.dependencies ∧
      ∀ d ∈ L, r.name ≠ MangledDependencyName (d.MangledName D) connections.mangledName) := by
  induction L generalizing w with
  | nil =>
    simp only [CleanupDependencies.removeDependents, Outcome.returned.injEq] at hr
    subst hr
    exact ⟨fun r => by simp, fun r => by simp⟩
  | cons d rest ih =>
    unfold CleanupDependencies.removeDependents at hr
    rw [GetDependencySet_eq] at hr
    split_ifs at hr with hm
    simp only at hr
    obtain ⟨g1, g2⟩ := ih _ hr
    constructor
    · intro r
      rw [g1]
      simp only [DependencySetCatalogEntry.RemoveDependency,
        DependencySetCatalogEntry.RemoveDependent, DependencySetCatalogEntry.Dependents]
      rw [mem_DropEntry]
      simp only [Entry.MangleName, List.mem_cons, forall_eq_or_imp]
      tauto
    · intro r
      rw [g2]
      simp only [DependencySetCatalogEntry.RemoveDependency,
        DependencySetCatalogEntry.RemoveDependent, DependencySetCatalogEntry.Dependencies]
      rw [mem_DropEntry]
      simp only [Entry.MangleName, List.mem_cons, forall_eq_or_imp]
      tauto

/-- The records left by `CleanupDependencies(object)`: those that are not an edge record
of the node of `object` found by its two scans, nor the counterpart of one on the other
node. -/
theorem CleanupDependencies_mem (D : Decls) (w w1 : World) (object : CatalogEntry)
    (hr : CleanupDependencies D w object = .returned w1) :
    ({ mangledName := nodeOf D object } : DependencySetCatalogEntry) ∈ w.connections ∧
    (∀ r, r ∈ w1.dependents ↔ r ∈ w.dependents ∧
      (∀ d ∈ DependencyCatalogSet.Scan { mangled_name := nodeOf D object } w.dependencies,
        r.name ≠ MangledDependencyName (d.MangledName D) (nodeOf D object)) ∧
      (∀ d ∈ DependencyCatalogSet.Scan { mangled_name := nodeOf D object } w.dependents,
        r.name ≠ MangledDependencyName (nodeOf D object) (d.MangledName D))) ∧
    (∀ r, r ∈ w1.dependencies ↔ r ∈ w.dependencies ∧
      (∀ d ∈ DependencyCatalogSet.Scan { mangled_name := nodeOf D object } w.dependencies,
        r.name ≠ MangledDependencyName (nodeOf D object) (d.MangledName D)) ∧
      (∀ d ∈ DependencyCatalogSet.Scan { mangled_name := nodeOf D object } w.dependents,
        r.name ≠ MangledDependencyName (d.MangledName D) (nodeOf D object))) := by
  unfold CleanupDependencies at hr
  rw [GetDependencySet_eq] at hr
  split_ifs at hr with hm
  simp only at hr
  split at hr
  · exact Outcome.noConfusion hr
  · rename_i w2 hrem
    obtain ⟨a1, a2⟩ := removeDependencies_mem D _ _ w w2 hrem
    obtain ⟨b1, b2⟩ := removeDependents_mem D _ _ w2 w1 hr
    refine ⟨hm, fun r => ?_, fun r => ?_⟩
    · rw [b1, a1]
      simp only [DependencySetCatalogEntry.Dependencies, DependencySetCatalogEntry.Dependents]
      tauto
    · rw [b2, a2]
      simp only [DependencySetCatalogEntry.Dependencies, DependencySetCatalogEntry.Dependents]
      tauto

/-! ### The state after `CleanupDependencies` -/

theorem mem_Scan_iff (v : DependencyCatalogSet) (set : CatalogSet) (d : DependencyCatalogEntry) :
    d ∈ v.Scan set ↔ d ∈ set ∧ v.mangled_name.isPrefixOf d.name = true ∧
      CIEquals d.fromName v.mangled_name = true := by
  unfold DependencyCatalogSet.Scan CatalogSet.ScanWithPrefix
  rw [List.mem_filter, List.mem_filter]
  tauto

/-- A record with a standard key is in the scan of the view of its owner. -/
theorem mem_Scan_of_Std (D : Decls) (set : CatalogSet) (r : DependencyCatalogEntry)
    (hr : r ∈ set) (hs : r.Std D) :
    r ∈ DependencyCatalogSet.Scan { mangled_name := r.fromName } set := by
  apply mem_Scan _ _ _ hr rfl
  rw [hs.1]
  exact applied_isPrefixOf _ _

/-- After `CleanupDependencies(object)`, in a state that satisfies the invariant of the
stores: the two views of the node of `object` are empty, and no Dependencies record
points at it. -/
theorem CleanupDependencies_clears (D : Decls) (w w1 : World) (object : CatalogEntry)
    (h : w.Consistent D) (hr : CleanupDependencies D w object = .returned w1) :
    DependencyCatalogSet.Scan { mangled_name := nodeOf D object } w1.dependents = [] ∧
    DependencyCatalogSet.Scan { mangled_name := nodeOf D object } w1.dependencies = [] ∧
    (∀ r ∈ w1.dependencies, r.MangledName D ≠ nodeOf D object) := by
  obtain ⟨-, m1, m2⟩ := CleanupDependencies_mem D w w1 object hr
  obtain ⟨h1, h2, h3⟩ := h
  refine ⟨?_, ?_, ?_⟩
  · rw [List.eq_nil_iff_forall_not_mem]
    intro r hr1
    obtain ⟨hrm, hp, hci⟩ := (mem_Scan_iff _ _ _).mp hr1
    obtain ⟨hrw, -, hn⟩ := (m1 r).mp hrm
    have hin : r ∈ DependencyCatalogSet.Scan { mangled_name := nodeOf D object } w.dependents :=
      (mem_Scan_iff _ _ _).mpr ⟨hrw, hp, hci⟩
    have hf := Scan_fromName D _ _ r hin (h1 r hrw)
    apply hn r hin
    rw [(h1 r hrw).1, hf]
  · rw [List.eq_nil_iff_forall_not_mem]
    intro r hr1
    obtain ⟨hrm, hp, hci⟩ := (mem_Scan_iff _ _ _).mp hr1
    obtain ⟨hrw, hn, -⟩ := (m2 r).mp hrm
    have hin : r ∈ DependencyCatalogSet.Scan { mangled_name := nodeOf D object }
        w.dependencies := (mem_Scan_iff _ _ _).mpr ⟨hrw, hp, hci⟩
    have hf := Scan_fromName D _ _ r hin (h2 r hrw)
    apply hn r hin
    rw [(h2 r hrw).1, hf]
  · intro r hr1 hM
    obtain ⟨hrw, -, hn⟩ := (m2 r).mp hr1
    obtain ⟨q, hq, hk⟩ := h3 r hrw
    have hcnt : (nodeOf D object).count NUL = 2 := by rw [← hM]; exact (h2 r hrw).2.2
    rw [hM] at hk
    obtain ⟨e1, e2⟩ := Std_fields_of_key D q _ _ (h1 q hq) hcnt hk
    have hin : q ∈ DependencyCatalogSet.Scan { mangled_name := nodeOf D object } w.dependents := by
      have := mem_Scan_of_Std D w.dependents q hq (h1 q hq)
      rwa [e1] at this
    apply hn q hin
    rw [(h2 r hrw).1, hM, e2]

/-- After `CleanupDependencies(object)`, in a state that satisfies the invariants of the
stores: a Dependents record that still points at the node of `object` is of type
`OWNS`. -/
theorem CleanupDependencies_leaves_owns (D : Decls) (w w1 : World) (object : CatalogEntry)
    (h : w.Consistent D) (hp : w.Paired D)
    (hr : CleanupDependencies D w object = .returned w1) :
    ∀ q ∈ w1.dependents, q.MangledName D = nodeOf D object →
      q.dependencyType = .DEPENDENCY_OWNS := by
  obtain ⟨-, m1, -⟩ := CleanupDependencies_mem D w w1 object hr
  obtain ⟨h1, h2, -⟩ := h
  intro q hq hM
  by_contra hne
  obtain ⟨hqw, hn, -⟩ := (m1 q).mp hq
  obtain ⟨r, hrw, hk⟩ := hp q hqw hne
  have hcnt : (nodeOf D object).count NUL = 2 := by rw [← hM]; exact (h1 q hqw).2.2
  rw [hM] at hk
  obtain ⟨e1, e2⟩ := Std_fields_of_key D r _ _ (h2 r hrw) hcnt hk
  have hin : r ∈ DependencyCatalogSet.Scan { mangled_name := nodeOf D object }
      w.dependencies := by
    have := mem_Scan_of_Std D w.dependencies r hrw (h2 r hrw)
    rwa [e1] at this
  apply hn r hin
  rw [(h1 q hqw).1, hM, e2]

theorem CleanupDependencies_Paired (D : Decls) (w w1 : World) (object : CatalogEntry)
    (h : w.Consistent D) (hp : w.Paired D)
    (hr : CleanupDependencies D w object = .returned w1) : w1.Paired D := by
  obtain ⟨-, m1, m2⟩ := CleanupDependencies_mem D w w1 object hr
  obtain ⟨h1, h2, -⟩ := h
  intro q hq hne
  obtain ⟨hqw, hn1, hn2⟩ := (m1 q).mp hq
  obtain ⟨r, hrw, hk⟩ := hp q hqw hne
  refine ⟨r, (m2 r).mpr ⟨hrw, ?_, ?_⟩, hk⟩
  · intro d hd e
    have hdw := (mem_Scan_inv _ _ _ hd).1
    have hf := Scan_fromName D _ _ d hd (h2 d hdw)
    rw [hk] at e
    obtain ⟨e1, e2⟩ := key_inj _ _ _ _
      (by rw [(h1 q hqw).2.2]; simp only at hf; rw [← hf, (h2 d hdw).2.1]) e
    apply hn1 d hd
    rw [(h1 q hqw).1, e1, e2]
  · intro d hd e
    have hdw := (mem_Scan_inv _ _ _ hd).1
    rw [hk] at e
    obtain ⟨e1, e2⟩ := key_inj _ _ _ _ (by rw [(h1 q hqw).2.2, (h1 d hdw).2.2]) e
    apply hn2 d hd
    rw [(h1 q hqw).1, e1, e2]

/-! ### Invariants under `DropObject` -/

/-- A property of the two edge stores that `CleanupDependencies` keeps is kept by
`DropObject`, at every depth of the nested drops. -/
theorem DropObject_invariant (D : Decls) (I : World → Prop)
    (hI : ∀ (w : World) (c : Catalog) (dr : List (Str × CatalogType × Str)),
      I w → I { w with catalog := c, dropped := dr })
    (hclean : ∀ w w1 obj, I w → CleanupDependencies D w obj = .returned w1 → I w1)
    (fuel : Nat) (w w1 : World) (object : CatalogEntry) (cascade : Bool) (h : I w)
    (hr : DropObject D fuel w object cascade = .returned w1) : I w1 := by
  have hbody : ∀ (rec : World → CatalogEntry → Bool → Outcome),
      (∀ w obj c w1, I w → rec w obj c = .returned w1 → I w1) →
      ∀ w w1 obj c, I w → DropObject.body D rec w obj c = .returned w1 → I w1 := by
    intro rec hrec w w1 obj c hw hb
    have hentry : ∀ w set name c w1, I w →
        Catalog.DropEntry rec w set name c = .returned w1 → I w1 := by
      intro w set name c w1 hw hd
      unfold Catalog.DropEntry at hd
      simp only at hd
      split at hd
      · simp only [Outcome.returned.injEq] at hd
        subst hd
        exact hI w w.catalog _ hw
      · split at hd
        · simp only [Outcome.returned.injEq] at hd
          subst hd
          exact hI w w.catalog _ hw
        · split at hd
          · rename_i w2 hcall
            simp only [Outcome.returned.injEq] at hd
            subst hd
            exact hrec _ _ _ _ (hI w _ _ hw) hcall
          · exact Outcome.noConfusion hd
    have hloop : ∀ (L : List LookupResult) w w1, I w →
        DropObject.drop (Catalog.DropEntry rec) c w L = .returned w1 → I w1 := by
      intro L
      induction L with
      | nil =>
        intro w w1 hw hd
        simp only [DropObject.drop, Outcome.returned.injEq] at hd
        subst hd
        exact hw
      | cons l rest ih =>
        intro w w1 hw hd
        unfold DropObject.drop at hd
        split at hd
        · split at hd
          · exact Outcome.noConfusion hd
          · rename_i w2 hcall
            exact ih w2 w1 (hentry _ _ _ _ _ hw hcall) hd
        · exact Outcome.noConfusion hd
    unfold DropObject.body at hb
    split_ifs at hb
    · simp only [Outcome.returned.injEq] at hb
      subst hb
      exact hw
    · split at hb
      · simp only [Outcome.returned.injEq] at hb
        subst hb
        exact hw
      · split at hb
        · exact Outcome.noConfusion hb
        · split at hb
          · exact Outcome.noConfusion hb
          · rename_i w2 hdropped
            exact hclean w2 w1 obj (hloop _ w w2 hw hdropped) hb
  induction fuel generalizing w w1 object cascade with
  | zero =>
    exact hbody (fun w _ _ => .threw .OUT_OF_FUEL w)
      (fun w obj c w1 _ hcall => Outcome.noConfusion hcall) w w1 object cascade h hr
  | succ n ih =>
    exact hbody (DropObject D n) (fun w obj c w1 hw hcall => ih w w1 obj c hw hcall)
      w w1 object cascade h hr

/-- A drop that returns for an object that is not a system entry and has its dependency
set ends with `CleanupDependencies`, run in a state that satisfies every property of the
stores that `CleanupDependencies` keeps. -/
theorem DropObject_ends_with_cleanup (D : Decls) (I : World → Prop)
    (hI : ∀ (w : World) (c : Catalog) (dr : List (Str × CatalogType × Str)),
      I w → I { w with catalog := c, dropped := dr })
    (hclean : ∀ w w1 obj, I w → CleanupDependencies D w obj = .returned w1 → I w1)
    (fuel : Nat) (w w1 : World) (object : CatalogEntry) (cascade : Bool) (h : I w)
    (hsys : IsSystemEntry object = false)
    (hset : GetDependencySet D w (.object object) ≠ none)
    (hr : DropObject D fuel w object cascade = .returned w1) :
    ∃ w2, I w2 ∧ CleanupDependencies D w2 object = .returned w1 := by
  have hbody : ∀ (rec : World → CatalogEntry → Bool → Outcome),
      (∀ w obj c w1, I w → rec w obj c = .returned w1 → I w1) →
      DropObject.body D rec w object cascade = .returned w1 →
      ∃ w2, I w2 ∧ CleanupDependencies D w2 object = .returned w1 := by
    intro rec hrec hb
    have hentry : ∀ w set name c w1, I w →
        Catalog.DropEntry rec w set name c = .returned w1 → I w1 := by
      intro w set name c w1 hw hd
      unfold Catalog.DropEntry at hd
      simp only at hd
      split at hd
      · simp only [Outcome.returned.injEq] at hd
        subst hd
        exact hI w w.catalog _ hw
      · split at hd
        · simp only [Outcome.returned.injEq] at hd
          subst hd
          exact hI w w.catalog _ hw
        · split at hd
          · rename_i w2 hcall
            simp only [Outcome.returned.injEq] at hd
            subst hd
            exact hrec _ _ _ _ (hI w _ _ hw) hcall
          · exact Outcome.noConfusion hd
    have hloop : ∀ (L : List LookupResult) w w1, I w →
        DropObject.drop (Catalog.DropEntry rec) cascade w L = .returned w1 → I w1 := by
      intro L
      induction L with
      | nil =>
        intro w w1 hw hd
        simp only [DropObject.drop, Outcome.returned.injEq] at hd
        subst hd
        exact hw
      | cons l rest ih =>
        intro w w1 hw hd
        unfold DropObject.drop at hd
        split at hd
        · split at hd
          · exact Outcome.noConfusion hd
          · rename_i w2 hcall
            exact ih w2 w1 (hentry _ _ _ _ _ hw hcall) hd
        · exact Outcome.noConfusion hd
    unfold DropObject.body at hb
    simp only [hsys, Bool.false_eq_true, if_false] at hb
    split at hb
    · rename_i hnone
      exact absurd hnone hset
    · split at hb
      · exact Outcome.noConfusion hb
      · split at hb
        · exact Outcome.noConfusion hb
        · rename_i w2 hdropped
          exact ⟨w2, hloop _ w w2 h hdropped, hb⟩
  cases fuel with
  | zero =>
    exact hbody (fun w _ _ => .threw .OUT_OF_FUEL w)
      (fun w obj c w1 _ hcall => Outcome.noConfusion hcall) hr
  | succ n =>
    exact hbody (DropObject D n)
      (fun w obj c w1 hw hcall => DropObject_invariant D I hI hclean n w w1 obj c hw hcall) hr

/-! ### The records that the loops of `AlterObject` write -/

theorem HasKey_mono_CreateEntry (v : DependencyCatalogSet) (set : CatalogSet) (x k : Str)
    (value : DependencyCatalogEntry) (h : CatalogSet.HasKey set k) :
    CatalogSet.HasKey (v.CreateEntry set x value).2 k :=
  HasKey_of_prefix k (prefix_CreateEntry v set x value) h

/-- The loop of `AlterObject` that registers the new object as a dependent: the records
it adds, and the keys it leaves. -/
theorem addDependents_mem (D : Decls) (new_obj : CatalogEntry) (l : List Dependency)
    (w w2 : World) (hr : AlterObject.addDependents D new_obj w l = .returned w2) :
    w2.dependencies = w.dependencies ∧ w2.connections = w.connections ∧
    w2.catalog = w.catalog ∧ w.dependents <+: w2.dependents ∧
    (∀ dep ∈ l, ({ mangledName := nodeOf D dep.entry } : DependencySetCatalogEntry)
      ∈ w.connections) ∧
    (∀ dep ∈ l, CatalogSet.HasKey w2.dependents
      (MangledDependencyName (nodeOf D dep.entry) (nodeOf D new_obj))) ∧
    ∀ x ∈ w2.dependents, x ∈ w.dependents ∨ ∃ dep ∈ l,
      x = { edgeTo new_obj .DEPENDENCY_REGULAR with
            fromName := nodeOf D dep.entry,
            name := MangledDependencyName (nodeOf D dep.entry) (nodeOf D new_obj) } := by
  induction l generalizing w with
  | nil =>
    simp only [AlterObject.addDependents, Outcome.returned.injEq] at hr
    subst hr
    exact ⟨rfl, rfl, rfl, List.prefix_refl _, fun dep hd => (by cases hd),
      fun dep hd => (by cases hd), fun x hx => Or.inl hx⟩
  | cons y rest ih =>
    unfold AlterObject.addDependents at hr
    rw [GetDependencySet_eq] at hr
    split_ifs at hr with hm
    simp only at hr
    obtain ⟨g1, g2, g3, g4, g5, g6, g7⟩ := ih _ hr
    have hpre : w.dependents <+: (DependencySetCatalogEntry.AddDependent D
        { mangledName := nodeOf D y.entry } w new_obj .DEPENDENCY_REGULAR).dependents :=
      prefix_CreateEntry _ _ _ _
    refine ⟨g1, g2, g3, hpre.trans g4, ?_, ?_, ?_⟩
    · intro dep hd
      rcases List.mem_cons.mp hd with e | e
      · subst e
        exact hm
      · exact g5 dep e
    · intro dep hd
      rcases List.mem_cons.mp hd with e | e
      · subst e
        exact HasKey_of_prefix _ g4 (HasKey_CreateEntry _ _ _ _)
      · exact g6 dep e
    · intro x hx
      rcases g7 x hx with h1 | ⟨dep, hd, e⟩
      · rcases mem_CreateEntry_inv _ _ _ _ _ h1 with h2 | h2
        · exact Or.inl h2
        · exact Or.inr ⟨y, List.mem_cons_self _ _, h2⟩
      · exact Or.inr ⟨dep, List.mem_cons_of_mem _ hd, e⟩

/-- The last loop of `AlterObject`: the records it adds, and the keys it leaves. -/
theorem addOwnedBy_mem (D : Decls) (new_obj : CatalogEntry) (l : List Dependency)
    (w w2 : World) (hr : AlterObject.addOwnedBy D new_obj w l = .returned w2) :
    w2.dependencies = w.dependencies ∧ w2.connections = w.connections ∧
    w2.catalog = w.catalog ∧ w.dependents <+: w2.dependents ∧
    (∀ dep ∈ l, CatalogSet.HasKey w2.dependents
      (MangledDependencyName (nodeOf D dep.entry) (nodeOf D new_obj))) ∧
    ∀ x ∈ w2.dependents, x ∈ w.dependents ∨ ∃ dep ∈ l,
      x = { edgeTo new_obj .DEPENDENCY_OWNED_BY with
            fromName := nodeOf D dep.entry,
            name := MangledDependencyName (nodeOf D dep.entry) (nodeOf D new_obj) } := by
  induction l generalizing w with
  | nil =>
    simp only [AlterObject.addOwnedBy, Outcome.returned.injEq] at hr
    subst hr
    exact ⟨rfl, rfl, rfl, List.prefix_refl _, fun dep hd => (by cases hd),
      fun x hx => Or.inl hx⟩
  | cons y rest ih =>
    unfold AlterObject.addOwnedBy at hr
    rw [GetDependencySet_eq] at hr
    split_ifs at hr with hm
    simp only at hr
    obtain ⟨g1, g2, g3, g4, g6, g7⟩ := ih _ hr
    have hpre : w.dependents <+: (DependencySetCatalogEntry.AddDependent D
        { mangledName := nodeOf D y.entry } w new_obj .DEPENDENCY_OWNED_BY).dependents :=
      prefix_CreateEntry _ _ _ _
    refine ⟨g1, g2, g3, hpre.trans g4, ?_, ?_⟩
    · intro dep hd
      rcases List.mem_cons.mp hd with e | e
      · subst e
        exact HasKey_of_prefix _ g4 (HasKey_CreateEntry _ _ _ _)
      · exact g6 dep e
    · intro x hx
      rcases g7 x hx with h1 | ⟨dep, hd, e⟩
      · rcases mem_CreateEntry_inv _ _ _ _ _ h1 with h2 | h2
        · exact Or.inl h2
        · exact Or.inr ⟨y, List.mem_cons_self _ _, h2⟩
      · exact Or.inr ⟨dep, List.mem_cons_of_mem _ hd, e⟩

theorem AddDependents_mem (D : Decls) (s : DependencySetCatalogEntry) (l : List Dependency)
    (w : World) (x : DependencyCatalogEntry) (hx : x ∈ (s.AddDependents D w l).dependents) :
    x ∈ w.dependents ∨ ∃ dep ∈ l,
      x = { edgeTo dep.entry dep.dependencyType with
            fromName := s.mangledName,
            name := MangledDependencyName s.mangledName (nodeOf D dep.entry) } := by
  unfold DependencySetCatalogEntry.AddDependents at hx
  induction l generalizing w with
  | nil => exact Or.inl hx
  | cons y rest ih =>
    simp only [List.foldl_cons] at hx
    rcases ih _ hx with h1 | ⟨dep, hd, e⟩
    · rcases mem_CreateEntry_inv _ _ _ _ _ h1 with h2 | h2
      · exact Or.inl h2
      · exact Or.inr ⟨y, List.mem_cons_self _ _, h2⟩
    · exact Or.inr ⟨dep, List.mem_cons_of_mem _ hd, e⟩

/-- The Dependencies records only grow under `AddDependencies`, and a record is left
under the key of every element. -/
theorem AddDependenciesOf_keys (D : Decls) (s : DependencySetCatalogEntry) (l : List Dependency)
    (w : World) :
    w.dependencies <+: (s.AddDependenciesOf D w l).dependencies ∧
    ∀ dep ∈ l, CatalogSet.HasKey (s.AddDependenciesOf D w l).dependencies
      (MangledDependencyName s.mangledName (nodeOf D dep.entry)) := by
  unfold DependencySetCatalogEntry.AddDependenciesOf
  induction l generalizing w with
  | nil => exact ⟨List.prefix_refl _, fun dep hd => by cases hd⟩
  | cons y rest ih =>
    simp only [List.foldl_cons]
    obtain ⟨g1, g2⟩ := ih (s.AddDependency D w y.entry y.dependencyType)
    have hpre : w.dependencies <+: (s.AddDependency D w y.entry y.dependencyType).dependencies :=
      prefix_CreateEntry _ _ _ _
    refine ⟨hpre.trans g1, ?_⟩
    intro dep hd
    rcases List.mem_cons.mp hd with e | e
    · subst e
      exact HasKey_of_prefix _ g1 (HasKey_CreateEntry _ _ _ _)
    · exact g2 dep e

theorem insert_regular_keeps (preserved : List Dependency) (acc : List Dependency) :
    (∀ x ∈ acc, x ∈ preserved.foldl (fun acc dep =>
      Dependency.insert acc { entry := dep.entry, dependencyType := .DEPENDENCY_REGULAR }) acc) ∧
    ∀ p ∈ preserved, ∃ x ∈ preserved.foldl (fun acc dep =>
      Dependency.insert acc { entry := dep.entry, dependencyType := .DEPENDENCY_REGULAR }) acc,
      x.entry = p.entry := by
  induction preserved generalizing acc with
  | nil => exact ⟨fun x hx => hx, fun p hp => by cases hp⟩
  | cons y rest ih =>
    simp only [List.foldl_cons]
    obtain ⟨g1, g2⟩ := ih (Dependency.insert acc
      { entry := y.entry, dependencyType := .DEPENDENCY_REGULAR })
    have hsub : ∀ x ∈ acc, x ∈ Dependency.insert acc
        { entry := y.entry, dependencyType := .DEPENDENCY_REGULAR } := by
      intro x hx
      unfold Dependency.insert
      split_ifs
      · exact hx
      · exact List.mem_append_left _ hx
    refine ⟨fun x hx => g1 x (hsub x hx), ?_⟩
    intro p hp
    rcases List.mem_cons.mp hp with e | e
    · subst e
      have : ∃ x ∈ Dependency.insert acc
          { entry := p.entry, dependencyType := .DEPENDENCY_REGULAR }, x.entry = p.entry := by
        unfold Dependency.insert
        split_ifs with hany
        · rw [List.any_eq_true] at hany
          obtain ⟨x, hx, hxe⟩ := hany
          exact ⟨x, hx, by simpa using hxe⟩
        · exact ⟨_, List.mem_append_right _ (List.mem_singleton_self _), rfl⟩
      obtain ⟨x, hx, hxe⟩ := this
      exact ⟨x, g1 x hx, hxe⟩
    · exact g2 p e

/-- The dependents that the scan of `AlterObject` preserves are those of type `OWNS`. -/
theorem scanDependents_owns (D : Decls) (w : World) (L : List DependencyCatalogEntry)
    (acc res : List Dependency)
    (hacc : ∀ dep ∈ acc, dep.dependencyType = .DEPENDENCY_OWNS)
    (h : AlterObject.scanDependents D w L acc = .ok res) :
    ∀ dep ∈ res, dep.dependencyType = .DEPENDENCY_OWNS := by
  induction L generalizing acc with
  | nil =>
    simp only [AlterObject.scanDependents, Except.ok.injEq] at h
    subst h
    exact hacc
  | cons x rest ih =>
    unfold AlterObject.scanDependents at h
    split at h
    · exact ih acc hacc h
    · split at h
      · exact Except.noConfusion h
      · split at h
        · exact ih acc hacc h
        · split_ifs at h with ht
          refine ih _ ?_ h
          intro dep hdep
          rcases mem_Dependency_insert _ _ _ hdep with h1 | h1
          · exact hacc dep h1
          · rw [h1]
            exact ht

/-- A call of `AlterObject` that returns, for a new object that is not a system entry
and an old object that has its dependency set: the two scans return, the edges of the
old object are cleaned up when the name changes, and the loops write. -/
theorem AlterObject_returned (D : Decls) (w w1 : World) (old_obj new_obj : CatalogEntry)
    (hsys : IsSystemEntry new_obj = false)
    (hset : GetDependencySet D w (.object old_obj) ≠ none)
    (hr : AlterObject D w old_obj new_obj = .returned w1) :
    ∃ preserved dependency_list wc w2,
      AlterObject.scanDependents D w
        (DependencyCatalogSet.Scan { mangled_name := nodeOf D old_obj } w.dependents) []
        = .ok preserved ∧
      AlterObject.scanDependencies D w
        (DependencyCatalogSet.Scan { mangled_name := nodeOf D old_obj } w.dependencies) []
        = .ok dependency_list ∧
      (old_obj.name ≠ new_obj.name → CleanupDependencies D w old_obj = .returned wc) ∧
      (old_obj.name = new_obj.name → wc = w) ∧
      AlterObject.addDependents D new_obj wc dependency_list = .returned w2 ∧
      AlterObject.addOwnedBy D new_obj
        (DependencySetCatalogEntry.AddDependents D
          (GetOrCreateDependencySet D w2 (.object new_obj)).2
          (DependencySetCatalogEntry.AddDependenciesOf D
            (GetOrCreateDependencySet D w2 (.object new_obj)).2
            (GetOrCreateDependencySet D w2 (.object new_obj)).1
            (preserved.foldl (fun acc dep =>
              Dependency.insert acc
                { entry := dep.entry, dependencyType := .DEPENDENCY_REGULAR })
              dependency_list))
          preserved)
        preserved = .returned w1 := by
  unfold AlterObject at hr
  simp only [hsys, Bool.false_eq_true, if_false] at hr
  have hm : ({ mangledName := nodeOf D old_obj } : DependencySetCatalogEntry)
      ∈ w.connections := by
    rw [GetDependencySet_eq] at hset
    by_contra hc
    exact hset (if_neg hc)
  rw [GetDependencySet_of_mem D w (.object old_obj) hm] at hr
  simp only [DependencySetCatalogEntry.Dependents, DependencySetCatalogEntry.Dependencies] at hr
  split at hr
  · exact Outcome.noConfusion hr
  · rename_i preserved hpres
    split at hr
    · exact Outcome.noConfusion hr
    · rename_i dependency_list hdeps
      by_cases hname : old_obj.name ≠ new_obj.name
      · rw [if_pos hname] at hr
        split at hr
        · exact Outcome.noConfusion hr
        · rename_i wc hclean
          split at hr
          · exact Outcome.noConfusion hr
          · rename_i w2 hadd
            exact ⟨preserved, dependency_list, wc, w2, hpres, hdeps, fun _ => hclean,
              fun e => absurd e hname, hadd, hr⟩
      · rw [if_neg hname] at hr
        simp only at hr
        split at hr
        · exact Outcome.noConfusion hr
        · rename_i w2 hadd
          exact ⟨preserved, dependency_list, w, w2, hpres, hdeps, fun e => absurd e hname,
            fun _ => rfl, hadd, hr⟩

/-! ### The pairing of the Dependents records -/

theorem AddObject_dependents_mem (D : Decls) (object : CatalogEntry) (type : DependencyType)
    (deps : List CatalogEntry) (w : World) :
    (deps.foldl (fun acc dependency =>
        (GetOrCreateDependencySet D acc (.object dependency)).2.AddDependent D
          (GetOrCreateDependencySet D acc (.object dependency)).1 object type) w).dependencies
      = w.dependencies ∧
    ∀ x ∈ (deps.foldl (fun acc dependency =>
        (GetOrCreateDependencySet D acc (.object dependency)).2.AddDependent D
          (GetOrCreateDependencySet D acc (.object dependency)).1 object type) w).dependents,
      x ∈ w.dependents ∨ ∃ d ∈ deps,
        x = { edgeTo object type with
              fromName := nodeOf D d,
              name := MangledDependencyName (nodeOf D d) (nodeOf D object) } := by
  induction deps generalizing w with
  | nil => exact ⟨rfl, fun x hx => Or.inl hx⟩
  | cons y rest ih =>
    simp only [List.foldl_cons]
    obtain ⟨g1, g2⟩ := ih ((GetOrCreateDependencySet D w (.object y)).2.AddDependent D
      (GetOrCreateDependencySet D w (.object y)).1 object type)
    refine ⟨?_, ?_⟩
    · rw [g1]
      simp only [DependencySetCatalogEntry.AddDependent, GetOrCreate_dependencies]
    · intro x hx
      rcases g2 x hx with h1 | ⟨d, hd, e⟩
      · simp only [DependencySetCatalogEntry.AddDependent, DependencySetCatalogEntry.Dependents,
          GetOrCreate_snd, GetOrCreate_dependents] at h1
        rcases mem_CreateEntry_inv _ _ _ _ _ h1 with h2 | h2
        · exact Or.inl h2
        · exact Or.inr ⟨y, List.mem_cons_self _ _, h2⟩
      · exact Or.inr ⟨d, List.mem_cons_of_mem _ hd, e⟩

theorem AddDependencies_keys (D : Decls) (s : DependencySetCatalogEntry)
    (deps : List CatalogEntry) (w : World) :
    w.dependencies <+: (s.AddDependencies D w deps).dependencies ∧
    (s.AddDependencies D w deps).dependents = w.dependents ∧
    ∀ d ∈ deps, CatalogSet.HasKey (s.AddDependencies D w deps).dependencies
      (MangledDependencyName s.mangledName (nodeOf D d)) := by
  unfold DependencySetCatalogEntry.AddDependencies
  induction deps generalizing w with
  | nil => exact ⟨List.prefix_refl _, rfl, fun d hd => by cases hd⟩
  | cons y rest ih =>
    simp only [List.foldl_cons]
    obtain ⟨g1, g2, g3⟩ := ih (s.AddDependency D w y D.defaultDependencyType)
    have hpre : w.dependencies <+:
        (s.AddDependency D w y D.defaultDependencyType).dependencies :=
      prefix_CreateEntry _ _ _ _
    refine ⟨hpre.trans g1, g2, ?_⟩
    intro d hd
    rcases List.mem_cons.mp hd with e | e
    · subst e
      exact HasKey_of_prefix _ g1 (HasKey_CreateEntry _ _ _ _)
    · exact g3 d e

theorem AddObject_Paired (D : Decls) (w w1 : World) (object : CatalogEntry)
    (deps : List CatalogEntry) (h : w.Paired D)
    (hadd : AddObject D w object deps = .returned w1) : w1.Paired D := by
  unfold AddObject at hadd
  cases hsys : IsSystemEntry object with
  | true =>
    simp only [hsys, if_true, Outcome.returned.injEq] at hadd
    subst hadd
    exact h
  | false =>
    simp only [hsys, Bool.false_eq_true, if_false] at hadd
    split at hadd
    · exact Outcome.noConfusion hadd
    · simp only [Outcome.returned.injEq] at hadd
      subst hadd
      obtain ⟨a1, a2⟩ := AddObject_dependents_mem D object
        (if object.type = .INDEX_ENTRY then .DEPENDENCY_AUTOMATIC else .DEPENDENCY_REGULAR)
        deps w
      obtain ⟨b1, b2, b3⟩ := AddDependencies_keys D
        (GetOrCreateDependencySet D
          (deps.foldl (fun acc dependency =>
            (GetOrCreateDependencySet D acc (.object dependency)).2.AddDependent D
              (GetOrCreateDependencySet D acc (.object dependency)).1 object
              (if object.type = .INDEX_ENTRY then .DEPENDENCY_AUTOMATIC
               else .DEPENDENCY_REGULAR)) w) (.object object)).2 deps
        (GetOrCreateDependencySet D
          (deps.foldl (fun acc dependency =>
            (GetOrCreateDependencySet D acc (.object dependency)).2.AddDependent D
              (GetOrCreateDependencySet D acc (.object dependency)).1 object
              (if object.type = .INDEX_ENTRY then .DEPENDENCY_AUTOMATIC
               else .DEPENDENCY_REGULAR)) w) (.object object)).1
      rw [GetOrCreate_dependencies, a1] at b1
      rw [GetOrCreate_dependents] at b2
      intro q hq hne
      rw [b2] at hq
      rcases a2 q hq with h1 | ⟨d, hd, e⟩
      · exact HasKey_of_prefix _ b1 (h q h1 hne)
      · have hk := b3 d hd
        have hname : (GetOrCreateDependencySet D
            (deps.foldl (fun acc dependency =>
              (GetOrCreateDependencySet D acc (.object dependency)).2.AddDependent D
                (GetOrCreateDependencySet D acc (.object dependency)).1 object
                (if object.type = .INDEX_ENTRY then .DEPENDENCY_AUTOMATIC
                 else .DEPENDENCY_REGULAR)) w) (.object object)).2.mangledName
            = nodeOf D object := by rw [GetOrCreate_snd]
        rw [hname] at hk
        rw [e]
        exact hk

theorem AddOwnership_Paired (D : Decls) (w w1 : World) (owner entry : CatalogEntry)
    (h : w.Paired D) (hown : AddOwnership D w owner entry = .returned w1) : w1.Paired D := by
  unfold AddOwnership at hown
  cases hE : IsSystemEntry entry with
  | true => simp [hE] at hown
  | false =>
  cases hO : IsSystemEntry owner with
  | true => simp [hE, hO] at hown
  | false =>
  simp only [hE, hO, Bool.false_eq_true, if_false] at hown
  split_ifs at hown
  split at hown
  · exact Outcome.noConfusion hown
  · simp only [Outcome.returned.injEq] at hown
    subst hown
    simp only [World.Paired, DependencySetCatalogEntry.AddDependent,
      DependencySetCatalogEntry.AddDependency, DependencySetCatalogEntry.Dependents,
      DependencySetCatalogEntry.Dependencies, GetOrCreate_dependents,
      GetOrCreate_dependencies, GetOrCreate_snd]
    intro q hq hne
    rcases mem_CreateEntry_inv _ _ _ _ _ hq with h1 | h1
    · rcases mem_CreateEntry_inv _ _ _ _ _ h1 with h2 | h2
      · exact HasKey_mono_CreateEntry _ _ _ _ _ (h q h2 hne)
      · rw [h2]
        exact HasKey_CreateEntry _ _ _ _
    · rw [h1] at hne
      exact absurd rfl hne

/-- The writing part of `AlterObject` keeps the pairing. -/
theorem AlterObject_write_Paired (D : Decls) (wc w2 w1 : World) (new_obj : CatalogEntry)
    (preserved dependency_list : List Dependency)
    (h : wc.Paired D)
    (hp : ∀ dep ∈ preserved, dep.dependencyType = .DEPENDENCY_OWNS)
    (hadd : AlterObject.addDependents D new_obj wc dependency_list = .returned w2)
    (hfin : AlterObject.addOwnedBy D new_obj
      (DependencySetCatalogEntry.AddDependents D
        (GetOrCreateDependencySet D w2 (.object new_obj)).2
        (DependencySetCatalogEntry.AddDependenciesOf D
          (GetOrCreateDependencySet D w2 (.object new_obj)).2
          (GetOrCreateDependencySet D w2 (.object new_obj)).1
          (preserved.foldl (fun acc dep =>
            Dependency.insert acc { entry := dep.entry, dependencyType := .DEPENDENCY_REGULAR })
            dependency_list))
        preserved)
      preserved = .returned w1) :
    w1.Paired D := by
  obtain ⟨a1, -, -, -, -, -, a7⟩ := addDependents_mem D new_obj dependency_list wc w2 hadd
  rw [GetOrCreate_snd] at hfin
  obtain ⟨e1, -, -, -, -, e7⟩ := addOwnedBy_mem D new_obj preserved _ w1 hfin
  obtain ⟨k1, k2⟩ := AddDependenciesOf_keys D { mangledName := nodeOf D new_obj }
    (preserved.foldl (fun acc dep =>
      Dependency.insert acc { entry := dep.entry, dependencyType := .DEPENDENCY_REGULAR })
      dependency_list)
    (GetOrCreateDependencySet D w2 (.object new_obj)).1
  rw [GetOrCreate_dependencies, a1] at k1
  have b1 := (AddDependenciesOf_frame D { mangledName := nodeOf D new_obj }
    (GetOrCreateDependencySet D w2 (.object new_obj)).1
    (preserved.foldl (fun acc dep =>
      Dependency.insert acc { entry := dep.entry, dependencyType := .DEPENDENCY_REGULAR })
      dependency_list)).2.2
  rw [GetOrCreate_dependents] at b1
  have c3 := (AddDependents_frame D { mangledName := nodeOf D new_obj }
    (DependencySetCatalogEntry.AddDependenciesOf D { mangledName := nodeOf D new_obj }
      (GetOrCreateDependencySet D w2 (.object new_obj)).1
      (preserved.foldl (fun acc dep =>
        Dependency.insert acc { entry := dep.entry, dependencyType := .DEPENDENCY_REGULAR })
        dependency_list)) preserved).2.2.1
  obtain ⟨i1, i2⟩ := insert_regular_keeps preserved dependency_list
  intro q hq hne
  rw [e1, c3]
  rcases e7 q hq with h1 | ⟨p, hp1, e⟩
  · rcases AddDependents_mem D _ _ _ q h1 with h2 | ⟨p, hp1, e⟩
    · rw [b1] at h2
      rcases a7 q h2 with h3 | ⟨dep, hdep, e⟩
      · exact HasKey_of_prefix _ k1 (h q h3 hne)
      · rw [e]
        exact k2 dep (i1 dep hdep)
    · rw [e] at hne
      exact absurd (hp p hp1) hne
  · obtain ⟨x, hx, hxe⟩ := i2 p hp1
    rw [e]
    have := k2 x hx
    rw [hxe] at this
    exact this

theorem AlterObject_Paired (D : Decls) (w w1 : World) (old_obj new_obj : CatalogEntry)
    (h : w.Consistent D) (hp : w.Paired D)
    (hr : AlterObject D w old_obj new_obj = .returned w1) : w1.Paired D := by
  by_cases hsys : IsSystemEntry new_obj = true
  · simp only [AlterObject, hsys, if_true, Outcome.returned.injEq] at hr
    subst hr
    exact hp
  · have hsys' : IsSystemEntry new_obj = false := by simpa using hsys
    by_cases hset : GetDependencySet D w (.object old_obj) = none
    · unfold AlterObject at hr
      simp only [hsys', Bool.false_eq_true, if_false, hset, Outcome.returned.injEq] at hr
      subst hr
      exact hp
    · obtain ⟨preserved, dependency_list, wc, w2, hpres, -, hc1, hc2, hadd, hfin⟩ :=
        AlterObject_returned D w w1 old_obj new_obj hsys' hset hr
      have hwc : wc.Paired D := by
        by_cases hname : old_obj.name = new_obj.name
        · rw [hc2 hname]
          exact hp
        · exact CleanupDependencies_Paired D w wc old_obj h hp (hc1 hname)
      exact AlterObject_write_Paired D wc w2 w1 new_obj preserved dependency_list hwc
        (scanDependents_owns D w _ [] preserved (fun dep hd => by cases hd) hpres) hadd hfin

/-- Every reachable state satisfies the two invariants of the stores. -/
theorem Reachable_Paired (D : Decls) (w : World) (h : Reachable D w) :
    w.Consistent D ∧ w.Paired D := by
  induction h with
  | init c =>
    exact ⟨Reachable_Consistent D _ (Reachable.init c), fun q hq => (by cases hq)⟩
  | setCatalog w c _ ih => exact ih
  | addObject w w1 object deps _ ho hd hadd ih =>
    exact ⟨AddObject_Consistent D w w1 object deps ih.1 ho hd hadd,
      AddObject_Paired D w w1 object deps ih.2 hadd⟩
  | dropObject w w1 object cascade fuel _ hdrop ih =>
    exact DropObject_invariant D (fun w => w.Consistent D ∧ w.Paired D)
      (fun w c dr hw => hw)
      (fun w w1 obj hw hc => ⟨(CleanupDependencies_Consistent D w w1 obj hw.1 hc).1,
        CleanupDependencies_Paired D w w1 obj hw.1 hw.2 hc⟩)
      fuel w w1 object cascade ih hdrop
  | alterObject w w1 old_obj new_obj _ hcat hn halter ih =>
    exact ⟨AlterObject_Consistent D w w1 old_obj new_obj ih.1 hcat hn halter,
      AlterObject_Paired D w w1 old_obj new_obj ih.1 ih.2 halter⟩
  | addOwnership w w1 owner entry _ ho he hown ih =>
    exact ⟨AddOwnership_Consistent D w w1 owner entry ih.1 ho he hown,
      AddOwnership_Paired D w w1 owner entry ih.2 hown⟩

/-! ### The state after `DropObject` -/

/-- C23 (as stated, refuted): the `OWNS` edge of an owner is left.  The table `t` owns
the sequence `s` and is pending deletion; `DropObject(s)` returns, and the Dependents of
`t` still hold the `OWNS` record that points at `s`. -/
theorem C23_counterexample :
    Reachable stdDecls
      { (AddOwnership stdDecls sampleWorld sampleTable sampleSequence).world with
        catalog := sampleCatalog.SetDeleted "main".toList .TABLE_ENTRY "t".toList true } ∧
    GetDependencySet stdDecls
      { (AddOwnership stdDecls sampleWorld sampleTable sampleSequence).world with
        catalog := sampleCatalog.SetDeleted "main".toList .TABLE_ENTRY "t".toList true }
      (.object sampleSequence) ≠ none ∧
    (DropObject stdDecls 1
      { (AddOwnership stdDecls sampleWorld sampleTable sampleSequence).world with
        catalog := sampleCatalog.SetDeleted "main".toList .TABLE_ENTRY "t".toList true }
      sampleSequence false).isReturned = true ∧
    edgeOf stdDecls sampleTable sampleSequence .DEPENDENCY_OWNS ∈
      DependencyCatalogSet.Scan { mangled_name := nodeOf stdDecls sampleTable }
        (DropObject stdDecls 1
          { (AddOwnership stdDecls sampleWorld sampleTable sampleSequence).world with
            catalog := sampleCatalog.SetDeleted "main".toList .TABLE_ENTRY "t".toList true }
          sampleSequence false).world.dependents ∧
    (edgeOf stdDecls sampleTable sampleSequence .DEPENDENCY_OWNS).MangledName stdDecls
      = nodeOf stdDecls sampleSequence := by
  refine ⟨?_, by decide, by decide, by decide, by decide⟩
  exact Reachable.setCatalog _ _
    (Reachable.addOwnership sampleWorld _ sampleTable sampleSequence
      (Reachable.init sampleCatalog) (by decide) (by decide) (by decide))

/-- C23 (amended): in a reachable state, after `DropObject(object, cascade)` has returned
for an object that is not a system entry and had its dependency set, the Dependents and
the Dependencies of `object` are empty, no Dependencies record of any node points at
`object`, and a Dependents record that still points at `object` is of type `OWNS`. -/
theorem C23_drop_leaves_no_edge (D : Decls) (w w1 : World) (object : CatalogEntry)
    (cascade : Bool) (fuel : Nat) (hreach : Reachable D w)
    (hsys : IsSystemEntry object = false)
    (hset : GetDependencySet D w (.object object) ≠ none)
    (hdrop : DropObject D fuel w object cascade = .returned w1) :
    DependencyCatalogSet.Scan { mangled_name := nodeOf D object } w1.dependents = [] ∧
    DependencyCatalogSet.Scan { mangled_name := nodeOf D object } w1.dependencies = [] ∧
    (∀ r ∈ w1.dependencies, r.MangledName D ≠ nodeOf D object) ∧
    (∀ q ∈ w1.dependents, q.MangledName D = nodeOf D object →
      q.dependencyType = .DEPENDENCY_OWNS) := by
  obtain ⟨w2, ⟨hc, hp⟩, hclean⟩ := DropObject_ends_with_cleanup D
    (fun w => w.Consistent D ∧ w.Paired D) (fun w c dr hw => hw)
    (fun w w1 obj hw hcl => ⟨(CleanupDependencies_Consistent D w w1 obj hw.1 hcl).1,
      CleanupDependencies_Paired D w w1 obj hw.1 hw.2 hcl⟩)
    fuel w w1 object cascade (Reachable_Paired D w hreach) hsys hset hdrop
  obtain ⟨h1, h2, h3⟩ := CleanupDependencies_clears D w2 w1 object hc hclean
  exact ⟨h1, h2, h3, CleanupDependencies_leaves_owns D w2 w1 object hc hp hclean⟩

theorem C23_drop_leaves_no_edge_witness :
    DependencyCatalogSet.Scan { mangled_name := nodeOf stdDecls sampleTable }
      (DropObject stdDecls 2
        (AddObject stdDecls (AddObject stdDecls sampleWorld sampleView [sampleTable]).world
          sampleIndex [sampleTable]).world sampleTable true).world.dependents = [] ∧
    DependencyCatalogSet.Scan { mangled_name := nodeOf stdDecls sampleTable }
      (DropObject stdDecls 2
        (AddObject stdDecls (AddObject stdDecls sampleWorld sampleView [sampleTable]).world
          sampleIndex [sampleTable]).world sampleTable true).world.dependencies = [] ∧
    (∀ r ∈ (DropObject stdDecls 2
        (AddObject stdDecls (AddObject stdDecls sampleWorld sampleView [sampleTable]).world
          sampleIndex [sampleTable]).world sampleTable true).world.dependencies,
      r.MangledName stdDecls ≠ nodeOf stdDecls sampleTable) ∧
    (∀ q ∈ (DropObject stdDecls 2
        (AddObject stdDecls (AddObject stdDecls sampleWorld sampleView [sampleTable]).world
          sampleIndex [sampleTable]).world sampleTable true).world.dependents,
      q.MangledName stdDecls = nodeOf stdDecls sampleTable →
        q.dependencyType = .DEPENDENCY_OWNS) :=
  C23_drop_leaves_no_edge stdDecls
    (AddObject stdDecls (AddObject stdDecls sampleWorld sampleView [sampleTable]).world
      sampleIndex [sampleTable]).world _ sampleTable true 2
    (Reachable.addObject (AddObject stdDecls sampleWorld sampleView [sampleTable]).world
      (AddObject stdDecls (AddObject stdDecls sampleWorld sampleView [sampleTable]).world
        sampleIndex [sampleTable]).world sampleIndex [sampleTable]
      (Reachable.addObject sampleWorld
        (AddObject stdDecls sampleWorld sampleView [sampleTable]).world sampleView [sampleTable]
        (Reachable.init sampleCatalog) (by decide) (by decide) (by decide))
      (by decide) (by decide) (by decide))
    (by decide) (by decide) (by decide)

/-! ### The edges of the old object under `AlterObject` -/

/-- The writing part of `AlterObject` only adds records to the two stores. -/
theorem AlterObject_write_grows (D : Decls) (wc w2 w1 : World) (new_obj : CatalogEntry)
    (preserved dependency_list : List Dependency)
    (hadd : AlterObject.addDependents D new_obj wc dependency_list = .returned w2)
    (hfin : AlterObject.addOwnedBy D new_obj
      (DependencySetCatalogEntry.AddDependents D
        (GetOrCreateDependencySet D w2 (.object new_obj)).2
        (DependencySetCatalogEntry.AddDependenciesOf D
          (GetOrCreateDependencySet D w2 (.object new_obj)).2
          (GetOrCreateDependencySet D w2 (.object new_obj)).1
          (preserved.foldl (fun acc dep =>
            Dependency.insert acc { entry := dep.entry, dependencyType := .DEPENDENCY_REGULAR })
            dependency_list))
        preserved)
      preserved = .returned w1) :
    wc.dependents <+: w1.dependents ∧ wc.dependencies <+: w1.dependencies := by
  obtain ⟨a1, -, -, a4, -, -, -⟩ := addDependents_mem D new_obj dependency_list wc w2 hadd
  rw [GetOrCreate_snd] at hfin
  obtain ⟨e1, -, -, e4, -, -⟩ := addOwnedBy_mem D new_obj preserved _ w1 hfin
  obtain ⟨k1, -⟩ := AddDependenciesOf_keys D { mangledName := nodeOf D new_obj }
    (preserved.foldl (fun acc dep =>
      Dependency.insert acc { entry := dep.entry, dependencyType := .DEPENDENCY_REGULAR })
      dependency_list)
    (GetOrCreateDependencySet D w2 (.object new_obj)).1
  rw [GetOrCreate_dependencies, a1] at k1
  have b1 := (AddDependenciesOf_frame D { mangledName := nodeOf D new_obj }
    (GetOrCreateDependencySet D w2 (.object new_obj)).1
    (preserved.foldl (fun acc dep =>
      Dependency.insert acc { entry := dep.entry, dependencyType := .DEPENDENCY_REGULAR })
      dependency_list)).2.2
  rw [GetOrCreate_dependents] at b1
  obtain ⟨-, -, c3, c4⟩ := AddDependents_frame D { mangledName := nodeOf D new_obj }
    (DependencySetCatalogEntry.AddDependenciesOf D { mangledName := nodeOf D new_obj }
      (GetOrCreateDependencySet D w2 (.object new_obj)).1
      (preserved.foldl (fun acc dep =>
        Dependency.insert acc { entry := dep.entry, dependencyType := .DEPENDENCY_REGULAR })
        dependency_list)) preserved
  rw [b1] at c4
  refine ⟨a4.trans (c4.trans e4), ?_⟩
  rw [e1, c3]
  exact k1

theorem GetEntry_none_of_keys (v : DependencyCatalogSet) (set : CatalogSet) (x : Str)
    (h : ∀ r ∈ set, r.name ≠ MangledDependencyName v.mangled_name x) :
    v.GetEntry set x = none := by
  unfold DependencyCatalogSet.GetEntry CatalogSet.GetEntry DependencyCatalogSet.ApplyPrefix
  rw [List.find?_eq_none]
  intro r hr
  simpa using h r hr

/-- C29: in a reachable state, for a new object that is not a system entry and an old
object that has its dependency set, when `AlterObject(old, new)` returns: if the names
differ, `CleanupDependencies(old)` has returned a state in which the two views of `old`
are empty and, for every edge record of `old`, the other node holds no record under the
key of the counterpart, and the stores of the final state are that state with records
added; if the names are equal, the stores of the final state are those before the call
with records added. -/
theorem C29_alter_cleanup (D : Decls) (w w1 : World) (old_obj new_obj : CatalogEntry)
    (hreach : Reachable D w) (hsys : IsSystemEntry new_obj = false)
    (hset : GetDependencySet D w (.object old_obj) ≠ none)
    (hr : AlterObject D w old_obj new_obj = .returned w1) :
    (old_obj.name ≠ new_obj.name →
      ∃ wc, CleanupDependencies D w old_obj = .returned wc ∧
        DependencyCatalogSet.Scan { mangled_name := nodeOf D old_obj } wc.dependents = [] ∧
        DependencyCatalogSet.Scan { mangled_name := nodeOf D old_obj } wc.dependencies = [] ∧
        (∀ d ∈ DependencyCatalogSet.Scan { mangled_name := nodeOf D old_obj } w.dependencies,
          DependencyCatalogSet.GetEntry { mangled_name := d.MangledName D } wc.dependents
            (nodeOf D old_obj) = none) ∧
        (∀ d ∈ DependencyCatalogSet.Scan { mangled_name := nodeOf D old_obj } w.dependents,
          DependencyCatalogSet.GetEntry { mangled_name := d.MangledName D } wc.dependencies
            (nodeOf D old_obj) = none) ∧
        wc.dependents <+: w1.dependents ∧ wc.dependencies <+: w1.dependencies) ∧
    (old_obj.name = new_obj.name →
      w.dependents <+: w1.dependents ∧ w.dependencies <+: w1.dependencies) := by
  obtain ⟨preserved, dependency_list, wc, w2, -, -, hc1, hc2, hadd, hfin⟩ :=
    AlterObject_returned D w w1 old_obj new_obj hsys hset hr
  obtain ⟨g1, g2⟩ := AlterObject_write_grows D wc w2 w1 new_obj preserved dependency_list
    hadd hfin
  constructor
  · intro hname
    have hclean := hc1 hname
    obtain ⟨h1, h2, -⟩ := CleanupDependencies_clears D w wc old_obj
      (Reachable_Consistent D w hreach) hclean
    obtain ⟨-, m1, m2⟩ := CleanupDependencies_mem D w wc old_obj hclean
    refine ⟨wc, hclean, h1, h2, ?_, ?_, g1, g2⟩
    · intro d hd
      apply GetEntry_none_of_keys
      intro r hr1
      exact ((m1 r).mp hr1).2.1 d hd
    · intro d hd
      apply GetEntry_none_of_keys
      intro r hr1
      exact ((m2 r).mp hr1).2.2 d hd
  · intro hname
    rw [hc2 hname] at g1 g2
    exact ⟨g1, g2⟩

theorem C29_alter_cleanup_witness :
    ∃ wc, CleanupDependencies stdDecls
        (AddObject stdDecls sampleWorld sampleView [sampleTable]).world sampleView
        = .returned wc ∧
      DependencyCatalogSet.Scan { mangled_name := nodeOf stdDecls sampleView } wc.dependents
        = [] ∧
      DependencyCatalogSet.Scan { mangled_name := nodeOf stdDecls sampleView } wc.dependencies
        = [] ∧
      (∀ d ∈ DependencyCatalogSet.Scan { mangled_name := nodeOf stdDecls sampleView }
          (AddObject stdDecls sampleWorld sampleView [sampleTable]).world.dependencies,
        DependencyCatalogSet.GetEntry { mangled_name := d.MangledName stdDecls } wc.dependents
          (nodeOf stdDecls sampleView) = none) ∧
      (∀ d ∈ DependencyCatalogSet.Scan { mangled_name := nodeOf stdDecls sampleView }
          (AddObject stdDecls sampleWorld sampleView [sampleTable]).world.dependents,
        DependencyCatalogSet.GetEntry { mangled_name := d.MangledName stdDecls } wc.dependencies
          (nodeOf stdDecls sampleView) = none) ∧
      wc.dependents <+: (AlterObject stdDecls
        (AddObject stdDecls sampleWorld sampleView [sampleTable]).world sampleView
        { sampleView with name := "v2".toList }).world.dependents ∧
      wc.dependencies <+: (AlterObject stdDecls
        (AddObject stdDecls sampleWorld sampleView [sampleTable]).world sampleView
        { sampleView with name := "v2".toList }).world.dependencies :=
  (C29_alter_cleanup stdDecls (AddObject stdDecls sampleWorld sampleView [sampleTable]).world
    (AlterObject stdDecls (AddObject stdDecls sampleWorld sampleView [sampleTable]).world
      sampleView { sampleView with name := "v2".toList }).world
    sampleView { sampleView with name := "v2".toList }
    (Reachable.addObject sampleWorld
      (AddObject stdDecls sampleWorld sampleView [sampleTable]).world sampleView [sampleTable]
      (Reachable.init sampleCatalog) (by decide) (by decide) (by decide))
    (by decide) (by decide) (by decide)).1 (by decide)

/-! ### The dependencies that `AlterObject` carries forward -/

theorem GetEntry_isSome_of_HasKey (v : DependencyCatalogSet) (set : CatalogSet) (x : Str)
    (h : CatalogSet.HasKey set (MangledDependencyName v.mangled_name x)) :
    (v.GetEntry set x).isSome = true := by
  obtain ⟨r, hr, hk⟩ := h
  unfold DependencyCatalogSet.GetEntry CatalogSet.GetEntry DependencyCatalogSet.ApplyPrefix
  rw [List.find?_isSome]
  exact ⟨r, hr, by simpa using hk⟩

theorem keys_of_GetEntry_none (v : DependencyCatalogSet) (set : CatalogSet) (x : Str)
    (h : v.GetEntry set x = none) :
    ∀ r ∈ set, r.name ≠ MangledDependencyName v.mangled_name x := by
  unfold DependencyCatalogSet.GetEntry CatalogSet.GetEntry DependencyCatalogSet.ApplyPrefix at h
  rw [List.find?_eq_none] at h
  intro r hr
  simpa using h r hr

/-- Every element of the result of the scan of the dependencies is given, or is made of
the entry that a scanned record resolves to and of the type of that record. -/
theorem scanDependencies_mem (D : Decls) (w : World) (L : List DependencyCatalogEntry)
    (acc res : List Dependency) (h : AlterObject.scanDependencies D w L acc = .ok res) :
    ∀ x ∈ res, x ∈ acc ∨ ∃ q ∈ L, ∃ l, LookupEntry D w.catalog (.dependency q) = .ok l ∧
      l.entry = some x.entry ∧ x.dependencyType = q.dependencyType := by
  induction L generalizing acc with
  | nil =>
    simp only [AlterObject.scanDependencies, Except.ok.injEq] at h
    subst h
    exact fun x hx => Or.inl hx
  | cons y rest ih =>
    unfold AlterObject.scanDependencies at h
    split at h
    · exact Except.noConfusion h
    · rename_i lookup hl
      split at h
      · intro x hx
        rcases ih acc h x hx with h1 | ⟨q, hq, h2⟩
        · exact Or.inl h1
        · exact Or.inr ⟨q, List.mem_cons_of_mem _ hq, h2⟩
      · rename_i entry he
        intro x hx
        rcases ih _ h x hx with h1 | ⟨q, hq, h2⟩
        · rcases mem_Dependency_insert _ _ _ h1 with h3 | h3
          · exact Or.inl h3
          · exact Or.inr ⟨y, List.mem_cons_self _ _, lookup, hl, by rw [he, h3], by rw [h3]⟩
        · exact Or.inr ⟨q, List.mem_cons_of_mem _ hq, h2⟩

theorem Dependency_insert_has (set : List Dependency) (d : Dependency) :
    (∀ x ∈ set, x ∈ Dependency.insert set d) ∧ ∃ x ∈ Dependency.insert set d, x.entry = d.entry := by
  unfold Dependency.insert
  split_ifs with hany
  · rw [List.any_eq_true] at hany
    obtain ⟨x, hx, hxe⟩ := hany
    exact ⟨fun y hy => hy, x, hx, by simpa using hxe⟩
  · exact ⟨fun y hy => List.mem_append_left _ hy, d,
      List.mem_append_right _ (List.mem_singleton_self _), rfl⟩

/-- The result of the scan of the dependencies holds what it was given and an element
for every entry that a scanned record resolves to. -/
theorem scanDependencies_has (D : Decls) (w : World) (L : List DependencyCatalogEntry)
    (acc res : List Dependency) (h : AlterObject.scanDependencies D w L acc = .ok res) :
    (∀ x ∈ acc, x ∈ res) ∧
    ∀ q ∈ L, ∀ l e, LookupEntry D w.catalog (.dependency q) = .ok l → l.entry = some e →
      ∃ x ∈ res, x.entry = e := by
  induction L generalizing acc with
  | nil =>
    simp only [AlterObject.scanDependencies, Except.ok.injEq] at h
    subst h
    exact ⟨fun x hx => hx, fun q hq => by cases hq⟩
  | cons y rest ih =>
    unfold AlterObject.scanDependencies at h
    split at h
    · exact Except.noConfusion h
    · rename_i lookup hl
      split at h
      · rename_i he
        obtain ⟨g1, g2⟩ := ih acc h
        refine ⟨g1, ?_⟩
        intro q hq l e hlq hle
        rcases List.mem_cons.mp hq with e1 | e1
        · subst e1
          rw [hl] at hlq
          simp only [Except.ok.injEq] at hlq
          subst hlq
          rw [he] at hle
          cases hle
        · exact g2 q e1 l e hlq hle
      · rename_i entry he
        obtain ⟨g1, g2⟩ := ih _ h
        obtain ⟨i1, x0, hx0, hx0e⟩ := Dependency_insert_has acc
          { entry := entry, dependencyType := y.dependencyType }
        refine ⟨fun x hx => g1 x (i1 x hx), ?_⟩
        intro q hq l e hlq hle
        rcases List.mem_cons.mp hq with e1 | e1
        · subst e1
          rw [hl] at hlq
          simp only [Except.ok.injEq] at hlq
          subst hlq
          rw [he] at hle
          simp only [Option.some.injEq] at hle
          subst hle
          exact ⟨x0, g1 x0 hx0, hx0e⟩
        · exact g2 q e1 l e hlq hle

/-- Every element of the result of the scan of the dependents is given, or holds the
entry that a scanned record resolves to. -/
theorem scanDependents_mem (D : Decls) (w : World) (L : List DependencyCatalogEntry)
    (acc res : List Dependency) (h : AlterObject.scanDependents D w L acc = .ok res) :
    ∀ x ∈ res, x ∈ acc ∨ ∃ q ∈ L, ∃ l, LookupEntry D w.catalog (.dependency q) = .ok l ∧
      l.entry = some x.entry := by
  induction L generalizing acc with
  | nil =>
    simp only [AlterObject.scanDependents, Except.ok.injEq] at h
    subst h
    exact fun x hx => Or.inl hx
  | cons y rest ih =>
    have hrest : ∀ acc2, AlterObject.scanDependents D w rest acc2 = .ok res →
        (∀ x ∈ acc2, x ∈ acc ∨ ∃ q ∈ y :: rest, ∃ l,
          LookupEntry D w.catalog (.dependency q) = .ok l ∧ l.entry = some x.entry) →
        ∀ x ∈ res, x ∈ acc ∨ ∃ q ∈ y :: rest, ∃ l,
          LookupEntry D w.catalog (.dependency q) = .ok l ∧ l.entry = some x.entry := by
      intro acc2 h2 hacc2 x hx
      rcases ih acc2 h2 x hx with h1 | ⟨q, hq, h3⟩
      · exact hacc2 x h1
      · exact Or.inr ⟨q, List.mem_cons_of_mem _ hq, h3⟩
    unfold AlterObject.scanDependents at h
    split at h
    · exact hrest acc h (fun x hx => Or.inl hx)
    · split at h
      · exact Except.noConfusion h
      · rename_i lookup hl
        split at h
        · exact hrest acc h (fun x hx => Or.inl hx)
        · rename_i entry he
          split_ifs at h
          refine hrest _ h ?_
          intro x hx
          rcases mem_Dependency_insert _ _ _ hx with h3 | h3
          · exact Or.inl h3
          · exact Or.inr ⟨y, List.mem_cons_self _ _, lookup, hl, by rw [he, h3]⟩

/-- The elements that `AlterObject` adds to the list of dependencies come after the
elements of the list. -/
theorem insert_regular_prefix (preserved : List Dependency) (acc : List Dependency) :
    acc <+: preserved.foldl (fun acc dep =>
      Dependency.insert acc { entry := dep.entry, dependencyType := .DEPENDENCY_REGULAR }) acc := by
  induction preserved generalizing acc with
  | nil => exact List.prefix_refl _
  | cons y rest ih =>
    simp only [List.foldl_cons]
    refine List.IsPrefix.trans ?_ (ih _)
    unfold Dependency.insert
    split_ifs
    · exact List.prefix_refl _
    · exact List.prefix_append _ _

theorem AddDependenciesOf_append (D : Decls) (s : DependencySetCatalogEntry)
    (l1 l2 : List Dependency) (w : World) :
    s.AddDependenciesOf D w (l1 ++ l2) = s.AddDependenciesOf D (s.AddDependenciesOf D w l1) l2 := by
  unfold DependencySetCatalogEntry.AddDependenciesOf
  rw [List.foldl_append]

/-- The record that `AddDependencies` leaves under a key that was free: it is made for
the first element with that key. -/
theorem AddDependenciesOf_first (D : Decls) (s : DependencySetCatalogEntry) (n : Str)
    (type : DependencyType) (l : List Dependency) (w : World)
    (hfree : DependencyCatalogSet.GetEntry { mangled_name := s.mangledName } w.dependencies n
      = none)
    (hex : ∃ x ∈ l, nodeOf D x.entry = n)
    (hall : ∀ x ∈ l, nodeOf D x.entry = n → x.dependencyType = type) :
    ∃ r, DependencyCatalogSet.GetEntry { mangled_name := s.mangledName }
        (s.AddDependenciesOf D w l).dependencies n = some r ∧
      r.dependencyType = type ∧ r.fromName = s.mangledName ∧ r.MangledName D = n := by
  induction l generalizing w with
  | nil =>
    obtain ⟨x, hx, -⟩ := hex
    cases hx
  | cons y rest ih =>
    have hstep : s.AddDependenciesOf D w (y :: rest)
        = s.AddDependenciesOf D (s.AddDependency D w y.entry y.dependencyType) rest := by
      unfold DependencySetCatalogEntry.AddDependenciesOf
      rfl
    rw [hstep]
    by_cases hy : nodeOf D y.entry = n
    · have hcre := GetEntry_CreateEntry { mangled_name := s.mangledName } w.dependencies
        (nodeOf D y.entry) (edgeTo y.entry y.dependencyType)
      rw [hy] at hcre
      rw [hfree] at hcre
      have hpre := (AddDependenciesOf_keys D s rest
        (s.AddDependency D w y.entry y.dependencyType)).1
      refine ⟨{ edgeTo y.entry y.dependencyType with
                fromName := s.mangledName, name := MangledDependencyName s.mangledName n },
        GetEntry_of_prefix _ _ _ _ _ hpre ?_, ?_, rfl, ?_⟩
      · simp only [DependencySetCatalogEntry.AddDependency,
          DependencySetCatalogEntry.Dependencies]
        have hy2 : Entry.MangleName D (Entry.object y.entry) = n := hy
        rw [hy2]
        exact hcre
      · exact hall y (List.mem_cons_self _ _) hy
      · exact hy
    · have hne : MangledDependencyName s.mangledName n
          ≠ MangledDependencyName s.mangledName (nodeOf D y.entry) :=
        fun e => hy (key_right_inj _ _ _ e).symm
      have hsame := GetEntry_CreateEntry_ne { mangled_name := s.mangledName }
        { mangled_name := s.mangledName } w.dependencies (nodeOf D y.entry) n
        (edgeTo y.entry y.dependencyType) hne
      apply ih
      · simp only [DependencySetCatalogEntry.AddDependency,
          DependencySetCatalogEntry.Dependencies]
        rw [hsame]
        exact hfree
      · obtain ⟨x, hx, hxn⟩ := hex
        rcases List.mem_cons.mp hx with e | e
        · subst e
          exact absurd hxn hy
        · exact ⟨x, e, hxn⟩
      · exact fun x hx => hall x (List.mem_cons_of_mem _ hx)

/-- C28 (as stated, refuted): when the name does not change, a dependency that no longer
resolves stays.  The view `v` depends on the table `t`, which is deleted;
`AlterObject(v, v')` for a new entry `v'` of the same name returns, and the Dependencies
of the node of `v'` still hold the record that points at `t`. -/
theorem C28_counterexample :
    LookupEntry stdDecls (sampleCatalog.SetDeleted "main".toList .TABLE_ENTRY "t".toList true)
        (.dependency (edgeOf stdDecls sampleView sampleTable .DEPENDENCY_REGULAR))
      = .ok { set := some ("main".toList, .TABLE_ENTRY),
              mapping_value := some { entry := sampleTable, deleted := true },
              entry := none } ∧
    edgeOf stdDecls sampleView sampleTable .DEPENDENCY_REGULAR ∈
      DependencyCatalogSet.Scan { mangled_name := nodeOf stdDecls sampleView }
        (AddObject stdDecls sampleWorld sampleView [sampleTable]).world.dependencies ∧
    (AlterObject stdDecls
      { (AddObject stdDecls sampleWorld sampleView [sampleTable]).world with
        catalog := sampleCatalog.SetDeleted "main".toList .TABLE_ENTRY "t".toList true }
      sampleView { sampleView with oid := 22 }).isReturned = true ∧
    DependencyCatalogSet.GetEntry { mangled_name := nodeOf stdDecls { sampleView with oid := 22 } }
      (AlterObject stdDecls
        { (AddObject stdDecls sampleWorld sampleView [sampleTable]).world with
          catalog := sampleCatalog.SetDeleted "main".toList .TABLE_ENTRY "t".toList true }
        sampleView { sampleView with oid := 22 }).world.dependencies
      (nodeOf stdDecls sampleTable)
      = some (edgeOf stdDecls sampleView sampleTable .DEPENDENCY_REGULAR) := by
  decide

/-- C28 (amended): after `AlterObject(old, new)` has returned, for a new object that is
not a system entry and an old object that has its dependency set, and for every
Dependencies record `q` of `old` that resolves to a live entry `d`: the Dependents of `d`
hold a record under the key of `new`, and the Dependencies of `new` hold a record under
the key of `d`; when the name is unchanged the record `q` itself stays; when no record
was under the key of `d` in the Dependencies of `new` and every Dependencies record of
`old` that resolves to an entry with the node of `d` has the type of `q`, the record of
`new` has that type.  Every Dependencies record that the call adds is a record of `new`
that points at an entry which a record of `old` resolves to. -/
theorem C28_dependencies_carried (D : Decls) (w w1 : World) (old_obj new_obj d : CatalogEntry)
    (q : DependencyCatalogEntry) (l : LookupResult)
    (hsys : IsSystemEntry new_obj = false)
    (hset : GetDependencySet D w (.object old_obj) ≠ none)
    (hr : AlterObject D w old_obj new_obj = .returned w1)
    (hq : q ∈ DependencyCatalogSet.Scan { mangled_name := nodeOf D old_obj } w.dependencies)
    (hl : LookupEntry D w.catalog (.dependency q) = .ok l) (hd : l.entry = some d) :
    (DependencyCatalogSet.GetEntry { mangled_name := nodeOf D d } w1.dependents
      (nodeOf D new_obj)).isSome = true ∧
    (DependencyCatalogSet.GetEntry { mangled_name := nodeOf D new_obj } w1.dependencies
      (nodeOf D d)).isSome = true ∧
    (old_obj.name = new_obj.name → q ∈ w1.dependencies) ∧
    (DependencyCatalogSet.GetEntry { mangled_name := nodeOf D new_obj } w.dependencies
        (nodeOf D d) = none →
      (∀ q2 ∈ DependencyCatalogSet.Scan { mangled_name := nodeOf D old_obj } w.dependencies,
        ∀ l2 e2, LookupEntry D w.catalog (.dependency q2) = .ok l2 → l2.entry = some e2 →
          nodeOf D e2 = nodeOf D d → q2.dependencyType = q.dependencyType) →
      ∃ r, DependencyCatalogSet.GetEntry { mangled_name := nodeOf D new_obj } w1.dependencies
          (nodeOf D d) = some r ∧
        r.dependencyType = q.dependencyType ∧ r.fromName = nodeOf D new_obj ∧
        r.MangledName D = nodeOf D d) ∧
    (∀ r ∈ w1.dependencies, r ∈ w.dependencies ∨
      (r.fromName = nodeOf D new_obj ∧
        ∃ q2 ∈ DependencyCatalogSet.Scan { mangled_name := nodeOf D old_obj } w.dependencies
            ++ DependencyCatalogSet.Scan { mangled_name := nodeOf D old_obj } w.dependents,
          ∃ l2 e2, LookupEntry D w.catalog (.dependency q2) = .ok l2 ∧ l2.entry = some e2 ∧
            r.MangledName D = nodeOf D e2)) := by
  obtain ⟨preserved, dependency_list, wc, w2, hpres, hdeps, hc1, hc2, hadd, hfin⟩ :=
    AlterObject_returned D w w1 old_obj new_obj hsys hset hr
  obtain ⟨g1, g2⟩ := AlterObject_write_grows D wc w2 w1 new_obj preserved dependency_list
    hadd hfin
  obtain ⟨a1, -, -, a4, -, a6, -⟩ := addDependents_mem D new_obj dependency_list wc w2 hadd
  rw [GetOrCreate_snd] at hfin
  obtain ⟨e1, -, -, e4, -, -⟩ := addOwnedBy_mem D new_obj preserved _ w1 hfin
  have c3 := (AddDependents_frame D { mangledName := nodeOf D new_obj }
    (DependencySetCatalogEntry.AddDependenciesOf D { mangledName := nodeOf D new_obj }
      (GetOrCreateDependencySet D w2 (.object new_obj)).1
      (preserved.foldl (fun acc dep =>
        Dependency.insert acc { entry := dep.entry, dependencyType := .DEPENDENCY_REGULAR })
        dependency_list)) preserved).2.2.1
  have c4 := (AddDependents_frame D { mangledName := nodeOf D new_obj }
    (DependencySetCatalogEntry.AddDependenciesOf D { mangledName := nodeOf D new_obj }
      (GetOrCreateDependencySet D w2 (.object new_obj)).1
      (preserved.foldl (fun acc dep =>
        Dependency.insert acc { entry := dep.entry, dependencyType := .DEPENDENCY_REGULAR })
        dependency_list)) preserved).2.2.2
  have b1 := (AddDependenciesOf_frame D { mangledName := nodeOf D new_obj }
    (GetOrCreateDependencySet D w2 (.object new_obj)).1
    (preserved.foldl (fun acc dep =>
      Dependency.insert acc { entry := dep.entry, dependencyType := .DEPENDENCY_REGULAR })
      dependency_list)).2.2
  rw [GetOrCreate_dependents] at b1
  rw [b1] at c4
  obtain ⟨k1, k2⟩ := AddDependenciesOf_keys D { mangledName := nodeOf D new_obj }
    (preserved.foldl (fun acc dep =>
      Dependency.insert acc { entry := dep.entry, dependencyType := .DEPENDENCY_REGULAR })
      dependency_list)
    (GetOrCreateDependencySet D w2 (.object new_obj)).1
  obtain ⟨i1, -⟩ := insert_regular_keeps preserved dependency_list
  obtain ⟨-, s2⟩ := scanDependencies_has D w _ [] dependency_list hdeps
  obtain ⟨x0, hx0, hx0e⟩ := s2 q hq l d hl hd
  have hw1 : w1.dependencies
      = (DependencySetCatalogEntry.AddDependenciesOf D { mangledName := nodeOf D new_obj }
          (GetOrCreateDependencySet D w2 (.object new_obj)).1
          (preserved.foldl (fun acc dep =>
            Dependency.insert acc { entry := dep.entry, dependencyType := .DEPENDENCY_REGULAR })
            dependency_list)).dependencies := by rw [e1, c3]
  -- the records of the state after the cleanup are records of the state before the call
  have hsub : ∀ r ∈ wc.dependencies, r ∈ w.dependencies := by
    by_cases hname : old_obj.name = new_obj.name
    · rw [hc2 hname]
      exact fun r hr1 => hr1
    · obtain ⟨-, -, m2⟩ := CleanupDependencies_mem D w wc old_obj (hc1 hname)
      exact fun r hr1 => ((m2 r).mp hr1).1
  refine ⟨?_, ?_, ?_, ?_, ?_⟩
  · apply GetEntry_isSome_of_HasKey
    have := a6 x0 hx0
    rw [hx0e] at this
    exact HasKey_of_prefix _ (c4.trans e4) this
  · apply GetEntry_isSome_of_HasKey
    rw [hw1]
    have := k2 x0 (i1 x0 hx0)
    rw [hx0e] at this
    exact this
  · intro hname
    apply g2.subset
    rw [hc2 hname]
    exact (mem_Scan_inv _ _ _ hq).1
  · intro hfresh huniq
    obtain ⟨extra, hextra⟩ := insert_regular_prefix preserved dependency_list
    have hfree : DependencyCatalogSet.GetEntry { mangled_name := nodeOf D new_obj }
        (GetOrCreateDependencySet D w2 (.object new_obj)).1.dependencies (nodeOf D d)
        = none := by
      apply GetEntry_none_of_keys
      intro r hr1
      rw [GetOrCreate_dependencies, a1] at hr1
      exact keys_of_GetEntry_none _ _ _ hfresh r (hsub r hr1)
    obtain ⟨r, hr1, hr2, hr3, hr4⟩ := AddDependenciesOf_first D
      { mangledName := nodeOf D new_obj } (nodeOf D d) q.dependencyType dependency_list
      (GetOrCreateDependencySet D w2 (.object new_obj)).1 hfree ⟨x0, hx0, by rw [hx0e]⟩
      (fun x hx hxn => by
        rcases scanDependencies_mem D w _ [] dependency_list hdeps x hx with h1 | ⟨q2, hq2, l2, h2, h3, h4⟩
        · cases h1
        · rw [h4]
          exact huniq q2 hq2 l2 x.entry h2 h3 hxn)
    refine ⟨r, ?_, hr2, hr3, hr4⟩
    rw [hw1, ← hextra, AddDependenciesOf_append]
    exact GetEntry_of_prefix _ _ _ _ _
      (AddDependenciesOf_keys D { mangledName := nodeOf D new_obj } extra _).1 hr1
  · intro r hr1
    rw [hw1] at hr1
    rcases AddDependenciesOf_mem D _ _ _ r hr1 with h1 | ⟨x, hx, e⟩
    · rw [GetOrCreate_dependencies, a1] at h1
      exact Or.inl (hsub r h1)
    · right
      rw [e]
      refine ⟨rfl, ?_⟩
      rcases mem_insert_regular _ _ _ hx with h2 | ⟨p, hp, e2⟩
      · rcases scanDependencies_mem D w _ [] dependency_list hdeps x h2 with
          h3 | ⟨q2, hq2, l2, h4, h5, -⟩
        · cases h3
        · exact ⟨q2, List.mem_append_left _ hq2, l2, x.entry, h4, h5, rfl⟩
      · rcases scanDependents_mem D w _ [] preserved hpres p hp with
          h3 | ⟨q2, hq2, l2, h4, h5⟩
        · cases h3
        · exact ⟨q2, List.mem_append_right _ hq2, l2, x.entry, h4, by rw [e2]; exact h5, rfl⟩

/-- C28 on a concrete run: the view `v` that depends on the table `t` is renamed to `v2`. -/
theorem C28_dependencies_carried_witness :
    (DependencyCatalogSet.GetEntry { mangled_name := nodeOf stdDecls sampleTable }
      (AlterObject stdDecls (AddObject stdDecls sampleWorld sampleView [sampleTable]).world
        sampleView { sampleView with name := "v2".toList }).world.dependents
      (nodeOf stdDecls { sampleView with name := "v2".toList })).isSome = true ∧
    (DependencyCatalogSet.GetEntry
      { mangled_name := nodeOf stdDecls { sampleView with name := "v2".toList } }
      (AlterObject stdDecls (AddObject stdDecls sampleWorld sampleView [sampleTable]).world
        sampleView { sampleView with name := "v2".toList }).world.dependencies
      (nodeOf stdDecls sampleTable)).isSome = true :=
  ⟨(C28_dependencies_carried stdDecls
      (AddObject stdDecls sampleWorld sampleView [sampleTable]).world
      (AlterObject stdDecls (AddObject stdDecls sampleWorld sampleView [sampleTable]).world
        sampleView { sampleView with name := "v2".toList }).world
      sampleView { sampleView with name := "v2".toList } sampleTable
      (edgeOf stdDecls sampleView sampleTable .DEPENDENCY_REGULAR)
      { set := some ("main".toList, .TABLE_ENTRY),
        mapping_value := some { entry := sampleTable, deleted := false },
        entry := some sampleTable }
      (by decide) (by decide) (by decide) (by decide) (by decide) (by decide)).1,
   (C28_dependencies_carried stdDecls
      (AddObject stdDecls sampleWorld sampleView [sampleTable]).world
      (AlterObject stdDecls (AddObject stdDecls sampleWorld sampleView [sampleTable]).world
        sampleView { sampleView with name := "v2".toList }).world
      sampleView { sampleView with name := "v2".toList } sampleTable
      (edgeOf stdDecls sampleView sampleTable .DEPENDENCY_REGULAR)
      { set := some ("main".toList, .TABLE_ENTRY),
        mapping_value := some { entry := sampleTable, deleted := false },
        entry := some sampleTable }
      (by decide) (by decide) (by decide) (by decide) (by decide) (by decide)).2.1⟩

/-! ### `AddObject` validates before it registers -/

/-- A failure of the first loop of `AddObject` is caused by one of the dependencies. -/
theorem check_some (c : Catalog) (object : CatalogEntry) (deps : List CatalogEntry) (e : Error)
    (h : AddObject.check c object deps = some e) :
    ∃ d ∈ deps,
      (d.catalog ≠ object.catalog ∧ e = .DependencyException .CROSS_CATALOG) ∨
      (d.hasSet = false ∧ e = .InternalException) ∨
      (c.GetEntryInternal d = none ∧ e = .InternalException) := by
  induction deps with
  | nil => simp [AddObject.check] at h
  | cons d rest ih =>
    unfold AddObject.check at h
    by_cases hcat : d.catalog ≠ object.catalog
    · rw [if_pos hcat] at h
      simp only [Option.some.injEq] at h
      exact ⟨d, List.mem_cons_self _ _, Or.inl ⟨hcat, h.symm⟩⟩
    · rw [if_neg hcat] at h
      cases hs : d.hasSet with
      | false =>
        simp only [hs, Bool.not_false, if_true, Option.some.injEq] at h
        exact ⟨d, List.mem_cons_self _ _, Or.inr (Or.inl ⟨hs, h.symm⟩)⟩
      | true =>
        simp only [hs, Bool.not_true, Bool.false_eq_true, if_false] at h
        cases hg : c.GetEntryInternal d with
        | none =>
          simp only [hg, Option.some.injEq] at h
          exact ⟨d, List.mem_cons_self _ _, Or.inr (Or.inr ⟨hg, h.symm⟩)⟩
        | some x =>
          simp only [hg] at h
          obtain ⟨d2, hd2, hc⟩ := ih h
          exact ⟨d2, List.mem_cons_of_mem _ hd2, hc⟩

/-- C31: when `AddObject` throws, the state at the throw is the state before the call: no
dependency set and no edge record has been created; and the throw is that of the first
loop, for a dependency that is in another catalog (the `DependencyException`), that has
no collection, or that can no longer be found (the `InternalException`). -/
theorem C31_add_object_fails_unchanged (D : Decls) (w w1 : World) (object : CatalogEntry)
    (dependencies : List CatalogEntry) (e : Error)
    (h : AddObject D w object dependencies = .threw e w1) :
    w1 = w ∧ AddObject.check w.catalog object dependencies = some e ∧
    ∃ d ∈ dependencies,
      (d.catalog ≠ object.catalog ∧ e = .DependencyException .CROSS_CATALOG) ∨
      (d.hasSet = false ∧ e = .InternalException) ∨
      (w.catalog.GetEntryInternal d = none ∧ e = .InternalException) := by
  unfold AddObject at h
  cases hsys : IsSystemEntry object with
  | true => simp [hsys] at h
  | false =>
    simp only [hsys, Bool.false_eq_true, if_false] at h
    cases hc : AddObject.check w.catalog object dependencies with
    | none => simp [hc] at h
    | some e2 =>
      simp only [hc, Outcome.threw.injEq] at h
      obtain ⟨h1, h2⟩ := h
      subst h1
      exact ⟨h2.symm, rfl, check_some _ _ _ _ hc⟩

/-- C31 on a concrete run: the index `i` is registered on the table `t` and on a
sequence of another catalog, in a state that holds the edges of the view `v`. -/
theorem C31_add_object_fails_unchanged_witness :
    (AddObject stdDecls sampleWorld sampleView [sampleTable]).world
      = (AddObject stdDecls sampleWorld sampleView [sampleTable]).world ∧
    AddObject.check (AddObject stdDecls sampleWorld sampleView [sampleTable]).world.catalog
      sampleIndex [sampleTable, { sampleSequence with catalog := 2 }]
      = some (.DependencyException .CROSS_CATALOG) ∧
    ∃ d ∈ [sampleTable, { sampleSequence with catalog := 2 }],
      (d.catalog ≠ sampleIndex.catalog ∧
        Error.DependencyException .CROSS_CATALOG = .DependencyException .CROSS_CATALOG) ∨
      (d.hasSet = false ∧ Error.DependencyException .CROSS_CATALOG = .InternalException) ∨
      ((AddObject stdDecls sampleWorld sampleView [sampleTable]).world.catalog.GetEntryInternal d
          = none ∧
        Error.DependencyException .CROSS_CATALOG = .InternalException) :=
  C31_add_object_fails_unchanged stdDecls
    (AddObject stdDecls sampleWorld sampleView [sampleTable]).world
    (AddObject stdDecls sampleWorld sampleView [sampleTable]).world
    sampleIndex [sampleTable, { sampleSequence with catalog := 2 }]
    (.DependencyException .CROSS_CATALOG) (by decide)

/-! ### A drop that is blocked -/

theorem removeDependencies_threw (D : Decls) (s : DependencySetCatalogEntry)
    (L : List DependencyCatalogEntry) (w w1 : World) (e : Error)
    (h : CleanupDependencies.removeDependencies D s w L = .threw e w1) :
    e = .InternalException := by
  induction L generalizing w with
  | nil => simp [CleanupDependencies.removeDependencies] at h
  | cons d rest ih =>
    unfold CleanupDependencies.removeDependencies at h
    cases hg : GetDependencySet D w (.dependency d) with
    | none =>
      simp only [hg, Outcome.threw.injEq] at h
      exact h.1.symm
    | some o =>
      simp only [hg] at h
      exact ih _ h

theorem removeDependents_threw (D : Decls) (s : DependencySetCatalogEntry)
    (L : List DependencyCatalogEntry) (w w1 : World) (e : Error)
    (h : CleanupDependencies.removeDependents D s w L = .threw e w1) :
    e = .InternalException := by
  induction L generalizing w with
  | nil => simp [CleanupDependencies.removeDependents] at h
  | cons d rest ih =>
    unfold CleanupDependencies.removeDependents at h
    cases hg : GetDependencySet D w (.dependency d) with
    | none =>
      simp only [hg, Outcome.threw.injEq] at h
      exact h.1.symm
    | some o =>
      simp only [hg] at h
      exact ih _ h

/-- The only exception of `CleanupDependencies` is the `InternalException` of a missing
dependency set. -/
theorem CleanupDependencies_threw (D : Decls) (w w1 : World) (object : CatalogEntry) (e : Error)
    (h : CleanupDependencies D w object = .threw e w1) : e = .InternalException := by
  unfold CleanupDependencies at h
  cases hg : GetDependencySet D w (.object object) with
  | none =>
    simp only [hg, Outcome.threw.injEq] at h
    exact h.1.symm
  | some s =>
    simp only [hg] at h
    cases h1 : CleanupDependencies.removeDependencies D s w
        (DependencyCatalogSet.Scan s.Dependencies w.dependencies) with
    | threw e2 w2 =>
      simp only [h1, Outcome.threw.injEq] at h
      rw [← h.1]
      exact removeDependencies_threw D s _ w w2 e2 h1
    | returned w2 =>
      simp only [h1] at h
      exact removeDependents_threw D s _ w2 w1 e h

/-- The body of `DropObject` for an object that has its set: a failure of the scan is
thrown in the state of the call; a `DependencyException` thrown in another state comes
out of the loop that drops the collected dependents. -/
theorem DropObject_body_threw (D : Decls)
    (H : World → CatalogEntry → Bool → Outcome) (w : World) (object : CatalogEntry)
    (cascade : Bool) (set : DependencySetCatalogEntry)
    (hsys : IsSystemEntry object = false)
    (hset : GetDependencySet D w (.object object) = some set) :
    (∀ e, DropObject.scan D w cascade (set.Dependents.Scan w.dependents) [] = .error e →
      DropObject.body D H w object cascade = .threw e w) ∧
    (∀ m w1, DropObject.body D H w object cascade = .threw (.DependencyException m) w1 →
      (DropObject.scan D w cascade (set.Dependents.Scan w.dependents) []
          = .error (.DependencyException m) ∧ w1 = w) ∨
      ∃ to_drop, DropObject.scan D w cascade (set.Dependents.Scan w.dependents) []
          = .ok to_drop ∧ to_drop ≠ [] ∧
        DropObject.drop (Catalog.DropEntry H) cascade w to_drop
          = .threw (.DependencyException m) w1) := by
  constructor
  · intro e he
    unfold DropObject.body
    simp only [hsys, Bool.false_eq_true, if_false, hset, he]
  · intro m w1 h
    unfold DropObject.body at h
    simp only [hsys, Bool.false_eq_true, if_false, hset] at h
    cases hs : DropObject.scan D w cascade (set.Dependents.Scan w.dependents) [] with
    | error e =>
      simp only [hs, Outcome.threw.injEq] at h
      left
      rw [h.1]
      exact ⟨rfl, h.2.symm⟩
    | ok to_drop =>
      simp only [hs] at h
      right
      cases hd : DropObject.drop (Catalog.DropEntry H) cascade w to_drop with
      | threw e2 w2 =>
        simp only [hd, Outcome.threw.injEq] at h
        refine ⟨to_drop, rfl, ?_, ?_⟩
        · rintro rfl
          simp [DropObject.drop] at hd
        · rw [hd, h.1, h.2]
      | returned w2 =>
        simp only [hd] at h
        have := CleanupDependencies_threw D w2 w1 object _ h
        cases this

/-- With no fuel left the loop over the collected dependents throws no
`DependencyException`. -/
theorem drop_without_fuel (cascade : Bool) (L : List LookupResult) (w w1 : World) (e : Error)
    (h : DropObject.drop (Catalog.DropEntry (fun w _ _ => .threw .OUT_OF_FUEL w)) cascade w L
      = .threw e w1) :
    e = .OUT_OF_FUEL ∨ e = .InternalException := by
  induction L generalizing w with
  | nil => simp [DropObject.drop] at h
  | cons lookup rest ih =>
    unfold DropObject.drop at h
    split at h
    · rename_i set entry hs he
      split at h
      · rename_i e2 w2 hd
        simp only [Outcome.threw.injEq] at h
        rw [← h.1]
        left
        unfold Catalog.DropEntry at hd
        dsimp only at hd
        split at hd
        · cases hd
        · split at hd
          · cases hd
          · simp only [Outcome.threw.injEq] at hd
            exact hd.1.symm
      · rename_i w2 hd
        exact ih _ h
    · simp only [Outcome.threw.injEq] at h
      exact Or.inr h.1.symm

/-- C32 (as stated, refuted): a `DependencyException` of `DropObject` can come after a
dependent has been dropped.  The table `t`, pending deletion, has the index `i` and owns
the sequence `s`, on which the view `v` depends.  `DropObject(t, false)` collects `i` and
`s`, drops `i` and removes its edges, and then the drop of `s` is blocked by `v`. -/
theorem C32_counterexample :
    DropObject stdDecls 2
      { (AddObject stdDecls
          (AddOwnership stdDecls (AddObject stdDecls sampleWorld sampleIndex [sampleTable]).world
            sampleTable sampleSequence).world sampleView [sampleSequence]).world with
        catalog := sampleCatalog.SetDeleted "main".toList .TABLE_ENTRY "t".toList true }
      sampleTable false
      = .threw (.DependencyException .CANNOT_DROP)
          (DropObject stdDecls 2
            { (AddObject stdDecls
                (AddOwnership stdDecls
                  (AddObject stdDecls sampleWorld sampleIndex [sampleTable]).world
                  sampleTable sampleSequence).world sampleView [sampleSequence]).world with
              catalog := sampleCatalog.SetDeleted "main".toList .TABLE_ENTRY "t".toList true }
            sampleTable false).world ∧
    edgeOf stdDecls sampleTable sampleIndex .DEPENDENCY_AUTOMATIC ∈
      (AddObject stdDecls
        (AddOwnership stdDecls (AddObject stdDecls sampleWorld sampleIndex [sampleTable]).world
          sampleTable sampleSequence).world sampleView [sampleSequence]).world.dependents ∧
    edgeOf stdDecls sampleTable sampleIndex .DEPENDENCY_AUTOMATIC ∉
      (DropObject stdDecls 2
        { (AddObject stdDecls
            (AddOwnership stdDecls
              (AddObject stdDecls sampleWorld sampleIndex [sampleTable]).world
              sampleTable sampleSequence).world sampleView [sampleSequence]).world with
          catalog := sampleCatalog.SetDeleted "main".toList .TABLE_ENTRY "t".toList true }
        sampleTable false).world.dependents ∧
    (DropObject stdDecls 2
      { (AddObject stdDecls
          (AddOwnership stdDecls
            (AddObject stdDecls sampleWorld sampleIndex [sampleTable]).world
            sampleTable sampleSequence).world sampleView [sampleSequence]).world with
        catalog := sampleCatalog.SetDeleted "main".toList .TABLE_ENTRY "t".toList true }
      sampleTable false).world.dropped
      = [("main".toList, .INDEX_ENTRY, "i".toList), ("main".toList, .SEQUENCE_ENTRY, "s".toList)] := by
  decide

/-- C32 (amended): for an object that is not a system entry and has its dependency set,
an exception raised while the Dependents are scanned is thrown by `DropObject` in the
state of the call: nothing has been handed to a collection for dropping and no edge
record has been removed.  A `DependencyException` that `DropObject` throws in another
state was raised after the scan had returned and had collected a dependent for
dropping, inside the drop of a collected dependent. -/
theorem C32_drop_blocked_unchanged (D : Decls) (fuel : Nat) (w : World) (object : CatalogEntry)
    (cascade : Bool) (set : DependencySetCatalogEntry)
    (hsys : IsSystemEntry object = false)
    (hset : GetDependencySet D w (.object object) = some set) :
    (∀ e, DropObject.scan D w cascade (set.Dependents.Scan w.dependents) [] = .error e →
      DropObject D fuel w object cascade = .threw e w) ∧
    (∀ m w1, DropObject D fuel w object cascade = .threw (.DependencyException m) w1 →
      (DropObject.scan D w cascade (set.Dependents.Scan w.dependents) []
          = .error (.DependencyException m) ∧ w1 = w) ∨
      ∃ to_drop, DropObject.scan D w cascade (set.Dependents.Scan w.dependents) []
          = .ok to_drop ∧ to_drop ≠ [] ∧ 0 < fuel ∧
        DropObject.drop (Catalog.DropEntry (DropObject D (fuel - 1))) cascade w to_drop
          = .threw (.DependencyException m) w1) := by
  cases fuel with
  | zero =>
    obtain ⟨h1, h2⟩ := DropObject_body_threw D (fun w _ _ => .threw .OUT_OF_FUEL w) w object
      cascade set hsys hset
    refine ⟨h1, fun m w1 h => ?_⟩
    rcases h2 m w1 h with h3 | ⟨to_drop, h3, h4, h5⟩
    · exact Or.inl h3
    · exfalso
      have := drop_without_fuel cascade to_drop w w1 _ h5
      rcases this with h6 | h6 <;> cases h6
  | succ n =>
    obtain ⟨h1, h2⟩ := DropObject_body_threw D (DropObject D n) w object cascade set hsys hset
    refine ⟨h1, fun m w1 h => ?_⟩
    rcases h2 m w1 h with h3 | ⟨to_drop, h3, h4, h5⟩
    · exact Or.inl h3
    · exact Or.inr ⟨to_drop, h3, h4, Nat.succ_pos n, h5⟩

/-- C32 on a concrete run: the view `v` blocks the drop of the table `t`. -/
theorem C32_drop_blocked_unchanged_witness :
    DropObject stdDecls 1 (AddObject stdDecls sampleWorld sampleView [sampleTable]).world
      sampleTable false
      = .threw (.DependencyException .CANNOT_DROP)
          (AddObject stdDecls sampleWorld sampleView [sampleTable]).world :=
  (C32_drop_blocked_unchanged stdDecls 1
    (AddObject stdDecls sampleWorld sampleView [sampleTable]).world sampleTable false
    { mangledName := nodeOf stdDecls sampleTable } (by decide) (by decide)).1
    (.DependencyException .CANNOT_DROP) (by decide)

/-! ### The lookups collected by `DropObject` -/

/-- A lookup without collection is the lookup of a schema target. -/
theorem LookupEntry_no_set (D : Decls) (c : Catalog) (dependency : Entry) (l : LookupResult)
    (h : LookupEntry D c dependency = .ok l) (hs : l.set = none) :
    ∃ schema name, GetLookupProperties D dependency = .ok (schema, name, .SCHEMA_ENTRY) := by
  unfold LookupEntry at h
  cases hp : GetLookupProperties D dependency with
  | error e => simp [hp] at h
  | ok p =>
    obtain ⟨schema, name, type⟩ := p
    simp only [hp] at h
    cases hi : c.GetSchemaIndex schema with
    | none => simp [hi] at h
    | some se =>
      simp only [hi] at h
      by_cases ht : type = .SCHEMA_ENTRY
      · exact ⟨schema, name, by rw [ht]⟩
      · rw [if_neg ht] at h
        cases hm : c.GetMapping schema type name with
        | none =>
          simp only [hm, Except.ok.injEq] at h
          rw [← h] at hs
          cases hs
        | some m =>
          simp only [hm, Except.ok.injEq] at h
          rw [← h] at hs
          cases hs

/-- The scan of `DropObject` over records that do not target a schema collects lookups
that carry a collection and an entry. -/
theorem DropObject_scan_collects (D : Decls) (w : World) (cascade : Bool)
    (L : List DependencyCatalogEntry) (acc to_drop : List LookupResult)
    (hschema : ∀ d ∈ L, d.entryType ≠ .SCHEMA_ENTRY)
    (hacc : ∀ l ∈ acc, l.set.isSome = true ∧ l.entry.isSome = true)
    (h : DropObject.scan D w cascade L acc = .ok to_drop) :
    ∀ l ∈ to_drop, l.set.isSome = true ∧ l.entry.isSome = true := by
  induction L generalizing acc with
  | nil =>
    simp only [DropObject.scan, Except.ok.injEq] at h
    rw [← h]
    exact hacc
  | cons d rest ih =>
    have hrest : ∀ x ∈ rest, x.entryType ≠ .SCHEMA_ENTRY :=
      fun x hx => hschema x (List.mem_cons_of_mem _ hx)
    unfold DropObject.scan at h
    cases hg : GetDependencySet D w (.dependency d) with
    | none =>
      simp only [hg] at h
      exact ih acc hrest hacc h
    | some s =>
      simp only [hg] at h
      cases hl : LookupEntry D w.catalog (.dependency d) with
      | error e => simp [hl] at h
      | ok lookup =>
        simp only [hl] at h
        cases hle : lookup.entry with
        | none =>
          simp only [hle] at h
          exact ih acc hrest hacc h
        | some x =>
          simp only [hle] at h
          cases hcd : CascadeDrop cascade d.dependencyType with
          | false => simp [hcd] at h
          | true =>
            simp only [hcd, Bool.not_true, Bool.false_eq_true, if_false] at h
            refine ih (acc ++ [lookup]) hrest ?_ h
            intro l hlm
            rcases List.mem_append.mp hlm with h1 | h1
            · exact hacc l h1
            · simp only [List.mem_singleton] at h1
              subst h1
              refine ⟨?_, by rw [hle]; rfl⟩
              cases hset : l.set with
              | some v => rfl
              | none =>
                exfalso
                obtain ⟨schema, name, hp⟩ := LookupEntry_no_set D w.catalog (.dependency d) l hl
                  hset
                simp only [GetLookupProperties, Except.ok.injEq, Prod.mk.injEq] at hp
                exact hschema d (List.mem_cons_self _ _) hp.2.2

/-- The loop of `DropObject` over lookups that carry a collection and an entry throws
only what a drop of a collection throws. -/
theorem DropObject_drop_threw (DE : World → Str × CatalogType → Str → Bool → Outcome)
    (cascade : Bool) (L : List LookupResult) (w w1 : World) (e : Error)
    (hL : ∀ l ∈ L, l.set.isSome = true ∧ l.entry.isSome = true)
    (h : DropObject.drop DE cascade w L = .threw e w1) :
    ∃ lookup ∈ L, ∃ set entry w2, lookup.set = some set ∧ lookup.entry = some entry ∧
      DE w2 set entry.name cascade = .threw e w1 := by
  induction L generalizing w with
  | nil => simp [DropObject.drop] at h
  | cons lookup rest ih =>
    obtain ⟨h1, h2⟩ := hL lookup (List.mem_cons_self _ _)
    obtain ⟨set, hs⟩ := Option.isSome_iff_exists.mp h1
    obtain ⟨entry, he⟩ := Option.isSome_iff_exists.mp h2
    unfold DropObject.drop at h
    simp only [hs, he] at h
    cases hd : DE w set entry.name cascade with
    | threw e2 w2 =>
      simp only [hd, Outcome.threw.injEq] at h
      refine ⟨lookup, List.mem_cons_self _ _, set, entry, w, hs, he, ?_⟩
      rw [hd, h.1, h.2]
    | returned w2 =>
      simp only [hd] at h
      obtain ⟨lk, hlk, r⟩ := ih w2 (fun l hl => hL l (List.mem_cons_of_mem _ hl)) h
      exact ⟨lk, List.mem_cons_of_mem _ hlk, r⟩

/-- C34: when no scanned Dependents record targets a schema, every lookup that the scan
of `DropObject` collects for dropping carries a collection and an entry, so that an
exception of the drop loop is one thrown by the drop of a collection, never the
dereference of an absent collection; and `LookupEntry` returns an entry without a
collection only for a schema target. -/
theorem C34_collected_lookups (D : Decls) (w : World) (cascade : Bool)
    (L : List DependencyCatalogEntry) (to_drop : List LookupResult)
    (hschema : ∀ d ∈ L, d.entryType ≠ .SCHEMA_ENTRY)
    (hscan : DropObject.scan D w cascade L [] = .ok to_drop) :
    (∀ l ∈ to_drop, l.set.isSome = true ∧ l.entry.isSome = true) ∧
    (∀ (DE : World → Str × CatalogType → Str → Bool → Outcome) (w0 w1 : World) (e : Error),
      DropObject.drop DE cascade w0 to_drop = .threw e w1 →
      ∃ lookup ∈ to_drop, ∃ set entry w2, lookup.set = some set ∧ lookup.entry = some entry ∧
        DE w2 set entry.name cascade = .threw e w1) ∧
    (∀ (c : Catalog) (dependency : Entry) (l : LookupResult),
      LookupEntry D c dependency = .ok l → l.entry.isSome = true → l.set = none →
      ∃ schema name, GetLookupProperties D dependency = .ok (schema, name, .SCHEMA_ENTRY)) := by
  have h1 := DropObject_scan_collects D w cascade L [] to_drop hschema
    (fun l hl => by cases hl) hscan
  exact ⟨h1, fun DE w0 w1 e h => DropObject_drop_threw DE cascade to_drop w0 w1 e h1 h,
    fun c dependency l hl _ hs => LookupEntry_no_set D c dependency l hl hs⟩

/-- C34 on a concrete run: the scan of the Dependents of the table `t` for a cascading
drop, with the view `v` registered on `t`, collects the lookup of `v`. -/
theorem C34_collected_lookups_witness :
    ({ set := some ("main".toList, .VIEW_ENTRY),
       mapping_value := some { entry := sampleView, deleted := false },
       entry := some sampleView } : LookupResult).set.isSome = true ∧
    ({ set := some ("main".toList, .VIEW_ENTRY),
       mapping_value := some { entry := sampleView, deleted := false },
       entry := some sampleView } : LookupResult).entry.isSome = true :=
  (C34_collected_lookups stdDecls
    (AddObject stdDecls sampleWorld sampleView [sampleTable]).world true
    (DependencyCatalogSet.Scan { mangled_name := nodeOf stdDecls sampleTable }
      (AddObject stdDecls sampleWorld sampleView [sampleTable]).world.dependents)
    [{ set := some ("main".toList, .VIEW_ENTRY),
       mapping_value := some { entry := sampleView, deleted := false },
       entry := some sampleView }]
    (by decide) (by decide)).1 _ (List.mem_singleton_self _)

/-! ### The cycle check of `AddOwnership` -/

/-- A record that does not target a schema and resolves to an entry points at the node
of that entry. -/
theorem LookupEntry_node (D : Decls) (c : Catalog) (d : DependencyCatalogEntry)
    (l : LookupResult) (e : CatalogEntry) (ht : d.entryType ≠ .SCHEMA_ENTRY)
    (h : LookupEntry D c (.dependency d) = .ok l) (he : l.entry = some e) :
    d.MangledName D = nodeOf D e := by
  unfold LookupEntry at h
  simp only [GetLookupProperties] at h
  cases hi : c.GetSchemaIndex d.entrySchema with
  | none => simp [hi] at h
  | some se =>
    simp only [hi] at h
    rw [if_neg ht] at h
    cases hm : c.GetMapping d.entrySchema d.entryType d.entryName with
    | none =>
      simp only [hm, Except.ok.injEq] at h
      rw [← h] at he
      cases he
    | some m =>
      simp only [hm, Except.ok.injEq] at h
      rw [← h] at he
      simp only [Slot.GetEntryInternal] at he
      split_ifs at he with hdel
      simp only [Option.some.injEq] at he
      have hf := List.find?_some hm
      simp only [decide_eq_true_eq] at hf
      rw [he] at hf
      obtain ⟨f1, f2, f3⟩ := hf
      have hne : e.type ≠ .SCHEMA_ENTRY := by rw [f2]; exact ht
      simp only [DependencyCatalogEntry.MangledName, Entry.MangleName, GetSchema, if_neg hne,
        f1, f2, f3, if_neg ht]

/-- The only exception of the lookup of a record is the `InternalException` of a schema
that cannot be found. -/
theorem LookupEntry_error (D : Decls) (c : Catalog) (d : DependencyCatalogEntry) (e : Error)
    (h : LookupEntry D c (.dependency d) = .error e) : e = .InternalException := by
  unfold LookupEntry at h
  simp only [GetLookupProperties] at h
  cases hi : c.GetSchemaIndex d.entrySchema with
  | none =>
    simp only [hi, Except.error.injEq] at h
    exact h.symm
  | some se =>
    simp only [hi] at h
    split_ifs at h
    cases hm : c.GetMapping d.entrySchema d.entryType d.entryName with
    | none => simp [hm] at h
    | some m => simp [hm] at h

/-- The scan of `AddOwnership` reports a cycle only for a record of type `OWNS` that
resolves to the owner. -/
theorem AddOwnership_scan_owns (D : Decls) (w : World) (owner : CatalogEntry)
    (L : List DependencyCatalogEntry)
    (h : AddOwnership.scan D w owner L = some (.DependencyException .ALREADY_OWNS)) :
    ∃ d ∈ L, ∃ l, LookupEntry D w.catalog (.dependency d) = .ok l ∧ l.entry = some owner ∧
      d.dependencyType = .DEPENDENCY_OWNS := by
  induction L with
  | nil => simp [AddOwnership.scan] at h
  | cons d rest ih =>
    unfold AddOwnership.scan at h
    cases hl : LookupEntry D w.catalog (.dependency d) with
    | error e =>
      simp only [hl, Option.some.injEq] at h
      have := LookupEntry_error D w.catalog d e hl
      rw [h] at this
      cases this
    | ok l =>
      simp only [hl] at h
      cases hle : l.entry with
      | none =>
        simp only [hle] at h
        obtain ⟨d2, hd2, r⟩ := ih h
        exact ⟨d2, List.mem_cons_of_mem _ hd2, r⟩
      | some dep =>
        simp only [hle] at h
        by_cases hne : dep ≠ owner
        · rw [if_pos hne] at h
          cases h
        · rw [if_neg hne] at h
          have heq : dep = owner := not_not.mp hne
          by_cases ho : dep = owner ∧ d.dependencyType = .DEPENDENCY_OWNS
          · exact ⟨d, List.mem_cons_self _ _, l, hl, by rw [hle, heq], ho.2⟩
          · rw [if_neg ho] at h
            obtain ⟨d2, hd2, r⟩ := ih h
            exact ⟨d2, List.mem_cons_of_mem _ hd2, r⟩

/-- C33: in a state in which the ownership edges are paired and no Dependents record of
`entry` targets a schema, `AddOwnership(owner, entry)` does not throw the 'already owns
... Cannot have circular dependencies' exception; and when the Dependents of `entry`
hold an `OWNS` edge that points at `owner`, the call, on two objects that are not system
entries, throws 'already owned by', raised by the scan of the Dependents of `owner`,
before the Dependents of `entry` are scanned. -/
theorem C33_cycle_error_unreachable (D : Decls) (w : World) (owner entry : CatalogEntry)
    (hpaired : w.OwnershipPaired D)
    (hschema : ∀ d ∈ DependencyCatalogSet.Scan { mangled_name := nodeOf D entry } w.dependents,
      d.entryType ≠ .SCHEMA_ENTRY) :
    (∀ w1, AddOwnership D w owner entry ≠ .threw (.DependencyException .ALREADY_OWNS) w1) ∧
    (IsSystemEntry entry = false → IsSystemEntry owner = false →
      (∃ d ∈ DependencyCatalogSet.Scan { mangled_name := nodeOf D entry } w.dependents,
        d.MangledName D = nodeOf D owner ∧ d.dependencyType = .DEPENDENCY_OWNS) →
      AddOwnership D w owner entry
        = .threw (.DependencyException .ALREADY_OWNED_BY)
            (GetOrCreateDependencySet D w (.object owner)).1) := by
  have key : (∃ d ∈ DependencyCatalogSet.Scan { mangled_name := nodeOf D entry } w.dependents,
        d.MangledName D = nodeOf D owner ∧ d.dependencyType = .DEPENDENCY_OWNS) →
      (DependencyCatalogSet.Scan
          (GetOrCreateDependencySet D w (.object owner)).2.Dependents
          (GetOrCreateDependencySet D w (.object owner)).1.dependents).any
        (fun dependent_entry => dependent_entry.dependencyType = .DEPENDENCY_OWNED_BY) = true := by
    intro hex
    obtain ⟨p, hp, -, hpt⟩ := (hpaired (nodeOf D entry) (nodeOf D owner)).mp hex
    rw [GetOrCreate_snd, GetOrCreate_dependents]
    rw [List.any_eq_true]
    exact ⟨p, hp, by simp [hpt]⟩
  constructor
  · intro w1 h
    unfold AddOwnership at h
    cases hsE : IsSystemEntry entry with
    | true => simp [hsE] at h
    | false =>
      cases hsO : IsSystemEntry owner with
      | true => simp [hsE, hsO] at h
      | false =>
        simp only [hsE, hsO, Bool.false_eq_true, if_false] at h
        split_ifs at h with hany
        · cases h
        split at h
        · rename_i e hscan
          simp only [Outcome.threw.injEq] at h
          rw [h.1] at hscan
          obtain ⟨d, hd, l, hl, hle, hty⟩ := AddOwnership_scan_owns D _ owner _ hscan
          rw [GetOrCreate_snd, GetOrCreate_dependents, GetOrCreate_dependents] at hd
          rw [GetOrCreate_catalog, GetOrCreate_catalog] at hl
          have hnode := LookupEntry_node D w.catalog d l owner (hschema d hd) hl hle
          exact hany (key ⟨d, hd, hnode, hty⟩)
        · cases h
  · intro hsE hsO hex
    unfold AddOwnership
    simp only [hsE, hsO, Bool.false_eq_true, if_false]
    rw [if_pos (key hex)]

/-- Over a store in which every record is under a key that starts with the mangled name
of its owner, a scanned record is owned by the node of the view. -/
theorem Scan_owner_of_Keyed (v : DependencyCatalogSet) (set : CatalogSet)
    (q : DependencyCatalogEntry) (hk : set.Keyed) (h : q ∈ v.Scan set) :
    q.fromName = v.mangled_name := by
  obtain ⟨hq, hpre, hci⟩ := (mem_Scan_iff v set q).mp h
  have hp := hk q hq
  rw [List.isPrefixOf_iff_prefix] at hp hpre
  exact prefix_eq_of_length hp hpre (CIEquals_length hci)

/-- The ownership edges are paired when the records of the Dependents store are: each
`OWNS` record has the `OWNED_BY` record of the opposite direction, and conversely. -/
theorem OwnershipPaired_of_records (D : Decls) (w : World) (hk : w.dependents.Keyed)
    (h1 : ∀ q ∈ w.dependents, q.dependencyType = .DEPENDENCY_OWNS →
      ∃ p ∈ w.dependents, p.fromName = q.MangledName D ∧ p.MangledName D = q.fromName ∧
        p.dependencyType = .DEPENDENCY_OWNED_BY)
    (h2 : ∀ p ∈ w.dependents, p.dependencyType = .DEPENDENCY_OWNED_BY →
      ∃ q ∈ w.dependents, q.fromName = p.MangledName D ∧ q.MangledName D = p.fromName ∧
        q.dependencyType = .DEPENDENCY_OWNS) :
    w.OwnershipPaired D := by
  intro X Y
  constructor
  · rintro ⟨q, hq, hqY, hqt⟩
    have hfrom := Scan_owner_of_Keyed _ _ q hk hq
    obtain ⟨p, hp, hp1, hp2, hp3⟩ := h1 q ((mem_Scan_iff _ _ q).mp hq).1 hqt
    refine ⟨p, mem_Scan Y _ p hp (by rw [hp1, hqY]) ?_, by rw [hp2]; exact hfrom, hp3⟩
    have := hk p hp
    rw [hp1, hqY] at this
    exact this
  · rintro ⟨p, hp, hpX, hpt⟩
    have hfrom := Scan_owner_of_Keyed _ _ p hk hp
    obtain ⟨q, hq, hq1, hq2, hq3⟩ := h2 p ((mem_Scan_iff _ _ p).mp hp).1 hpt
    refine ⟨q, mem_Scan X _ q hq (by rw [hq1, hpX]) ?_, by rw [hq2]; exact hfrom, hq3⟩
    have := hk q hq
    rw [hq1, hpX] at this
    exact this

/-- C33 on a concrete run: the table `t` owns the sequence `s`; `AddOwnership(s, t)`
is rejected because `s` is already owned. -/
theorem C33_cycle_error_unreachable_witness :
    AddOwnership stdDecls (AddOwnership stdDecls sampleWorld sampleTable sampleSequence).world
        sampleSequence sampleTable
      = .threw (.DependencyException .ALREADY_OWNED_BY)
          (GetOrCreateDependencySet stdDecls
            (AddOwnership stdDecls sampleWorld sampleTable sampleSequence).world
            (.object sampleSequence)).1 :=
  (C33_cycle_error_unreachable stdDecls
    (AddOwnership stdDecls sampleWorld sampleTable sampleSequence).world
    sampleSequence sampleTable
    (OwnershipPaired_of_records stdDecls
      (AddOwnership stdDecls sampleWorld sampleTable sampleSequence).world
      (by decide) (by decide) (by decide))
    (by decide)).2 (by decide) (by decide)
    ⟨edgeOf stdDecls sampleTable sampleSequence .DEPENDENCY_OWNS, by decide, by decide, by decide⟩

/-! ### `GenerateDateFormat` -/

/-- The loop of `GenerateDateFormat` appends the replaced text to `result`. -/
theorem foldl_replaceDashes (separator : Str) (l acc : Str) :
    l.foldl (fun result character =>
      if character = '-' then result ++ separator else result ++ [character]) acc
      = acc ++ replaceDashes separator l := by
  induction l generalizing acc with
  | nil => simp [replaceDashes]
  | cons c rest ih =>
    simp only [List.foldl_cons, replaceDashes]
    rw [ih]
    split_ifs <;> simp

theorem replaceDashes_no_dash (separator : Str) (l : Str) (h : l.count '-' = 0) :
    replaceDashes separator l = l := by
  induction l with
  | nil => rfl
  | cons c rest ih =>
    have hc : c ≠ '-' := by
      intro e
      rw [e] at h
      simp at h
    have hr : rest.count '-' = 0 := by
      rw [List.count_cons_of_ne (Ne.symm hc)] at h
      exact h
    simp [replaceDashes, hc, ih hr]

theorem replaceDashes_dash (l : Str) : replaceDashes ['-'] l = l := by
  induction l with
  | nil => rfl
  | cons c rest ih =>
    simp only [replaceDashes, ih]
    split_ifs with h
    · simp [h]
    · simp

theorem replaceDashes_length (separator : Str) (l : Str) :
    (replaceDashes separator l).length + l.count '-'
      = l.length + l.count '-' * separator.length := by
  induction l with
  | nil => simp [replaceDashes]
  | cons c rest ih =>
    by_cases hc : c = '-'
    · subst hc
      simp only [replaceDashes, if_true, List.length_append, List.count_cons_self,
        List.length_cons]
      rw [Nat.add_mul]
      omega
    · simp only [replaceDashes, if_neg hc, List.length_append, List.length_cons, List.length_nil,
        List.count_cons_of_ne (Ne.symm hc)]
      omega

/-- C35: `GenerateDateFormat(separator, template)` returns the text of the template (the
characters of the C string) with every `'-'` replaced by `separator` and every other
character kept in order; its length is `|template| - d + d * |separator|` for `d` the
number of `'-'` in the template; it is the template when `d = 0` and when `separator` is
`"-"`. -/
theorem C35_generate_date_format (separator format_template : Str) :
    GenerateDateFormat separator format_template
      = replaceDashes separator (ofCString format_template) ∧
    (GenerateDateFormat separator format_template).length
      = (ofCString format_template).length - (ofCString format_template).count '-'
        + (ofCString format_template).count '-' * separator.length ∧
    ((ofCString format_template).count '-' = 0 →
      GenerateDateFormat separator format_template = ofCString format_template) ∧
    (separator = ['-'] →
      GenerateDateFormat separator format_template = ofCString format_template) ∧
    (NUL ∉ format_template → ofCString format_template = format_template) := by
  have h1 : GenerateDateFormat separator format_template
      = replaceDashes separator (ofCString format_template) := by
    unfold GenerateDateFormat
    dsimp only
    split_ifs with h
    · exact (replaceDashes_no_dash separator _ h).symm
    · rw [foldl_replaceDashes]
      simp
  refine ⟨h1, ?_, ?_, ?_, ?_⟩
  · rw [h1]
    have := replaceDashes_length separator (ofCString format_template)
    have hle := List.count_le_length '-' (ofCString format_template)
    omega
  · intro h
    rw [h1]
    exact replaceDashes_no_dash separator _ h
  · intro h
    rw [h1, h]
    exact replaceDashes_dash _
  · intro h
    unfold ofCString
    rw [List.takeWhile_eq_self_iff]
    intro x hx
    simp only [ne_eq, decide_not, Bool.not_eq_true', decide_eq_false_iff_not]
    intro e
    exact h (e ▸ hx)

/-! ### `StartsWithNumericDate` -/

theorem dropWhile_append_stop (p : Char → Bool) (a b : Str) (ha : ∀ x ∈ a, p x = true)
    (hb : ∀ y ∈ b.head?, p y = false) : (a ++ b).dropWhile p = b := by
  induction a with
  | nil =>
    cases b with
    | nil => rfl
    | cons y ys =>
      have := hb y (by simp)
      simp [List.dropWhile_cons, this]
  | cons x xs ih =>
    have hx := ha x (List.mem_cons_self _ _)
    simp only [List.cons_append, List.dropWhile_cons, hx, if_true]
    exact ih (fun z hz => ha z (List.mem_cons_of_mem _ hz))

theorem takeWhile_append_stop (p : Char → Bool) (a b : Str) (ha : ∀ x ∈ a, p x = true)
    (hb : ∀ y ∈ b.head?, p y = false) : (a ++ b).takeWhile p = a := by
  induction a with
  | nil =>
    cases b with
    | nil => rfl
    | cons y ys =>
      have := hb y (by simp)
      simp [List.takeWhile_cons, this]
  | cons x xs ih =>
    have hx := ha x (List.mem_cons_self _ _)
    simp only [List.cons_append, List.takeWhile_cons, hx, if_true]
    rw [ih (fun z hz => ha z (List.mem_cons_of_mem _ hz))]

/-- The character at which `find_if_not` stops does not satisfy the predicate. -/
theorem dropWhile_head (p : Char → Bool) (l : Str) (y : Char) (ys : Str)
    (h : l.dropWhile p = y :: ys) : p y = false := by
  induction l with
  | nil => simp at h
  | cons x xs ih =>
    rw [List.dropWhile_cons] at h
    cases hx : p x with
    | true =>
      simp only [hx, if_true] at h
      exact ih h
    | false =>
      simp only [hx, Bool.false_eq_true, if_false, List.cons.injEq] at h
      rw [← h.1]
      exact hx

theorem takeWhile_ne_nil (p : Char → Bool) (y : Char) (ys : Str) (h : p y = true) :
    (y :: ys).takeWhile p ≠ [] := by
  simp [List.takeWhile_cons, h]

/-- The distance from a pointer to the place where a search from it stops. -/
theorem distance_dropWhile (p : Char → Bool) (l : Str) :
    distance l (l.dropWhile p) = (l.takeWhile p).length := by
  unfold distance
  have h := congrArg List.length (List.takeWhile_append_dropWhile p l)
  rw [List.length_append] at h
  omega

theorem take_distance_dropWhile (p : Char → Bool) (l : Str) :
    l.take (distance l (l.dropWhile p)) = l.takeWhile p := by
  rw [distance_dropWhile]
  have h := List.takeWhile_append_dropWhile p l
  have h2 : List.take (l.takeWhile p).length (l.takeWhile p ++ l.dropWhile p) = l.takeWhile p :=
    List.take_left' rfl
  rw [h] at h2
  exact h2

/-- The copy loop of `StartsWithNumericDate` appends the escaped literal. -/
theorem foldl_doublePercent (l acc : Str) :
    l.foldl (fun separator literal_char =>
      (if literal_char = '%' then separator ++ [literal_char] else separator)
        ++ [literal_char]) acc
      = acc ++ doublePercent l := by
  induction l generalizing acc with
  | nil => simp [doublePercent]
  | cons c rest ih =>
    simp only [List.foldl_cons, doublePercent]
    rw [ih]
    split_ifs <;> simp

theorem Char_toNat_sub (a b : Char) (h : (a.toNat : Int) - (b.toNat : Int) = 0) : a = b := by
  have h1 : a.toNat = b.toNat := by omega
  apply Char.ext
  apply UInt32.ext
  exact h1

/-- The comparison `strncmp(p, q, n)` of two literals of `n` characters is zero exactly
when the two literals are equal up to their first NUL byte. -/
theorem strncmp_eq_zero (L L2 r1 r2 : Str) (hl : L2.length = L.length) :
    strncmp (L ++ r1) (L2 ++ r2) L.length = 0 ↔
      L2.takeWhile (fun c => c ≠ NUL) = L.takeWhile (fun c => c ≠ NUL) := by
  induction L generalizing L2 with
  | nil =>
    cases L2 with
    | nil => simp [strncmp]
    | cons b L2 => simp at hl
  | cons a L ih =>
    cases L2 with
    | nil => simp at hl
    | cons b L2 =>
      have hl2 : L2.length = L.length := by simpa using hl
      simp only [List.cons_append, List.length_cons, strncmp, List.headD_cons, List.tail_cons]
      by_cases hab : a = b
      · subst hab
        simp only [ne_eq, not_true_eq_false, if_false]
        by_cases hn : a = NUL
        · simp [hn]
        · simp only [hn, if_false, ih L2 hl2]
          simp [List.takeWhile_cons, hn]
      · rw [if_pos hab]
        constructor
        · intro h
          exact absurd (Char_toNat_sub a b h) hab
        · intro h
          exfalso
          by_cases ha : a = NUL
          · have hb : b ≠ NUL := fun e => hab (by rw [ha, e])
            simp [List.takeWhile_cons, ha, hb] at h
          · by_cases hb : b = NUL
            · simp [List.takeWhile_cons, ha, hb] at h
            · simp [List.takeWhile_cons, ha, hb] at h
              exact hab h.1.symm

/-- The value of `StartsWithNumericDate` when the five searches succeed. -/
theorem StartsWithNumericDate_eq (U : StringUtil) (separator value : Str) (first : Char)
    (rest literal1 field2 literal2 field3 : Str)
    (h1 : value.dropWhile U.CharacterIsSpace = first :: rest)
    (hd : U.CharacterIsDigit first = true)
    (h2 : (first :: rest).dropWhile U.CharacterIsDigit = literal1) (n1 : literal1 ≠ [])
    (h3 : literal1.dropWhile (fun c => !U.CharacterIsDigit c) = field2) (n2 : field2 ≠ [])
    (h4 : field2.dropWhile U.CharacterIsDigit = literal2) (n3 : literal2 ≠ [])
    (h5 : literal2.dropWhile (fun c => !U.CharacterIsDigit c) = field3) (n4 : field3 ≠ []) :
    StartsWithNumericDate U separator value
      = if distance literal2 field3 ≠ distance literal1 field2 ∨
            strncmp literal1 literal2 (distance literal1 field2) ≠ 0 then (false, separator)
        else (true, doublePercent (literal1.take (distance literal1 field2))) := by
  unfold StartsWithNumericDate
  simp only [h1, hd, Bool.not_true, Bool.false_eq_true, if_false, h2, if_neg n1, h3, if_neg n2,
    h4, if_neg n3, h5, if_neg n4, foldl_doublePercent, List.nil_append]

/-- The pointers of `StartsWithNumericDate` on a value of the shape. -/
theorem NumericDateShape_pointers (U : StringUtil) (value L L2 d1 d2 tail : Str) (c : Char)
    (h : value.dropWhile U.CharacterIsSpace = d1 ++ L ++ d2 ++ L2 ++ c :: tail)
    (hd1 : ∀ x ∈ d1, U.CharacterIsDigit x = true)
    (nL : L ≠ []) (hL : ∀ x ∈ L, U.CharacterIsDigit x = false)
    (nd2 : d2 ≠ []) (hd2 : ∀ x ∈ d2, U.CharacterIsDigit x = true)
    (nL2 : L2 ≠ []) (hL2 : ∀ x ∈ L2, U.CharacterIsDigit x = false)
    (hc : U.CharacterIsDigit c = true) :
    (value.dropWhile U.CharacterIsSpace).dropWhile U.CharacterIsDigit
      = L ++ (d2 ++ (L2 ++ c :: tail)) ∧
    (L ++ (d2 ++ (L2 ++ c :: tail))).dropWhile (fun c => !U.CharacterIsDigit c)
      = d2 ++ (L2 ++ c :: tail) ∧
    (d2 ++ (L2 ++ c :: tail)).dropWhile U.CharacterIsDigit = L2 ++ c :: tail ∧
    (L2 ++ c :: tail).dropWhile (fun c => !U.CharacterIsDigit c) = c :: tail ∧
    (L ++ (d2 ++ (L2 ++ c :: tail))).takeWhile (fun c => !U.CharacterIsDigit c) = L ∧
    (L2 ++ c :: tail).takeWhile (fun c => !U.CharacterIsDigit c) = L2 := by
  obtain ⟨a, L', rfl⟩ := List.exists_cons_of_ne_nil nL
  obtain ⟨b, d2', rfl⟩ := List.exists_cons_of_ne_nil nd2
  obtain ⟨a2, L2', rfl⟩ := List.exists_cons_of_ne_nil nL2
  have ha := hL a (List.mem_cons_self _ _)
  have hb := hd2 b (List.mem_cons_self _ _)
  have ha2 := hL2 a2 (List.mem_cons_self _ _)
  refine ⟨?_, ?_, ?_, ?_, ?_, ?_⟩
  · rw [h]
    simp only [List.append_assoc]
    exact dropWhile_append_stop _ _ _ hd1 (by simp [ha])
  · exact dropWhile_append_stop _ _ _ (fun x hx => by simp [hL x hx]) (by simp [hb])
  · exact dropWhile_append_stop _ _ _ hd2 (by simp [ha2])
  · exact dropWhile_append_stop _ _ _ (fun x hx => by simp [hL2 x hx]) (by simp [hc])
  · exact takeWhile_append_stop _ _ _ (fun x hx => by simp [hL x hx]) (by simp [hb])
  · exact takeWhile_append_stop _ _ _ (fun x hx => by simp [hL2 x hx]) (by simp [hc])

/-- The two literals of a value of the shape are the ones between the digit fields that
the searches find. -/
theorem NumericDateShape_literals (U : StringUtil) (value L L2 : Str)
    (h : NumericDateShape U value L L2) :
    L = (((value.dropWhile U.CharacterIsSpace).dropWhile U.CharacterIsDigit).takeWhile
      (fun c => !U.CharacterIsDigit c)) ∧
    L2 = ((((value.dropWhile U.CharacterIsSpace).dropWhile U.CharacterIsDigit).dropWhile
      (fun c => !U.CharacterIsDigit c)).dropWhile U.CharacterIsDigit).takeWhile
      (fun c => !U.CharacterIsDigit c) := by
  obtain ⟨d1, d2, c, tail, hv, nd1, hd1, nL, hL, nd2, hd2, nL2, hL2, hc⟩ := h
  obtain ⟨p1, p2, p3, p4, p5, p6⟩ := NumericDateShape_pointers U value L L2 d1 d2 tail c hv hd1
    nL hL nd2 hd2 nL2 hL2 hc
  rw [p1, p5, p2, p3, p6]
  exact ⟨rfl, rfl⟩

/-- The value of `StartsWithNumericDate` on a value of the shape. -/
theorem StartsWithNumericDate_of_shape (U : StringUtil) (separator value L L2 : Str)
    (h : NumericDateShape U value L L2) :
    StartsWithNumericDate U separator value
      = if L2.length = L.length ∧
            L2.takeWhile (fun c => c ≠ NUL) = L.takeWhile (fun c => c ≠ NUL)
        then (true, doublePercent L) else (false, separator) := by
  obtain ⟨d1, d2, c, tail, hv, nd1, hd1, nL, hL, nd2, hd2, nL2, hL2, hc⟩ := h
  obtain ⟨p1, p2, p3, p4, p5, p6⟩ := NumericDateShape_pointers U value L L2 d1 d2 tail c hv hd1
    nL hL nd2 hd2 nL2 hL2 hc
  obtain ⟨a, d1', rfl⟩ := List.exists_cons_of_ne_nil nd1
  have hv2 : value.dropWhile U.CharacterIsSpace
      = a :: (d1' ++ L ++ d2 ++ L2 ++ c :: tail) := by
    rw [hv]
    simp
  rw [hv2] at p1
  rw [StartsWithNumericDate_eq U separator value a _ _ _ _ _ hv2
    (hd1 a (List.mem_cons_self _ _)) p1 (by simp [nL]) p2 (by simp [nd2]) p3 (by simp [nL2]) p4
    (by simp)]
  have e1 : distance (L2 ++ c :: tail) (c :: tail) = L2.length := by
    unfold distance
    simp
  have e2 : distance (L ++ (d2 ++ (L2 ++ c :: tail))) (d2 ++ (L2 ++ c :: tail)) = L.length := by
    unfold distance
    simp
  rw [e1, e2, List.take_left' rfl]
  by_cases hlen : L2.length = L.length
  · have hs := strncmp_eq_zero L L2 (d2 ++ (L2 ++ c :: tail)) (c :: tail) hlen
    by_cases ht : L2.takeWhile (fun c => c ≠ NUL) = L.takeWhile (fun c => c ≠ NUL)
    · rw [if_neg (not_or.mpr ⟨not_not.mpr hlen, not_not.mpr (hs.mpr ht)⟩), if_pos ⟨hlen, ht⟩]
    · rw [if_pos (Or.inr (fun h0 => ht (hs.mp h0))), if_neg (fun hh => ht hh.2)]
  · rw [if_pos (Or.inl hlen), if_neg (fun hh => hlen hh.1)]

/-- A value for which `StartsWithNumericDate` returns true has the shape, with two
literals of the same length that are equal up to their first NUL byte. -/
theorem shape_of_StartsWithNumericDate (U : StringUtil) (separator value : Str)
    (h : (StartsWithNumericDate U separator value).1 = true) :
    ∃ L L2, NumericDateShape U value L L2 ∧ L2.length = L.length ∧
      L2.takeWhile (fun c => c ≠ NUL) = L.takeWhile (fun c => c ≠ NUL) := by
  cases hf1 : value.dropWhile U.CharacterIsSpace with
  | nil => simp [StartsWithNumericDate, hf1] at h
  | cons first rest =>
    cases hd : U.CharacterIsDigit first with
    | false => simp [StartsWithNumericDate, hf1, hd] at h
    | true =>
      by_cases n1 : (first :: rest).dropWhile U.CharacterIsDigit = []
      · unfold StartsWithNumericDate at h
        simp only [hf1, hd, Bool.not_true, Bool.false_eq_true, if_false, if_pos n1] at h
      by_cases n2 : ((first :: rest).dropWhile U.CharacterIsDigit).dropWhile
          (fun c => !U.CharacterIsDigit c) = []
      · unfold StartsWithNumericDate at h
        simp only [hf1, hd, Bool.not_true, Bool.false_eq_true, if_false, if_neg n1,
          if_pos n2] at h
      by_cases n3 : (((first :: rest).dropWhile U.CharacterIsDigit).dropWhile
          (fun c => !U.CharacterIsDigit c)).dropWhile U.CharacterIsDigit = []
      · unfold StartsWithNumericDate at h
        simp only [hf1, hd, Bool.not_true, Bool.false_eq_true, if_false, if_neg n1,
          if_neg n2, if_pos n3] at h
      by_cases n4 : ((((first :: rest).dropWhile U.CharacterIsDigit).dropWhile
          (fun c => !U.CharacterIsDigit c)).dropWhile U.CharacterIsDigit).dropWhile
          (fun c => !U.CharacterIsDigit c) = []
      · unfold StartsWithNumericDate at h
        simp only [hf1, hd, Bool.not_true, Bool.false_eq_true, if_false, if_neg n1,
          if_neg n2, if_neg n3, if_pos n4] at h
      rw [StartsWithNumericDate_eq U separator value first rest _ _ _ _ hf1 hd rfl n1 rfl n2
        rfl n3 rfl n4] at h
      split_ifs at h with hcond
      rw [not_or, not_not, not_not] at hcond
      obtain ⟨hlen, hcmp⟩ := hcond
      rw [distance_dropWhile, distance_dropWhile] at hlen
      rw [distance_dropWhile] at hcmp
      -- the four parts of the value
      have q1 := List.takeWhile_append_dropWhile U.CharacterIsDigit (first :: rest)
      have q2 := List.takeWhile_append_dropWhile (fun c => !U.CharacterIsDigit c)
        ((first :: rest).dropWhile U.CharacterIsDigit)
      have q3 := List.takeWhile_append_dropWhile U.CharacterIsDigit
        (((first :: rest).dropWhile U.CharacterIsDigit).dropWhile
          (fun c => !U.CharacterIsDigit c))
      have q4 := List.takeWhile_append_dropWhile (fun c => !U.CharacterIsDigit c)
        ((((first :: rest).dropWhile U.CharacterIsDigit).dropWhile
          (fun c => !U.CharacterIsDigit c)).dropWhile U.CharacterIsDigit)
      obtain ⟨a1, l1, e1⟩ := List.exists_cons_of_ne_nil n1
      obtain ⟨a2, l2, e2⟩ := List.exists_cons_of_ne_nil n2
      obtain ⟨a3, l3, e3⟩ := List.exists_cons_of_ne_nil n3
      obtain ⟨a4, l4, e4⟩ := List.exists_cons_of_ne_nil n4
      have g1 := dropWhile_head _ _ _ _ e1
      have g2 := dropWhile_head _ _ _ _ e2
      have g3 := dropWhile_head _ _ _ _ e3
      have g4 := dropWhile_head _ _ _ _ e4
      simp only [Bool.not_eq_false'] at g2 g4
      refine ⟨((first :: rest).dropWhile U.CharacterIsDigit).takeWhile
          (fun c => !U.CharacterIsDigit c),
        ((((first :: rest).dropWhile U.CharacterIsDigit).dropWhile
          (fun c => !U.CharacterIsDigit c)).dropWhile U.CharacterIsDigit).takeWhile
          (fun c => !U.CharacterIsDigit c),
        ⟨(first :: rest).takeWhile U.CharacterIsDigit,
          (((first :: rest).dropWhile U.CharacterIsDigit).dropWhile
            (fun c => !U.CharacterIsDigit c)).takeWhile U.CharacterIsDigit,
          a4, l4, ?_, ?_, ?_, ?_, ?_, ?_, ?_, ?_, ?_, g4⟩, hlen, ?_⟩
      · rw [hf1, ← e4, List.append_assoc, List.append_assoc, List.append_assoc, q4, q3, q2, q1]
      · exact takeWhile_ne_nil _ _ _ hd
      · exact fun x hx => List.mem_takeWhile_imp hx
      · rw [e1]
        exact takeWhile_ne_nil _ _ _ (by simp [g1])
      · intro x hx
        have := List.mem_takeWhile_imp hx
        simpa using this
      · rw [e2]
        exact takeWhile_ne_nil _ _ _ g2
      · exact fun x hx => List.mem_takeWhile_imp hx
      · rw [e3]
        exact takeWhile_ne_nil _ _ _ (by simp [g3])
      · intro x hx
        have := List.mem_takeWhile_imp hx
        simpa using this
      · have hs := strncmp_eq_zero
          (((first :: rest).dropWhile U.CharacterIsDigit).takeWhile
            (fun c => !U.CharacterIsDigit c))
          (((((first :: rest).dropWhile U.CharacterIsDigit).dropWhile
            (fun c => !U.CharacterIsDigit c)).dropWhile U.CharacterIsDigit).takeWhile
            (fun c => !U.CharacterIsDigit c))
          (((first :: rest).dropWhile U.CharacterIsDigit).dropWhile
            (fun c => !U.CharacterIsDigit c))
          (((((first :: rest).dropWhile U.CharacterIsDigit).dropWhile
            (fun c => !U.CharacterIsDigit c)).dropWhile U.CharacterIsDigit).dropWhile
            (fun c => !U.CharacterIsDigit c)) hlen
        rw [q2, q4] at hs
        exact hs.mp hcmp

/-- C36: in the value `1`, NUL, `a`, `2`, NUL, `b`, `3` the two literals between the
digit fields differ in their second byte, so that the second literal does not match the
first and the value has not the shape of digits, `L`, digits, the same `L`, digit for any
`L`; `StartsWithNumericDate` returns true all the same and sets the separator to the
first literal, because `strncmp` ends the comparison behind the NUL byte. -/
theorem C36_unequal_literals_accepted :
    StartsWithNumericDate stdStringUtil [] ['1', NUL, 'a', '2', NUL, 'b', '3']
      = (true, [NUL, 'a']) ∧
    ¬ ∃ L, NumericDateShape stdStringUtil ['1', NUL, 'a', '2', NUL, 'b', '3'] L L := by
  refine ⟨by decide, ?_⟩
  rintro ⟨L, h⟩
  obtain ⟨h1, h2⟩ := NumericDateShape_literals _ _ _ _ h
  have c1 : ((((['1', NUL, 'a', '2', NUL, 'b', '3'] : Str).dropWhile
      stdStringUtil.CharacterIsSpace).dropWhile stdStringUtil.CharacterIsDigit).takeWhile
      (fun c => !stdStringUtil.CharacterIsDigit c)) = [NUL, 'a'] := by decide
  have c2 : (((((['1', NUL, 'a', '2', NUL, 'b', '3'] : Str).dropWhile
      stdStringUtil.CharacterIsSpace).dropWhile stdStringUtil.CharacterIsDigit).dropWhile
      (fun c => !stdStringUtil.CharacterIsDigit c)).dropWhile
      stdStringUtil.CharacterIsDigit).takeWhile
      (fun c => !stdStringUtil.CharacterIsDigit c) = [NUL, 'b'] := by decide
  rw [c1] at h1
  rw [c2, h1] at h2
  exact absurd h2 (by decide)

/-- The values that `StartsWithNumericDate` accepts.  It returns true exactly when
`value`, after its leading white space, has the shape digits, `L`, digits, `L2`, digit,
for two non-empty literals without a digit that have the same length and are equal up to
their first NUL byte; it then sets `separator` to `L` with every `'%'` doubled.  For a
literal `L` that holds no NUL byte it returns true exactly when the second literal is
equal to `L`.  When it returns false, `separator` is unchanged. -/
theorem StartsWithNumericDate_true_iff (U : StringUtil) (separator value : Str) :
    ((StartsWithNumericDate U separator value).1 = true ↔
      ∃ L L2, NumericDateShape U value L L2 ∧ L2.length = L.length ∧
        L2.takeWhile (fun c => c ≠ NUL) = L.takeWhile (fun c => c ≠ NUL)) ∧
    (∀ L L2, NumericDateShape U value L L2 → L2.length = L.length →
      L2.takeWhile (fun c => c ≠ NUL) = L.takeWhile (fun c => c ≠ NUL) →
      StartsWithNumericDate U separator value = (true, doublePercent L)) ∧
    (∀ L L2, NumericDateShape U value L L2 → NUL ∉ L →
      ((StartsWithNumericDate U separator value).1 = true ↔ L2 = L)) ∧
    ((StartsWithNumericDate U separator value).1 = false →
      (StartsWithNumericDate U separator value).2 = separator) := by
  refine ⟨⟨shape_of_StartsWithNumericDate U separator value, ?_⟩, ?_, ?_, ?_⟩
  · rintro ⟨L, L2, hs, hlen, ht⟩
    rw [StartsWithNumericDate_of_shape U separator value L L2 hs, if_pos ⟨hlen, ht⟩]
  · intro L L2 hs hlen ht
    rw [StartsWithNumericDate_of_shape U separator value L L2 hs, if_pos ⟨hlen, ht⟩]
  · intro L L2 hs hnul
    rw [StartsWithNumericDate_of_shape U separator value L L2 hs]
    have hL : L.takeWhile (fun c => c ≠ NUL) = L := by
      rw [List.takeWhile_eq_self_iff]
      intro x hx
      simp only [ne_eq, decide_not, Bool.not_eq_true', decide_eq_false_iff_not]
      intro e
      exact hnul (e ▸ hx)
    constructor
    · intro h
      split_ifs at h with hc
      obtain ⟨hlen, ht⟩ := hc
      rw [hL] at ht
      have hp : L <+: L2 := by
        rw [← ht]
        exact List.takeWhile_prefix _
      exact (hp.eq_of_length hlen.symm).symm
    · intro h
      rw [h, if_pos ⟨rfl, rfl⟩]
  · intro h
    unfold StartsWithNumericDate at h ⊢
    dsimp only at h ⊢
    split at h <;> rename_i hm
    · simp only [hm]
    · simp only [hm] at h ⊢
      repeat' split_ifs at h ⊢
      all_goals rfl

/-! ### The assertions and the release build -/

/-- For two objects that are not system entries the assertions of `AddOwnership` hold,
and the call is the one of the release build. -/
theorem AddOwnership_eq_release (D : Decls) (w : World) (owner entry : CatalogEntry)
    (hO : IsSystemEntry owner = false) (hE : IsSystemEntry entry = false) :
    AddOwnership D w owner entry = AddOwnership.release D w owner entry := by
  unfold AddOwnership AddOwnership.release
  simp only [hO, hE, Bool.false_eq_true, if_false]

/-- For a key of three parts the assertion of `UnmangleName` holds, and the call is the
one of the release build. -/
theorem UnmangleName_eq_release (D : Decls) (key : Str) (h : (Split key NUL).length = 3) :
    UnmangleName D key = UnmangleName.release D key := by
  unfold UnmangleName UnmangleName.release
  match hs : Split key NUL, h with
  | [p0, p1, p2], _ => rfl

/-- C12: the key that `MangleName` gives the table named `a`, NUL, `b` of the schema
`main` has four NUL-separated parts.  The assertion of `UnmangleName` on the number of
parts fails for it, and the release build, in which the assertion is compiled out,
raises nothing: it decodes the key from its first three parts, as the table `a`. -/
theorem C12_four_parts_decoded :
    MangleName stdDecls .TABLE_ENTRY "main".toList ['a', NUL, 'b']
      = "Table".toList ++ [NUL] ++ "main".toList ++ [NUL, 'a', NUL, 'b'] ∧
    (Split ("Table".toList ++ [NUL] ++ "main".toList ++ [NUL, 'a', NUL, 'b']) NUL).length = 4 ∧
    UnmangleName stdDecls ("Table".toList ++ [NUL] ++ "main".toList ++ [NUL, 'a', NUL, 'b'])
      = .error .InternalException ∧
    UnmangleName.release stdDecls
        ("Table".toList ++ [NUL] ++ "main".toList ++ [NUL, 'a', NUL, 'b'])
      = .ok (.TABLE_ENTRY, "main".toList, "a".toList) := by
  decide

/-- C16: `AddOwnership(t, s)` for a sequence `s` whose internal flag is set, on the empty
registry.  The assertion on `entry` fails for it, and the release build, in which the
assertion is compiled out, does not reject the call: it returns and has registered the
`OWNED_BY` record of `s`, the dependency of `t` on `s` and the `OWNS` record of `t`. -/
theorem C16_system_entry_registered :
    IsSystemEntry { sampleSequence with internal := true } = true ∧
    AddOwnership stdDecls sampleWorld sampleTable { sampleSequence with internal := true }
      = .threw .InternalException sampleWorld ∧
    (AddOwnership.release stdDecls sampleWorld sampleTable
      { sampleSequence with internal := true }).isReturned = true ∧
    (AddOwnership.release stdDecls sampleWorld sampleTable
      { sampleSequence with internal := true }).world.dependents
      = [edgeOf stdDecls { sampleSequence with internal := true } sampleTable .DEPENDENCY_OWNED_BY,
         edgeOf stdDecls sampleTable { sampleSequence with internal := true } .DEPENDENCY_OWNS] ∧
    (AddOwnership.release stdDecls sampleWorld sampleTable
      { sampleSequence with internal := true }).world.dependencies
      = [edgeOf stdDecls sampleTable { sampleSequence with internal := true }
          .DEPENDENCY_REGULAR] := by
  decide

/-- C5 (as stated, refuted): in the state that `AddOwnership(t, s)` leaves, with the
owner `t` live, `DropObject(t, false)` does not succeed.  It collects `s`, whose drop
scans the Dependents of `s` and is blocked by the `OWNED_BY` record that resolves to the
live `t`; the call throws "Cannot drop entry", and `s` still resolves. -/
theorem C5_counterexample :
    (AddOwnership stdDecls sampleWorld sampleTable sampleSequence).isReturned = true ∧
    DropObject stdDecls 2 (AddOwnership stdDecls sampleWorld sampleTable sampleSequence).world
        sampleTable false
      = .threw (.DependencyException .CANNOT_DROP)
          { (AddOwnership stdDecls sampleWorld sampleTable sampleSequence).world with
            dropped := [("main".toList, .SEQUENCE_ENTRY, "s".toList)] } ∧
    (DropObject stdDecls 2 (AddOwnership stdDecls sampleWorld sampleTable sampleSequence).world
        sampleTable false).world.catalog.GetEntryInternal sampleSequence = some sampleSequence := by
  decide

theorem GetDependencySet_congr (D : Decls) (w w1 : World) (e : Entry)
    (h : w1.connections = w.connections) : GetDependencySet D w1 e = GetDependencySet D w e := by
  unfold GetDependencySet
  rw [h]

/-- The first loop of `CleanupDependencies` returns when every record it is given points
at a node that has its dependency set. -/
theorem removeDependencies_returns (D : Decls) (s : DependencySetCatalogEntry)
    (L : List DependencyCatalogEntry) (w : World)
    (h : ∀ q ∈ L, GetDependencySet D w (.dependency q) ≠ none) :
    ∃ w1, CleanupDependencies.removeDependencies D s w L = .returned w1 ∧
      w1.connections = w.connections ∧ w1.catalog = w.catalog := by
  induction L generalizing w with
  | nil => exact ⟨w, rfl, rfl, rfl⟩
  | cons q rest ih =>
    unfold CleanupDependencies.removeDependencies
    cases hg : GetDependencySet D w (.dependency q) with
    | none => exact absurd hg (h q (List.mem_cons_self _ _))
    | some o =>
      simp only []
      obtain ⟨w1, h1, h2, h3⟩ := ih
        (s.RemoveDependency D (o.RemoveDependent D w (.dependencySet s)) (.dependency q))
        (fun x hx => by
          rw [GetDependencySet_congr D w
            (s.RemoveDependency D (o.RemoveDependent D w (.dependencySet s)) (.dependency q))
            (.dependency x) rfl]
          exact h x (List.mem_cons_of_mem _ hx))
      exact ⟨w1, h1, h2, h3⟩

/-- The second loop of `CleanupDependencies` returns when every record it is given
points at a node that has its dependency set. -/
theorem removeDependents_returns (D : Decls) (s : DependencySetCatalogEntry)
    (L : List DependencyCatalogEntry) (w : World)
    (h : ∀ q ∈ L, GetDependencySet D w (.dependency q) ≠ none) :
    ∃ w1, CleanupDependencies.removeDependents D s w L = .returned w1 ∧
      w1.connections = w.connections ∧ w1.catalog = w.catalog := by
  induction L generalizing w with
  | nil => exact ⟨w, rfl, rfl, rfl⟩
  | cons q rest ih =>
    unfold CleanupDependencies.removeDependents
    cases hg : GetDependencySet D w (.dependency q) with
    | none => exact absurd hg (h q (List.mem_cons_self _ _))
    | some o =>
      simp only []
      obtain ⟨w1, h1, h2, h3⟩ := ih
        (s.RemoveDependent D (o.RemoveDependency D w (.dependencySet s)) (.dependency q))
        (fun x hx => by
          rw [GetDependencySet_congr D w
            (s.RemoveDependent D (o.RemoveDependency D w (.dependencySet s)) (.dependency q))
            (.dependency x) rfl]
          exact h x (List.mem_cons_of_mem _ hx))
      exact ⟨w1, h1, h2, h3⟩

/-- `CleanupDependencies` returns for an object that has its dependency set when every
record of its two views points at a node that has its dependency set. -/
theorem CleanupDependencies_returns (D : Decls) (w : World) (object : CatalogEntry)
    (hset : ({ mangledName := nodeOf D object } : DependencySetCatalogEntry) ∈ w.connections)
    (h1 : ∀ q ∈ DependencyCatalogSet.Scan { mangled_name := nodeOf D object } w.dependencies,
      GetDependencySet D w (.dependency q) ≠ none)
    (h2 : ∀ q ∈ DependencyCatalogSet.Scan { mangled_name := nodeOf D object } w.dependents,
      GetDependencySet D w (.dependency q) ≠ none) :
    ∃ wc, CleanupDependencies D w object = .returned wc ∧
      wc.connections = w.connections ∧ wc.catalog = w.catalog := by
  unfold CleanupDependencies
  rw [GetDependencySet_of_mem D w (.object object) hset]
  simp only [DependencySetCatalogEntry.Dependencies, DependencySetCatalogEntry.Dependents]
  obtain ⟨w1, e1, c1, k1⟩ := removeDependencies_returns D
    { mangledName := nodeOf D object }
    (DependencyCatalogSet.Scan { mangled_name := nodeOf D object } w.dependencies) w h1
  obtain ⟨w2, e2, c2, k2⟩ := removeDependents_returns D
    { mangledName := nodeOf D object }
    (DependencyCatalogSet.Scan { mangled_name := nodeOf D object } w.dependents) w1
    (fun q hq => by
      rw [GetDependencySet_congr D w w1 (.dependency q) c1]
      exact h2 q hq)
  refine ⟨w2, ?_, c2.trans c1, k2.trans k1⟩
  have e1b : CleanupDependencies.removeDependencies D
      { mangledName := Entry.MangleName D (Entry.object object) } w
      (DependencyCatalogSet.Scan { mangled_name := Entry.MangleName D (Entry.object object) }
        w.dependencies) = .returned w1 := e1
  rw [e1b]
  exact e2

/-- C10 (amended): the dependents that `AlterObject` preserves are those of type `OWNS`.
When `new` is not a system entry, the only Dependents edge `d` of `old` is of type `OWNS`
and resolves to the live entry `Y`, which has its dependency set, and the edges of `old`
can be migrated (the schemas of its dependencies are found, and the nodes they point at
and the entries they resolve to have their dependency sets), `AlterObject(old, new)`
returns, also when the name changes; afterwards the Dependents of `new` hold an edge that
points at `Y`, and the Dependents of `Y` hold an edge that points at `new`.  The edge of
`new` is of type `OWNS` when `new` and `Y` are different nodes, the entries are well
named, and any record that lay under its key was of type `OWNS`.  When `new` keeps the
name and the node of `old`, the records are kept: the Dependents of `new` hold `d`, and
the record that `Y` held under the key of `old` is the one it holds under the key of
`new`. -/
theorem C10_alter_owner (D : Decls) (w : World) (old_obj new_obj Y : CatalogEntry)
    (d : DependencyCatalogEntry) (l : LookupResult)
    (hnew : IsSystemEntry new_obj = false)
    (hset : ({ mangledName := nodeOf D old_obj } : DependencySetCatalogEntry) ∈ w.connections)
    (honly : DependencyCatalogSet.Scan { mangled_name := nodeOf D old_obj } w.dependents = [d])
    (hty : d.dependencyType = .DEPENDENCY_OWNS)
    (hdset : GetDependencySet D w (.dependency d) ≠ none)
    (hl : LookupEntry D w.catalog (.dependency d) = .ok l) (hY : l.entry = some Y)
    (hYset : ({ mangledName := nodeOf D Y } : DependencySetCatalogEntry) ∈ w.connections)
    (hfound : w.catalog.SchemasFound w.dependencies)
    (hsets : w.Anchored D
      (DependencyCatalogSet.Scan { mangled_name := nodeOf D old_obj } w.dependencies))
    (hnodes : old_obj.name ≠ new_obj.name →
      ∀ q ∈ DependencyCatalogSet.Scan { mangled_name := nodeOf D old_obj } w.dependencies,
        GetDependencySet D w (.dependency q) ≠ none) :
    ∃ w2, AlterObject D w old_obj new_obj = .returned w2 ∧
      (DependencyCatalogSet.GetEntry { mangled_name := nodeOf D new_obj } w2.dependents
        (nodeOf D Y)).isSome = true ∧
      (DependencyCatalogSet.GetEntry { mangled_name := nodeOf D Y } w2.dependents
        (nodeOf D new_obj)).isSome = true ∧
      (w.catalog.AllWellNamed D → WellNamed D new_obj → nodeOf D new_obj ≠ nodeOf D Y →
        (∀ r ∈ w.dependents,
          r.name = MangledDependencyName (nodeOf D new_obj) (nodeOf D Y) →
          r.dependencyType = .DEPENDENCY_OWNS) →
        ∃ r, DependencyCatalogSet.GetEntry { mangled_name := nodeOf D new_obj } w2.dependents
            (nodeOf D Y) = some r ∧ r.dependencyType = .DEPENDENCY_OWNS) ∧
      (old_obj.name = new_obj.name → nodeOf D new_obj = nodeOf D old_obj →
        d ∈ DependencyCatalogSet.Scan { mangled_name := nodeOf D new_obj } w2.dependents ∧
        ∀ p, DependencyCatalogSet.GetEntry { mangled_name := nodeOf D Y } w.dependents
            (nodeOf D old_obj) = some p →
          DependencyCatalogSet.GetEntry { mangled_name := nodeOf D Y } w2.dependents
            (nodeOf D new_obj) = some p) := by
  -- the two scans
  have hscan1 : AlterObject.scanDependents D w [d] []
      = .ok [{ entry := Y, dependencyType := .DEPENDENCY_OWNS }] := by
    unfold AlterObject.scanDependents
    cases hs : GetDependencySet D w (.dependency d) with
    | none => exact absurd hs hdset
    | some s => simp [hl, hY, hty, Dependency.insert, AlterObject.scanDependents]
  obtain ⟨dl, hscan2, hdl⟩ := scanDependencies_ok D w
    (DependencyCatalogSet.Scan { mangled_name := nodeOf D old_obj } w.dependencies) []
    (SchemasFound_Scan _ _ _ hfound)
  have hdlsets : ∀ dep ∈ dl, ({ mangledName := nodeOf D dep.entry } : DependencySetCatalogEntry)
      ∈ w.connections := by
    intro dep hdep
    rcases hdl dep hdep with h1 | ⟨q, hq, lq, h2, h3⟩
    · cases h1
    · have := List.all_eq_true.mp hsets q hq
      simpa [h2, h3] using this
  -- the cleanup, run when the name changes
  have hcl : ∃ wc, (if old_obj.name ≠ new_obj.name then CleanupDependencies D w old_obj
        else .returned w) = .returned wc ∧
      wc.connections = w.connections ∧ wc.catalog = w.catalog ∧
      (∀ r ∈ wc.dependents, r ∈ w.dependents) ∧ (old_obj.name = new_obj.name → wc = w) := by
    by_cases hname : old_obj.name = new_obj.name
    · exact ⟨w, if_neg (not_not.mpr hname), rfl, rfl, fun r h => h, fun _ => rfl⟩
    · obtain ⟨wc, e, c, k⟩ := CleanupDependencies_returns D w old_obj hset (hnodes hname)
        (by
          rw [honly]
          intro q hq
          simp only [List.mem_singleton] at hq
          subst hq
          exact hdset)
      obtain ⟨-, m1, -⟩ := CleanupDependencies_mem D w wc old_obj e
      exact ⟨wc, (if_pos hname).trans e, c, k, fun r h => ((m1 r).mp h).1,
        fun h => absurd h hname⟩
  obtain ⟨wc, ecl, ccl, kcl, hsub, hsame⟩ := hcl
  -- the registrations
  obtain ⟨w2, e2, c2, k2, p2⟩ := addDependents_frame D new_obj wc dl
    (fun dep hdep => by rw [ccl]; exact hdlsets dep hdep)
  obtain ⟨-, -, -, -, -, -, m2⟩ := addDependents_mem D new_obj dl wc w2 e2
  obtain ⟨c3, -, d3⟩ := AddDependenciesOf_frame D
    (GetOrCreateDependencySet D w2 (.object new_obj)).2
    (GetOrCreateDependencySet D w2 (.object new_obj)).1
    (List.foldl (fun (acc : List Dependency) (dep : Dependency) => Dependency.insert acc
      { entry := dep.entry, dependencyType := .DEPENDENCY_REGULAR }) dl
      [{ entry := Y, dependencyType := .DEPENDENCY_OWNS }])
  obtain ⟨c4, -, -, p4⟩ := AddDependents_frame D
    (GetOrCreateDependencySet D w2 (.object new_obj)).2
    (DependencySetCatalogEntry.AddDependenciesOf D
      (GetOrCreateDependencySet D w2 (.object new_obj)).2
      (GetOrCreateDependencySet D w2 (.object new_obj)).1
      (List.foldl (fun (acc : List Dependency) (dep : Dependency) => Dependency.insert acc
        { entry := dep.entry, dependencyType := .DEPENDENCY_REGULAR }) dl
        [{ entry := Y, dependencyType := .DEPENDENCY_OWNS }]))
    [{ entry := Y, dependencyType := .DEPENDENCY_OWNS }]
  obtain ⟨w5, e5, -, -, p5⟩ := addOwnedBy_frame D new_obj
    (DependencySetCatalogEntry.AddDependents D
      (GetOrCreateDependencySet D w2 (.object new_obj)).2
      (DependencySetCatalogEntry.AddDependenciesOf D
        (GetOrCreateDependencySet D w2 (.object new_obj)).2
        (GetOrCreateDependencySet D w2 (.object new_obj)).1
        (List.foldl (fun (acc : List Dependency) (dep : Dependency) => Dependency.insert acc
          { entry := dep.entry, dependencyType := .DEPENDENCY_REGULAR }) dl
          [{ entry := Y, dependencyType := .DEPENDENCY_OWNS }]))
      [{ entry := Y, dependencyType := .DEPENDENCY_OWNS }])
    [{ entry := Y, dependencyType := .DEPENDENCY_OWNS }]
    (fun dep hdep => by
      simp only [List.mem_singleton] at hdep
      subst hdep
      rw [c4, c3]
      apply GetOrCreate_mono
      rw [c2, ccl]
      exact hYset)
  obtain ⟨-, -, -, -, k5, -⟩ := addOwnedBy_mem D new_obj
    [{ entry := Y, dependencyType := .DEPENDENCY_OWNS }] _ w5 e5
  -- the record of `new` that points at `Y`
  have hw3 : (DependencySetCatalogEntry.AddDependenciesOf D
      (GetOrCreateDependencySet D w2 (.object new_obj)).2
      (GetOrCreateDependencySet D w2 (.object new_obj)).1
      (List.foldl (fun (acc : List Dependency) (dep : Dependency) => Dependency.insert acc
        { entry := dep.entry, dependencyType := .DEPENDENCY_REGULAR }) dl
        [{ entry := Y, dependencyType := .DEPENDENCY_OWNS }])).dependents = w2.dependents := by
    rw [d3, GetOrCreate_dependents]
  have hget4 : DependencyCatalogSet.GetEntry { mangled_name := nodeOf D new_obj }
      (DependencySetCatalogEntry.AddDependents D
        (GetOrCreateDependencySet D w2 (.object new_obj)).2
        (DependencySetCatalogEntry.AddDependenciesOf D
          (GetOrCreateDependencySet D w2 (.object new_obj)).2
          (GetOrCreateDependencySet D w2 (.object new_obj)).1
          (List.foldl (fun (acc : List Dependency) (dep : Dependency) => Dependency.insert acc
            { entry := dep.entry, dependencyType := .DEPENDENCY_REGULAR }) dl
            [{ entry := Y, dependencyType := .DEPENDENCY_OWNS }]))
        [{ entry := Y, dependencyType := .DEPENDENCY_OWNS }]).dependents (nodeOf D Y)
      = match DependencyCatalogSet.GetEntry { mangled_name := nodeOf D new_obj } w2.dependents
          (nodeOf D Y) with
        | some r => some r
        | none => some { edgeTo Y .DEPENDENCY_OWNS with
            fromName := nodeOf D new_obj,
            name := MangledDependencyName (nodeOf D new_obj) (nodeOf D Y) } := by
    have hw3b := hw3
    simp only [List.foldl_cons, List.foldl_nil, GetOrCreate_snd] at hw3b
    simp only [DependencySetCatalogEntry.AddDependents, List.foldl_cons, List.foldl_nil,
      DependencySetCatalogEntry.AddDependent, DependencySetCatalogEntry.Dependents,
      GetOrCreate_snd, hw3b]
    exact GetEntry_CreateEntry { mangled_name := nodeOf D new_obj } w2.dependents (nodeOf D Y)
      (edgeTo Y .DEPENDENCY_OWNS)
  refine ⟨w5, ?_, ?_, ?_, ?_, ?_⟩
  · unfold AlterObject
    simp only [hnew, Bool.false_eq_true, if_false]
    rw [GetDependencySet_of_mem D w (.object old_obj) hset]
    simp only [DependencySetCatalogEntry.Dependents, DependencySetCatalogEntry.Dependencies,
      honly, hscan1, hscan2, ecl, e2]
    exact e5
  · cases hg : DependencyCatalogSet.GetEntry { mangled_name := nodeOf D new_obj } w2.dependents
        (nodeOf D Y) with
    | none =>
      rw [hg] at hget4
      rw [ GetEntry_of_prefix _ _ _ _ _ p5 hget4]
      rfl
    | some r =>
      rw [hg] at hget4
      rw [ GetEntry_of_prefix _ _ _ _ _ p5 hget4]
      rfl
  · exact GetEntry_isSome_of_HasKey _ _ _
      (k5 { entry := Y, dependencyType := .DEPENDENCY_OWNS } (List.mem_singleton_self _))
  · intro hwn hnN hneY hkeyN
    cases hg : DependencyCatalogSet.GetEntry { mangled_name := nodeOf D new_obj } w2.dependents
        (nodeOf D Y) with
    | none =>
      rw [hg] at hget4
      exact ⟨_, GetEntry_of_prefix _ _ _ _ _ p5 hget4, rfl⟩
    | some r =>
      rw [hg] at hget4
      refine ⟨r, GetEntry_of_prefix _ _ _ _ _ p5 hget4, ?_⟩
      have hfind := hg
      unfold DependencyCatalogSet.GetEntry CatalogSet.GetEntry at hfind
      have hmem := List.mem_of_find?_eq_some hfind
      have hname : r.name = MangledDependencyName (nodeOf D new_obj) (nodeOf D Y) := by
        simpa [DependencyCatalogSet.ApplyPrefix] using List.find?_some hfind
      rcases m2 r hmem with h1 | ⟨dep, hdep, h1⟩
      · exact hkeyN r (hsub r h1) hname
      · exfalso
        rw [h1] at hname
        simp only at hname
        rcases hdl dep hdep with h3 | ⟨q, hq, lq, h4, h5⟩
        · cases h3
        · obtain ⟨s, hs, hse⟩ := LookupEntry_entry_mem D w.catalog q lq dep.entry h4 h5
          have hwe : WellNamed D dep.entry := by
            rw [← hse]
            exact hwn s hs
          have := key_inj _ _ _ _
            ((count_nodeOf D dep.entry hwe).trans (count_nodeOf D new_obj hnN).symm) hname
          exact hneY this.2
  · intro hname hnode
    have hwc := hsame hname
    subst hwc
    have hgrow : wc.dependents <+: w5.dependents := by
      refine p2.trans (List.IsPrefix.trans ?_ (p4.trans p5))
      rw [hw3]
    constructor
    · have hmem : d ∈ DependencyCatalogSet.Scan { mangled_name := nodeOf D old_obj }
          wc.dependents := by
        rw [honly]; exact List.mem_singleton_self d
      unfold DependencyCatalogSet.Scan CatalogSet.ScanWithPrefix at hmem ⊢
      rw [hnode]
      rw [List.mem_filter, List.mem_filter] at hmem ⊢
      exact ⟨⟨hgrow.subset hmem.1.1, hmem.1.2⟩, hmem.2⟩
    · intro p hp
      rw [hnode]
      exact GetEntry_of_prefix _ _ _ _ _ hgrow hp

/-- C10 on a concrete run: the table `t` owns the sequence `s` and is renamed to `t2`. -/
theorem C10_alter_owner_witness :
    ∃ w2, AlterObject stdDecls (AddOwnership stdDecls sampleWorld sampleTable sampleSequence).world
        sampleTable { sampleTable with name := "t2".toList } = .returned w2 ∧
      (DependencyCatalogSet.GetEntry
        { mangled_name := nodeOf stdDecls { sampleTable with name := "t2".toList } }
        w2.dependents (nodeOf stdDecls sampleSequence)).isSome = true ∧
      (DependencyCatalogSet.GetEntry { mangled_name := nodeOf stdDecls sampleSequence }
        w2.dependents (nodeOf stdDecls { sampleTable with name := "t2".toList })).isSome = true ∧
      ∃ r, DependencyCatalogSet.GetEntry
          { mangled_name := nodeOf stdDecls { sampleTable with name := "t2".toList } }
          w2.dependents (nodeOf stdDecls sampleSequence) = some r ∧
        r.dependencyType = .DEPENDENCY_OWNS :=
  (C10_alter_owner stdDecls (AddOwnership stdDecls sampleWorld sampleTable sampleSequence).world
    sampleTable { sampleTable with name := "t2".toList } sampleSequence
    (edgeOf stdDecls sampleTable sampleSequence .DEPENDENCY_OWNS)
    { set := some (sampleSequence.schema, sampleSequence.type),
      mapping_value := some { entry := sampleSequence, deleted := false },
      entry := some sampleSequence }
    (by decide) (by decide) (by decide) (by decide) (by decide) (by decide) (by decide)
    (by decide) (by decide) (by decide) (fun _ => by decide)).imp
    (fun _ h => ⟨h.1, h.2.1, h.2.2.1,
      h.2.2.2.1 (by decide) (by decide) (by decide) (by decide)⟩)

/-- C15 (amended): for a system entry `e`, `AddObject` and `DropObject` on `e` return the
state they were given, and `AlterObject` with `e` as the new object leaves the state as
it was given; it returns that state when the old object is a system entry too. -/
theorem C15_system_entry_unchanged (D : Decls) (w : World) (e other : CatalogEntry)
    (deps : List CatalogEntry) (fuel : Nat) (cascade : Bool)
    (hsys : IsSystemEntry e = true) :
    AddObject D w e deps = .returned w ∧
    DropObject D fuel w e cascade = .returned w ∧
    (AlterObject D w other e).world = w ∧
    (IsSystemEntry other = true → AlterObject D w other e = .returned w) := by
  refine ⟨?_, ?_, ?_, ?_⟩
  · simp [AddObject, hsys]
  · cases fuel <;> simp [DropObject, DropObject.body, hsys]
  · simp [AlterObject, hsys, Outcome.world]
  · intro _
    simp [AlterObject, hsys]

theorem C15_system_entry_unchanged_witness :
    AddObject stdDecls sampleWorld { sampleTable with internal := true } [sampleView]
      = .returned sampleWorld ∧
    DropObject stdDecls 0 sampleWorld { sampleTable with internal := true } true
      = .returned sampleWorld ∧
    (AlterObject stdDecls sampleWorld { sampleView with internal := true }
      { sampleTable with internal := true }).world = sampleWorld ∧
    AlterObject stdDecls sampleWorld { sampleView with internal := true }
      { sampleTable with internal := true } = .returned sampleWorld :=
  ⟨(C15_system_entry_unchanged stdDecls sampleWorld { sampleTable with internal := true }
      { sampleView with internal := true } [sampleView] 0 true (by decide)).1,
   (C15_system_entry_unchanged stdDecls sampleWorld { sampleTable with internal := true }
      { sampleView with internal := true } [sampleView] 0 true (by decide)).2.1,
   (C15_system_entry_unchanged stdDecls sampleWorld { sampleTable with internal := true }
      { sampleView with internal := true } [sampleView] 0 true (by decide)).2.2.1,
   (C15_system_entry_unchanged stdDecls sampleWorld { sampleTable with internal := true }
      { sampleView with internal := true } [sampleView] 0 true (by decide)).2.2.2 (by decide)⟩

end DuckDB
